import Mathlib

/-!
# nouveau MMU: page-table cache, page-table pool and virtual address spaces

A shallow embedding of `drm/nouveau/nvkm/subdev/mmu/base.c`: the page-table
cache and pool, the reference counting, construction and range reservation
of a VM, and the mapping and unmapping of memory objects; of the memory
managers of `drm/nouveau/nouveau_ttm.c` that sit on top of it; and of the
search for a DisplayPort transfer unit in `nvkm/engine/disp/nv50.c`.

Conventions of the embedding.

* A C pointer to a heap record is the address of the record, a natural
  number; every record carries its own address in the field `self`.
  `kmalloc`, `kzalloc` and `nvkm_memory_new` hand out the fresh address
  `brk` and advance it; whether they succeed is an input of each operation
  (`Alloc`).
* Calls that leave the file (`nvkm_memory_new`, `nvkm_memory_unref`,
  `nvkm_fo64`, `kfree`) are recorded, in order, in the list `effects`;
  the calls of the VM layer (hooks, `kref`, the page-table layer, references
  on memory objects) in the list `log` of the heap of VMs.
* Machine integers are natural numbers reduced modulo `2 ^ w` where the C
  type has width `w`.
-/

set_option linter.unusedVariables false

namespace Nouveau

/-! ## Data model -/

/-- Backing memory object (`struct nvkm_memory`) as seen through its
accessors `nvkm_memory_addr` and `nvkm_memory_size`. -/
structure nvkm_memory where
  handle : Nat
  addr : Nat
  size : Nat
deriving DecidableEq, Repr

/-- Page-table block (`struct nvkm_mmu_pt`). `ptc` is the owning cache class
of a block that is not sub-allocated, `ptp` the parent pool of one that is. -/
structure nvkm_mmu_pt where
  self : Nat
  ptc : Nat
  ptp : Nat
  memory : nvkm_memory
  sub : Bool
  base : Nat
  addr : Nat
deriving DecidableEq, Repr

/-- Page-table pool (`struct nvkm_mmu_ptp`, base.c:32-38): `pt` is the parent
block, `shift` is a `u8`, `mask` and `free` are `u16`. -/
structure nvkm_mmu_ptp where
  self : Nat
  pt : nvkm_mmu_pt
  shift : Nat
  mask : Nat
  free : Nat
deriving DecidableEq, Repr

/-- Cache class (`struct nvkm_mmu_ptc`, base.c:111-116): `item` is the
free-list of idle blocks, head first; `size` and `refs` are `u32`. -/
structure nvkm_mmu_ptc where
  self : Nat
  item : List nvkm_mmu_pt
  size : Nat
  refs : Nat
deriving DecidableEq, Repr

/-- Calls made by the cache into the rest of the driver. -/
inductive Effect where
  | memory_new (memory : nvkm_memory) (align : Nat) (zero : Bool)
  | memory_unref (memory : nvkm_memory)
  | fo64 (memory : nvkm_memory) (offset data count : Nat)
  | kfree (addr : Nat)
deriving DecidableEq, Repr

/-- The part of `struct nvkm_mmu` used by the cache: `ptc_list` is
`mmu->ptc.list`, `ptp_list` is `mmu->ptp.list` (addresses of the linked
pools, head first), `ptp_heap` holds the pool records that exist. -/
structure nvkm_mmu where
  ptc_list : List nvkm_mmu_ptc
  ptp_list : List Nat
  ptp_heap : List nvkm_mmu_ptp
  brk : Nat
  effects : List Effect
deriving DecidableEq, Repr

/-- Outcome of the allocator calls one operation may make: whether the
`kmalloc` of a block, of a class and of a pool succeed, and the address of
the memory returned by `nvkm_memory_new` (`none` when it fails). -/
structure Alloc where
  kmalloc_pt : Bool
  kmalloc_ptc : Bool
  kmalloc_ptp : Bool
  memory_new : Option Nat
deriving DecidableEq, Repr

/-! ## Kernel helpers -/

/-- Floor of the binary logarithm, with `fuel` halvings. -/
def ilog2_aux : Nat → Nat → Nat
  | 0, _ => 0
  | fuel + 1, n => if 2 ≤ n then ilog2_aux fuel (n / 2) + 1 else 0

/-- Linux `ilog2` on a 32-bit value. -/
def ilog2 (n : Nat) : Nat := ilog2_aux 32 n

/-- Linux `order_base_2`: `n > 1 ? ilog2(n - 1) + 1 : 0`. -/
def order_base_2 (n : Nat) : Nat := if 1 < n then ilog2 (n - 1) + 1 else 0

/-- Linux `BIT(n)`, `1UL << n` on a 64-bit `unsigned long`. -/
def BIT (n : Nat) : Nat := (1 <<< n) % 2 ^ 64

/-- Linux `__ffs`: index of the least significant set bit of a 64-bit word
(the result for 0 is not defined by the kernel; the model returns 0). -/
def __ffs (x : Nat) : Nat := ((List.range 64).find? (fun i => x.testBit i)).getD 0

/-! ## Page-table cache and pool -/

/-- Dereference of a class pointer. -/
def ptc_at (mmu : nvkm_mmu) (a : Nat) : Option nvkm_mmu_ptc :=
  mmu.ptc_list.find? (fun c => c.self == a)

/-- Store through a class pointer. -/
def ptc_set (mmu : nvkm_mmu) (a : Nat) (v : nvkm_mmu_ptc) : nvkm_mmu :=
  { mmu with ptc_list := mmu.ptc_list.map (fun c => if c.self == a then v else c) }

/-- Dereference of a pool pointer. -/
def ptp_at (mmu : nvkm_mmu) (a : Nat) : Option nvkm_mmu_ptp :=
  mmu.ptp_heap.find? (fun p => p.self == a)

/-- Store through a pool pointer. -/
def ptp_set (mmu : nvkm_mmu) (a : Nat) (v : nvkm_mmu_ptp) : nvkm_mmu :=
  { mmu with ptp_heap := mmu.ptp_heap.map (fun p => if p.self == a then v else p) }

/-- The state built by `nvkm_mmu_ptc_init` (base.c:305-312): both lists empty. -/
def nvkm_mmu_ptc_init (brk : Nat) : nvkm_mmu :=
  { ptc_list := [], ptp_list := [], ptp_heap := [], brk := brk, effects := [] }

/-- Embedding of `nvkm_mmu_ptc_find` (base.c:118-137). -/
def nvkm_mmu_ptc_find (mmu : nvkm_mmu) (size : Nat) (kmalloc_ok : Bool) :
    Option nvkm_mmu_ptc × nvkm_mmu :=
  match mmu.ptc_list.find? (fun ptc => ptc.size == size) with
  | some ptc => (some ptc, mmu)
  | none =>
    if kmalloc_ok then
      let ptc : nvkm_mmu_ptc := { self := mmu.brk, item := [], size := size, refs := 0 }
      (some ptc, { mmu with ptc_list := ptc :: mmu.ptc_list, brk := mmu.brk + 1 })
    else (none, mmu)

/-- Embedding of base.c:152-161, the part of `nvkm_mmu_ptc_put` that caches
or frees a block that is not sub-allocated. A block whose class pointer
dangles is outside the defined behaviour of the C code; the model leaves
the state alone. -/
def nvkm_mmu_ptc_put_cache (mmu : nvkm_mmu) (force : Bool) (pt : nvkm_mmu_pt) : nvkm_mmu :=
  match ptc_at mmu pt.ptc with
  | none => mmu
  | some ptc =>
    if ptc.refs < 8 && !force then
      ptc_set mmu pt.ptc { ptc with item := ptc.item ++ [pt], refs := (ptc.refs + 1) % 2 ^ 32 }
    else
      { mmu with effects := mmu.effects ++ [Effect.memory_unref pt.memory, Effect.kfree pt.self] }

/-- Embedding of `nvkm_mmu_ptp_put` (base.c:40-61). The call
`nvkm_mmu_ptc_put(mmu, force, &ptp->pt)` is resolved to its branch for
blocks that are not sub-allocated: the parent block came from
`nvkm_mmu_ptc_get(mmu, 0x1000, 0x1000, false)`. -/
def nvkm_mmu_ptp_put (mmu : nvkm_mmu) (force : Bool) (pt : nvkm_mmu_pt) : nvkm_mmu :=
  match ptp_at mmu pt.ptp with
  | none => mmu
  | some ptp =>
    let slot := pt.base >>> ptp.shift
    let mmu1 := if ptp.free = 0 then { mmu with ptp_list := ptp.self :: mmu.ptp_list } else mmu
    let free := (ptp.free ||| BIT slot) % 2 ^ 16
    let mmu2 := ptp_set mmu1 ptp.self { ptp with free := free }
    let mmu3 :=
      if free = ptp.mask then
        let m := nvkm_mmu_ptc_put_cache mmu2 force ptp.pt
        { m with
          ptp_list := m.ptp_list.filter (fun a => a != ptp.self),
          ptp_heap := m.ptp_heap.filter (fun p => p.self != ptp.self),
          effects := m.effects ++ [Effect.kfree ptp.self] }
      else mmu2
    { mmu3 with effects := mmu3.effects ++ [Effect.kfree pt.self] }

/-- Embedding of `nvkm_mmu_ptc_put` (base.c:139-163); `ppt = none` is a null
block. -/
def nvkm_mmu_ptc_put (mmu : nvkm_mmu) (force : Bool) (ppt : Option nvkm_mmu_pt) : nvkm_mmu :=
  match ppt with
  | none => mmu
  | some pt =>
    if pt.sub then nvkm_mmu_ptp_put mmu force pt
    else nvkm_mmu_ptc_put_cache mmu force pt

/-- Embedding of base.c:200-215, the tail of `nvkm_mmu_ptc_get`: allocate a
new block of the class `ptc`. -/
def nvkm_mmu_ptc_get_new (mmu : nvkm_mmu) (ptc : nvkm_mmu_ptc) (size align : Nat) (zero : Bool)
    (o : Alloc) : Option nvkm_mmu_pt × nvkm_mmu :=
  if o.kmalloc_pt then
    match o.memory_new with
    | none =>
      (none, { mmu with brk := mmu.brk + 1, effects := mmu.effects ++ [Effect.kfree mmu.brk] })
    | some addr =>
      let memory : nvkm_memory := { handle := mmu.brk + 1, addr := addr, size := size }
      let pt : nvkm_mmu_pt :=
        { self := mmu.brk, ptc := ptc.self, ptp := 0, memory := memory,
          sub := false, base := 0, addr := addr }
      (some pt, { mmu with brk := mmu.brk + 2,
                           effects := mmu.effects ++ [Effect.memory_new memory align zero] })
  else (none, mmu)

/-- Embedding of base.c:180-215, the part of `nvkm_mmu_ptc_get` for
`align >= 0x1000`. -/
def nvkm_mmu_ptc_get_cache (mmu : nvkm_mmu) (size align : Nat) (zero : Bool) (o : Alloc) :
    Option nvkm_mmu_pt × nvkm_mmu :=
  match nvkm_mmu_ptc_find mmu size o.kmalloc_ptc with
  | (none, mmu1) => (none, mmu1)
  | (some ptc, mmu1) =>
    match ptc.item with
    | pt :: rest =>
      let mmu2 :=
        if zero then
          { mmu1 with effects := mmu1.effects ++ [Effect.fo64 pt.memory 0 0 (size >>> 3)] }
        else mmu1
      (some pt,
        ptc_set mmu2 ptc.self { ptc with item := rest, refs := (ptc.refs + 2 ^ 32 - 1) % 2 ^ 32 })
    | [] => nvkm_mmu_ptc_get_new mmu1 ptc size align zero o

/-- Embedding of base.c:94-108, the tail of `nvkm_mmu_ptp_get`: carve the
lowest free slot out of the pool `ptp` for the block record at `self`. -/
def nvkm_mmu_ptp_get_slot (mmu : nvkm_mmu) (self : Nat) (ptp : nvkm_mmu_ptp) :
    Option nvkm_mmu_pt × nvkm_mmu :=
  let slot := __ffs ptp.free
  let free := (ptp.free &&& ((2 ^ 64 - 1) ^^^ BIT slot)) % 2 ^ 16
  let mmu2 := ptp_set mmu ptp.self { ptp with free := free }
  let mmu3 :=
    if free = 0 then { mmu2 with ptp_list := mmu2.ptp_list.filter (fun a => a != ptp.self) }
    else mmu2
  let base := slot <<< ptp.shift
  (some { self := self, ptc := 0, ptp := ptp.self, memory := ptp.pt.memory, sub := true,
          base := base, addr := ptp.pt.addr + base }, mmu3)

/-- Embedding of `nvkm_mmu_ptp_get` (base.c:63-109); `o` decides the
allocations of the function itself, `o2` those of the nested
`nvkm_mmu_ptc_get(mmu, 0x1000, 0x1000, false)`, which takes the branch for
`align >= 0x1000`. An availability list whose head dangles is outside the
defined behaviour of the C code, and so is `__ffs` of a free mask of 0. The
argument `zero` is not used by the C function. `1 << slot` is a shift of an
`int`: for `slot >= 32`, that is for sizes of 128 bytes and less, C leaves
it undefined, and the model takes what the shift instruction of the compiled
code gives, the count modulo 32; the mask of such a pool is then 0. -/
def nvkm_mmu_ptp_get (mmu : nvkm_mmu) (size : Nat) (zero : Bool) (o o2 : Alloc) :
    Option nvkm_mmu_pt × nvkm_mmu :=
  if !o.kmalloc_pt then (none, mmu) else
  let self := mmu.brk
  let mmu0 := { mmu with brk := mmu.brk + 1 }
  match mmu0.ptp_list with
  | a :: _ =>
    match ptp_at mmu0 a with
    | none => (none, mmu0)
    | some ptp => nvkm_mmu_ptp_get_slot mmu0 self ptp
  | [] =>
    if !o.kmalloc_ptp then
      (none, { mmu0 with effects := mmu0.effects ++ [Effect.kfree self] })
    else
      let pself := mmu0.brk
      match nvkm_mmu_ptc_get_cache { mmu0 with brk := mmu0.brk + 1 } 0x1000 0x1000 false o2 with
      | (none, mmu1) =>
        (none, { mmu1 with effects := mmu1.effects ++ [Effect.kfree pself, Effect.kfree self] })
      | (some parent, mmu1) =>
        let shift := order_base_2 size % 2 ^ 8
        let slot := (parent.memory.size >>> shift) % 2 ^ 32
        let mask := (((1 <<< (slot % 32)) % 2 ^ 32 + 2 ^ 32 - 1) % 2 ^ 32) % 2 ^ 16
        let ptp : nvkm_mmu_ptp :=
          { self := pself, pt := parent, shift := shift, mask := mask, free := mask }
        nvkm_mmu_ptp_get_slot
          { mmu1 with ptp_list := pself :: mmu1.ptp_list, ptp_heap := ptp :: mmu1.ptp_heap }
          self ptp

/-- Embedding of `nvkm_mmu_ptc_get` (base.c:165-216). -/
def nvkm_mmu_ptc_get (mmu : nvkm_mmu) (size align : Nat) (zero : Bool) (o o2 : Alloc) :
    Option nvkm_mmu_pt × nvkm_mmu :=
  if align < 0x1000 then nvkm_mmu_ptp_get mmu align zero o o2
  else nvkm_mmu_ptc_get_cache mmu size align zero o

/-! ## Clients of the cache -/

/-- The cache together with the blocks its clients hold: handed out by
`nvkm_mmu_ptc_get` and not yet returned through `nvkm_mmu_ptc_put`. -/
structure Sys where
  mmu : nvkm_mmu
  held : List nvkm_mmu_pt
deriving DecidableEq, Repr

/-- A call made by a client: a `get`, or the `put` of the block at position
`i` of the blocks it holds. -/
inductive Op where
  | get (size align : Nat) (zero : Bool) (o o2 : Alloc)
  | put (i : Nat) (force : Bool)
deriving DecidableEq, Repr

/-- One call. A `put` names a held block; an index past the end of `held`
names none and is not a call a client can make. -/
def Sys.step (s : Sys) : Op → Sys
  | Op.get size align zero o o2 =>
    match nvkm_mmu_ptc_get s.mmu size align zero o o2 with
    | (some pt, mmu) => { mmu := mmu, held := s.held ++ [pt] }
    | (none, mmu) => { s with mmu := mmu }
  | Op.put i force =>
    match s.held.get? i with
    | some pt => { mmu := nvkm_mmu_ptc_put s.mmu force (some pt), held := s.held.eraseIdx i }
    | none => s

/-- A finite sequence of calls. -/
def Sys.run (s : Sys) (ops : List Op) : Sys := ops.foldl Sys.step s

/-- A call for which `1 << slot` in `nvkm_mmu_ptp_get` is defined: a `get`
that is not sub-allocated or whose slots have more than 128 bytes (at most
16 slots in a pool), or a `put`. -/
def Op.slot_defined : Op → Bool
  | Op.get _ align _ _ _ => decide (128 < align)
  | Op.put _ _ => true

/-- The system right after `nvkm_mmu_ptc_init`. -/
def Sys.init (brk : Nat) : Sys := { mmu := nvkm_mmu_ptc_init brk, held := [] }

/-- Idle blocks: the members of all free-lists, class by class. -/
def cached (mmu : nvkm_mmu) : List nvkm_mmu_pt := mmu.ptc_list.flatMap nvkm_mmu_ptc.item

/-- Parent blocks of the pools that exist. -/
def parents (mmu : nvkm_mmu) : List nvkm_mmu_pt := mmu.ptp_heap.map nvkm_mmu_ptp.pt

/-- Addresses of the block records owned by the cache or by a pool. -/
def inner (mmu : nvkm_mmu) : List Nat :=
  (cached mmu).map nvkm_mmu_pt.self ++ (parents mmu).map nvkm_mmu_pt.self

/-- Addresses of the class records. -/
def cls_ids (mmu : nvkm_mmu) : List Nat := mmu.ptc_list.map nvkm_mmu_ptc.self

/-- Addresses of the pool records. -/
def pool_ids (mmu : nvkm_mmu) : List Nat := mmu.ptp_heap.map nvkm_mmu_ptp.self

/-- A list of live addresses: pairwise distinct and below `brk`. -/
def ids_ok (l : List Nat) (brk : Nat) : Prop := l.Nodup ∧ ∀ a ∈ l, a < brk

/-- Heap discipline of the cache, relative to the addresses `ext` of the
block records held outside it: class records, pool records and block
records each have pairwise distinct addresses, all below `brk`. -/
structure blocks_ok (ext : List Nat) (mmu : nvkm_mmu) : Prop where
  cls : ids_ok (cls_ids mmu) mmu.brk
  pool : ids_ok (pool_ids mmu) mmu.brk
  blocks : ids_ok (ext ++ inner mmu) mmu.brk

/-- The block `b` is not sub-allocated and its owner is a class of the
cache whose size is the size of the memory of `b`. -/
def classed (mmu : nvkm_mmu) (b : nvkm_mmu_pt) : Prop :=
  b.sub = false ∧ ∃ c ∈ mmu.ptc_list, c.self = b.ptc ∧ c.size = b.memory.size

/-- Typing of the blocks: idle blocks sit in the free-list of their owner,
blocks held by clients and parent blocks of pools have an owner in the
cache, and parent blocks are 0x1000 bytes long. -/
structure sizes_ok (held : List nvkm_mmu_pt) (mmu : nvkm_mmu) : Prop where
  cached_ok : ∀ c ∈ mmu.ptc_list, ∀ b ∈ c.item,
    b.sub = false ∧ b.ptc = c.self ∧ b.memory.size = c.size
  held_ok : ∀ b ∈ held, b.sub = false → classed mmu b
  parent_ok : ∀ p ∈ mmu.ptp_heap, classed mmu p.pt ∧ p.pt.memory.size = 0x1000

/-- State of the pools, relative to the blocks `held` by clients: a pool is
linked into the availability list exactly when it has a free slot, and at
most once; masks are 16 bits wide; a free slot is a slot of the pool; every
held sub-allocated block occupies a slot of an existing pool; two held
blocks of one pool in one slot are the same block. -/
structure pools_base (held : List nvkm_mmu_pt) (mmu : nvkm_mmu) : Prop where
  linked : ∀ p ∈ mmu.ptp_heap, (p.self ∈ mmu.ptp_list ↔ p.free ≠ 0)
  list_nodup : mmu.ptp_list.Nodup
  list_lt : ∀ a ∈ mmu.ptp_list, a < mmu.brk
  mask_lt : ∀ p ∈ mmu.ptp_heap, p.mask < 2 ^ 16
  free_sub : ∀ p ∈ mmu.ptp_heap, ∀ i, p.free.testBit i = true → p.mask.testBit i = true
  live : ∀ b ∈ held, b.sub = true → ∃ p ∈ mmu.ptp_heap, p.self = b.ptp ∧
    p.mask.testBit (b.base >>> p.shift) = true ∧ p.free.testBit (b.base >>> p.shift) = false
  distinct : ∀ b ∈ held, ∀ b' ∈ held, b.sub = true → b'.sub = true → b.ptp = b'.ptp →
    ∀ p ∈ mmu.ptp_heap, p.self = b.ptp → b.base >>> p.shift = b'.base >>> p.shift →
      b.self = b'.self

/-- The invariant of the pools: `pools_base`, and no pool that exists is
fully free. -/
def pools_ok (held : List nvkm_mmu_pt) (mmu : nvkm_mmu) : Prop :=
  pools_base held mmu ∧ ∀ p ∈ mmu.ptp_heap, p.free ≠ p.mask

/-- Well-formedness of the cache relative to the blocks `held` by its
clients. -/
structure wf (held : List nvkm_mmu_pt) (mmu : nvkm_mmu) : Prop where
  own : blocks_ok (held.map nvkm_mmu_pt.self) mmu
  sizes : sizes_ok held mmu
  pools : pools_ok held mmu

/-- Successive calls of `nvkm_mmu_ptc_get` with the same size and alignment,
one for each pair of allocator outcomes; the blocks returned are collected
in the order of the calls. -/
def ptc_gets (mmu : nvkm_mmu) (size align : Nat) (zero : Bool) :
    List (Alloc × Alloc) → List nvkm_mmu_pt × nvkm_mmu
  | [] => ([], mmu)
  | oo :: os =>
    match nvkm_mmu_ptc_get mmu size align zero oo.1 oo.2 with
    | (some pt, mmu1) => (pt :: (ptc_gets mmu1 size align zero os).1,
        (ptc_gets mmu1 size align zero os).2)
    | (none, mmu1) => ptc_gets mmu1 size align zero os

/-- Successive calls of `nvkm_mmu_ptc_put`, one for each block and flag. -/
def ptc_puts (mmu : nvkm_mmu) : List (nvkm_mmu_pt × Bool) → nvkm_mmu
  | [] => mmu
  | bf :: l => ptc_puts (nvkm_mmu_ptc_put mmu bf.2 (some bf.1)) l

/-- Number of idle blocks in the free-lists of the classes of a size. -/
def idle (mmu : nvkm_mmu) (size : Nat) : Nat :=
  ((mmu.ptc_list.filter (fun c => c.size == size)).map (fun c => c.item.length)).sum

/-- Number of slots of a pool that its 16-bit mask can hold, for slots of
`size` bytes in a parent block of 0x1000 bytes: the slot count of
base.c:89, at most 16. For slots of more than 128 bytes it is the slot count
and the number of bits of the mask computed at base.c:90. -/
def ptp_capacity (size : Nat) : Nat :=
  min ((0x1000 >>> (order_base_2 size % 2 ^ 8)) % 2 ^ 32) 16

/-- No allocation fails. -/
def Alloc.ok (o : Alloc) : Prop :=
  o.kmalloc_pt = true ∧ o.kmalloc_ptc = true ∧ o.kmalloc_ptp = true ∧ o.memory_new ≠ none

/-! ## Range allocator -/

/-- A reserved range (`struct nvkm_mm_node`): `type`, and `offset` and
`length` in units of 4 KiB. -/
structure nvkm_mm_node where
  type : Nat
  offset : Nat
  length : Nat
deriving DecidableEq, Repr

/-- Modelled from the spec: the state of the address-range allocator
(`struct nvkm_mm`; `nvkm/core/mm.c` is not among the sources). The spec calls
it a "first-fit free-list over page-aligned units" that is "address-ordered":
`free` lists the free ranges as (offset, length), by increasing offset. -/
structure nvkm_mm where
  free : List (Nat × Nat)
deriving DecidableEq, Repr

/-- Modelled from the spec: the free-list of an allocator in use is ordered
by address, holds no empty range, and two free ranges never touch (a range
that is freed is merged with its free neighbours). -/
def mm_wf : List (Nat × Nat) → Prop
  | [] => True
  | [x] => 0 < x.2
  | x :: y :: rest => 0 < x.2 ∧ x.1 + x.2 < y.1 ∧ mm_wf (y :: rest)

/-- The least multiple of `align` that is not below `s` (`s` itself when
`align` is 0). -/
def mm_align_up (s align : Nat) : Nat :=
  if align = 0 then s else (s + align - 1) / align * align

/-- Modelled from the spec: first fit over the free-list. The first free
range, in address order, that holds an aligned range of `size_min` units
yields a node of at most `size_max` units at its first aligned offset; what
is left of the free range before and after the node stays free. -/
def mm_first_fit (type size_max size_min align : Nat) :
    List (Nat × Nat) → Option (nvkm_mm_node × List (Nat × Nat))
  | [] => none
  | x :: rest =>
    if mm_align_up x.1 align + size_min ≤ x.1 + x.2 then
      let s := mm_align_up x.1 align
      let n := min size_max (x.1 + x.2 - s)
      some ({ type := type, offset := s, length := n },
        (if x.1 < s then [(x.1, s - x.1)] else []) ++
        (if s + n < x.1 + x.2 then [(s + n, x.1 + x.2 - (s + n))] else []) ++ rest)
    else
      match mm_first_fit type size_max size_min align rest with
      | none => none
      | some (node, rest1) => some (node, x :: rest1)

/-- Modelled from the spec: a range goes back to the free-list at its place
in address order and is merged with the free ranges it touches. -/
def mm_insert : List (Nat × Nat) → Nat → Nat → List (Nat × Nat)
  | [], o, l => [(o, l)]
  | x :: rest, o, l =>
    if o + l < x.1 then (o, l) :: x :: rest
    else if o + l = x.1 then (o, l + x.2) :: rest
    else if x.1 + x.2 = o then mm_insert rest x.1 (x.2 + l)
    else x :: mm_insert rest o l

/-- Linux `ENOSPC`. -/
def ENOSPC : Int := 28

/-- Modelled from the spec: `nvkm_mm_head(mm, heap, type, size_max, size_min,
align, &node)` reserves a range by first fit and fails with `-ENOSPC` when
no free range fits ("NoSpace"). -/
def nvkm_mm_head (mm : nvkm_mm) (heap type size_max size_min align : Nat) :
    Except Int (nvkm_mm_node × nvkm_mm) :=
  match mm_first_fit type size_max size_min align mm.free with
  | none => Except.error (-ENOSPC)
  | some (node, free) => Except.ok (node, { free := free })

/-- Modelled from the spec: `nvkm_mm_free(mm, &node)` "frees the address range
back to the allocator" and clears the node pointer; a null node is left
alone. -/
def nvkm_mm_free (mm : nvkm_mm) (node : Option nvkm_mm_node) : nvkm_mm × Option nvkm_mm_node :=
  match node with
  | none => (mm, none)
  | some n => ({ free := mm_insert mm.free n.offset n.length }, none)

/-- Modelled from the spec: `nvkm_mm_init(mm, heap, offset, length, block)`
makes the units `[offset, offset + length)` free. -/
def nvkm_mm_init (offset length : Nat) : nvkm_mm :=
  { free := if length = 0 then [] else [(offset, length)] }

/-! ## Virtual address spaces -/

/-- The memory targets (`enum nvkm_memory_target`, memory.h:13-18). -/
inductive nvkm_memory_target where
  | INST
  | VRAM
  | HOST
  | NCOH
deriving DecidableEq, Repr

/-- Modelled from the spec: the hardware generation of the device
(`device->card_type`; its enumeration is not among the sources). The five
families named by the switch of `nvkm_vm_map_`, and `other` for every other
value of the enumeration. -/
inductive card_type where
  | NV_50
  | NV_C0
  | NV_E0
  | GM100
  | GP100
  | other (id : Nat)
deriving DecidableEq, Repr

/-- The argument structure handed to the `valid` hook of a VM:
`struct nv50_vmm_map_v0` or `struct gf100_vmm_map_v0`, whose fields are
`u8`. The length `argc` that goes with it is the size of the structure. -/
inductive vmm_map_args where
  | nv50 (version ro priv kind comp : Nat)
  | gf100 (version vol ro priv kind : Nat)
deriving DecidableEq, Repr

/-- The page functions of a page descriptor (`page->desc->func->mem`,
`->sgl`, `->dma`), one per entry-fill algorithm. -/
inductive pte_func where
  | mem
  | sgl
  | dma
deriving DecidableEq, Repr

/-- The description of the backing store in `struct nvkm_vmm_map`: the field
that is set (`.mem`, `.sgl` or `.dma`) and the pointer stored in it. -/
inductive map_source where
  | mem (p : Option Nat)
  | sgl (p : Nat)
  | dma (p : Nat)
deriving DecidableEq, Repr

/-- Modelled from the spec: the memory descriptor `struct nvkm_mem` (declared
outside the sources) as far as base.c reads it: the memory object `memory`,
the type metadata `memtype` (a `u32`), the region list `mem`, the
scatter-gather table `sg` (given by the `sgl` it holds), the page list
`pages` and the size in 4 KiB units. -/
structure nvkm_mem where
  memory : Option Nat
  memtype : Nat
  mem : Option Nat
  sg : Option Nat
  pages : Option Nat
  size : Nat
deriving DecidableEq, Repr

/-- What `nvkm_vm_ref` and its callers do to objects outside this file, in
order: the `join` and `part` hooks of a VM, the `kref` operations on its
reference count, the teardown `nvkm_vm_del`, the calls into the page-table
layer (`nvkm_vmm_ptes_get`, `nvkm_vmm_ptes_put`, `nvkm_vmm_ptes_map`,
`nvkm_vmm_ptes_unmap`, with the shift of the page descriptor, the start
address and the size), the references on memory objects, the `valid` hook
with its argument, and `WARN_ON`. -/
inductive VmEvent where
  | join (vm inst : Nat)
  | part (vm inst : Nat)
  | kref_get (vm : Nat)
  | kref_put (vm : Nat)
  | del (vm : Nat)
  | ptes_get (vm shift addr size : Nat)
  | ptes_put (vm shift addr size : Nat)
  | tags_put (memory tags : Option Nat)
  | memory_unref (memory : Option Nat)
  | memory_ref (memory : Option Nat)
  | valid (vm : Nat) (argv : Option vmm_map_args)
  | warn_on
  | ptes_map (vm shift addr size : Nat) (fn : pte_func) (src : map_source)
  | ptes_unmap (vm shift addr size : Nat)
deriving DecidableEq, Repr

/-- The fields of `struct nvkm_vm` (`struct nvkm_vmm`) used by base.c: the
range allocator `mm`, the `kref` count, and whether `vm->func->join`,
`vm->func->part` and `vm->func->page->desc->func->unmap` are set. -/
structure nvkm_vm where
  mm : nvkm_mm
  refcount : Nat
  has_join : Bool
  has_part : Bool
  has_unmap : Bool
deriving DecidableEq, Repr

/-- The VM records by address, and the events so far. -/
structure Heap where
  vm : Nat → nvkm_vm
  log : List VmEvent

/-- Store through a VM pointer. -/
def Heap.set (h : Heap) (a : Nat) (v : nvkm_vm) : Heap :=
  { h with vm := fun x => if x = a then v else h.vm x }

/-- Append events. -/
def Heap.emit (h : Heap) (es : List VmEvent) : Heap := { h with log := h.log ++ es }

/-- A VMA (`struct nvkm_vma`): the node of its range, the owning VM, the
offset in bytes, the access mask, the bound memory object and its tags. -/
structure nvkm_vma where
  node : Option nvkm_mm_node
  vm : Option Nat
  offset : Nat
  access : Nat
  memory : Option Nat
  tags : Option Nat
deriving DecidableEq, Repr

/-- Embedding of `nvkm_vm_del` (base.c:516-525), the release function of the
`kref`: the range allocator is finalised and the VM freed. -/
def nvkm_vm_del (h : Heap) (vm : Nat) : Heap :=
  (h.set vm { h.vm vm with mm := { free := [] } }).emit [VmEvent.del vm]

/-- Linux `kref_get`. -/
def kref_get (h : Heap) (vm : Nat) : Heap :=
  (h.set vm { h.vm vm with refcount := (h.vm vm).refcount + 1 }).emit [VmEvent.kref_get vm]

/-- Linux `kref_put(&vm->refcount, nvkm_vm_del)`: the count drops by one and
the release function runs when it reaches zero, that is when it was 1. On a
count that is already 0, `refcount_dec_and_test` warns, leaves the count at
0 and does not release. -/
def kref_put (h : Heap) (vm : Nat) : Heap :=
  let h1 := (h.set vm { h.vm vm with refcount := (h.vm vm).refcount - 1 }).emit
    [VmEvent.kref_put vm]
  if (h.vm vm).refcount = 1 then nvkm_vm_del h1 vm else h1

/-- The first half of `nvkm_vm_ref` (base.c:530-538), `if (ref) { ... }`:
the `join` hook runs when it exists and `inst` is set, and a non-zero code
from it ends the call; otherwise the count of `ref` is taken. `join_ret` is
what the hook returns. The result is the code and the heap. -/
def nvkm_vm_ref_get (h : Heap) (ref inst : Option Nat) (join_ret : Int) : Int × Heap :=
  match ref with
  | none => (0, h)
  | some r =>
    match inst with
    | none => (0, kref_get h r)
    | some i =>
      if (h.vm r).has_join then
        if join_ret ≠ 0 then (join_ret, h.emit [VmEvent.join r i])
        else (0, kref_get (h.emit [VmEvent.join r i]) r)
      else (0, kref_get h r)

/-- The second half of `nvkm_vm_ref` (base.c:540-544), `if (*ptr) { ... }`:
the `part` hook runs when it exists and `inst` is set, then the count of the
VM the slot held is dropped. -/
def nvkm_vm_ref_put (h : Heap) (ptr inst : Option Nat) : Heap :=
  match ptr with
  | none => h
  | some p =>
    match inst with
    | none => kref_put h p
    | some i =>
      if (h.vm p).has_part then kref_put (h.emit [VmEvent.part p i]) p
      else kref_put h p

/-- Embedding of `nvkm_vm_ref` (base.c:527-548). `ref` is the new VM, `ptr`
the VM the slot holds (`*ptr`), `inst` the instance context, each possibly
null. The result is the return code, the heap and the new content of the
slot. -/
def nvkm_vm_ref (h : Heap) (ref ptr inst : Option Nat) (join_ret : Int) :
    Int × Heap × Option Nat :=
  let j := nvkm_vm_ref_get h ref inst join_ret
  if j.1 ≠ 0 then (j.1, j.2, ptr)
  else (0, nvkm_vm_ref_put j.2 ptr inst, ref)

/-- The end of `nvkm_vm_get` (base.c:421-429), after the range and its page
tables are reserved. The cast to `u64` precedes the shift. -/
def nvkm_vm_get_done (h : Heap) (vm : Nat) (node : nvkm_mm_node) (access : Nat)
    (vma : nvkm_vma) : Int × Heap × nvkm_vma :=
  let r := nvkm_vm_ref h (some vm) none none 0
  (0, r.2.1,
    { vma with memory := none, tags := none, vm := r.2.2,
               offset := (node.offset <<< 12) % 2 ^ 64, access := access })

/-- Embedding of `nvkm_vm_get` (base.c:392-430). `ptes_ret` is what
`nvkm_vmm_ptes_get` returns when it is called. The shifts of `u32` values
are taken modulo `2 ^ 32`; `1 << page_shift` is an `int`, so page shifts of
31 and more are outside the defined behaviour of the C code. The page
descriptor handed to the page-table layer is the one whose shift is
`page_shift`. -/
def nvkm_vm_get (h : Heap) (vm : Nat) (size page_shift access : Nat) (vma : nvkm_vma)
    (ptes_ret : Int) : Int × Heap × nvkm_vma :=
  let align := ((1 <<< page_shift) % 2 ^ 32) >>> 12
  let msize := (size >>> 12) % 2 ^ 32
  match nvkm_mm_head (h.vm vm).mm 0 page_shift msize msize align with
  | Except.error ret => (ret, h, vma)
  | Except.ok (node, mm1) =>
    let h1 := h.set vm { h.vm vm with mm := mm1 }
    let vma1 := { vma with node := some node }
    if (h1.vm vm).has_unmap then
      let h2 := h1.emit [VmEvent.ptes_get vm page_shift ((node.offset <<< 12) % 2 ^ 32)
        ((node.length <<< 12) % 2 ^ 32)]
      if ptes_ret ≠ 0 then
        let f := nvkm_mm_free (h2.vm vm).mm vma1.node
        (ptes_ret, h2.set vm { h2.vm vm with mm := f.1 }, { vma1 with node := f.2 })
      else nvkm_vm_get_done h2 vm node access vma1
    else nvkm_vm_get_done h1 vm node access vma1

/-- Embedding of `nvkm_vm_put` (base.c:432-460). The page descriptor handed
to the page-table layer is the one whose shift is the type of the node. A
VMA with a node and a null VM pointer is outside the defined behaviour of
the C code; the model leaves the state alone. -/
def nvkm_vm_put (h : Heap) (vma : nvkm_vma) : Heap × nvkm_vma :=
  match vma.node with
  | none => (h, vma)
  | some node =>
    match vma.vm with
    | none => (h, vma)
    | some vm =>
      let h1 := h.emit [VmEvent.tags_put vma.memory vma.tags, VmEvent.memory_unref vma.memory]
      let vma1 := { vma with tags := none, memory := none }
      let h2 := h1.emit
        (if (h1.vm vm).has_unmap then
          [VmEvent.ptes_put vm node.type ((node.offset <<< 12) % 2 ^ 32)
            ((node.length <<< 12) % 2 ^ 32)]
        else [])
      let f := nvkm_mm_free (h2.vm vm).mm vma1.node
      let h3 := h2.set vm { h2.vm vm with mm := f.1 }
      let r := nvkm_vm_ref h3 none vma1.vm none 0
      (r.2.1, { vma1 with node := f.2, vm := r.2.2 })

/-! ## Slots holding VM references -/

/-- A set of slots, each null or pointing at a VM, over the heap. -/
structure RefSys where
  heap : Heap
  slots : List (Option Nat)

/-- One operation `nvkm_vm_ref(ref, &slots[slot], inst)`, with the code the
`join` hook would return. -/
structure RefOp where
  ref : Option Nat
  slot : Nat
  inst : Option Nat
  join_ret : Int

/-- The slot content before the operation. -/
def RefSys.old (s : RefSys) (op : RefOp) : Option Nat := (s.slots.get? op.slot).join

/-- Run one operation; the slot takes what `nvkm_vm_ref` left in `*ptr`. -/
def RefSys.step (s : RefSys) (op : RefOp) : RefSys :=
  let r := nvkm_vm_ref s.heap op.ref (s.old op) op.inst op.join_ret
  { heap := r.2.1, slots := s.slots.set op.slot r.2.2 }

/-- Run a sequence of operations. -/
def RefSys.run (s : RefSys) (ops : List RefOp) : RefSys := ops.foldl RefSys.step s

/-- The number of slots pointing at `v`. -/
def RefSys.holders (s : RefSys) (v : Nat) : Nat := s.slots.count (some v)

/-- The number of times `nvkm_vm_del` ran for `v`. -/
def RefSys.dels (s : RefSys) (v : Nat) : Nat := s.heap.log.count (VmEvent.del v)

/-- All holders go through `nvkm_vm_ref`: every operation names an existing
slot, and hands in `v` as the new VM only while some slot points at `v`
(the caller holds a reference to what it passes). -/
def RefSys.ops_ok (v : Nat) : RefSys → List RefOp → Prop
  | _, [] => True
  | s, op :: ops =>
    (op.slot < s.slots.length ∧ (op.ref = some v → 0 < s.holders v)) ∧
      RefSys.ops_ok v (s.step op) ops

/-! ## Mapping -/

/-- Modelled from the spec: the access bit for writing
(`NV_MEM_ACCESS_WO`; the header that defines the access rights
"read/write/system" is not among the sources). -/
def NV_MEM_ACCESS_WO : Nat := 2

/-- Modelled from the spec: the access bit for reading (`NV_MEM_ACCESS_RO`). -/
def NV_MEM_ACCESS_RO : Nat := 1

/-- Modelled from the spec: read-write access,
`NV_MEM_ACCESS_RO | NV_MEM_ACCESS_WO`. -/
def NV_MEM_ACCESS_RW : Nat := NV_MEM_ACCESS_RO ||| NV_MEM_ACCESS_WO

/-- Modelled from the spec: the access bit for privileged ("system") access
(`NV_MEM_ACCESS_SYS`). -/
def NV_MEM_ACCESS_SYS : Nat := 4

/-- What a map request meets outside base.c: the card type of the device,
the outcome of `vmm->func->valid` (`none` when the VM has no such hook,
otherwise its return code and the tags it leaves in `map->tags`) and what
`nvkm_memory_target(map->memory)` returns. -/
structure MapEnv where
  card : card_type
  valid : Option (Int × Option Nat)
  target : nvkm_memory_target
deriving DecidableEq, Repr

/-- The switch of `nvkm_vm_map_` (base.c:236-261): the argument structure
built for the card type, `none` for `argv = NULL` with `argc = 0`. -/
def nvkm_vm_map_args (card : card_type) (access memtype : Nat)
    (target : nvkm_memory_target) : Option vmm_map_args :=
  let ro := if access &&& NV_MEM_ACCESS_WO = 0 then 1 else 0
  let priv := if access &&& NV_MEM_ACCESS_SYS = 0 then 0 else 1
  match card with
  | card_type.NV_50 =>
    some (vmm_map_args.nv50 0 ro priv ((memtype &&& 0x07f) % 2 ^ 8)
      (((memtype &&& 0x180) >>> 7) % 2 ^ 8))
  | card_type.NV_C0 | card_type.NV_E0 | card_type.GM100 | card_type.GP100 =>
    some (vmm_map_args.gf100 0 (if target ≠ nvkm_memory_target.VRAM then 1 else 0) ro priv
      ((memtype &&& 0x0ff) % 2 ^ 8))
  | card_type.other _ => none

/-- Embedding of `nvkm_vm_map_` (base.c:218-277). `shift` is the shift of
the page descriptor `page`. The casts to `u64` precede the shifts. A VMA
without VM or node is outside the defined behaviour of the C code; the
model leaves the state alone. -/
def nvkm_vm_map_ (h : Heap) (shift : Nat) (vma : nvkm_vma) (delta : Nat) (mem : nvkm_mem)
    (fn : pte_func) (src : map_source) (env : MapEnv) : Heap × nvkm_vma :=
  match vma.vm, vma.node with
  | some vmm, some node =>
    let write (g : Heap) (tags : Option Nat) : Heap × nvkm_vma :=
      (g.emit [VmEvent.ptes_map vmm shift (((node.offset <<< 12) % 2 ^ 64 + delta) % 2 ^ 64)
          ((node.length <<< 12) % 2 ^ 64) fn src,
        VmEvent.tags_put vma.memory vma.tags, VmEvent.memory_unref vma.memory,
        VmEvent.memory_ref mem.memory],
       { vma with memory := mem.memory, tags := tags })
    match env.valid with
    | none => write h none
    | some (ret, tags) =>
      let h1 := h.emit
        [VmEvent.valid vmm (nvkm_vm_map_args env.card vma.access mem.memtype env.target)]
      if ret ≠ 0 then (h1.emit [VmEvent.warn_on], vma)
      else write h1 tags
  | _, _ => (h, vma)

/-- Embedding of `nvkm_vm_map_at` (base.c:314-325). -/
def nvkm_vm_map_at (h : Heap) (vma : nvkm_vma) (delta : Nat) (node : nvkm_mem)
    (env : MapEnv) : Heap × nvkm_vma :=
  match vma.vm, vma.node with
  | some vm, some n =>
    if (h.vm vm).has_unmap then
      nvkm_vm_map_ h n.type vma delta node pte_func.mem (map_source.mem node.mem) env
    else (h, vma)
  | _, _ => (h, vma)

/-- Embedding of `nvkm_vm_map_sg_table` (base.c:327-339); `mem->sg` is not
null when it is called. -/
def nvkm_vm_map_sg_table (h : Heap) (vma : nvkm_vma) (delta length : Nat) (mem : nvkm_mem)
    (env : MapEnv) : Heap × nvkm_vma :=
  match vma.vm, vma.node, mem.sg with
  | some vm, some n, some sgl =>
    if (h.vm vm).has_unmap then
      nvkm_vm_map_ h n.type vma delta mem pte_func.sgl (map_source.sgl sgl) env
    else (h, vma)
  | _, _, _ => (h, vma)

/-- Embedding of `nvkm_vm_map_sg` (base.c:341-353); `mem->pages` is not null
when it is called. -/
def nvkm_vm_map_sg (h : Heap) (vma : nvkm_vma) (delta length : Nat) (mem : nvkm_mem)
    (env : MapEnv) : Heap × nvkm_vma :=
  match vma.vm, vma.node, mem.pages with
  | some vm, some n, some pages =>
    if (h.vm vm).has_unmap then
      nvkm_vm_map_ h n.type vma delta mem pte_func.dma (map_source.dma pages) env
    else (h, vma)
  | _, _, _ => (h, vma)

/-- Embedding of `nvkm_vm_map` (base.c:355-365). -/
def nvkm_vm_map (h : Heap) (vma : nvkm_vma) (node : nvkm_mem) (env : MapEnv) :
    Heap × nvkm_vma :=
  if node.sg.isSome then
    nvkm_vm_map_sg_table h vma 0 ((node.size <<< 12) % 2 ^ 64) node env
  else if node.pages.isSome then
    nvkm_vm_map_sg h vma 0 ((node.size <<< 12) % 2 ^ 64) node env
  else nvkm_vm_map_at h vma 0 node env

/-- Embedding of `nvkm_vm_unmap_at` (base.c:367-381). The node fields are
`u32` and are shifted as such, without a cast; the argument `length` is not
used by the C function. -/
def nvkm_vm_unmap_at (h : Heap) (vma : nvkm_vma) (delta length : Nat) : Heap :=
  match vma.vm, vma.node with
  | some vm, some node =>
    if (h.vm vm).has_unmap then
      h.emit [VmEvent.ptes_unmap vm node.type
        (((node.offset <<< 12) % 2 ^ 32 + delta) % 2 ^ 64) ((node.length <<< 12) % 2 ^ 32)]
    else h
  | _, _ => h

/-- Embedding of `nvkm_vm_unmap` (base.c:383-390). A VMA without VM or node
is outside the defined behaviour of the C code; the model leaves the state
alone. -/
def nvkm_vm_unmap (h : Heap) (vma : nvkm_vma) : Heap × nvkm_vma :=
  match vma.vm, vma.node with
  | some vm, some node =>
    let h1 := nvkm_vm_unmap_at h vma 0 ((node.length <<< 12) % 2 ^ 64)
    (h1.emit [VmEvent.tags_put vma.memory vma.tags, VmEvent.memory_unref vma.memory],
      { vma with tags := none, memory := none })
  | _, _ => (h, vma)

/-! ## Construction of a VM -/

/-- Linux `EINVAL`. -/
def EINVAL : Int := 22

/-- Modelled from the spec: a count of units passed to `nvkm_mm_init`. The
prototype is outside the sources at hand; counts of units are `u32` in
base.c (`msize` and `align` in `nvkm_vm_get`, the node fields that are cast
to `u64` before a shift), so a `u64` argument is cut to 32 bits. -/
def nvkm_mm_units (x : Nat) : Nat := x % 2 ^ 32

/-- Embedding of `nvkm_vm_legacy` (base.c:468-486): `kref_init`, then
`nvkm_mm_init(&vm->mm, 0, mm_offset >> 12, mm_length >> 12, block >> 12)`,
whose return code is `init_ret`. The arithmetic is that of `u64`; the
offset and the length pass into the `u32` parameters of `nvkm_mm_init`
(`nvkm_mm_units`). The modelled allocator has no block size, so `block` goes
unused. -/
def nvkm_vm_legacy (h : Heap) (offset length mm_offset block : Nat) (vm : Nat)
    (init_ret : Int) : Int × Heap :=
  let mm_length := ((offset + length) % 2 ^ 64 + 2 ^ 64 - mm_offset) % 2 ^ 64
  let h1 := h.set vm { h.vm vm with refcount := 1 }
  let block1 := if block > length then length % 2 ^ 32 else block
  if init_ret ≠ 0 then (init_ret, h1)
  else (0, h1.set vm { h1.vm vm with
    mm := nvkm_mm_init (nvkm_mm_units (mm_offset >>> 12)) (nvkm_mm_units (mm_length >>> 12)) })

/-- Embedding of `nvkm_vm_new` (base.c:488-514). `ctor` is `none` when the
MMU has no VMM constructor, otherwise the return code of the constructor
and the VM it leaves in `*pvm`; `page_block` is `(*pvm)->func->page_block`.
The result is the return code, the heap and `*pvm`. A constructor that
returns 0 and leaves `*pvm` null is outside the defined behaviour of the C
code. -/
def nvkm_vm_new (h : Heap) (offset length mm_offset : Nat) (ctor : Option (Int × Option Nat))
    (page_block : Nat) (init_ret : Int) : Int × Heap × Option Nat :=
  match ctor with
  | none => (-EINVAL, h, none)
  | some (ret, pvm) =>
    if ret ≠ 0 then
      let r := nvkm_vm_ref h none pvm none 0
      (ret, r.2.1, r.2.2)
    else
      match pvm with
      | none => (0, h, none)
      | some vm =>
        let l := nvkm_vm_legacy h offset length mm_offset
          (if page_block ≠ 0 then page_block else 4096) vm init_ret
        if l.1 ≠ 0 then
          let r := nvkm_vm_ref l.2 none (some vm) none 0
          (l.1, r.2.1, r.2.2)
        else (l.1, l.2, some vm)

/-! ## Teardown of the cache -/

/-- Embedding of `nvkm_mmu_ptc_dump` (base.c:279-291): every idle block of
every class is released and freed; the class records stay, `refs`
included. -/
def nvkm_mmu_ptc_dump (mmu : nvkm_mmu) : nvkm_mmu :=
  { mmu with
    ptc_list := mmu.ptc_list.map (fun ptc => { ptc with item := [] }),
    effects := mmu.effects ++ mmu.ptc_list.flatMap (fun ptc =>
      ptc.item.flatMap (fun pt => [Effect.memory_unref pt.memory, Effect.kfree pt.self])) }

/-- Embedding of `nvkm_mmu_ptc_fini` (base.c:293-303): every class record is
unlinked and freed. The second component counts the classes for which
`WARN_ON(!list_empty(&ptc->item))` fired. -/
def nvkm_mmu_ptc_fini (mmu : nvkm_mmu) : nvkm_mmu × Nat :=
  ({ mmu with
     ptc_list := [],
     effects := mmu.effects ++ mmu.ptc_list.map (fun ptc => Effect.kfree ptc.self) },
   (mmu.ptc_list.filter (fun ptc => !ptc.item.isEmpty)).length)

/-! ## Clients of a VM -/

/-- The VMAs of the clients, over the heap. -/
structure VmaSys where
  heap : Heap
  vmas : List nvkm_vma

/-- A call made on the VMA at position `i`: `nvkm_vm_get`, `nvkm_vm_map`,
`nvkm_vm_unmap` or `nvkm_vm_put`, with what the call meets outside
base.c. -/
inductive VmaOp where
  | get (i vm size page_shift access : Nat) (ptes_ret : Int)
  | map (i : Nat) (node : nvkm_mem) (env : MapEnv)
  | unmap (i : Nat)
  | put (i : Nat)
deriving DecidableEq, Repr

/-- One call. A position past the end of `vmas` names no VMA and is not a
call a client can make. -/
def VmaSys.step (s : VmaSys) : VmaOp → VmaSys
  | VmaOp.get i vm size page_shift access ptes_ret =>
    match s.vmas.get? i with
    | some vma =>
      let r := nvkm_vm_get s.heap vm size page_shift access vma ptes_ret
      { heap := r.2.1, vmas := s.vmas.set i r.2.2 }
    | none => s
  | VmaOp.map i node env =>
    match s.vmas.get? i with
    | some vma =>
      let r := nvkm_vm_map s.heap vma node env
      { heap := r.1, vmas := s.vmas.set i r.2 }
    | none => s
  | VmaOp.unmap i =>
    match s.vmas.get? i with
    | some vma =>
      let r := nvkm_vm_unmap s.heap vma
      { heap := r.1, vmas := s.vmas.set i r.2 }
    | none => s
  | VmaOp.put i =>
    match s.vmas.get? i with
    | some vma =>
      let r := nvkm_vm_put s.heap vma
      { heap := r.1, vmas := s.vmas.set i r.2 }
    | none => s

/-- A finite sequence of calls. -/
def VmaSys.run (s : VmaSys) (ops : List VmaOp) : VmaSys := ops.foldl VmaSys.step s

/-- The number of VMAs whose `memory` field points at the memory object `m`. -/
def VmaSys.bound (s : VmaSys) (m : Nat) : Nat := (s.vmas.map nvkm_vma.memory).count (some m)

/-- The number of references the calls so far took on the memory object `m`
(`nvkm_memory_ref`). -/
def VmaSys.refs (s : VmaSys) (m : Nat) : Nat := s.heap.log.count (VmEvent.memory_ref (some m))

/-- The number of references the calls so far released on the memory object
`m` (`nvkm_memory_unref`). -/
def VmaSys.unrefs (s : VmaSys) (m : Nat) : Nat :=
  s.heap.log.count (VmEvent.memory_unref (some m))

/-- Every `nvkm_vm_get` of the sequence is applied to a VMA whose `memory`
field is null: a new VMA, or one that was unmapped or put. -/
def VmaSys.ops_ok : VmaSys → List VmaOp → Prop
  | _, [] => True
  | s, op :: ops =>
    (∀ i vm size page_shift access ptes_ret,
        op = VmaOp.get i vm size page_shift access ptes_ret →
        ∀ vma, s.vmas.get? i = some vma → vma.memory = none) ∧
      VmaSys.ops_ok (s.step op) ops

/-- The references that a call took and released on each memory object
match the change of the `memory` field of the VMA it was applied to: `h` and
`vma` are the heap and the VMA before the call, `h1` and `vma1` after it. -/
def mem_balance (h : Heap) (vma : nvkm_vma) (h1 : Heap) (vma1 : nvkm_vma) : Prop :=
  ∀ m : Nat,
    h1.log.count (VmEvent.memory_ref (some m)) + h.log.count (VmEvent.memory_unref (some m)) +
        (if vma.memory = some m then 1 else 0) =
      h.log.count (VmEvent.memory_ref (some m)) +
        h1.log.count (VmEvent.memory_unref (some m)) +
        (if vma1.memory = some m then 1 else 0)

/-- In every class the counter `refs` is the length of the free-list and is
at most 8. -/
def cnt_ok (mmu : nvkm_mmu) : Prop :=
  ∀ c ∈ mmu.ptc_list, c.item.length = c.refs ∧ c.refs ≤ 8

/-- The heap discipline of a system: that of its cache relative to the
blocks its clients hold. -/
def Sys.own_ok (s : Sys) : Prop := blocks_ok (s.held.map nvkm_mmu_pt.self) s.mmu

/-- Well-formedness of a system. -/
def Sys.wf (s : Sys) : Prop := Nouveau.wf s.held s.mmu

/-! ## Clients of the cache that also dump it -/

/-- A call made on the cache: a `get` or `put` of a client, or
`nvkm_mmu_ptc_dump`. -/
inductive CacheOp where
  | call (op : Op)
  | dump
deriving DecidableEq, Repr

/-- One call on the cache. -/
def Sys.step_dump (s : Sys) : CacheOp → Sys
  | CacheOp.call op => s.step op
  | CacheOp.dump => { s with mmu := nvkm_mmu_ptc_dump s.mmu }

/-- A finite sequence of calls on the cache. -/
def Sys.run_dump (s : Sys) (ops : List CacheOp) : Sys := ops.foldl Sys.step_dump s

/-! ## TTM memory managers (nouveau_ttm.c) -/

/-- Linux `ENOMEM`. -/
def ENOMEM : Int := 12

/-- The fields of `struct ttm_mem_reg` that the managers touch. -/
structure ttm_mem_reg where
  mm_node : Option Nat
  start : Nat
  num_pages : Nat
deriving DecidableEq, Repr

/-- The fields of `struct nouveau_bo` that the managers read. -/
structure nouveau_bo where
  kind : Nat
  comp : Nat
  contig : Bool
  page : Nat
deriving DecidableEq, Repr

/-- Calls into nouveau_mem.c, in the order they are made. -/
inductive TtmEvent where
  | mem_new (kind comp : Nat)
  | mem_vram (contig : Bool) (page : Nat)
  | mem_del
deriving DecidableEq, Repr

/-- What the functions of nouveau_mem.c that the managers call return and do
to the placement record: `nouveau_mem_new`, `nouveau_mem_vram` and
`nouveau_mem_del`. They are defined outside nouveau_ttm.c and are parameters
here. -/
structure MemOracle where
  mem_new : nouveau_bo → ttm_mem_reg → Int × ttm_mem_reg
  mem_vram : Bool → Nat → ttm_mem_reg → Int × ttm_mem_reg
  mem_del : ttm_mem_reg → ttm_mem_reg

/-- Embedding of `nouveau_vram_manager_new` (nouveau_ttm.c:68-97).
`ram_size` is `drm->client.device.info.ram_size`. The result is the return
code, the placement record and the calls made into nouveau_mem.c. -/
def nouveau_vram_manager_new (env : MemOracle) (ram_size : Nat) (bo : nouveau_bo)
    (reg : ttm_mem_reg) : Int × ttm_mem_reg × List TtmEvent :=
  if ram_size = 0 then (-ENOMEM, reg, [])
  else
    let r1 := env.mem_new bo reg
    let l1 := [TtmEvent.mem_new bo.kind bo.comp]
    if r1.1 ≠ 0 then (r1.1, r1.2, l1)
    else
      let r2 := env.mem_vram bo.contig bo.page r1.2
      let l2 := l1 ++ [TtmEvent.mem_vram bo.contig bo.page]
      if r2.1 ≠ 0 then
        let reg3 := env.mem_del r2.2
        let l3 := l2 ++ [TtmEvent.mem_del]
        if r2.1 = -ENOSPC then (0, { reg3 with mm_node := none }, l3)
        else (r2.1, reg3, l3)
      else (0, r2.2, l2)

/-- Embedding of `nouveau_gart_manager_new` (nouveau_ttm.c:107-124). -/
def nouveau_gart_manager_new (env : MemOracle) (bo : nouveau_bo) (reg : ttm_mem_reg) :
    Int × ttm_mem_reg × List TtmEvent :=
  let r1 := env.mem_new bo reg
  let l1 := [TtmEvent.mem_new bo.kind bo.comp]
  if r1.1 ≠ 0 then (r1.1, r1.2, l1)
  else (0, { r1.2 with start := 0 }, l1)

/-- Linux `PAGE_SHIFT` for 4 KiB pages. -/
def PAGE_SHIFT : Nat := 12

/-- Embedding of `nv04_gart_manager_new` (nouveau_ttm.c:134-166). `vmm` is
`mmu->vmm`, `vma` is `mem->vma[0]` as `nouveau_mem_new` left it, `ptes_ret`
is what the page-table layer returns inside `nvkm_vm_get`. `num_pages` is an
`unsigned long`, shifted in 64 bits. `struct nvkm_vma` is declared outside
the sources at hand; its `addr` is read here as the field `offset` that
`nvkm_vm_get` sets. The result is the return code, the placement record, the
heap, the VMA and the calls made into nouveau_mem.c. -/
def nv04_gart_manager_new (env : MemOracle) (h : Heap) (vmm : Nat) (bo : nouveau_bo)
    (reg : ttm_mem_reg) (vma : nvkm_vma) (ptes_ret : Int) :
    Int × ttm_mem_reg × Heap × nvkm_vma × List TtmEvent :=
  let r1 := env.mem_new bo reg
  let l1 := [TtmEvent.mem_new bo.kind bo.comp]
  if r1.1 ≠ 0 then (r1.1, r1.2, h, vma, l1)
  else
    let g := nvkm_vm_get h vmm ((r1.2.num_pages <<< 12) % 2 ^ 64) 12 NV_MEM_ACCESS_RW vma
      ptes_ret
    if g.1 ≠ 0 then
      let reg3 := env.mem_del r1.2
      let l3 := l1 ++ [TtmEvent.mem_del]
      if g.1 = -ENOSPC then (0, { reg3 with mm_node := none }, g.2.1, g.2.2, l3)
      else (g.1, reg3, g.2.1, g.2.2, l3)
    else (0, { r1.2 with start := g.2.2.offset >>> PAGE_SHIFT }, g.2.1, g.2.2, l1)

/-! ## DisplayPort transfer units (engine/disp/nv50.c) -/

/-- The constant `symbol` of `nv50_disp_intr_unk20_2_dp` (nv50.c:340). -/
def symbol : Nat := 100000

/-- The values an iteration of the search computes: the `int`s `VTUi`,
`VTUf` and `VTUa`, and the `u32`s `calc` (here `calc_`) and `diff`. `VTUf`
and `VTUa` are never negative and are kept as naturals. -/
structure TuCand where
  VTUi : Int
  VTUf : Nat
  VTUa : Nat
  calc_ : Nat
  diff : Nat
deriving DecidableEq, Repr

/-- Embedding of the body of the loop of `nv50_disp_intr_unk20_2_dp` up to
the comparison with the best candidate (nv50.c:386-419), for a `u32`
`tu_valid`. Sums, differences and products of `u32` values are taken modulo
`2 ^ 32`. -/
def tu_candidate (tu_valid : Nat) : TuCand :=
  let VTUi := tu_valid / symbol
  let calc0 := (VTUi * symbol) % 2 ^ 32
  let diff := (tu_valid + 2 ^ 32 - calc0) % 2 ^ 32
  if diff ≠ 0 then
    if symbol / 2 ≤ diff then
      let VTUf0 := symbol / ((symbol + 2 ^ 32 - diff) % 2 ^ 32)
      let VTUf1 :=
        if (symbol + 2 ^ 32 - (VTUf0 * diff) % 2 ^ 32) % 2 ^ 32 ≠ 0 then VTUf0 + 1 else VTUf0
      if VTUf1 ≤ 15 then
        let calc1 := (calc0 + (symbol - symbol / VTUf1)) % 2 ^ 32
        { VTUi := VTUi, VTUf := VTUf1, VTUa := 1, calc_ := calc1,
          diff := (calc1 + 2 ^ 32 - tu_valid) % 2 ^ 32 }
      else
        let calc1 := (calc0 + symbol) % 2 ^ 32
        { VTUi := VTUi, VTUf := 1, VTUa := 0, calc_ := calc1,
          diff := (calc1 + 2 ^ 32 - tu_valid) % 2 ^ 32 }
    else
      let VTUf := min (symbol / diff) 15
      let calc1 := (calc0 + symbol / VTUf) % 2 ^ 32
      { VTUi := VTUi, VTUf := VTUf, VTUa := 0, calc_ := calc1,
        diff := (calc1 + 2 ^ 32 - tu_valid) % 2 ^ 32 }
  else
    { VTUi := (VTUi : Int) - 1, VTUf := 1, VTUa := 0, calc_ := calc0, diff := diff }

/-- The best candidate so far: `best_diff`, `bestTU`, `bestVTUi`, `bestVTUf`
and `bestVTUa`. -/
structure TuBest where
  best_diff : Nat
  bestTU : Nat
  bestVTUi : Int
  bestVTUf : Nat
  bestVTUa : Nat
deriving DecidableEq, Repr

/-- The values before the loop (nv50.c:346-349). -/
def TuBest.init : TuBest :=
  { best_diff := (64 * symbol) % 2 ^ 32, bestTU := 0, bestVTUi := 0, bestVTUf := 0,
    bestVTUa := 0 }

/-- The iterations of the loop for the values of `TU` in the list
(nv50.c:381-430): `tu_valid` is the `u64` product `link_ratio * TU` cut to
32 bits; a candidate with a smaller `diff` replaces the best one, and the
loop ends at once when that `diff` is 0. -/
def tu_loop (link_ratio : Nat) : List Nat → TuBest → TuBest
  | [], b => b
  | TU :: rest, b =>
    let c := tu_candidate (((link_ratio * TU) % 2 ^ 64) % 2 ^ 32)
    if c.diff < b.best_diff then
      let b1 : TuBest :=
        { best_diff := c.diff, bestTU := TU, bestVTUi := c.VTUi, bestVTUf := c.VTUf,
          bestVTUa := c.VTUa }
      if c.diff = 0 then b1 else tu_loop link_ratio rest b1
    else tu_loop link_ratio rest b

/-- The loop `for (TU = 64; TU >= 32; TU--)` of `nv50_disp_intr_unk20_2_dp`
for a `u64` `link_ratio`. -/
def tu_search (link_ratio : Nat) : TuBest :=
  tu_loop link_ratio ((List.range 33).map (fun i => 64 - i)) TuBest.init

/-- What holds of a candidate for `tu_valid`: `VTUf` and `VTUa` fit their
register fields, `diff` is at most one symbol, `calc` is `tu_valid + diff`
in 32 bits, and below 4294966667 nothing wraps. -/
def TuCand.ok (tu_valid : Nat) (c : TuCand) : Prop :=
  1 ≤ c.VTUf ∧ c.VTUf ≤ 15 ∧ c.VTUa ≤ 1 ∧ c.diff ≤ symbol ∧
  c.calc_ = (tu_valid + c.diff) % 2 ^ 32 ∧
  (tu_valid < 4294966667 → tu_valid ≤ c.calc_ ∧ c.diff = c.calc_ - tu_valid)

/-- A best candidate that was chosen in the loop. -/
def TuBest.ok (b : TuBest) : Prop :=
  32 ≤ b.bestTU ∧ b.bestTU ≤ 64 ∧ 1 ≤ b.bestVTUf ∧ b.bestVTUf ≤ 15 ∧ b.bestVTUa ≤ 1 ∧
  b.best_diff ≤ symbol

/-! ## Concrete states used to exercise the theorems -/

/-- A 0x1000-byte memory object. -/
def ex_memory : nvkm_memory := { handle := 9, addr := 0x5000, size := 0x1000 }

/-- A block of class 1 that is not sub-allocated. -/
def ex_pt : nvkm_mmu_pt :=
  { self := 3, ptc := 1, ptp := 0, memory := ex_memory, sub := false, base := 0, addr := 0x5000 }

/-- An empty class of 0x1000-byte blocks at address 1. -/
def ex_ptc : nvkm_mmu_ptc := { self := 1, item := [], size := 0x1000, refs := 0 }

/-- A cache holding the class `ex_ptc` and no pool. -/
def ex_mmu : nvkm_mmu :=
  { ptc_list := [ex_ptc], ptp_list := [], ptp_heap := [], brk := 10, effects := [] }

/-- Every allocation succeeds; backing memory is handed out at 0x5000. -/
def ex_alloc : Alloc :=
  { kmalloc_pt := true, kmalloc_ptc := true, kmalloc_ptp := true, memory_new := some 0x5000 }

/-- Two blocks of 0x1000 bytes are obtained and the first is put back. -/
def ex_ops : List Op :=
  [Op.get 0x1000 0x1000 false ex_alloc ex_alloc, Op.get 0x1000 0x1000 false ex_alloc ex_alloc,
   Op.put 0 false]

/-- A cache with one idle block of 0x1000 bytes and no pool: the state after
a block of 0x1000 bytes was obtained and put back. -/
def ex_mmu_idle : nvkm_mmu :=
  ((Sys.init 0).run [Op.get 0x1000 0x1000 false ex_alloc ex_alloc, Op.put 0 false]).mmu

/-- The block that `ex_ops` leaves idle. -/
def ex_idle_pt : nvkm_mmu_pt :=
  { self := 1, ptc := 0, ptp := 0, memory := { handle := 2, addr := 0x5000, size := 0x1000 },
    sub := false, base := 0, addr := 0x5000 }

/-- The class that `ex_ops` leaves in the cache. -/
def ex_idle_ptc : nvkm_mmu_ptc := { self := 0, item := [ex_idle_pt], size := 0x1000, refs := 1 }

/-- A VM with the free ranges `[0, 1)` and `[4, 20)`, one reference, both
hooks and page tables. -/
def ex_vm : nvkm_vm :=
  { mm := { free := [(0, 1), (4, 16)] }, refcount := 1, has_join := true, has_part := true,
    has_unmap := true }

/-- A heap in which every address holds such a VM. -/
def ex_heap : Heap := { vm := fun _ => ex_vm, log := [] }

/-- A VMA that holds nothing. -/
def ex_vma : nvkm_vma :=
  { node := none, vm := none, offset := 0, access := 0, memory := none, tags := none }

/-- Two slots, the first pointing at the VM at address 1. -/
def ex_refsys : RefSys := { heap := ex_heap, slots := [some 1, none] }

/-- The second slot takes a reference to VM 1, then both slots are cleared. -/
def ex_refops : List RefOp :=
  [{ ref := some 1, slot := 1, inst := some 7, join_ret := 0 },
   { ref := none, slot := 0, inst := some 7, join_ret := 0 },
   { ref := none, slot := 1, inst := none, join_ret := 0 }]

/-- A VM whose only free range starts at unit `2 ^ 20`, that is at 4 GiB. -/
def ex_vm_high : nvkm_vm :=
  { mm := { free := [(0x100000, 16)] }, refcount := 1, has_join := false, has_part := false,
    has_unmap := true }

/-- A heap in which every address holds such a VM. -/
def ex_heap_high : Heap := { vm := fun _ => ex_vm_high, log := [] }

/-- A contiguous memory descriptor of two pages for the memory object 5. -/
def ex_mem : nvkm_mem :=
  { memory := some 5, memtype := 0, mem := some 40, sg := none, pages := none, size := 2 }

/-- A device of the NV50 family whose `valid` hook accepts and hands out no
tags; the memory is video memory. -/
def ex_env : MapEnv :=
  { card := card_type.NV_50, valid := some (0, none), target := nvkm_memory_target.VRAM }

/-- A device older than NV50 whose `valid` hook accepts. -/
def ex_env_old : MapEnv :=
  { card := card_type.other 0x40, valid := some (0, none), target := nvkm_memory_target.VRAM }

/-- A VMA of two pages at unit 16 of VM 1, bound to nothing. -/
def ex_vma_reserved : nvkm_vma :=
  { node := some { type := 12, offset := 16, length := 2 }, vm := some 1, offset := 0x10000,
    access := 3, memory := none, tags := none }

/-- One VMA, not yet reserved. -/
def ex_vmasys : VmaSys := { heap := ex_heap, vmas := [ex_vma] }

/-- A VMA of two pages is reserved in the VM whose free range starts at
4 GiB, then mapped, then unmapped. -/
def ex_map_unmap_high : Heap × nvkm_vma :=
  nvkm_vm_unmap
    (nvkm_vm_map (nvkm_vm_get ex_heap_high 1 8192 12 3 ex_vma 0).2.1
      (nvkm_vm_get ex_heap_high 1 8192 12 3 ex_vma 0).2.2 ex_mem ex_env).1
    (nvkm_vm_map (nvkm_vm_get ex_heap_high 1 8192 12 3 ex_vma 0).2.1
      (nvkm_vm_get ex_heap_high 1 8192 12 3 ex_vma 0).2.2 ex_mem ex_env).2

/-- A VMA is reserved and mapped, and then handed to `nvkm_vm_get` again. -/
def ex_vma_ops : List VmaOp :=
  [VmaOp.get 0 1 8192 12 3 0, VmaOp.map 0 ex_mem ex_env, VmaOp.get 0 1 8192 12 3 0]

/-- A VMA is reserved, mapped, unmapped and put. -/
def ex_vma_ops_ok : List VmaOp :=
  [VmaOp.get 0 1 8192 12 3 0, VmaOp.map 0 ex_mem ex_env, VmaOp.unmap 0, VmaOp.put 0]

/-- The parent block that the first pool of an empty cache gets. -/
def ex_parent : nvkm_mmu_pt :=
  { self := 3, ptc := 2, ptp := 0, memory := { handle := 4, addr := 0x5000, size := 0x1000 },
    sub := false, base := 0, addr := 0x5000 }

/-- A VMA of two pages is reserved in the VM whose free range starts at
4 GiB. -/
def ex_get_high : Int × Heap × nvkm_vma := nvkm_vm_get ex_heap_high 1 8192 12 3 ex_vma 0

/-- That VMA is put again. -/
def ex_get_put_high : Heap × nvkm_vma := nvkm_vm_put ex_get_high.2.1 ex_get_high.2.2

/-- A VMA of two pages is reserved in VM 1 and put. -/
def ex_get_put : Heap × nvkm_vma :=
  nvkm_vm_put (nvkm_vm_get ex_heap 1 8192 12 3 ex_vma 0).2.1
    (nvkm_vm_get ex_heap 1 8192 12 3 ex_vma 0).2.2

/-- One sub-allocation with slots of 128 bytes from the empty cache. -/
def ex_small : Sys := (Sys.init 0).run [Op.get 128 128 false ex_alloc ex_alloc]

/-- Three sub-allocations of 0x100, 0xf80 and 0x100 bytes from the empty
cache. -/
def ex_mixed : Sys :=
  (Sys.init 0).run
    [Op.get 0x100 0x100 false ex_alloc ex_alloc, Op.get 0xf80 0xf80 false ex_alloc ex_alloc,
     Op.get 0x100 0x100 false ex_alloc ex_alloc]

/-- A block of 0x1000 bytes is obtained and put back, then the cache is
dumped. -/
def ex_dump_ops : List CacheOp :=
  [CacheOp.call (Op.get 0x1000 0x1000 false ex_alloc ex_alloc), CacheOp.call (Op.put 0 false),
   CacheOp.dump]

/-- Eight blocks of 0x1000 bytes are obtained and put back, the cache is
dumped, and one more block is obtained and put back. -/
def ex_dump_ops_8 : List CacheOp :=
  List.replicate 8 (CacheOp.call (Op.get 0x1000 0x1000 false ex_alloc ex_alloc)) ++
  List.replicate 8 (CacheOp.call (Op.put 0 false)) ++
  [CacheOp.dump, CacheOp.call (Op.get 0x1000 0x1000 false ex_alloc ex_alloc),
   CacheOp.call (Op.put 0 false)]

/-- Functions of nouveau_mem.c for which the memory record is at address 9
and no video memory is left. -/
def ex_oracle : MemOracle :=
  { mem_new := fun _ reg => (0, { reg with mm_node := some 9 }),
    mem_vram := fun _ _ reg => (-ENOSPC, reg),
    mem_del := fun reg => reg }

/-- A buffer object. -/
def ex_bo : nouveau_bo := { kind := 0, comp := 0, contig := false, page := 12 }

/-- A placement record for 100 pages. -/
def ex_reg : ttm_mem_reg := { mm_node := none, start := 0, num_pages := 100 }

/-! ## Pointer lemmas -/

theorem find_self_eq {α : Type} (f : α → Nat) (l : List α) (a : Nat) (c : α)
    (h : l.find? (fun x => f x == a) = some c) : f c = a := by
  have := List.find?_some h
  simpa using this

theorem find_map_same {α : Type} (f : α → Nat) (l : List α) (a : Nat) (c v : α)
    (h : l.find? (fun x => f x == a) = some c) (hv : f v = a) :
    (l.map (fun x => if f x == a then v else x)).find? (fun x => f x == a) = some v := by
  induction l with
  | nil => simp at h
  | cons x xs ih =>
    rw [List.map_cons, List.find?_cons]
    rw [List.find?_cons] at h
    by_cases hx : f x = a
    · have hx' : (f x == a) = true := by simpa using hx
      have hv' : (f v == a) = true := by simpa using hv
      simp only [hx', if_true, hv']
    · have hx' : (f x == a) = false := by simpa using hx
      simp only [hx'] at h
      simp only [hx', Bool.false_eq_true, if_false]
      exact ih h

theorem find_map_other {α : Type} (f : α → Nat) (l : List α) (a b : Nat) (v : α)
    (hv : f v = a) (hb : b ≠ a) :
    (l.map (fun x => if f x == a then v else x)).find? (fun x => f x == b) =
      l.find? (fun x => f x == b) := by
  induction l with
  | nil => rfl
  | cons x xs ih =>
    rw [List.map_cons, List.find?_cons, List.find?_cons, ih]
    by_cases hx : f x = a
    · have hx' : (f x == a) = true := by simpa using hx
      have h1 : (f v == b) = false := by
        simpa [hv] using fun h : a = b => hb h.symm
      have h2 : (f x == b) = false := by
        simpa [hx] using fun h : a = b => hb h.symm
      simp only [hx', if_true, h1, h2]
    · have hx' : (f x == a) = false := by simpa using hx
      simp only [hx', Bool.false_eq_true, if_false]

theorem ptc_at_self (mmu : nvkm_mmu) (a : Nat) (c : nvkm_mmu_ptc)
    (h : ptc_at mmu a = some c) : c.self = a :=
  find_self_eq nvkm_mmu_ptc.self mmu.ptc_list a c h

theorem ptc_at_set_same (mmu : nvkm_mmu) (a : Nat) (c v : nvkm_mmu_ptc)
    (h : ptc_at mmu a = some c) (hv : v.self = a) : ptc_at (ptc_set mmu a v) a = some v :=
  find_map_same nvkm_mmu_ptc.self mmu.ptc_list a c v h hv

theorem ptc_at_set_other (mmu : nvkm_mmu) (a b : Nat) (v : nvkm_mmu_ptc)
    (hv : v.self = a) (hb : b ≠ a) : ptc_at (ptc_set mmu a v) b = ptc_at mmu b :=
  find_map_other nvkm_mmu_ptc.self mmu.ptc_list a b v hv hb

/-! ## C1: `nvkm_mmu_ptc_put` -/

theorem put_cache_cached (mmu : nvkm_mmu) (force : Bool) (pt : nvkm_mmu_pt) (c : nvkm_mmu_ptc)
    (hc : ptc_at mmu pt.ptc = some c) (hf : force = false) (hr : c.refs < 8) :
    nvkm_mmu_ptc_put_cache mmu force pt =
      ptc_set mmu pt.ptc { c with item := c.item ++ [pt], refs := c.refs + 1 } := by
  have hmod : (c.refs + 1) % 4294967296 = c.refs + 1 := Nat.mod_eq_of_lt (by omega)
  simp [nvkm_mmu_ptc_put_cache, hc, hf, hr, hmod]

theorem put_cache_freed (mmu : nvkm_mmu) (force : Bool) (pt : nvkm_mmu_pt) (c : nvkm_mmu_ptc)
    (hc : ptc_at mmu pt.ptc = some c) (h : ¬ (force = false ∧ c.refs < 8)) :
    nvkm_mmu_ptc_put_cache mmu force pt =
      { mmu with
        effects := mmu.effects ++ [Effect.memory_unref pt.memory, Effect.kfree pt.self] } := by
  have hif : (decide (c.refs < 8) && !force) = false := by
    cases force <;> simp_all
  simp [nvkm_mmu_ptc_put_cache, hc, hif]

/-- C1. For a block `pt` that is not sub-allocated and whose owning class `c`
is in the cache: when `force` is false and `c.refs < 8`, `nvkm_mmu_ptc_put`
appends `pt` to the tail of the free-list of `c`, raises `c.refs` by one and
releases nothing; in every other case it releases the memory of the block
(and the block record) and leaves the class list, hence every free-list and
counter, unchanged. No other class and no pool is touched, and a null block
is a no-op. -/
theorem nvkm_mmu_ptc_put_spec (mmu : nvkm_mmu) (force : Bool) (pt : nvkm_mmu_pt)
    (c : nvkm_mmu_ptc) (hsub : pt.sub = false) (hc : ptc_at mmu pt.ptc = some c) :
    ((force = false ∧ c.refs < 8) →
        ptc_at (nvkm_mmu_ptc_put mmu force (some pt)) pt.ptc =
            some { c with item := c.item ++ [pt], refs := c.refs + 1 } ∧
        (nvkm_mmu_ptc_put mmu force (some pt)).effects = mmu.effects) ∧
    (¬ (force = false ∧ c.refs < 8) →
        (nvkm_mmu_ptc_put mmu force (some pt)).ptc_list = mmu.ptc_list ∧
        (nvkm_mmu_ptc_put mmu force (some pt)).effects =
          mmu.effects ++ [Effect.memory_unref pt.memory, Effect.kfree pt.self]) ∧
    (∀ a, a ≠ pt.ptc →
        ptc_at (nvkm_mmu_ptc_put mmu force (some pt)) a = ptc_at mmu a) ∧
    (nvkm_mmu_ptc_put mmu force (some pt)).ptp_list = mmu.ptp_list ∧
    (nvkm_mmu_ptc_put mmu force (some pt)).ptp_heap = mmu.ptp_heap ∧
    nvkm_mmu_ptc_put mmu force none = mmu := by
  have hself := ptc_at_self mmu pt.ptc c hc
  have hput : nvkm_mmu_ptc_put mmu force (some pt) = nvkm_mmu_ptc_put_cache mmu force pt := by
    simp [nvkm_mmu_ptc_put, hsub]
  rw [hput]
  by_cases hcond : force = false ∧ c.refs < 8
  · rw [put_cache_cached mmu force pt c hc hcond.1 hcond.2]
    refine ⟨fun _ => ⟨?_, rfl⟩, fun h => absurd hcond h, ?_, rfl, rfl, rfl⟩
    · exact ptc_at_set_same mmu pt.ptc c _ hc hself
    · intro a ha
      exact ptc_at_set_other mmu pt.ptc a _ hself ha
  · rw [put_cache_freed mmu force pt c hc hcond]
    exact ⟨fun h => absurd h hcond, fun _ => ⟨rfl, rfl⟩, fun a _ => rfl, rfl, rfl, rfl⟩

/-- C1 at a concrete cache: an empty class of size 0x1000 receives a block. -/
theorem nvkm_mmu_ptc_put_spec_witness :
    ptc_at (nvkm_mmu_ptc_put ex_mmu false (some ex_pt)) ex_pt.ptc =
        some { ex_ptc with item := ex_ptc.item ++ [ex_pt], refs := ex_ptc.refs + 1 } ∧
      (nvkm_mmu_ptc_put ex_mmu false (some ex_pt)).effects = ex_mmu.effects :=
  (nvkm_mmu_ptc_put_spec ex_mmu false ex_pt ex_ptc rfl rfl).1 ⟨rfl, by decide⟩

/-! ## C2: the cache bound -/

theorem cnt_ok_congr (m1 m2 : nvkm_mmu) (h : m2.ptc_list = m1.ptc_list) (h1 : cnt_ok m1) :
    cnt_ok m2 := by
  unfold cnt_ok; rw [h]; exact h1

theorem cnt_ok_ptc_set (mmu : nvkm_mmu) (a : Nat) (v : nvkm_mmu_ptc) (h : cnt_ok mmu)
    (hv : v.item.length = v.refs ∧ v.refs ≤ 8) : cnt_ok (ptc_set mmu a v) := by
  intro c hcm
  simp only [ptc_set, List.mem_map] at hcm
  obtain ⟨d, hd, rfl⟩ := hcm
  by_cases hda : (d.self == a) = true
  · rw [if_pos hda]; exact hv
  · rw [if_neg hda]; exact h d hd

theorem ptc_at_mem (mmu : nvkm_mmu) (a : Nat) (c : nvkm_mmu_ptc) (h : ptc_at mmu a = some c) :
    c ∈ mmu.ptc_list := List.mem_of_find?_eq_some h

theorem cnt_ok_find (mmu : nvkm_mmu) (size : Nat) (k : Bool) (h : cnt_ok mmu) :
    cnt_ok (nvkm_mmu_ptc_find mmu size k).2 ∧
      ∀ c, (nvkm_mmu_ptc_find mmu size k).1 = some c →
        c ∈ (nvkm_mmu_ptc_find mmu size k).2.ptc_list := by
  unfold nvkm_mmu_ptc_find
  cases hf : mmu.ptc_list.find? (fun ptc => ptc.size == size) with
  | some c =>
    refine ⟨h, ?_⟩
    intro c' hc'
    simp only [Option.some.injEq] at hc'
    subst hc'
    exact List.mem_of_find?_eq_some hf
  | none =>
    cases k with
    | false => exact ⟨h, fun c hc => by simp at hc⟩
    | true =>
      simp only [if_true]
      refine ⟨?_, ?_⟩
      · intro c hc
        simp only [List.mem_cons] at hc
        rcases hc with rfl | hc
        · exact ⟨rfl, Nat.zero_le _⟩
        · exact h c hc
      · intro c hc
        simp only [Option.some.injEq] at hc
        subst hc
        exact List.mem_cons_self _ _

theorem cnt_ok_put_cache (mmu : nvkm_mmu) (force : Bool) (pt : nvkm_mmu_pt) (h : cnt_ok mmu) :
    cnt_ok (nvkm_mmu_ptc_put_cache mmu force pt) := by
  cases hc : ptc_at mmu pt.ptc with
  | none => simpa [nvkm_mmu_ptc_put_cache, hc] using h
  | some c =>
    have hcm := h c (ptc_at_mem mmu pt.ptc c hc)
    by_cases hcond : force = false ∧ c.refs < 8
    · rw [put_cache_cached mmu force pt c hc hcond.1 hcond.2]
      apply cnt_ok_ptc_set mmu _ _ h
      simp only [List.length_append, List.length_singleton]
      omega
    · rw [put_cache_freed mmu force pt c hc hcond]
      exact cnt_ok_congr mmu _ rfl h

theorem cnt_ok_get_cache (mmu : nvkm_mmu) (size align : Nat) (zero : Bool) (o : Alloc)
    (h : cnt_ok mmu) : cnt_ok (nvkm_mmu_ptc_get_cache mmu size align zero o).2 := by
  have hfind := cnt_ok_find mmu size o.kmalloc_ptc h
  unfold nvkm_mmu_ptc_get_cache
  rcases hf : nvkm_mmu_ptc_find mmu size o.kmalloc_ptc with ⟨_ | c, mmu1⟩
  · rw [hf] at hfind; exact hfind.1
  · rw [hf] at hfind
    have hcm := hfind.1 c (hfind.2 c rfl)
    simp only
    cases hi : c.item with
    | nil =>
      simp only
      apply cnt_ok_congr mmu1 _ _ hfind.1
      unfold nvkm_mmu_ptc_get_new
      split
      · split <;> rfl
      · rfl
    | cons pt rest =>
      simp only
      have hlen : rest.length + 1 = c.refs := by rw [← hcm.1, hi]; rfl
      have hmod : (c.refs + 2 ^ 32 - 1) % 2 ^ 32 = c.refs - 1 := by
        have : c.refs + 2 ^ 32 - 1 = (c.refs - 1) + 2 ^ 32 := by omega
        rw [this, Nat.add_mod_right]
        exact Nat.mod_eq_of_lt (by have := hcm.2; omega)
      apply cnt_ok_ptc_set
      · cases zero with
        | false => exact hfind.1
        | true => exact cnt_ok_congr mmu1 _ rfl hfind.1
      · simp only [hmod]
        have := hcm.2
        omega

theorem cnt_ok_ptp_get_slot (mmu : nvkm_mmu) (self : Nat) (ptp : nvkm_mmu_ptp)
    (h : cnt_ok mmu) : cnt_ok (nvkm_mmu_ptp_get_slot mmu self ptp).2 := by
  apply cnt_ok_congr mmu _ _ h
  unfold nvkm_mmu_ptp_get_slot
  simp only [ptp_set]
  split <;> rfl

theorem cnt_ok_ptp_get (mmu : nvkm_mmu) (size : Nat) (zero : Bool) (o o2 : Alloc)
    (h : cnt_ok mmu) : cnt_ok (nvkm_mmu_ptp_get mmu size zero o o2).2 := by
  unfold nvkm_mmu_ptp_get
  cases o.kmalloc_pt with
  | false => exact h
  | true =>
    simp only [Bool.not_true, Bool.false_eq_true, if_false]
    rcases mmu with ⟨cl, pl, ph, brk, eff⟩
    cases pl with
    | cons a l =>
      simp only
      have h0 : cnt_ok ⟨cl, a :: l, ph, brk + 1, eff⟩ := cnt_ok_congr _ _ rfl h
      cases hp : ptp_at ⟨cl, a :: l, ph, brk + 1, eff⟩ a with
      | none => exact h0
      | some ptp => exact cnt_ok_ptp_get_slot _ _ _ h0
    | nil =>
      simp only
      cases o.kmalloc_ptp with
      | false => exact cnt_ok_congr _ _ rfl h
      | true =>
        simp only [Bool.not_true, Bool.false_eq_true, if_false]
        have h1 : cnt_ok ⟨cl, [], ph, brk + 1 + 1, eff⟩ := cnt_ok_congr _ _ rfl h
        have h2 := cnt_ok_get_cache ⟨cl, [], ph, brk + 1 + 1, eff⟩ 0x1000 0x1000 false o2 h1
        rcases hg : nvkm_mmu_ptc_get_cache ⟨cl, [], ph, brk + 1 + 1, eff⟩ 0x1000 0x1000
            false o2 with ⟨_ | parent, mmu1⟩
        · rw [hg] at h2
          exact cnt_ok_congr mmu1 _ rfl h2
        · rw [hg] at h2
          exact cnt_ok_ptp_get_slot _ _ _ (cnt_ok_congr mmu1 _ rfl h2)

theorem cnt_ok_ptp_put (mmu : nvkm_mmu) (force : Bool) (pt : nvkm_mmu_pt) (h : cnt_ok mmu) :
    cnt_ok (nvkm_mmu_ptp_put mmu force pt) := by
  unfold nvkm_mmu_ptp_put
  cases hp : ptp_at mmu pt.ptp with
  | none => exact h
  | some ptp =>
    simp only
    have h1 : cnt_ok (if ptp.free = 0 then { mmu with ptp_list := ptp.self :: mmu.ptp_list }
        else mmu) := by
      split
      · exact cnt_ok_congr mmu _ rfl h
      · exact h
    have h2 := cnt_ok_congr _ (ptp_set (if ptp.free = 0 then
        { mmu with ptp_list := ptp.self :: mmu.ptp_list } else mmu) ptp.self
        { ptp with free := (ptp.free ||| BIT (pt.base >>> ptp.shift)) % 2 ^ 16 }) rfl h1
    apply cnt_ok_congr _ _ rfl
    split
    · exact cnt_ok_congr _ _ rfl (cnt_ok_put_cache _ force ptp.pt h2)
    · exact h2

theorem cnt_ok_put (mmu : nvkm_mmu) (force : Bool) (ppt : Option nvkm_mmu_pt)
    (h : cnt_ok mmu) : cnt_ok (nvkm_mmu_ptc_put mmu force ppt) := by
  unfold nvkm_mmu_ptc_put
  cases ppt with
  | none => exact h
  | some pt =>
    simp only
    split
    · exact cnt_ok_ptp_put mmu force pt h
    · exact cnt_ok_put_cache mmu force pt h

theorem cnt_ok_get (mmu : nvkm_mmu) (size align : Nat) (zero : Bool) (o o2 : Alloc)
    (h : cnt_ok mmu) : cnt_ok (nvkm_mmu_ptc_get mmu size align zero o o2).2 := by
  unfold nvkm_mmu_ptc_get
  split
  · exact cnt_ok_ptp_get mmu align zero o o2 h
  · exact cnt_ok_get_cache mmu size align zero o h

theorem cnt_ok_step (s : Sys) (op : Op) (h : cnt_ok s.mmu) : cnt_ok (s.step op).mmu := by
  cases op with
  | get size align zero o o2 =>
    have hg := cnt_ok_get s.mmu size align zero o o2 h
    simp only [Sys.step]
    rcases hr : nvkm_mmu_ptc_get s.mmu size align zero o o2 with ⟨_ | pt, mmu⟩
    · rw [hr] at hg; exact hg
    · rw [hr] at hg; exact hg
  | put i force =>
    simp only [Sys.step]
    cases s.held.get? i with
    | none => exact h
    | some pt => exact cnt_ok_put s.mmu force (some pt) h

theorem cnt_ok_run (ops : List Op) (s : Sys) (h : cnt_ok s.mmu) : cnt_ok (s.run ops).mmu := by
  induction ops generalizing s with
  | nil => exact h
  | cons op ops ih => exact ih (s.step op) (cnt_ok_step s op h)

/-- C2. Starting from the empty cache built by `nvkm_mmu_ptc_init`, after
every finite sequence of `nvkm_mmu_ptc_get` and `nvkm_mmu_ptc_put` calls in
which each put returns a block obtained by a get and not yet put back, the
free-list of every class holds at most 8 idle blocks. -/
theorem ptc_idle_at_most_8 (brk : Nat) (ops : List Op) :
    ∀ c ∈ ((Sys.init brk).run ops).mmu.ptc_list, c.item.length ≤ 8 := by
  intro c hc
  have h := cnt_ok_run ops (Sys.init brk) (by intro c hc; simp [Sys.init, nvkm_mmu_ptc_init] at hc)
  have := h c hc
  omega

/-- C2 on the calls `ex_ops`: the class they leave holds one idle block. -/
theorem ptc_idle_at_most_8_witness :
    ex_idle_ptc ∈ ((Sys.init 0).run ex_ops).mmu.ptc_list ∧ ex_idle_ptc.item.length ≤ 8 :=
  ⟨by decide, ptc_idle_at_most_8 0 ex_ops ex_idle_ptc (by decide)⟩

/-! ## C3: `nvkm_mmu_ptc_get` with `align >= 0x1000` -/

theorem find_of_nodup {α : Type} (f : α → Nat) (l : List α) (a : Nat) (c : α)
    (hn : (l.map f).Nodup) (hc : c ∈ l) (hf : f c = a) :
    l.find? (fun x => f x == a) = some c := by
  induction l with
  | nil => simp at hc
  | cons x xs ih =>
    rw [List.map_cons, List.nodup_cons] at hn
    rw [List.find?_cons]
    rcases List.mem_cons.mp hc with rfl | hc'
    · have : (f c == a) = true := by simpa using hf
      simp only [this]
    · have hne : f x ≠ a := by
        intro hx
        apply hn.1
        rw [hx, ← hf]
        exact List.mem_map_of_mem f hc'
      have : (f x == a) = false := by simpa using hne
      simp only [this]
      exact ih hn.2 hc'

theorem get_cache_hit (mmu : nvkm_mmu) (size align : Nat) (zero : Bool) (o : Alloc)
    (c : nvkm_mmu_ptc) (pt : nvkm_mmu_pt) (rest : List nvkm_mmu_pt)
    (hf : mmu.ptc_list.find? (fun ptc => ptc.size == size) = some c) (hi : c.item = pt :: rest) :
    nvkm_mmu_ptc_get_cache mmu size align zero o =
      (some pt,
        ptc_set (if zero then
            { mmu with effects := mmu.effects ++ [Effect.fo64 pt.memory 0 0 (size >>> 3)] }
          else mmu) c.self
          { c with item := rest, refs := (c.refs + 2 ^ 32 - 1) % 2 ^ 32 }) := by
  simp only [nvkm_mmu_ptc_get_cache, nvkm_mmu_ptc_find, hf, hi]

theorem get_cache_miss (mmu : nvkm_mmu) (size align : Nat) (zero : Bool) (o : Alloc)
    (c : nvkm_mmu_ptc)
    (hf : mmu.ptc_list.find? (fun ptc => ptc.size == size) = some c) (hi : c.item = []) :
    nvkm_mmu_ptc_get_cache mmu size align zero o =
      nvkm_mmu_ptc_get_new mmu c size align zero o := by
  simp only [nvkm_mmu_ptc_get_cache, nvkm_mmu_ptc_find, hf, hi]

theorem get_cache_absent (mmu : nvkm_mmu) (size align : Nat) (zero : Bool) (o : Alloc)
    (hf : mmu.ptc_list.find? (fun ptc => ptc.size == size) = none) :
    nvkm_mmu_ptc_get_cache mmu size align zero o =
      if o.kmalloc_ptc then
        nvkm_mmu_ptc_get_new
          { mmu with
            ptc_list := { self := mmu.brk, item := [], size := size, refs := 0 } :: mmu.ptc_list,
            brk := mmu.brk + 1 }
          { self := mmu.brk, item := [], size := size, refs := 0 } size align zero o
      else (none, mmu) := by
  simp only [nvkm_mmu_ptc_get_cache, nvkm_mmu_ptc_find, hf]
  cases o.kmalloc_ptc <;> simp

/-- What the allocation of a new block does: the class list is untouched,
and the result is null exactly when one of the two allocations fails. -/
theorem get_new_spec (mmu : nvkm_mmu) (c : nvkm_mmu_ptc) (size align : Nat) (zero : Bool)
    (o : Alloc) :
    (nvkm_mmu_ptc_get_new mmu c size align zero o).2.ptc_list = mmu.ptc_list ∧
    (nvkm_mmu_ptc_get_new mmu c size align zero o).2.ptp_list = mmu.ptp_list ∧
    (nvkm_mmu_ptc_get_new mmu c size align zero o).2.ptp_heap = mmu.ptp_heap ∧
    ((o.kmalloc_pt = false ∨ o.memory_new = none) →
      (nvkm_mmu_ptc_get_new mmu c size align zero o).1 = none ∧
      ∀ m a z, Effect.memory_new m a z ∈ (nvkm_mmu_ptc_get_new mmu c size align zero o).2.effects →
        Effect.memory_new m a z ∈ mmu.effects) ∧
    (∀ addr, o.kmalloc_pt = true → o.memory_new = some addr →
      (nvkm_mmu_ptc_get_new mmu c size align zero o).1 =
        some { self := mmu.brk, ptc := c.self, ptp := 0,
               memory := { handle := mmu.brk + 1, addr := addr, size := size },
               sub := false, base := 0, addr := addr } ∧
      (nvkm_mmu_ptc_get_new mmu c size align zero o).2.effects =
        mmu.effects ++ [Effect.memory_new { handle := mmu.brk + 1, addr := addr, size := size }
          align zero]) := by
  unfold nvkm_mmu_ptc_get_new
  cases hk : o.kmalloc_pt with
  | false => simp
  | true =>
    cases hm : o.memory_new with
    | none => simp
    | some addr => simp

theorem eq_of_nodup_map {α : Type} (f : α → Nat) (l : List α) (c d : α)
    (hn : (l.map f).Nodup) (hc : c ∈ l) (hd : d ∈ l) (h : f d = f c) : d = c := by
  have h1 := find_of_nodup f l (f c) c hn hc rfl
  have h2 := find_of_nodup f l (f c) d hn hd h
  rw [h1] at h2
  exact (Option.some.inj h2).symm

theorem get_new_some (mmu : nvkm_mmu) (c : nvkm_mmu_ptc) (size align : Nat) (zero : Bool)
    (o : Alloc) (pt : nvkm_mmu_pt)
    (h : (nvkm_mmu_ptc_get_new mmu c size align zero o).1 = some pt) :
    pt.base = 0 ∧ pt.sub = false ∧ pt.memory.size = size ∧ pt.ptc = c.self ∧
      pt.self = mmu.brk ∧ pt.memory.handle = mmu.brk + 1 ∧
      (nvkm_mmu_ptc_get_new mmu c size align zero o).2.brk = mmu.brk + 2 ∧
      (nvkm_mmu_ptc_get_new mmu c size align zero o).2.effects =
        mmu.effects ++ [Effect.memory_new pt.memory align zero] := by
  have hs := get_new_spec mmu c size align zero o
  cases hk : o.kmalloc_pt with
  | false =>
    rw [(hs.2.2.2.1 (Or.inl hk)).1] at h
    cases h
  | true =>
    cases hm : o.memory_new with
    | none =>
      rw [(hs.2.2.2.1 (Or.inr hm)).1] at h
      cases h
    | some addr =>
      have h2 := hs.2.2.2.2 addr hk hm
      rw [h2.1] at h
      cases h
      refine ⟨rfl, rfl, rfl, rfl, rfl, rfl, ?_, h2.2⟩
      simp [nvkm_mmu_ptc_get_new, hk, hm]

theorem refs_dec (r : Nat) (h0 : 0 < r) (h1 : r < 2 ^ 32) : (r + 2 ^ 32 - 1) % 2 ^ 32 = r - 1 := by
  have : r + 2 ^ 32 - 1 = (r - 1) + 2 ^ 32 := by omega
  rw [this, Nat.add_mod_right]
  exact Nat.mod_eq_of_lt (by omega)

/-- C3. For `align >= 0x1000` and a class list whose records have pairwise
distinct sizes and addresses, `nvkm_mmu_ptc_get` works on the class whose
size is exactly `size`, adding it (empty, at the head of the class list)
when there is none, so that sizes stay pairwise distinct. If that class has
an idle block, the call returns the head of its free-list, leaves the tail
as the new free-list, lowers `refs` by one, changes no other class and does
not call `nvkm_memory_new`. If the class is absent or its free-list is
empty, every free-list is unchanged: the class list is unchanged when the
class exists, and gains the new empty class at its head when the class is
absent and its record is allocated; when that allocation fails the call
returns null and changes nothing. The call returns null when the allocation
of the block record or of its memory fails (with no memory obtained). When
the class exists or is created and both allocations succeed, the call
returns a block: a new record with new memory at the address obtained, of
`size` bytes, with `base = 0`, `sub = false` and that class as owner, after
one call of `nvkm_memory_new`. -/
theorem nvkm_mmu_ptc_get_spec (mmu : nvkm_mmu) (size align : Nat) (zero : Bool) (o o2 : Alloc)
    (halign : 0x1000 ≤ align)
    (huniq : (mmu.ptc_list.map nvkm_mmu_ptc.size).Nodup)
    (haddr : (mmu.ptc_list.map nvkm_mmu_ptc.self).Nodup) :
    (((nvkm_mmu_ptc_get mmu size align zero o o2).2.ptc_list.map nvkm_mmu_ptc.size).Nodup) ∧
    (∀ c pt rest, c ∈ mmu.ptc_list → c.size = size → c.item = pt :: rest →
        0 < c.refs → c.refs < 2 ^ 32 →
      (nvkm_mmu_ptc_get mmu size align zero o o2).1 = some pt ∧
      ptc_at (nvkm_mmu_ptc_get mmu size align zero o o2).2 c.self =
        some { c with item := rest, refs := c.refs - 1 } ∧
      (∀ a, a ≠ c.self →
        ptc_at (nvkm_mmu_ptc_get mmu size align zero o o2).2 a = ptc_at mmu a) ∧
      (nvkm_mmu_ptc_get mmu size align zero o o2).2.effects =
        mmu.effects ++ (if zero then [Effect.fo64 pt.memory 0 0 (size >>> 3)] else [])) ∧
    ((∀ c ∈ mmu.ptc_list, c.size = size → c.item = []) →
      ((nvkm_mmu_ptc_get mmu size align zero o o2).2.ptc_list = mmu.ptc_list ∨
        (nvkm_mmu_ptc_get mmu size align zero o o2).2.ptc_list =
          { self := mmu.brk, item := [], size := size, refs := 0 } :: mmu.ptc_list) ∧
      ((o.kmalloc_pt = false ∨ o.memory_new = none) →
        (nvkm_mmu_ptc_get mmu size align zero o o2).1 = none ∧
        ∀ m a z,
          Effect.memory_new m a z ∈ (nvkm_mmu_ptc_get mmu size align zero o o2).2.effects →
          Effect.memory_new m a z ∈ mmu.effects) ∧
      (∀ pt, (nvkm_mmu_ptc_get mmu size align zero o o2).1 = some pt →
        pt.base = 0 ∧ pt.sub = false ∧ pt.memory.size = size ∧
        (∃ c ∈ (nvkm_mmu_ptc_get mmu size align zero o o2).2.ptc_list,
          c.self = pt.ptc ∧ c.size = size ∧ c.item = []) ∧
        (nvkm_mmu_ptc_get mmu size align zero o o2).2.effects =
          mmu.effects ++ [Effect.memory_new pt.memory align zero]) ∧
      ((∃ c ∈ mmu.ptc_list, c.size = size) →
        (nvkm_mmu_ptc_get mmu size align zero o o2).2.ptc_list = mmu.ptc_list) ∧
      ((∀ c ∈ mmu.ptc_list, c.size ≠ size) →
        (o.kmalloc_ptc = true →
          (nvkm_mmu_ptc_get mmu size align zero o o2).2.ptc_list =
            { self := mmu.brk, item := [], size := size, refs := 0 } :: mmu.ptc_list) ∧
        (o.kmalloc_ptc = false →
          nvkm_mmu_ptc_get mmu size align zero o o2 = (none, mmu))) ∧
      (((∃ c ∈ mmu.ptc_list, c.size = size) ∨ o.kmalloc_ptc = true) →
        o.kmalloc_pt = true → ∀ addr, o.memory_new = some addr →
        ∃ pt, (nvkm_mmu_ptc_get mmu size align zero o o2).1 = some pt ∧
          pt.addr = addr ∧ pt.memory.addr = addr ∧ mmu.brk ≤ pt.self ∧
          pt.self < pt.memory.handle ∧
          pt.memory.handle < (nvkm_mmu_ptc_get mmu size align zero o o2).2.brk)) := by
  have hget : nvkm_mmu_ptc_get mmu size align zero o o2 =
      nvkm_mmu_ptc_get_cache mmu size align zero o := by
    unfold nvkm_mmu_ptc_get
    rw [if_neg (by omega)]
  rw [hget]
  cases hf : mmu.ptc_list.find? (fun ptc => ptc.size == size) with
  | some c0 =>
    have hc0m : c0 ∈ mmu.ptc_list := List.mem_of_find?_eq_some hf
    have hc0s : c0.size = size := find_self_eq nvkm_mmu_ptc.size _ _ _ hf
    have hsame : ∀ c ∈ mmu.ptc_list, c.size = size → c = c0 := by
      intro c hc hs
      have := find_of_nodup nvkm_mmu_ptc.size mmu.ptc_list size c huniq hc hs
      rw [hf] at this
      exact (Option.some.inj this).symm
    cases hi : c0.item with
    | cons pt0 rest0 =>
      rw [get_cache_hit mmu size align zero o c0 pt0 rest0 hf hi]
      have hl : (if zero then
          { mmu with effects := mmu.effects ++ [Effect.fo64 pt0.memory 0 0 (size >>> 3)] }
          else mmu).ptc_list = mmu.ptc_list := by split <;> rfl
      have hat : ∀ a, ptc_at (if zero then
          { mmu with effects := mmu.effects ++ [Effect.fo64 pt0.memory 0 0 (size >>> 3)] }
          else mmu) a = ptc_at mmu a := by
        intro a; unfold ptc_at; rw [hl]
      refine ⟨?_, ?_, ?_⟩
      · have : (ptc_set (if zero then
            { mmu with effects := mmu.effects ++ [Effect.fo64 pt0.memory 0 0 (size >>> 3)] }
            else mmu) c0.self
            { c0 with item := rest0, refs := (c0.refs + 2 ^ 32 - 1) % 2 ^ 32 }).ptc_list.map
              nvkm_mmu_ptc.size = mmu.ptc_list.map nvkm_mmu_ptc.size := by
          simp only [ptc_set, hl, List.map_map]
          apply List.map_congr_left
          intro d hd
          simp only [Function.comp]
          by_cases hda : (d.self == c0.self) = true
          · rw [if_pos hda]
            have hdc : d = c0 :=
              eq_of_nodup_map nvkm_mmu_ptc.self mmu.ptc_list c0 d haddr hc0m hd (by simpa using hda)
            rw [hdc]
          · rw [if_neg hda]
        rw [this]; exact huniq
      · intro c pt rest hc hs hci hr0 hr1
        have hcc := hsame c hc hs
        subst hcc
        rw [hi] at hci
        obtain ⟨rfl, rfl⟩ := List.cons.inj hci
        have hfind : ptc_at mmu c.self = some c :=
          find_of_nodup nvkm_mmu_ptc.self mmu.ptc_list c.self c haddr hc rfl
        refine ⟨rfl, ?_, ?_, ?_⟩
        · show ptc_at (ptc_set _ c.self _) c.self = _
          rw [refs_dec c.refs hr0 hr1]
          exact ptc_at_set_same _ c.self c _ (by rw [hat]; exact hfind) rfl
        · intro a ha
          show ptc_at (ptc_set _ c.self _) a = _
          rw [← hat a]
          exact ptc_at_set_other _ c.self a _ rfl ha
        · cases zero <;> simp [ptc_set]
      · intro hall
        have := hall c0 hc0m hc0s
        rw [hi] at this
        cases this
    | nil =>
      rw [get_cache_miss mmu size align zero o c0 hf hi]
      have hs := get_new_spec mmu c0 size align zero o
      refine ⟨by rw [hs.1]; exact huniq, ?_, ?_⟩
      · intro c pt rest hc hcs hci
        have hcc := hsame c hc hcs
        subst hcc
        rw [hi] at hci
        cases hci
      · intro _
        refine ⟨Or.inl hs.1, hs.2.2.2.1, ?_, fun _ => hs.1,
          fun hno => absurd hc0s (hno c0 hc0m), ?_⟩
        · intro pt hpt
          have hn := get_new_some mmu c0 size align zero o pt hpt
          refine ⟨hn.1, hn.2.1, hn.2.2.1,
            ⟨c0, by rw [hs.1]; exact hc0m, hn.2.2.2.1.symm, hc0s, hi⟩, hn.2.2.2.2.2.2.2⟩
        · intro _ hk addr hm
          have h2 := (hs.2.2.2.2 addr hk hm).1
          have hn := get_new_some mmu c0 size align zero o _ h2
          refine ⟨_, h2, rfl, rfl, le_refl _, Nat.lt_succ_self _, ?_⟩
          rw [hn.2.2.2.2.2.2.1]
          exact Nat.lt_succ_self _
  | none =>
    have hnone : ∀ c ∈ mmu.ptc_list, c.size ≠ size := by
      intro c hc hs
      have := List.find?_eq_none.mp hf c hc
      simp [hs] at this
    rw [get_cache_absent mmu size align zero o hf]
    cases hk : o.kmalloc_ptc with
    | false =>
      rw [if_neg Bool.false_ne_true]
      refine ⟨huniq, ?_, ?_⟩
      · intro c pt rest hc hcs
        exact absurd hcs (hnone c hc)
      · intro _
        refine ⟨Or.inl rfl, fun _ => ⟨rfl, fun m a z h => h⟩, ?_,
          fun ⟨c, hc, hcs⟩ => absurd hcs (hnone c hc),
          fun _ => ⟨fun ht => Bool.noConfusion ht, fun _ => rfl⟩, ?_⟩
        · intro pt hpt
          cases hpt
        · intro hor
          rcases hor with ⟨c, hc, hcs⟩ | ht
          · exact absurd hcs (hnone c hc)
          · exact Bool.noConfusion ht
    | true =>
      rw [if_pos rfl]
      have hs := get_new_spec
        { mmu with
          ptc_list := { self := mmu.brk, item := [], size := size, refs := 0 } :: mmu.ptc_list,
          brk := mmu.brk + 1 }
        { self := mmu.brk, item := [], size := size, refs := 0 } size align zero o
      refine ⟨?_, ?_, ?_⟩
      · rw [hs.1, List.map_cons, List.nodup_cons]
        refine ⟨?_, huniq⟩
        intro hmem
        obtain ⟨d, hd, hds⟩ := List.mem_map.mp hmem
        exact hnone d hd hds
      · intro c pt rest hc hcs
        exact absurd hcs (hnone c hc)
      · intro _
        refine ⟨Or.inr hs.1, hs.2.2.2.1, ?_,
          fun ⟨c, hc, hcs⟩ => absurd hcs (hnone c hc),
          fun _ => ⟨fun _ => hs.1, fun hf2 => Bool.noConfusion hf2⟩, ?_⟩
        · intro pt hpt
          have hn := get_new_some _ _ size align zero o pt hpt
          refine ⟨hn.1, hn.2.1, hn.2.2.1,
            ⟨{ self := mmu.brk, item := [], size := size, refs := 0 }, ?_, hn.2.2.2.1.symm, rfl,
              rfl⟩,
            hn.2.2.2.2.2.2.2⟩
          rw [hs.1]
          exact List.mem_cons_self _ _
        · intro _ hk2 addr hm
          have h2 := (hs.2.2.2.2 addr hk2 hm).1
          have hn := get_new_some _ _ size align zero o _ h2
          refine ⟨_, h2, rfl, rfl, Nat.le_succ _, Nat.lt_succ_self _, ?_⟩
          rw [hn.2.2.2.2.2.2.1]
          exact Nat.lt_succ_self _

/-- C3 on the cache `ex_mmu_idle`, whose class of 0x1000 bytes holds one idle
block: the block is returned and the free-list becomes empty. On the cache
`ex_mmu`, whose class of 0x1000 bytes is empty: a new block is returned, with
its memory at the address obtained. On the cache `ex_mmu` for blocks of
0x2000 bytes, for which it has no class: the class is created. -/
theorem nvkm_mmu_ptc_get_spec_witness :
    (nvkm_mmu_ptc_get ex_mmu_idle 0x1000 0x1000 false ex_alloc ex_alloc).1 = some ex_idle_pt ∧
    ptc_at (nvkm_mmu_ptc_get ex_mmu_idle 0x1000 0x1000 false ex_alloc ex_alloc).2
        ex_idle_ptc.self = some { ex_idle_ptc with item := [], refs := ex_idle_ptc.refs - 1 } ∧
    (∃ pt, (nvkm_mmu_ptc_get ex_mmu 0x1000 0x1000 false ex_alloc ex_alloc).1 = some pt ∧
      pt.addr = 0x5000 ∧ pt.memory.addr = 0x5000 ∧ ex_mmu.brk ≤ pt.self ∧
      pt.self < pt.memory.handle ∧
      pt.memory.handle < (nvkm_mmu_ptc_get ex_mmu 0x1000 0x1000 false ex_alloc ex_alloc).2.brk) ∧
    (nvkm_mmu_ptc_get ex_mmu 0x2000 0x1000 false ex_alloc ex_alloc).2.ptc_list =
      { self := ex_mmu.brk, item := [], size := 0x2000, refs := 0 } :: ex_mmu.ptc_list :=
  ⟨((nvkm_mmu_ptc_get_spec ex_mmu_idle 0x1000 0x1000 false ex_alloc ex_alloc (by decide)
      (by decide) (by decide)).2.1 ex_idle_ptc ex_idle_pt [] (by decide) rfl rfl (by decide)
      (by decide)).1,
    ((nvkm_mmu_ptc_get_spec ex_mmu_idle 0x1000 0x1000 false ex_alloc ex_alloc (by decide)
      (by decide) (by decide)).2.1 ex_idle_ptc ex_idle_pt [] (by decide) rfl rfl (by decide)
      (by decide)).2.1,
    ((nvkm_mmu_ptc_get_spec ex_mmu 0x1000 0x1000 false ex_alloc ex_alloc (by decide)
      (by decide) (by decide)).2.2 (by decide)).2.2.2.2.2
      (Or.inl ⟨ex_ptc, by decide, rfl⟩) rfl 0x5000 rfl,
    ((((nvkm_mmu_ptc_get_spec ex_mmu 0x2000 0x1000 false ex_alloc ex_alloc (by decide)
      (by decide) (by decide)).2.2 (by decide)).2.2.2.2.1) (by decide)).1 rfl⟩

/-! ## C4: no double ownership -/

theorem map_upd_split {α : Type} (f : α → Nat) (l : List α) (c v : α)
    (hn : (l.map f).Nodup) (hc : c ∈ l) :
    ∃ l1 l2, l = l1 ++ c :: l2 ∧
      l.map (fun x => if f x == f c then v else x) = l1 ++ v :: l2 := by
  induction l with
  | nil => simp at hc
  | cons x xs ih =>
    rw [List.map_cons, List.nodup_cons] at hn
    rcases List.mem_cons.mp hc with rfl | hc'
    · refine ⟨[], xs, rfl, ?_⟩
      rw [List.map_cons]
      have h1 : (f c == f c) = true := by simp
      rw [if_pos h1]
      simp only [List.nil_append, List.cons.injEq, true_and]
      rw [List.map_congr_left, List.map_id]
      intro d hd
      have : f d ≠ f c := fun h => hn.1 (h ▸ List.mem_map_of_mem f hd)
      have h2 : (f d == f c) = false := by simpa using this
      simp [h2]
    · obtain ⟨l1, l2, h1, h2⟩ := ih hn.2 hc'
      refine ⟨x :: l1, l2, by rw [h1]; rfl, ?_⟩
      rw [List.map_cons, h2]
      have : f x ≠ f c := fun h => hn.1 (h ▸ List.mem_map_of_mem f hc')
      have h3 : (f x == f c) = false := by simpa using this
      simp [h3]

theorem ptc_set_split (mmu : nvkm_mmu) (a : Nat) (c v : nvkm_mmu_ptc)
    (hn : (mmu.ptc_list.map nvkm_mmu_ptc.self).Nodup) (hc : ptc_at mmu a = some c) :
    ∃ l1 l2, mmu.ptc_list = l1 ++ c :: l2 ∧ (ptc_set mmu a v).ptc_list = l1 ++ v :: l2 := by
  have hs := ptc_at_self mmu a c hc
  subst hs
  exact map_upd_split nvkm_mmu_ptc.self mmu.ptc_list c v hn (ptc_at_mem mmu _ c hc)

theorem ptp_at_self (mmu : nvkm_mmu) (a : Nat) (p : nvkm_mmu_ptp)
    (h : ptp_at mmu a = some p) : p.self = a :=
  find_self_eq nvkm_mmu_ptp.self mmu.ptp_heap a p h

theorem ptp_at_mem (mmu : nvkm_mmu) (a : Nat) (p : nvkm_mmu_ptp) (h : ptp_at mmu a = some p) :
    p ∈ mmu.ptp_heap := List.mem_of_find?_eq_some h

theorem ptp_set_split (mmu : nvkm_mmu) (p v : nvkm_mmu_ptp)
    (hn : (mmu.ptp_heap.map nvkm_mmu_ptp.self).Nodup) (hp : p ∈ mmu.ptp_heap) :
    ∃ l1 l2, mmu.ptp_heap = l1 ++ p :: l2 ∧ (ptp_set mmu p.self v).ptp_heap = l1 ++ v :: l2 :=
  map_upd_split nvkm_mmu_ptp.self mmu.ptp_heap p v hn hp

@[simp] theorem ptc_set_ptp_heap (mmu : nvkm_mmu) (a : Nat) (v : nvkm_mmu_ptc) :
    (ptc_set mmu a v).ptp_heap = mmu.ptp_heap := rfl

@[simp] theorem ptc_set_ptp_list (mmu : nvkm_mmu) (a : Nat) (v : nvkm_mmu_ptc) :
    (ptc_set mmu a v).ptp_list = mmu.ptp_list := rfl

@[simp] theorem ptc_set_brk (mmu : nvkm_mmu) (a : Nat) (v : nvkm_mmu_ptc) :
    (ptc_set mmu a v).brk = mmu.brk := rfl

@[simp] theorem ptc_set_effects (mmu : nvkm_mmu) (a : Nat) (v : nvkm_mmu_ptc) :
    (ptc_set mmu a v).effects = mmu.effects := rfl

@[simp] theorem ptp_set_ptc_list (mmu : nvkm_mmu) (a : Nat) (v : nvkm_mmu_ptp) :
    (ptp_set mmu a v).ptc_list = mmu.ptc_list := rfl

@[simp] theorem ptp_set_ptp_list (mmu : nvkm_mmu) (a : Nat) (v : nvkm_mmu_ptp) :
    (ptp_set mmu a v).ptp_list = mmu.ptp_list := rfl

@[simp] theorem ptp_set_brk (mmu : nvkm_mmu) (a : Nat) (v : nvkm_mmu_ptp) :
    (ptp_set mmu a v).brk = mmu.brk := rfl

@[simp] theorem ptp_set_effects (mmu : nvkm_mmu) (a : Nat) (v : nvkm_mmu_ptp) :
    (ptp_set mmu a v).effects = mmu.effects := rfl

theorem ids_ok_mono (l1 l2 : List Nat) (t b2 : Nat) (h : ids_ok l1 t) (hb : t ≤ b2)
    (hold : ∀ a, a < t → l2.count a ≤ l1.count a)
    (hnew : ∀ a, t ≤ a → l2.count a ≤ 1 ∧ (0 < l2.count a → a < b2)) : ids_ok l2 b2 := by
  constructor
  · rw [List.nodup_iff_count_le_one]
    intro a
    by_cases ha : a < t
    · exact le_trans (hold a ha) (List.nodup_iff_count_le_one.mp h.1 a)
    · exact (hnew a (by omega)).1
  · intro a ham
    have hpos : 0 < l2.count a := List.count_pos_iff.mpr ham
    by_cases ha : a < t
    · omega
    · exact (hnew a (by omega)).2 hpos

theorem ids_ok_sub (l1 l2 : List Nat) (b1 b2 : Nat) (h : ids_ok l1 b1) (hb : b1 ≤ b2)
    (hc : ∀ a, l2.count a ≤ l1.count a) : ids_ok l2 b2 := by
  apply ids_ok_mono l1 l2 b1 b2 h hb (fun a _ => hc a)
  intro a ha
  have h0 : l1.count a = 0 := by
    rw [List.count_eq_zero]
    intro hm
    have := h.2 a hm
    omega
  have := hc a
  constructor <;> omega

theorem ids_ok_count_zero (l : List Nat) (b a : Nat) (h : ids_ok l b) (ha : b ≤ a) :
    l.count a = 0 := by
  rw [List.count_eq_zero]
  intro hm
  have := h.2 a hm
  omega

theorem blocks_ok_congr (ext : List Nat) (m1 m2 : nvkm_mmu) (hc : m2.ptc_list = m1.ptc_list)
    (hh : m2.ptp_heap = m1.ptp_heap) (hb : m1.brk ≤ m2.brk) (h : blocks_ok ext m1) :
    blocks_ok ext m2 := by
  have hi : inner m2 = inner m1 := by simp only [inner, cached, parents, hc, hh]
  have h1 : cls_ids m2 = cls_ids m1 := by simp only [cls_ids, hc]
  have h2 : pool_ids m2 = pool_ids m1 := by simp only [pool_ids, hh]
  exact
    { cls := by rw [h1]; exact ids_ok_sub _ _ _ _ h.cls hb (fun _ => le_refl _)
      pool := by rw [h2]; exact ids_ok_sub _ _ _ _ h.pool hb (fun _ => le_refl _)
      blocks := by rw [hi]; exact ids_ok_sub _ _ _ _ h.blocks hb (fun _ => le_refl _) }

/-- Dropping a block held outside keeps the discipline. -/
theorem blocks_ok_drop (x : Nat) (ext : List Nat) (mmu : nvkm_mmu)
    (h : blocks_ok (x :: ext) mmu) : blocks_ok ext mmu :=
  { cls := h.cls
    pool := h.pool
    blocks := ids_ok_sub _ _ _ _ h.blocks (le_refl _) (by
      intro a
      simp only [List.cons_append, List.count_cons]
      omega) }

theorem blocks_ok_perm (ext ext' : List Nat) (mmu : nvkm_mmu) (hp : ext.Perm ext')
    (h : blocks_ok ext mmu) : blocks_ok ext' mmu :=
  { cls := h.cls
    pool := h.pool
    blocks := ids_ok_sub _ _ _ _ h.blocks (le_refl _) (by
      intro a
      simp only [List.count_append, hp.count_eq a]
      omega) }

theorem blocks_ok_put_cache (ext : List Nat) (mmu : nvkm_mmu) (force : Bool) (pt : nvkm_mmu_pt)
    (h : blocks_ok (pt.self :: ext) mmu) :
    blocks_ok ext (nvkm_mmu_ptc_put_cache mmu force pt) := by
  cases hc : ptc_at mmu pt.ptc with
  | none =>
    have : nvkm_mmu_ptc_put_cache mmu force pt = mmu := by simp [nvkm_mmu_ptc_put_cache, hc]
    rw [this]
    exact blocks_ok_drop _ _ _ h
  | some c =>
    by_cases hcond : force = false ∧ c.refs < 8
    · rw [put_cache_cached mmu force pt c hc hcond.1 hcond.2]
      obtain ⟨l1, l2, h1, h2⟩ := ptc_set_split mmu pt.ptc c
        { c with item := c.item ++ [pt], refs := c.refs + 1 } h.cls.1 hc
      have hcls : cls_ids (ptc_set mmu pt.ptc
          { c with item := c.item ++ [pt], refs := c.refs + 1 }) = cls_ids mmu := by
        simp only [cls_ids, h1, h2, List.map_append, List.map_cons]
      refine ⟨by rw [hcls]; exact h.cls, h.pool, ?_⟩
      apply ids_ok_sub _ _ _ _ h.blocks (le_refl _)
      intro a
      simp only [inner, cached, parents, h1, h2, ptc_set_ptp_heap, List.flatMap_append,
        List.flatMap_cons, List.map_append, List.count_append, List.cons_append,
        List.count_cons, List.map_cons, List.map_nil, List.count_nil]
      omega
    · rw [put_cache_freed mmu force pt c hc hcond]
      exact blocks_ok_congr _ mmu _ rfl rfl (le_refl _) (blocks_ok_drop _ _ _ h)

theorem find_mem (mmu : nvkm_mmu) (size : Nat) (k : Bool) (c : nvkm_mmu_ptc)
    (h : (nvkm_mmu_ptc_find mmu size k).1 = some c) :
    c ∈ (nvkm_mmu_ptc_find mmu size k).2.ptc_list ∧ c.size = size := by
  unfold nvkm_mmu_ptc_find at h ⊢
  cases hf : mmu.ptc_list.find? (fun ptc => ptc.size == size) with
  | some c0 =>
    rw [hf] at h
    simp only [Option.some.injEq] at h
    subst h
    exact ⟨List.mem_of_find?_eq_some hf, find_self_eq nvkm_mmu_ptc.size _ _ _ hf⟩
  | none =>
    rw [hf] at h
    cases k with
    | false => simp at h
    | true =>
      simp only [if_true, Option.some.injEq] at h
      subst h
      exact ⟨List.mem_cons_self _ _, rfl⟩

theorem find_frame (mmu : nvkm_mmu) (size : Nat) (k : Bool) :
    (nvkm_mmu_ptc_find mmu size k).2.ptp_heap = mmu.ptp_heap ∧
    (nvkm_mmu_ptc_find mmu size k).2.ptp_list = mmu.ptp_list ∧
    (nvkm_mmu_ptc_find mmu size k).2.effects = mmu.effects ∧
    mmu.brk ≤ (nvkm_mmu_ptc_find mmu size k).2.brk ∧
    cached (nvkm_mmu_ptc_find mmu size k).2 = cached mmu := by
  unfold nvkm_mmu_ptc_find
  cases mmu.ptc_list.find? (fun ptc => ptc.size == size) with
  | some c0 => exact ⟨rfl, rfl, rfl, le_refl _, rfl⟩
  | none =>
    cases k with
    | false => exact ⟨rfl, rfl, rfl, le_refl _, rfl⟩
    | true => exact ⟨rfl, rfl, rfl, Nat.le_succ _, rfl⟩

theorem blocks_ok_find (ext : List Nat) (mmu : nvkm_mmu) (size : Nat) (k : Bool)
    (h : blocks_ok ext mmu) : blocks_ok ext (nvkm_mmu_ptc_find mmu size k).2 := by
  unfold nvkm_mmu_ptc_find
  cases mmu.ptc_list.find? (fun ptc => ptc.size == size) with
  | some c0 => exact h
  | none =>
    cases k with
    | false => exact h
    | true =>
      simp only [if_true]
      refine ⟨?_, ids_ok_sub _ _ _ _ h.pool (Nat.le_succ _) (fun _ => le_refl _), ?_⟩
      · apply ids_ok_mono _ _ mmu.brk _ h.cls (Nat.le_succ _)
        · intro a ha
          simp only [cls_ids, List.map_cons, List.count_cons]
          have : ¬ (mmu.brk == a) = true := by simp; omega
          rw [if_neg this]
          omega
        · intro a ha
          have h0 := ids_ok_count_zero _ _ a h.cls ha
          simp only [cls_ids] at h0
          simp only [cls_ids, List.map_cons, List.count_cons, h0]
          by_cases hba : mmu.brk = a
          · subst hba; simp
          · have : ¬ (mmu.brk == a) = true := by simpa using hba
            simp [this]
      · exact ids_ok_sub _ _ _ _ h.blocks (Nat.le_succ _) (fun _ => le_refl _)

theorem get_new_frame (mmu : nvkm_mmu) (c : nvkm_mmu_ptc) (size align : Nat) (zero : Bool)
    (o : Alloc) :
    (nvkm_mmu_ptc_get_new mmu c size align zero o).2.ptc_list = mmu.ptc_list ∧
    (nvkm_mmu_ptc_get_new mmu c size align zero o).2.ptp_list = mmu.ptp_list ∧
    (nvkm_mmu_ptc_get_new mmu c size align zero o).2.ptp_heap = mmu.ptp_heap ∧
    mmu.brk ≤ (nvkm_mmu_ptc_get_new mmu c size align zero o).2.brk := by
  unfold nvkm_mmu_ptc_get_new
  cases o.kmalloc_pt with
  | false => exact ⟨rfl, rfl, rfl, le_refl _⟩
  | true =>
    cases o.memory_new with
    | none => exact ⟨rfl, rfl, rfl, Nat.le_succ _⟩
    | some addr => exact ⟨rfl, rfl, rfl, Nat.le_add_right _ _⟩

/-- A block record allocated at `brk` is new to the cache. -/
theorem blocks_ok_fresh (ext : List Nat) (m1 m2 : nvkm_mmu) (h : blocks_ok ext m1)
    (hc : m2.ptc_list = m1.ptc_list) (hh : m2.ptp_heap = m1.ptp_heap) (hb : m1.brk < m2.brk) :
    blocks_ok (m1.brk :: ext) m2 := by
  have hi : inner m2 = inner m1 := by simp only [inner, cached, parents, hc, hh]
  have h1 : cls_ids m2 = cls_ids m1 := by simp only [cls_ids, hc]
  have h2 : pool_ids m2 = pool_ids m1 := by simp only [pool_ids, hh]
  refine ⟨by rw [h1]; exact ids_ok_sub _ _ _ _ h.cls (Nat.le_of_lt hb) (fun _ => le_refl _),
    by rw [h2]; exact ids_ok_sub _ _ _ _ h.pool (Nat.le_of_lt hb) (fun _ => le_refl _), ?_⟩
  rw [hi]
  apply ids_ok_mono _ _ m1.brk _ h.blocks (Nat.le_of_lt hb)
  · intro a ha
    have : ¬ (m1.brk == a) = true := by simp; omega
    simp only [List.cons_append, List.count_cons]
    rw [if_neg this]
    omega
  · intro a ha
    have h0 := ids_ok_count_zero _ _ a h.blocks ha
    simp only [List.cons_append, List.count_cons, h0]
    by_cases hba : m1.brk = a
    · subst hba; simp [hb]
    · have : ¬ (m1.brk == a) = true := by simpa using hba
      simp [this]

theorem blocks_ok_get_new (ext : List Nat) (mmu : nvkm_mmu) (c : nvkm_mmu_ptc)
    (size align : Nat) (zero : Bool) (o : Alloc) (h : blocks_ok ext mmu) :
    ((nvkm_mmu_ptc_get_new mmu c size align zero o).1 = none →
      blocks_ok ext (nvkm_mmu_ptc_get_new mmu c size align zero o).2) ∧
    (∀ pt, (nvkm_mmu_ptc_get_new mmu c size align zero o).1 = some pt →
      blocks_ok (pt.self :: ext) (nvkm_mmu_ptc_get_new mmu c size align zero o).2) := by
  have hf := get_new_frame mmu c size align zero o
  constructor
  · intro _
    exact blocks_ok_congr ext mmu _ hf.1 hf.2.2.1 hf.2.2.2 h
  · intro pt hpt
    have hn := get_new_some mmu c size align zero o pt hpt
    rw [hn.2.2.2.2.1]
    apply blocks_ok_fresh ext mmu _ h hf.1 hf.2.2.1
    rw [hn.2.2.2.2.2.2.1]
    omega

theorem blocks_ok_get_cache (ext : List Nat) (mmu : nvkm_mmu) (size align : Nat) (zero : Bool)
    (o : Alloc) (h : blocks_ok ext mmu) :
    ((nvkm_mmu_ptc_get_cache mmu size align zero o).1 = none →
      blocks_ok ext (nvkm_mmu_ptc_get_cache mmu size align zero o).2) ∧
    (∀ pt, (nvkm_mmu_ptc_get_cache mmu size align zero o).1 = some pt →
      blocks_ok (pt.self :: ext) (nvkm_mmu_ptc_get_cache mmu size align zero o).2) := by
  have hfind := blocks_ok_find ext mmu size o.kmalloc_ptc h
  have hmem := find_mem mmu size o.kmalloc_ptc
  unfold nvkm_mmu_ptc_get_cache
  rcases hf : nvkm_mmu_ptc_find mmu size o.kmalloc_ptc with ⟨_ | c, mmu1⟩
  · rw [hf] at hfind
    exact ⟨fun _ => hfind, fun pt hpt => by simp at hpt⟩
  · rw [hf] at hfind hmem
    have hcm := (hmem c rfl).1
    simp only at hcm hfind ⊢
    cases hi : c.item with
    | nil => exact blocks_ok_get_new ext mmu1 c size align zero o hfind
    | cons pt0 rest =>
      simp only
      refine ⟨fun hn => by simp at hn, ?_⟩
      intro pt hpt
      simp only [Option.some.injEq] at hpt
      subst hpt
      have hat : ptc_at mmu1 c.self = some c :=
        find_of_nodup nvkm_mmu_ptc.self mmu1.ptc_list c.self c hfind.cls.1 hcm rfl
      have key : blocks_ok (pt0.self :: ext)
          (ptc_set mmu1 c.self { c with item := rest, refs := (c.refs + 2 ^ 32 - 1) % 2 ^ 32 }) := by
        obtain ⟨l1, l2, h1, h2⟩ := ptc_set_split mmu1 c.self c
          { c with item := rest, refs := (c.refs + 2 ^ 32 - 1) % 2 ^ 32 } hfind.cls.1 hat
        have hcls : cls_ids (ptc_set mmu1 c.self
            { c with item := rest, refs := (c.refs + 2 ^ 32 - 1) % 2 ^ 32 }) = cls_ids mmu1 := by
          simp only [cls_ids, h1, h2, List.map_append, List.map_cons]
        refine ⟨by rw [hcls]; exact hfind.cls, hfind.pool, ?_⟩
        apply ids_ok_sub _ _ _ _ hfind.blocks (le_refl _)
        intro a
        simp only [inner, cached, parents, h1, h2, hi, ptc_set_ptp_heap, List.flatMap_append,
          List.flatMap_cons, List.map_append, List.count_append, List.cons_append,
          List.count_cons, List.map_cons, List.map_nil, List.count_nil]
        omega
      cases zero with
      | false => exact key
      | true => exact blocks_ok_congr _ (ptc_set mmu1 c.self _) _ rfl rfl (le_refl _) key

theorem get_cache_frame (mmu : nvkm_mmu) (size align : Nat) (zero : Bool) (o : Alloc) :
    (nvkm_mmu_ptc_get_cache mmu size align zero o).2.ptp_heap = mmu.ptp_heap ∧
    (nvkm_mmu_ptc_get_cache mmu size align zero o).2.ptp_list = mmu.ptp_list ∧
    mmu.brk ≤ (nvkm_mmu_ptc_get_cache mmu size align zero o).2.brk := by
  have hff := find_frame mmu size o.kmalloc_ptc
  unfold nvkm_mmu_ptc_get_cache
  rcases hf : nvkm_mmu_ptc_find mmu size o.kmalloc_ptc with ⟨_ | c, mmu1⟩
  · rw [hf] at hff
    exact ⟨hff.1, hff.2.1, hff.2.2.2.1⟩
  · rw [hf] at hff
    simp only at hff ⊢
    cases hi : c.item with
    | nil =>
      have hn := get_new_frame mmu1 c size align zero o
      exact ⟨hn.2.2.1.trans hff.1, hn.2.1.trans hff.2.1, le_trans hff.2.2.2.1 hn.2.2.2⟩
    | cons pt0 rest =>
      cases zero with
      | false => exact ⟨hff.1, hff.2.1, hff.2.2.2.1⟩
      | true => exact ⟨hff.1, hff.2.1, hff.2.2.2.1⟩

theorem put_cache_frame (mmu : nvkm_mmu) (force : Bool) (pt : nvkm_mmu_pt) :
    (nvkm_mmu_ptc_put_cache mmu force pt).ptp_heap = mmu.ptp_heap ∧
    (nvkm_mmu_ptc_put_cache mmu force pt).ptp_list = mmu.ptp_list ∧
    (nvkm_mmu_ptc_put_cache mmu force pt).brk = mmu.brk := by
  unfold nvkm_mmu_ptc_put_cache
  cases ptc_at mmu pt.ptc with
  | none => exact ⟨rfl, rfl, rfl⟩
  | some c =>
    simp only
    split <;> exact ⟨rfl, rfl, rfl⟩

theorem put_cache_ptc_list_congr (m1 m2 : nvkm_mmu) (force : Bool) (pt : nvkm_mmu_pt)
    (h : m1.ptc_list = m2.ptc_list) :
    (nvkm_mmu_ptc_put_cache m1 force pt).ptc_list =
      (nvkm_mmu_ptc_put_cache m2 force pt).ptc_list := by
  unfold nvkm_mmu_ptc_put_cache
  have hat : ptc_at m1 pt.ptc = ptc_at m2 pt.ptc := by unfold ptc_at; rw [h]
  rw [hat]
  cases ptc_at m2 pt.ptc with
  | none => exact h
  | some c =>
    simp only
    split
    · simp only [ptc_set, h]
    · exact h

theorem filter_split {α : Type} (f : α → Nat) (l1 l2 : List α) (v : α)
    (hn : ((l1 ++ v :: l2).map f).Nodup) :
    (l1 ++ v :: l2).filter (fun x => f x != f v) = l1 ++ l2 := by
  have hne : ∀ x ∈ l1 ++ l2, f x ≠ f v := by
    intro x hx hxv
    rw [List.map_append, List.map_cons] at hn
    have hmid := List.nodup_middle.mp hn
    rw [List.nodup_cons] at hmid
    apply hmid.1
    rw [← List.map_append, ← hxv]
    exact List.mem_map_of_mem f hx
  rw [List.filter_append, List.filter_cons]
  have h1 : (f v != f v) = false := by simp
  rw [if_neg (by simp [h1])]
  rw [List.filter_eq_self.mpr, List.filter_eq_self.mpr]
  · intro x hx
    simpa using hne x (List.mem_append_right _ hx)
  · intro x hx
    simpa using hne x (List.mem_append_left _ hx)

theorem blocks_ok_ptp_set (ext : List Nat) (mmu : nvkm_mmu) (p v : nvkm_mmu_ptp)
    (h : blocks_ok ext mmu) (hp : p ∈ mmu.ptp_heap) (hs : v.self = p.self) (hpt : v.pt = p.pt) :
    blocks_ok ext (ptp_set mmu p.self v) := by
  obtain ⟨l1, l2, h1, h2⟩ := ptp_set_split mmu p v h.pool.1 hp
  have hpool : pool_ids (ptp_set mmu p.self v) = pool_ids mmu := by
    simp only [pool_ids, h1, h2, List.map_append, List.map_cons, hs]
  have hin : inner (ptp_set mmu p.self v) = inner mmu := by
    simp only [inner, cached, parents, h1, h2, ptp_set_ptc_list, List.map_append, List.map_cons,
      hpt]
  exact ⟨h.cls, by rw [hpool]; exact h.pool, by rw [hin]; exact h.blocks⟩

theorem ptp_get_slot_frame (mmu : nvkm_mmu) (self : Nat) (ptp : nvkm_mmu_ptp) :
    (nvkm_mmu_ptp_get_slot mmu self ptp).2.ptc_list = mmu.ptc_list ∧
    (nvkm_mmu_ptp_get_slot mmu self ptp).2.ptp_heap =
      (ptp_set mmu ptp.self
        { ptp with free := (ptp.free &&& ((2 ^ 64 - 1) ^^^ BIT (__ffs ptp.free))) % 2 ^ 16 }).ptp_heap ∧
    (nvkm_mmu_ptp_get_slot mmu self ptp).2.brk = mmu.brk ∧
    (nvkm_mmu_ptp_get_slot mmu self ptp).2.effects = mmu.effects ∧
    ∃ pt, (nvkm_mmu_ptp_get_slot mmu self ptp).1 = some pt ∧ pt.self = self ∧ pt.sub = true ∧
      pt.ptp = ptp.self ∧ pt.base = __ffs ptp.free <<< ptp.shift := by
  unfold nvkm_mmu_ptp_get_slot
  simp only
  refine ⟨?_, ?_, ?_, ?_, ⟨_, rfl, rfl, rfl, rfl, rfl⟩⟩ <;> split <;> rfl

theorem blocks_ok_ptp_get_slot (ext : List Nat) (mmu : nvkm_mmu) (self : Nat)
    (ptp : nvkm_mmu_ptp) (h : blocks_ok ext mmu) (hp : ptp ∈ mmu.ptp_heap) :
    blocks_ok ext (nvkm_mmu_ptp_get_slot mmu self ptp).2 := by
  have hf := ptp_get_slot_frame mmu self ptp
  have h1 := blocks_ok_ptp_set ext mmu ptp
    { ptp with free := (ptp.free &&& ((2 ^ 64 - 1) ^^^ BIT (__ffs ptp.free))) % 2 ^ 16 }
    h hp rfl rfl
  exact blocks_ok_congr ext _ _ (hf.1.trans (ptp_set_ptc_list _ _ _).symm) hf.2.1
    (by rw [hf.2.2.1]; exact le_refl _) h1

/-- Registering a new pool whose record sits at `pself` and whose parent
block `parent` was held outside the cache. -/
theorem blocks_ok_new_pool (ext : List Nat) (mmu : nvkm_mmu) (ptp : nvkm_mmu_ptp) (t : Nat)
    (h : blocks_ok (ptp.pt.self :: ext) mmu) (hpool : ids_ok (pool_ids mmu) t)
    (ht : t ≤ ptp.self) (hlt : ptp.self < mmu.brk) (l : List Nat) :
    blocks_ok ext { mmu with ptp_list := l, ptp_heap := ptp :: mmu.ptp_heap } := by
  refine ⟨h.cls, ?_, ?_⟩
  · apply ids_ok_mono _ _ t _ hpool (by show t ≤ mmu.brk; omega)
    · intro a ha
      have : ¬ (ptp.self == a) = true := by simp; omega
      simp only [pool_ids, List.map_cons, List.count_cons]
      rw [if_neg this]
      omega
    · intro a ha
      have h0 := ids_ok_count_zero _ _ a hpool ha
      simp only [pool_ids] at h0
      simp only [pool_ids, List.map_cons, List.count_cons, h0]
      by_cases hba : ptp.self = a
      · subst hba; simpa using hlt
      · have : ¬ (ptp.self == a) = true := by simpa using hba
        simp [this]
  · apply ids_ok_sub _ _ _ _ h.blocks (le_refl _)
    intro a
    simp only [inner, cached, parents, List.map_cons, List.count_append, List.count_cons,
      List.cons_append]
    omega

theorem blocks_ok_ptp_get (ext : List Nat) (mmu : nvkm_mmu) (size : Nat) (zero : Bool)
    (o o2 : Alloc) (h : blocks_ok ext mmu) :
    ((nvkm_mmu_ptp_get mmu size zero o o2).1 = none →
      blocks_ok ext (nvkm_mmu_ptp_get mmu size zero o o2).2) ∧
    (∀ pt, (nvkm_mmu_ptp_get mmu size zero o o2).1 = some pt →
      blocks_ok (pt.self :: ext) (nvkm_mmu_ptp_get mmu size zero o o2).2) := by
  unfold nvkm_mmu_ptp_get
  cases o.kmalloc_pt with
  | false => exact ⟨fun _ => h, fun pt hpt => by simp at hpt⟩
  | true =>
    simp only [Bool.not_true, Bool.false_eq_true, if_false]
    rcases mmu with ⟨cl, pl, ph, brk, eff⟩
    have slot_case : ∀ (m : nvkm_mmu) (ptp : nvkm_mmu_ptp), blocks_ok (brk :: ext) m →
        ptp ∈ m.ptp_heap →
        ((nvkm_mmu_ptp_get_slot m brk ptp).1 = none →
          blocks_ok ext (nvkm_mmu_ptp_get_slot m brk ptp).2) ∧
        (∀ pt, (nvkm_mmu_ptp_get_slot m brk ptp).1 = some pt →
          blocks_ok (pt.self :: ext) (nvkm_mmu_ptp_get_slot m brk ptp).2) := by
      intro m ptp hm hp
      have hs := blocks_ok_ptp_get_slot (brk :: ext) m brk ptp hm hp
      obtain ⟨pt', hpt', hself, _⟩ := (ptp_get_slot_frame m brk ptp).2.2.2.2
      constructor
      · intro hn; rw [hpt'] at hn; cases hn
      · intro pt hpt
        rw [hpt'] at hpt
        cases hpt
        rw [hself]
        exact hs
    cases pl with
    | cons a l =>
      simp only
      have h0 : blocks_ok ext ⟨cl, a :: l, ph, brk + 1, eff⟩ :=
        blocks_ok_congr ext ⟨cl, a :: l, ph, brk, eff⟩ _ rfl rfl (Nat.le_succ _) h
      have h0' : blocks_ok (brk :: ext) ⟨cl, a :: l, ph, brk + 1, eff⟩ :=
        blocks_ok_fresh ext ⟨cl, a :: l, ph, brk, eff⟩ _ h rfl rfl (Nat.lt_succ_self _)
      cases hp : ptp_at ⟨cl, a :: l, ph, brk + 1, eff⟩ a with
      | none => exact ⟨fun _ => h0, fun pt hpt => by simp at hpt⟩
      | some ptp => exact slot_case _ ptp h0' (ptp_at_mem _ a ptp hp)
    | nil =>
      simp only
      cases o.kmalloc_ptp with
      | false =>
        simp only [Bool.not_false, if_true]
        exact ⟨fun _ => blocks_ok_congr ext ⟨cl, [], ph, brk, eff⟩ _ rfl rfl (Nat.le_succ _) h,
          fun pt hpt => by simp at hpt⟩
      | true =>
        simp only [Bool.not_true, Bool.false_eq_true, if_false]
        have h1 : blocks_ok (brk :: ext) ⟨cl, [], ph, brk + 1 + 1, eff⟩ :=
          blocks_ok_fresh ext ⟨cl, [], ph, brk, eff⟩ _ h rfl rfl
            (by show brk < brk + 1 + 1; omega)
        have h2 := blocks_ok_get_cache (brk :: ext) ⟨cl, [], ph, brk + 1 + 1, eff⟩
          0x1000 0x1000 false o2 h1
        have hfr := get_cache_frame ⟨cl, [], ph, brk + 1 + 1, eff⟩ 0x1000 0x1000 false o2
        rcases hg : nvkm_mmu_ptc_get_cache ⟨cl, [], ph, brk + 1 + 1, eff⟩ 0x1000 0x1000
            false o2 with ⟨_ | parent, mmu1⟩
        · rw [hg] at h2
          simp only
          refine ⟨fun _ => ?_, fun pt hpt => by simp at hpt⟩
          exact blocks_ok_congr ext mmu1 _ rfl rfl (le_refl _) (blocks_ok_drop _ _ _ (h2.1 rfl))
        · rw [hg] at h2 hfr
          simp only at hfr ⊢
          have h3 := h2.2 parent rfl
          have hpool : ids_ok (pool_ids mmu1) brk := by
            have : pool_ids mmu1 = ph.map nvkm_mmu_ptp.self := by
              simp only [pool_ids, hfr.1]
            rw [this]
            exact h.pool
          have h4 := blocks_ok_new_pool (brk :: ext) mmu1
            { self := brk + 1, pt := parent, shift := order_base_2 size % 2 ^ 8,
              mask := (((1 <<< ((parent.memory.size >>> (order_base_2 size % 2 ^ 8)) % 2 ^ 32 % 32))
                % 2 ^ 32 + 2 ^ 32 - 1) % 2 ^ 32) % 2 ^ 16,
              free := (((1 <<< ((parent.memory.size >>> (order_base_2 size % 2 ^ 8)) % 2 ^ 32 % 32))
                % 2 ^ 32 + 2 ^ 32 - 1) % 2 ^ 32) % 2 ^ 16 }
            brk h3 hpool (Nat.le_succ _) (by have := hfr.2.2; simp only at this ⊢; omega)
            ((brk + 1) :: mmu1.ptp_list)
          exact slot_case _ _ h4 (List.mem_cons_self _ _)

/-- Discarding a pool record hands its parent block to whoever discards
it. -/
theorem blocks_ok_remove_pool (ext : List Nat) (mmu : nvkm_mmu) (l1 l2 : List nvkm_mmu_ptp)
    (v : nvkm_mmu_ptp) (h : blocks_ok ext mmu) (hheap : mmu.ptp_heap = l1 ++ v :: l2)
    (l : List Nat) :
    blocks_ok (v.pt.self :: ext) { mmu with ptp_list := l, ptp_heap := l1 ++ l2 } := by
  refine ⟨h.cls, ?_, ?_⟩
  · apply ids_ok_sub _ _ _ _ h.pool (le_refl _)
    intro a
    simp only [pool_ids, hheap, List.map_append, List.map_cons, List.count_append,
      List.count_cons]
    omega
  · apply ids_ok_sub _ _ _ _ h.blocks (le_refl _)
    intro a
    simp only [inner, cached, parents, hheap, List.map_append, List.map_cons, List.count_append,
      List.count_cons, List.cons_append]
    omega

theorem blocks_ok_ptp_put (ext : List Nat) (mmu : nvkm_mmu) (force : Bool) (pt : nvkm_mmu_pt)
    (h : blocks_ok (pt.self :: ext) mmu) : blocks_ok ext (nvkm_mmu_ptp_put mmu force pt) := by
  have h' := blocks_ok_drop _ _ _ h
  unfold nvkm_mmu_ptp_put
  cases hp : ptp_at mmu pt.ptp with
  | none => exact h'
  | some p =>
    simp only
    have hpm := ptp_at_mem mmu pt.ptp p hp
    generalize hm1 : (if p.free = 0 then { mmu with ptp_list := p.self :: mmu.ptp_list }
      else mmu) = mmu1
    have hm1c : mmu1.ptc_list = mmu.ptc_list := by rw [← hm1]; split <;> rfl
    have hm1h : mmu1.ptp_heap = mmu.ptp_heap := by rw [← hm1]; split <;> rfl
    have hm1b : mmu1.brk = mmu.brk := by rw [← hm1]; split <;> rfl
    have h1 : blocks_ok ext mmu1 := blocks_ok_congr ext mmu mmu1 hm1c hm1h (by omega) h'
    generalize hv : ({ p with free := (p.free ||| BIT (pt.base >>> p.shift)) % 2 ^ 16 } :
      nvkm_mmu_ptp) = v
    have hvs : v.self = p.self := by rw [← hv]
    have hvp : v.pt = p.pt := by rw [← hv]
    have hvf : v.free = (p.free ||| BIT (pt.base >>> p.shift)) % 2 ^ 16 := by rw [← hv]
    have h2 : blocks_ok ext (ptp_set mmu1 p.self v) :=
      blocks_ok_ptp_set ext mmu1 p v h1 (by rw [hm1h]; exact hpm) hvs hvp
    by_cases hd : (p.free ||| BIT (pt.base >>> p.shift)) % 2 ^ 16 = p.mask
    · rw [if_pos hd]
      obtain ⟨l1, l2, hs1, hs2⟩ := ptp_set_split mmu1 p v h1.pool.1 (by rw [hm1h]; exact hpm)
      have hfr := put_cache_frame (ptp_set mmu1 p.self v) force p.pt
      have hfilt : (ptp_set mmu1 p.self v).ptp_heap.filter (fun q => q.self != p.self) =
          l1 ++ l2 := by
        have hn := h2.pool.1
        simp only [pool_ids, hs2] at hn
        rw [hs2, ← hvs]
        exact filter_split nvkm_mmu_ptp.self l1 l2 v hn
      have hX := blocks_ok_remove_pool ext (ptp_set mmu1 p.self v) l1 l2 v h2 hs2
        ((ptp_set mmu1 p.self v).ptp_list.filter (fun a => a != p.self))
      rw [hvp] at hX
      have hY := blocks_ok_put_cache ext _ force p.pt hX
      apply blocks_ok_congr ext _ _ _ _ _ hY
      · exact put_cache_ptc_list_congr _ _ force p.pt rfl
      · show (nvkm_mmu_ptc_put_cache (ptp_set mmu1 p.self v) force p.pt).ptp_heap.filter _ = _
        rw [hfr.1, hfilt, (put_cache_frame _ force p.pt).1]
      · show _ ≤ (nvkm_mmu_ptc_put_cache (ptp_set mmu1 p.self v) force p.pt).brk
        rw [hfr.2.2, (put_cache_frame _ force p.pt).2.2]
    · rw [if_neg hd]
      exact blocks_ok_congr ext (ptp_set mmu1 p.self v) _ rfl rfl (le_refl _) h2

theorem blocks_ok_put (ext : List Nat) (mmu : nvkm_mmu) (force : Bool) (pt : nvkm_mmu_pt)
    (h : blocks_ok (pt.self :: ext) mmu) :
    blocks_ok ext (nvkm_mmu_ptc_put mmu force (some pt)) := by
  unfold nvkm_mmu_ptc_put
  simp only
  split
  · exact blocks_ok_ptp_put ext mmu force pt h
  · exact blocks_ok_put_cache ext mmu force pt h

theorem blocks_ok_get (ext : List Nat) (mmu : nvkm_mmu) (size align : Nat) (zero : Bool)
    (o o2 : Alloc) (h : blocks_ok ext mmu) :
    ((nvkm_mmu_ptc_get mmu size align zero o o2).1 = none →
      blocks_ok ext (nvkm_mmu_ptc_get mmu size align zero o o2).2) ∧
    (∀ pt, (nvkm_mmu_ptc_get mmu size align zero o o2).1 = some pt →
      blocks_ok (pt.self :: ext) (nvkm_mmu_ptc_get mmu size align zero o o2).2) := by
  unfold nvkm_mmu_ptc_get
  split
  · exact blocks_ok_ptp_get ext mmu align zero o o2 h
  · exact blocks_ok_get_cache ext mmu size align zero o h

theorem perm_eraseIdx {α : Type} (l : List α) (i : Nat) (x : α) (h : l.get? i = some x) :
    l.Perm (x :: l.eraseIdx i) := by
  induction l generalizing i with
  | nil => simp at h
  | cons y ys ih =>
    cases i with
    | zero =>
      simp only [List.get?_cons_zero, Option.some.injEq] at h
      subst h
      exact List.Perm.refl _
    | succ j =>
      simp only [List.get?_cons_succ] at h
      simp only [List.eraseIdx_cons_succ]
      exact ((ih j h).cons y).trans (List.Perm.swap x y _)

theorem own_ok_step (s : Sys) (op : Op) (h : s.own_ok) : (s.step op).own_ok := by
  unfold Sys.own_ok at h ⊢
  cases op with
  | get size align zero o o2 =>
    have hg := blocks_ok_get (s.held.map nvkm_mmu_pt.self) s.mmu size align zero o o2 h
    simp only [Sys.step]
    rcases hr : nvkm_mmu_ptc_get s.mmu size align zero o o2 with ⟨_ | pt, mmu⟩
    · rw [hr] at hg; exact hg.1 rfl
    · rw [hr] at hg
      simp only [List.map_append, List.map_cons, List.map_nil]
      apply blocks_ok_perm _ _ _ _ (hg.2 pt rfl)
      exact (List.perm_append_singleton _ _).symm
  | put i force =>
    simp only [Sys.step]
    cases hi : s.held.get? i with
    | none => exact h
    | some pt =>
      simp only
      apply blocks_ok_put
      apply blocks_ok_perm _ _ _ _ h
      have := (perm_eraseIdx s.held i pt hi).map nvkm_mmu_pt.self
      simpa using this

theorem own_ok_run (ops : List Op) (s : Sys) (h : s.own_ok) : (s.run ops).own_ok := by
  induction ops generalizing s with
  | nil => exact h
  | cons op ops ih => exact ih (s.step op) (own_ok_step s op h)

theorem own_ok_init (brk : Nat) : (Sys.init brk).own_ok := by
  refine ⟨⟨List.nodup_nil, ?_⟩, ⟨List.nodup_nil, ?_⟩, ⟨List.nodup_nil, ?_⟩⟩ <;>
    intro a ha <;> simp [Sys.init, nvkm_mmu_ptc_init, cls_ids, pool_ids, inner, cached, parents] at ha

/-- C4. After every finite sequence of `nvkm_mmu_ptc_get` and
`nvkm_mmu_ptc_put` calls from the initial cache, in which each put returns a
block that a client holds at that moment: no free-list contains a block
twice, no block is in the free-lists of two classes, no held block is in a
free-list, and no block is held twice. Blocks are told apart by the address
of their record. -/
theorem ptc_no_double_ownership (brk : Nat) (ops : List Op) :
    (((Sys.init brk).run ops).held.map nvkm_mmu_pt.self ++
      (cached ((Sys.init brk).run ops).mmu).map nvkm_mmu_pt.self).Nodup ∧
    (∀ c ∈ ((Sys.init brk).run ops).mmu.ptc_list, (c.item.map nvkm_mmu_pt.self).Nodup) ∧
    (∀ c ∈ ((Sys.init brk).run ops).mmu.ptc_list, ∀ b ∈ c.item,
      ∀ x ∈ ((Sys.init brk).run ops).held, x.self ≠ b.self) := by
  have h := (own_ok_run ops (Sys.init brk) (own_ok_init brk)).blocks.1
  simp only [inner, ← List.append_assoc] at h
  have h1 := List.Nodup.of_append_left h
  refine ⟨h1, ?_, ?_⟩
  · intro c hc
    have hsub : (c.item.map nvkm_mmu_pt.self).Sublist
        ((cached ((Sys.init brk).run ops).mmu).map nvkm_mmu_pt.self) := by
      apply List.Sublist.map
      obtain ⟨l1, l2, hl⟩ := List.append_of_mem hc
      simp only [cached, hl, List.flatMap_append, List.flatMap_cons]
      exact (List.sublist_append_left _ _).trans (List.sublist_append_right _ _)
    exact (List.Nodup.of_append_right h1).sublist hsub
  · intro c hc b hb x hx hxb
    have hd := List.disjoint_of_nodup_append h1
    apply hd (List.mem_map_of_mem nvkm_mmu_pt.self hx)
    rw [hxb]
    apply List.mem_map_of_mem
    simp only [cached, List.mem_flatMap]
    exact ⟨c, hc, hb⟩

/-! ## C10: the availability list of the pools -/

theorem BIT_eq (k : Nat) (hk : k < 64) : BIT k = 2 ^ k := by
  unfold BIT
  rw [Nat.one_shiftLeft]
  exact Nat.mod_eq_of_lt (Nat.pow_lt_pow_right (by decide) hk)

theorem ffs_spec (x : Nat) (h0 : x ≠ 0) (hx : x < 2 ^ 64) :
    x.testBit (__ffs x) = true ∧ __ffs x < 64 := by
  unfold __ffs
  cases hf : (List.range 64).find? (fun i => x.testBit i) with
  | some i =>
    have h1 := List.find?_some hf
    have h2 := List.mem_range.mp (List.mem_of_find?_eq_some hf)
    exact ⟨h1, h2⟩
  | none =>
    exfalso
    obtain ⟨i, hi⟩ := Nat.ne_zero_implies_bit_true h0
    have hi64 : i < 64 := by
      by_contra hge
      have : x < 2 ^ i := lt_of_lt_of_le hx (Nat.pow_le_pow_right (by decide) (by omega))
      rw [Nat.testBit_lt_two_pow this] at hi
      cases hi
    exact (List.find?_eq_none.mp hf i (List.mem_range.mpr hi64)) hi

theorem testBit_clear (f k i : Nat) (hk : k < 64) :
    ((f &&& ((2 ^ 64 - 1) ^^^ BIT k)) % 2 ^ 16).testBit i =
      (decide (i < 16) && f.testBit i && !decide (k = i)) := by
  rw [BIT_eq k hk, Nat.testBit_mod_two_pow, Nat.testBit_and, Nat.testBit_xor,
    Nat.testBit_two_pow_sub_one, Nat.testBit_two_pow]
  by_cases h16 : i < 16
  · have h64 : i < 64 := by omega
    by_cases hki : k = i <;> simp [h16, h64, hki]
  · simp [h16]

theorem testBit_set (f k i : Nat) (hk : k < 64) :
    ((f ||| BIT k) % 2 ^ 16).testBit i =
      (decide (i < 16) && (f.testBit i || decide (k = i))) := by
  rw [BIT_eq k hk, Nat.testBit_mod_two_pow, Nat.testBit_or, Nat.testBit_two_pow]

theorem testBit_lt_16 (m i : Nat) (hm : m < 2 ^ 16) (h : m.testBit i = true) : i < 16 := by
  by_contra hge
  have : m < 2 ^ i := lt_of_lt_of_le hm (Nat.pow_le_pow_right (by decide) (by omega))
  rw [Nat.testBit_lt_two_pow this] at h
  cases h

theorem ilog2_aux_le (fuel n k : Nat) (h : n < 2 ^ (k + 1)) : ilog2_aux fuel n ≤ k := by
  induction fuel generalizing n k with
  | zero => exact Nat.zero_le _
  | succ fuel ih =>
    unfold ilog2_aux
    split
    · rename_i h2
      cases k with
      | zero => simp at h; omega
      | succ k' =>
        have : n / 2 < 2 ^ (k' + 1) := by
          rw [Nat.div_lt_iff_lt_mul (by decide)]
          rw [Nat.pow_succ] at h
          exact h
        have := ih (n / 2) k' this
        omega
    · exact Nat.zero_le _

theorem order_base_2_le (size : Nat) (h : size < 0x1000) : order_base_2 size ≤ 12 := by
  unfold order_base_2
  split
  · have := ilog2_aux_le 32 (size - 1) 11 (by omega)
    unfold ilog2
    omega
  · exact Nat.zero_le _

theorem ilog2_aux_ge (fuel n k : Nat) (h : 2 ^ k ≤ n) (hk : k ≤ fuel) :
    k ≤ ilog2_aux fuel n := by
  induction fuel generalizing n k with
  | zero => omega
  | succ fuel ih =>
    cases k with
    | zero => exact Nat.zero_le _
    | succ k' =>
      rw [Nat.pow_succ] at h
      have h1 : 1 ≤ 2 ^ k' := Nat.one_le_two_pow
      unfold ilog2_aux
      rw [if_pos (by omega)]
      have := ih (n / 2) k' (by omega) (by omega)
      omega

/-- Slots of more than 128 bytes have a shift of at least 8. -/
theorem order_base_2_ge (size : Nat) (h : 128 < size) : 8 ≤ order_base_2 size := by
  unfold order_base_2
  rw [if_pos (by omega)]
  have := ilog2_aux_ge 32 (size - 1) 7 (by
    have : (2 : Nat) ^ 7 = 128 := by decide
    omega) (by decide)
  unfold ilog2
  omega

/-- The mask of a new pool carved from a 0x1000-byte parent for slots of more
than 128 bytes is not empty. -/
theorem new_mask_ne_zero (size : Nat) (h128 : 128 < size) (h : size < 0x1000) :
    (((1 <<< ((0x1000 >>> (order_base_2 size % 2 ^ 8)) % 2 ^ 32 % 32)) % 2 ^ 32 + 2 ^ 32 - 1)
      % 2 ^ 32) % 2 ^ 16 ≠ 0 := by
  have hle := order_base_2_le size h
  have hge := order_base_2_ge size h128
  have hmod : order_base_2 size % 2 ^ 8 = order_base_2 size := Nat.mod_eq_of_lt (by omega)
  rw [hmod]
  have hall : ∀ sh ∈ List.range 13, 8 ≤ sh →
      (((1 <<< ((0x1000 >>> sh) % 2 ^ 32 % 32)) % 2 ^ 32 + 2 ^ 32 - 1) % 2 ^ 32) % 2 ^ 16 ≠ 0 := by
    decide
  exact hall _ (List.mem_range.mpr (by omega)) hge

theorem classed_mono (m1 m2 : nvkm_mmu) (b : nvkm_mmu_pt)
    (hext : ∀ c ∈ m1.ptc_list, ∃ c' ∈ m2.ptc_list, c'.self = c.self ∧ c'.size = c.size)
    (h : classed m1 b) : classed m2 b := by
  obtain ⟨hs, c, hc, h1, h2⟩ := h
  obtain ⟨c', hc', h1', h2'⟩ := hext c hc
  exact ⟨hs, c', hc', h1'.trans h1, h2'.trans h2⟩

theorem sizes_ok_congr (held : List nvkm_mmu_pt) (m1 m2 : nvkm_mmu)
    (hc : m2.ptc_list = m1.ptc_list) (hh : m2.ptp_heap = m1.ptp_heap) (h : sizes_ok held m1) :
    sizes_ok held m2 := by
  have hcl : ∀ b, classed m1 b → classed m2 b := fun b hb =>
    classed_mono m1 m2 b (fun c hcm => ⟨c, by rw [hc]; exact hcm, rfl, rfl⟩) hb
  exact
    { cached_ok := by rw [hc]; exact h.cached_ok
      held_ok := fun b hb hs => hcl b (h.held_ok b hb hs)
      parent_ok := by
        rw [hh]
        exact fun p hp => ⟨hcl _ (h.parent_ok p hp).1, (h.parent_ok p hp).2⟩ }

theorem sizes_ok_held (held held' : List nvkm_mmu_pt) (mmu : nvkm_mmu) (h : sizes_ok held mmu)
    (hsub : ∀ b ∈ held', b ∈ held ∨ (b.sub = false → classed mmu b)) : sizes_ok held' mmu :=
  { cached_ok := h.cached_ok
    held_ok := fun b hb hs => by
      rcases hsub b hb with hm | hcl
      · exact h.held_ok b hm hs
      · exact hcl hs
    parent_ok := h.parent_ok }

/-- Change of the class list that keeps the addresses and sizes of the
classes and the typing of their idle blocks. -/
theorem sizes_ok_cls (held : List nvkm_mmu_pt) (m1 m2 : nvkm_mmu) (h : sizes_ok held m1)
    (hh : m2.ptp_heap = m1.ptp_heap)
    (hext : ∀ c ∈ m1.ptc_list, ∃ c' ∈ m2.ptc_list, c'.self = c.self ∧ c'.size = c.size)
    (hitems : ∀ c ∈ m2.ptc_list, ∀ b ∈ c.item,
      b.sub = false ∧ b.ptc = c.self ∧ b.memory.size = c.size) : sizes_ok held m2 :=
  { cached_ok := hitems
    held_ok := fun b hb hs => classed_mono m1 m2 b hext (h.held_ok b hb hs)
    parent_ok := by
      rw [hh]
      exact fun p hp => ⟨classed_mono m1 m2 _ hext (h.parent_ok p hp).1, (h.parent_ok p hp).2⟩ }

theorem sizes_ok_ptc_set (held : List nvkm_mmu_pt) (mmu : nvkm_mmu) (a : Nat)
    (c v : nvkm_mmu_ptc) (h : sizes_ok held mmu)
    (hn : (mmu.ptc_list.map nvkm_mmu_ptc.self).Nodup) (hc : ptc_at mmu a = some c)
    (hvs : v.self = c.self) (hvz : v.size = c.size)
    (hv : ∀ b ∈ v.item, b.sub = false ∧ b.ptc = v.self ∧ b.memory.size = v.size) :
    sizes_ok held (ptc_set mmu a v) := by
  obtain ⟨l1, l2, h1, h2⟩ := ptc_set_split mmu a c v hn hc
  apply sizes_ok_cls held mmu (ptc_set mmu a v) h rfl
  · intro d hd
    rw [h1] at hd
    rw [h2]
    rcases List.mem_append.mp hd with hd | hd
    · exact ⟨d, List.mem_append_left _ hd, rfl, rfl⟩
    · rcases List.mem_cons.mp hd with rfl | hd
      · exact ⟨v, List.mem_append_right _ (List.mem_cons_self _ _), hvs, hvz⟩
      · exact ⟨d, List.mem_append_right _ (List.mem_cons_of_mem _ hd), rfl, rfl⟩
  · intro d hd
    rw [h2] at hd
    rcases List.mem_append.mp hd with hd | hd
    · exact h.cached_ok d (by rw [h1]; exact List.mem_append_left _ hd)
    · rcases List.mem_cons.mp hd with rfl | hd
      · exact hv
      · exact h.cached_ok d (by rw [h1]; exact List.mem_append_right _ (List.mem_cons_of_mem _ hd))

theorem sizes_ok_put_cache (held : List nvkm_mmu_pt) (mmu : nvkm_mmu) (force : Bool)
    (pt : nvkm_mmu_pt) (h : sizes_ok held mmu)
    (hn : (mmu.ptc_list.map nvkm_mmu_ptc.self).Nodup) (hpt : classed mmu pt) :
    sizes_ok held (nvkm_mmu_ptc_put_cache mmu force pt) := by
  cases hc : ptc_at mmu pt.ptc with
  | none =>
    have : nvkm_mmu_ptc_put_cache mmu force pt = mmu := by simp [nvkm_mmu_ptc_put_cache, hc]
    rw [this]; exact h
  | some c =>
    by_cases hcond : force = false ∧ c.refs < 8
    · rw [put_cache_cached mmu force pt c hc hcond.1 hcond.2]
      obtain ⟨hs, c0, hc0, h1, h2⟩ := hpt
      have hcc : c0 = c := eq_of_nodup_map nvkm_mmu_ptc.self mmu.ptc_list c c0 hn
        (ptc_at_mem mmu _ c hc) hc0 (by rw [h1, ptc_at_self mmu _ c hc])
      subst hcc
      apply sizes_ok_ptc_set held mmu pt.ptc c0
        { c0 with item := c0.item ++ [pt], refs := c0.refs + 1 } h hn hc rfl rfl
      intro b hb
      rcases List.mem_append.mp hb with hb | hb
      · exact h.cached_ok c0 hc0 b hb
      · rw [List.mem_singleton] at hb
        subst hb
        exact ⟨hs, h1.symm, h2.symm⟩
    · rw [put_cache_freed mmu force pt c hc hcond]
      exact sizes_ok_congr held mmu _ rfl rfl h

theorem sizes_ok_find (held : List nvkm_mmu_pt) (mmu : nvkm_mmu) (size : Nat) (k : Bool)
    (h : sizes_ok held mmu) : sizes_ok held (nvkm_mmu_ptc_find mmu size k).2 := by
  unfold nvkm_mmu_ptc_find
  cases mmu.ptc_list.find? (fun ptc => ptc.size == size) with
  | some c0 => exact h
  | none =>
    cases k with
    | false => exact h
    | true =>
      simp only [if_true]
      apply sizes_ok_cls held mmu
        { mmu with
          ptc_list := { self := mmu.brk, item := [], size := size, refs := 0 } :: mmu.ptc_list,
          brk := mmu.brk + 1 } h rfl
      · intro c hc
        exact ⟨c, List.mem_cons_of_mem _ hc, rfl, rfl⟩
      · intro c hc b hb
        rcases List.mem_cons.mp hc with rfl | hc
        · simp at hb
        · exact h.cached_ok c hc b hb

theorem sizes_ok_get_new (held : List nvkm_mmu_pt) (mmu : nvkm_mmu) (c : nvkm_mmu_ptc)
    (size align : Nat) (zero : Bool) (o : Alloc) (h : sizes_ok held mmu)
    (hc : c ∈ mmu.ptc_list) (hcs : c.size = size) :
    sizes_ok held (nvkm_mmu_ptc_get_new mmu c size align zero o).2 ∧
    (∀ pt, (nvkm_mmu_ptc_get_new mmu c size align zero o).1 = some pt →
      classed (nvkm_mmu_ptc_get_new mmu c size align zero o).2 pt ∧ pt.memory.size = size) := by
  have hf := get_new_frame mmu c size align zero o
  refine ⟨sizes_ok_congr held mmu _ hf.1 hf.2.2.1 h, ?_⟩
  intro pt hpt
  have hn := get_new_some mmu c size align zero o pt hpt
  exact ⟨⟨hn.2.1, c, by rw [hf.1]; exact hc, hn.2.2.2.1.symm, by rw [hn.2.2.1, hcs]⟩, hn.2.2.1⟩

theorem sizes_ok_get_cache (held : List nvkm_mmu_pt) (mmu : nvkm_mmu) (size align : Nat)
    (zero : Bool) (o : Alloc) (h : sizes_ok held mmu)
    (hn : (mmu.ptc_list.map nvkm_mmu_ptc.self).Nodup) (hlt : ∀ c ∈ mmu.ptc_list, c.self < mmu.brk) :
    sizes_ok held (nvkm_mmu_ptc_get_cache mmu size align zero o).2 ∧
    (∀ pt, (nvkm_mmu_ptc_get_cache mmu size align zero o).1 = some pt →
      classed (nvkm_mmu_ptc_get_cache mmu size align zero o).2 pt ∧ pt.memory.size = size) := by
  have hfind := sizes_ok_find held mmu size o.kmalloc_ptc h
  have hmem := find_mem mmu size o.kmalloc_ptc
  have hnod : ((nvkm_mmu_ptc_find mmu size o.kmalloc_ptc).2.ptc_list.map
      nvkm_mmu_ptc.self).Nodup := by
    unfold nvkm_mmu_ptc_find
    cases mmu.ptc_list.find? (fun ptc => ptc.size == size) with
    | some c0 => exact hn
    | none =>
      cases o.kmalloc_ptc with
      | false => exact hn
      | true =>
        simp only [if_true, List.map_cons, List.nodup_cons]
        refine ⟨?_, hn⟩
        intro hm
        obtain ⟨d, hd, hds⟩ := List.mem_map.mp hm
        have := hlt d hd
        omega
  unfold nvkm_mmu_ptc_get_cache
  rcases hf : nvkm_mmu_ptc_find mmu size o.kmalloc_ptc with ⟨_ | c, mmu1⟩
  · rw [hf] at hfind
    exact ⟨hfind, fun pt hpt => by simp at hpt⟩
  · rw [hf] at hfind hmem hnod
    have hcm := hmem c rfl
    simp only at hcm hfind hnod ⊢
    cases hi : c.item with
    | nil => exact sizes_ok_get_new held mmu1 c size align zero o hfind hcm.1 hcm.2
    | cons pt0 rest =>
      simp only
      have hat : ptc_at mmu1 c.self = some c :=
        find_of_nodup nvkm_mmu_ptc.self mmu1.ptc_list c.self c hnod hcm.1 rfl
      have hitem := hfind.cached_ok c hcm.1
      have key : sizes_ok held
          (ptc_set mmu1 c.self { c with item := rest, refs := (c.refs + 2 ^ 32 - 1) % 2 ^ 32 }) := by
        apply sizes_ok_ptc_set held mmu1 c.self c
          { c with item := rest, refs := (c.refs + 2 ^ 32 - 1) % 2 ^ 32 } hfind hnod hat rfl rfl
        intro b hb
        exact hitem b (by rw [hi]; exact List.mem_cons_of_mem _ hb)
      have hpt0 := hitem pt0 (by rw [hi]; exact List.mem_cons_self _ _)
      have hcl : classed
          (ptc_set mmu1 c.self { c with item := rest, refs := (c.refs + 2 ^ 32 - 1) % 2 ^ 32 })
          pt0 := by
        refine ⟨hpt0.1, { c with item := rest, refs := (c.refs + 2 ^ 32 - 1) % 2 ^ 32 }, ?_,
          hpt0.2.1.symm, hpt0.2.2.symm⟩
        exact ptc_at_mem _ c.self _ (ptc_at_set_same mmu1 c.self c _ hat rfl)
      cases zero with
      | false =>
        refine ⟨key, ?_⟩
        intro pt hpt
        simp only [Option.some.injEq] at hpt
        subst hpt
        exact ⟨hcl, by rw [hpt0.2.2, hcm.2]⟩
      | true =>
        refine ⟨sizes_ok_congr held (ptc_set mmu1 c.self _) _ rfl rfl key, ?_⟩
        intro pt hpt
        simp only [Option.some.injEq] at hpt
        subst hpt
        refine ⟨classed_mono (ptc_set mmu1 c.self _) _ pt0
          (fun d hd => ⟨d, hd, rfl, rfl⟩) hcl, by rw [hpt0.2.2, hcm.2]⟩

theorem pools_base_congr (held held' : List nvkm_mmu_pt) (m1 m2 : nvkm_mmu)
    (hl : m2.ptp_list = m1.ptp_list) (hh : m2.ptp_heap = m1.ptp_heap) (hb : m1.brk ≤ m2.brk)
    (hsub : ∀ b ∈ held', b ∈ held ∨ b.sub = false)
    (h : pools_base held m1) : pools_base held' m2 := by
  refine ⟨?_, ?_, ?_, ?_, ?_, ?_, ?_⟩
  · rw [hl, hh]; exact h.linked
  · rw [hl]; exact h.list_nodup
  · rw [hl]; exact fun a ha => Nat.lt_of_lt_of_le (h.list_lt a ha) hb
  · rw [hh]; exact h.mask_lt
  · rw [hh]; exact h.free_sub
  · rw [hh]
    intro b hb hs
    rcases hsub b hb with hm | hf
    · exact h.live b hm hs
    · rw [hf] at hs; cases hs
  · rw [hh]
    intro b hb b' hb' hs hs'
    rcases hsub b hb with hm | hf
    · rcases hsub b' hb' with hm' | hf'
      · exact h.distinct b hm b' hm' hs hs'
      · rw [hf'] at hs'; cases hs'
    · rw [hf] at hs; cases hs

theorem pools_ok_congr (held held' : List nvkm_mmu_pt) (m1 m2 : nvkm_mmu)
    (hl : m2.ptp_list = m1.ptp_list) (hh : m2.ptp_heap = m1.ptp_heap) (hb : m1.brk ≤ m2.brk)
    (hsub : ∀ b ∈ held', b ∈ held ∨ b.sub = false)
    (h : pools_ok held m1) : pools_ok held' m2 :=
  ⟨pools_base_congr held held' m1 m2 hl hh hb hsub h.1, by rw [hh]; exact h.2⟩

/-- Members of the pool heap after a store through the pointer to `p`. -/
theorem heap_set_mem (mmu : nvkm_mmu) (p v : nvkm_mmu_ptp)
    (hn : (mmu.ptp_heap.map nvkm_mmu_ptp.self).Nodup) (hp : p ∈ mmu.ptp_heap)
    (hvs : v.self = p.self) :
    (∀ q ∈ mmu.ptp_heap, q.self = p.self → q = p) ∧
    (∀ q, q ∈ (ptp_set mmu p.self v).ptp_heap ↔ (q = v ∨ (q ∈ mmu.ptp_heap ∧ q.self ≠ p.self))) ∧
    (∀ q, q ∈ (ptp_set mmu p.self v).ptp_heap.filter (fun q => q.self != p.self) ↔
      (q ∈ mmu.ptp_heap ∧ q.self ≠ p.self)) := by
  have huniq : ∀ q ∈ mmu.ptp_heap, q.self = p.self → q = p := fun q hq hqs =>
    eq_of_nodup_map nvkm_mmu_ptp.self mmu.ptp_heap p q hn hp hq hqs
  have hmem : ∀ q, q ∈ (ptp_set mmu p.self v).ptp_heap ↔
      (q = v ∨ (q ∈ mmu.ptp_heap ∧ q.self ≠ p.self)) := by
    intro q
    simp only [ptp_set, List.mem_map]
    constructor
    · rintro ⟨d, hd, rfl⟩
      by_cases hds : d.self = p.self
      · left; simp [hds]
      · right
        have : ¬ (d.self == p.self) = true := by simpa using hds
        rw [if_neg this]
        exact ⟨hd, hds⟩
    · rintro (rfl | ⟨hq, hqs⟩)
      · exact ⟨p, hp, by simp⟩
      · refine ⟨q, hq, ?_⟩
        have : ¬ (q.self == p.self) = true := by simpa using hqs
        rw [if_neg this]
  refine ⟨huniq, hmem, ?_⟩
  intro q
  rw [List.mem_filter, hmem]
  constructor
  · rintro ⟨h1 | h1, h2⟩
    · subst h1
      simp [hvs] at h2
    · exact h1
  · rintro ⟨h1, h2⟩
    exact ⟨Or.inr ⟨h1, h2⟩, by simpa using h2⟩

theorem free_lt_of_sub (free mask : Nat) (hm : mask < 2 ^ 16)
    (hs : ∀ i, free.testBit i = true → mask.testBit i = true) : free < 2 ^ 16 := by
  apply Nat.lt_pow_two_of_testBit
  intro i hi
  by_contra hne
  have ht : free.testBit i = true := by simpa using hne
  have := testBit_lt_16 mask i hm (hs i ht)
  omega

theorem ptp_get_slot_eq (mmu : nvkm_mmu) (self : Nat) (p : nvkm_mmu_ptp) :
    nvkm_mmu_ptp_get_slot mmu self p =
      (some { self := self, ptc := 0, ptp := p.self, memory := p.pt.memory, sub := true,
              base := __ffs p.free <<< p.shift, addr := p.pt.addr + __ffs p.free <<< p.shift },
        if (p.free &&& ((2 ^ 64 - 1) ^^^ BIT (__ffs p.free))) % 2 ^ 16 = 0 then
          { ptp_set mmu p.self
              { p with free := (p.free &&& ((2 ^ 64 - 1) ^^^ BIT (__ffs p.free))) % 2 ^ 16 } with
            ptp_list := (ptp_set mmu p.self
              { p with free := (p.free &&& ((2 ^ 64 - 1) ^^^ BIT (__ffs p.free))) % 2 ^ 16 }
              ).ptp_list.filter (fun a => a != p.self) }
        else ptp_set mmu p.self
          { p with free := (p.free &&& ((2 ^ 64 - 1) ^^^ BIT (__ffs p.free))) % 2 ^ 16 }) := rfl

theorem pools_get_slot (held : List nvkm_mmu_pt) (mmu : nvkm_mmu) (self : Nat)
    (p : nvkm_mmu_ptp) (h : pools_base held mmu)
    (hnf : ∀ q ∈ mmu.ptp_heap, q.self ≠ p.self → q.free ≠ q.mask)
    (hn : (mmu.ptp_heap.map nvkm_mmu_ptp.self).Nodup) (hp : p ∈ mmu.ptp_heap)
    (hf0 : p.free ≠ 0) :
    ∀ pt, (nvkm_mmu_ptp_get_slot mmu self p).1 = some pt →
      pools_ok (pt :: held) (nvkm_mmu_ptp_get_slot mmu self p).2 := by
  have hflt : p.free < 2 ^ 16 := free_lt_of_sub p.free p.mask (h.mask_lt p hp) (h.free_sub p hp)
  obtain ⟨hk1, hk2⟩ := ffs_spec p.free hf0 (lt_trans hflt (by decide))
  have hbit := fun i => testBit_clear p.free (__ffs p.free) i hk2
  intro pt hpt
  rw [ptp_get_slot_eq] at hpt ⊢
  simp only [Option.some.injEq] at hpt
  generalize hv : ({ p with free := (p.free &&& ((2 ^ 64 - 1) ^^^ BIT (__ffs p.free))) % 2 ^ 16 } :
    nvkm_mmu_ptp) = v
  have hvs : v.self = p.self := by rw [← hv]
  have hvm : v.mask = p.mask := by rw [← hv]
  have hvsh : v.shift = p.shift := by rw [← hv]
  have hvf : v.free = (p.free &&& ((2 ^ 64 - 1) ^^^ BIT (__ffs p.free))) % 2 ^ 16 := by rw [← hv]
  rw [← hvf]
  obtain ⟨huniq, hmem, _⟩ := heap_set_mem mmu p v hn hp hvs
  have hplist : p.self ∈ mmu.ptp_list := (h.linked p hp).mpr hf0
  have hvbitk : v.free.testBit (__ffs p.free) = false := by
    rw [hvf, hbit]; simp
  have hmaskk : p.mask.testBit (__ffs p.free) = true := h.free_sub p hp _ hk1
  simp only
  generalize hX : (if v.free = 0 then
      { ptp_set mmu p.self v with
        ptp_list := (ptp_set mmu p.self v).ptp_list.filter (fun a => a != p.self) }
    else ptp_set mmu p.self v) = X
  have hXh : X.ptp_heap = (ptp_set mmu p.self v).ptp_heap := by rw [← hX]; split <;> rfl
  have hXb : X.brk = mmu.brk := by rw [← hX]; split <;> rfl
  have hXl : ∀ a, a ∈ X.ptp_list ↔ (a ∈ mmu.ptp_list ∧ (v.free = 0 → a ≠ p.self)) := by
    intro a
    rw [← hX]
    split
    · rename_i h0
      simp only [ptp_set_ptp_list, List.mem_filter]
      constructor
      · rintro ⟨h1, h2⟩
        exact ⟨h1, fun _ => by simpa using h2⟩
      · rintro ⟨h1, h2⟩
        exact ⟨h1, by simpa using h2 h0⟩
    · rename_i h0
      simp only [ptp_set_ptp_list]
      exact ⟨fun h1 => ⟨h1, fun h2 => absurd h2 h0⟩, fun h1 => h1.1⟩
  have hXn : X.ptp_list.Nodup := by
    rw [← hX]
    split
    · exact h.list_nodup.filter _
    · exact h.list_nodup
  have hslot : pt.base >>> p.shift = __ffs p.free := by
    rw [← hpt]
    exact Nat.shiftLeft_shiftRight _ _
  have hptp : pt.ptp = p.self := by rw [← hpt]
  refine ⟨⟨?_, hXn, ?_, ?_, ?_, ?_, ?_⟩, ?_⟩
  · intro q hq
    rw [hXh, hmem] at hq
    rw [hXl]
    rcases hq with rfl | ⟨hq, hqs⟩
    · rw [hvs]
      constructor
      · rintro ⟨_, h2⟩ h0
        exact h2 h0 rfl
      · intro h0
        exact ⟨hplist, fun h1 => absurd h1 h0⟩
    · rw [← h.linked q hq]
      exact ⟨fun h1 => h1.1, fun h1 => ⟨h1, fun _ => hqs⟩⟩
  · intro a ha
    rw [hXb]
    exact h.list_lt a ((hXl a).mp ha).1
  · intro q hq
    rw [hXh, hmem] at hq
    rcases hq with rfl | ⟨hq, _⟩
    · rw [hvm]; exact h.mask_lt p hp
    · exact h.mask_lt q hq
  · intro q hq i hi
    rw [hXh, hmem] at hq
    rcases hq with rfl | ⟨hq, _⟩
    · rw [hvm]
      rw [hvf, hbit] at hi
      simp only [Bool.and_eq_true, decide_eq_true_eq] at hi
      exact h.free_sub p hp i hi.1.2
    · exact h.free_sub q hq i hi
  · intro b hb hbs
    rcases List.mem_cons.mp hb with rfl | hb
    · refine ⟨v, by rw [hXh, hmem]; exact Or.inl rfl, by rw [hvs, hptp], ?_, ?_⟩
      · rw [hvsh, hslot, hvm]; exact hmaskk
      · rw [hvsh, hslot]; exact hvbitk
    · obtain ⟨q, hq, hqs, hqm, hqf⟩ := h.live b hb hbs
      by_cases hqp : q.self = p.self
      · have := huniq q hq hqp
        subst this
        refine ⟨v, by rw [hXh, hmem]; exact Or.inl rfl, by rw [hvs, hqs], ?_, ?_⟩
        · rw [hvsh, hvm]; exact hqm
        · rw [hvsh, hvf, hbit, hqf]; simp
      · exact ⟨q, by rw [hXh, hmem]; exact Or.inr ⟨hq, hqp⟩, hqs, hqm, hqf⟩
  · -- two held blocks of one pool in one slot
    have hold : ∀ b ∈ held, b.sub = true → b.ptp = p.self →
        b.base >>> p.shift ≠ __ffs p.free := by
      intro b hb hbs hbp heq
      obtain ⟨q, hq, hqs, _, hqf⟩ := h.live b hb hbs
      have := huniq q hq (by rw [hqs, hbp])
      subst this
      rw [heq, hk1] at hqf
      cases hqf
    have hpool : ∀ q ∈ X.ptp_heap, ∃ q0 ∈ mmu.ptp_heap, q0.self = q.self ∧ q0.shift = q.shift := by
      intro q hq
      rw [hXh, hmem] at hq
      rcases hq with rfl | ⟨hq, _⟩
      · exact ⟨p, hp, hvs.symm, hvsh.symm⟩
      · exact ⟨q, hq, rfl, rfl⟩
    intro b hb b' hb' hbs hbs' hpp q hq hqs hsl
    obtain ⟨q0, hq0, hq0s, hq0sh⟩ := hpool q hq
    rw [← hq0sh] at hsl
    rcases List.mem_cons.mp hb with hbe | hb1
    · rcases List.mem_cons.mp hb' with hbe' | hb1'
      · rw [hbe, hbe']
      · exfalso
        rw [hbe] at hpp hsl hqs
        have hq0p : q0 = p := huniq q0 hq0 (by rw [hq0s, hqs, hptp])
        subst hq0p
        exact hold b' hb1' hbs' (by rw [← hpp, hptp]) (by rw [← hsl, hslot])
    · rcases List.mem_cons.mp hb' with hbe' | hb1'
      · exfalso
        rw [hbe'] at hpp hsl
        have hq0p : q0 = p := huniq q0 hq0 (by rw [hq0s, hqs, hpp, hptp])
        subst hq0p
        exact hold b hb1 hbs (by rw [hpp, hptp]) (by rw [hsl, hslot])
      · exact h.distinct b hb1 b' hb1' hbs hbs' hpp q0 hq0 (by rw [hq0s, hqs]) hsl
  · intro q hq
    rw [hXh, hmem] at hq
    rcases hq with rfl | ⟨hq, hqs⟩
    · intro heq
      rw [hvm] at heq
      rw [heq, hmaskk] at hvbitk
      cases hvbitk
    · exact hnf q hq hqs

theorem ptp_put_frame (mmu : nvkm_mmu) (force : Bool) (b : nvkm_mmu_pt) (p : nvkm_mmu_ptp)
    (hp : ptp_at mmu b.ptp = some p) :
    (nvkm_mmu_ptp_put mmu force b).ptp_heap =
      (if (p.free ||| BIT (b.base >>> p.shift)) % 2 ^ 16 = p.mask then
        (ptp_set mmu p.self
          { p with free := (p.free ||| BIT (b.base >>> p.shift)) % 2 ^ 16 }).ptp_heap.filter
            (fun q => q.self != p.self)
      else (ptp_set mmu p.self
          { p with free := (p.free ||| BIT (b.base >>> p.shift)) % 2 ^ 16 }).ptp_heap) ∧
    (nvkm_mmu_ptp_put mmu force b).ptp_list =
      (if (p.free ||| BIT (b.base >>> p.shift)) % 2 ^ 16 = p.mask then
        (if p.free = 0 then p.self :: mmu.ptp_list else mmu.ptp_list).filter
          (fun a => a != p.self)
      else (if p.free = 0 then p.self :: mmu.ptp_list else mmu.ptp_list)) ∧
    (nvkm_mmu_ptp_put mmu force b).brk = mmu.brk := by
  unfold nvkm_mmu_ptp_put
  rw [hp]
  simp only
  by_cases hd : (p.free ||| BIT (b.base >>> p.shift)) % 2 ^ 16 = p.mask
  · rw [if_pos hd, if_pos hd, if_pos hd]
    simp only
    have hfr := fun m => put_cache_frame m force p.pt
    rw [(hfr _).1, (hfr _).2.1, (hfr _).2.2]
    refine ⟨?_, ?_, ?_⟩
    · by_cases h0 : p.free = 0 <;> simp [h0, ptp_set]
    · by_cases h0 : p.free = 0 <;> simp [h0, ptp_set]
    · by_cases h0 : p.free = 0 <;> simp [h0, ptp_set]
  · rw [if_neg hd, if_neg hd, if_neg hd]
    refine ⟨?_, ?_, ?_⟩
    · by_cases h0 : p.free = 0 <;> simp [h0, ptp_set]
    · by_cases h0 : p.free = 0 <;> simp [h0, ptp_set]
    · by_cases h0 : p.free = 0 <;> simp [h0, ptp_set]

theorem pools_ptp_put (held : List nvkm_mmu_pt) (mmu : nvkm_mmu) (force : Bool)
    (b : nvkm_mmu_pt) (h : pools_ok (b :: held) mmu) (hbs : b.sub = true)
    (hn : (mmu.ptp_heap.map nvkm_mmu_ptp.self).Nodup)
    (hlt : ∀ p ∈ mmu.ptp_heap, p.self < mmu.brk)
    (hfresh : ∀ b' ∈ held, b'.self ≠ b.self) :
    pools_ok held (nvkm_mmu_ptp_put mmu force b) := by
  obtain ⟨hb, hnfull⟩ := h
  obtain ⟨p, hp, hps, hpm, hpf⟩ := hb.live b (List.mem_cons_self _ _) hbs
  have hat : ptp_at mmu b.ptp = some p :=
    find_of_nodup nvkm_mmu_ptp.self mmu.ptp_heap b.ptp p hn hp hps
  have hk16 : b.base >>> p.shift < 16 := testBit_lt_16 p.mask _ (hb.mask_lt p hp) hpm
  have hbit := fun i => testBit_set p.free (b.base >>> p.shift) i (by omega)
  obtain ⟨hF1, hF2, hF3⟩ := ptp_put_frame mmu force b p hat
  generalize hv : ({ p with free := (p.free ||| BIT (b.base >>> p.shift)) % 2 ^ 16 } :
    nvkm_mmu_ptp) = v at hF1
  have hvs : v.self = p.self := by rw [← hv]
  have hvm : v.mask = p.mask := by rw [← hv]
  have hvsh : v.shift = p.shift := by rw [← hv]
  have hvf : v.free = (p.free ||| BIT (b.base >>> p.shift)) % 2 ^ 16 := by rw [← hv]
  rw [← hvf] at hF1 hF2
  have hvk : v.free.testBit (b.base >>> p.shift) = true := by
    rw [hvf, hbit]; simp [hk16]
  have hv0 : v.free ≠ 0 := by
    intro h0
    rw [h0, Nat.zero_testBit] at hvk
    cases hvk
  obtain ⟨huniq, hmem, hmemf⟩ := heap_set_mem mmu p v hn hp hvs
  have hl1 : ∀ a, a ∈ (if p.free = 0 then p.self :: mmu.ptp_list else mmu.ptp_list) ↔
      (a ∈ mmu.ptp_list ∨ a = p.self) := by
    intro a
    split
    · rw [List.mem_cons]; exact or_comm
    · rename_i h0
      have := (hb.linked p hp).mpr h0
      constructor
      · exact Or.inl
      · rintro (h1 | rfl)
        · exact h1
        · exact this
  have hl1n : (if p.free = 0 then p.self :: mmu.ptp_list else mmu.ptp_list).Nodup := by
    split
    · rename_i h0
      rw [List.nodup_cons]
      exact ⟨fun hm => (hb.linked p hp).mp hm h0, hb.list_nodup⟩
    · exact hb.list_nodup
  have hother : ∀ b' ∈ held, b'.sub = true → b'.ptp = p.self →
      b'.base >>> p.shift ≠ b.base >>> p.shift := by
    intro b' hb' hbs' hbp heq
    have := hb.distinct b' (List.mem_cons_of_mem _ hb') b (List.mem_cons_self _ _) hbs' hbs
      (by rw [hbp, hps]) p hp hbp.symm heq
    exact hfresh b' hb' this
  have hpool : ∀ q ∈ (nvkm_mmu_ptp_put mmu force b).ptp_heap,
      ∃ q0 ∈ mmu.ptp_heap, q0.self = q.self ∧ q0.shift = q.shift := by
    intro q hq
    rw [hF1] at hq
    split at hq
    · rw [hmemf] at hq
      exact ⟨q, hq.1, rfl, rfl⟩
    · rw [hmem] at hq
      rcases hq with rfl | ⟨hq, _⟩
      · exact ⟨p, hp, hvs.symm, hvsh.symm⟩
      · exact ⟨q, hq, rfl, rfl⟩
  have hdist : ∀ b1 ∈ held, ∀ b2 ∈ held, b1.sub = true → b2.sub = true → b1.ptp = b2.ptp →
      ∀ q ∈ (nvkm_mmu_ptp_put mmu force b).ptp_heap, q.self = b1.ptp →
        b1.base >>> q.shift = b2.base >>> q.shift → b1.self = b2.self := by
    intro b1 hb1 b2 hb2 hs1 hs2 hpp q hq hqs hsl
    obtain ⟨q0, hq0, hq0s, hq0sh⟩ := hpool q hq
    rw [← hq0sh] at hsl
    exact hb.distinct b1 (List.mem_cons_of_mem _ hb1) b2 (List.mem_cons_of_mem _ hb2) hs1 hs2 hpp
      q0 hq0 (by rw [hq0s, hqs]) hsl
  by_cases hd : v.free = p.mask
  · rw [if_pos hd] at hF1 hF2
    refine ⟨⟨?_, ?_, ?_, ?_, ?_, ?_, hdist⟩, ?_⟩
    · intro q hq
      rw [hF1, hmemf] at hq
      rw [hF2, List.mem_filter, hl1, ← hb.linked q hq.1]
      constructor
      · rintro ⟨h1 | h1, _⟩
        · exact h1
        · exact absurd h1 hq.2
      · intro h1
        exact ⟨Or.inl h1, by simpa using hq.2⟩
    · rw [hF2]; exact hl1n.filter _
    · intro a ha
      rw [hF2, List.mem_filter, hl1] at ha
      rw [hF3]
      rcases ha.1 with h1 | h1
      · exact hb.list_lt a h1
      · rw [h1]; exact hlt p hp
    · intro q hq
      rw [hF1, hmemf] at hq
      exact hb.mask_lt q hq.1
    · intro q hq
      rw [hF1, hmemf] at hq
      exact hb.free_sub q hq.1
    · intro b' hb' hbs'
      obtain ⟨q, hq, hqs, hqm, hqf⟩ := hb.live b' (List.mem_cons_of_mem _ hb') hbs'
      by_cases hqp : q.self = p.self
      · exfalso
        have := huniq q hq hqp
        subst this
        have hne := hother b' hb' hbs' hqs.symm
        have : v.free.testBit (b'.base >>> q.shift) = false := by
          rw [hvf, hbit, hqf]
          have : ¬ (b.base >>> q.shift = b'.base >>> q.shift) := fun h => hne h.symm
          simp [this]
        rw [hd, hqm] at this
        cases this
      · exact ⟨q, by rw [hF1, hmemf]; exact ⟨hq, hqp⟩, hqs, hqm, hqf⟩
    · intro q hq
      rw [hF1, hmemf] at hq
      exact hnfull q hq.1
  · rw [if_neg hd] at hF1 hF2
    refine ⟨⟨?_, ?_, ?_, ?_, ?_, ?_, hdist⟩, ?_⟩
    · intro q hq
      rw [hF1, hmem] at hq
      rw [hF2, hl1]
      rcases hq with rfl | ⟨hq, hqs⟩
      · exact ⟨fun _ => hv0, fun _ => Or.inr hvs⟩
      · rw [← hb.linked q hq]
        exact ⟨fun h1 => h1.resolve_right hqs, Or.inl⟩
    · rw [hF2]; exact hl1n
    · intro a ha
      rw [hF2, hl1] at ha
      rw [hF3]
      rcases ha with h1 | h1
      · exact hb.list_lt a h1
      · rw [h1]; exact hlt p hp
    · intro q hq
      rw [hF1, hmem] at hq
      rcases hq with rfl | ⟨hq, _⟩
      · rw [hvm]; exact hb.mask_lt p hp
      · exact hb.mask_lt q hq
    · intro q hq i hi
      rw [hF1, hmem] at hq
      rcases hq with rfl | ⟨hq, _⟩
      · rw [hvm]
        rw [hvf, hbit] at hi
        simp only [Bool.and_eq_true, decide_eq_true_eq, Bool.or_eq_true] at hi
        rcases hi.2 with h1 | h1
        · exact hb.free_sub p hp i h1
        · rw [← h1]; exact hpm
      · exact hb.free_sub q hq i hi
    · intro b' hb' hbs'
      obtain ⟨q, hq, hqs, hqm, hqf⟩ := hb.live b' (List.mem_cons_of_mem _ hb') hbs'
      by_cases hqp : q.self = p.self
      · have := huniq q hq hqp
        subst this
        have hne := hother b' hb' hbs' hqs.symm
        refine ⟨v, by rw [hF1, hmem]; exact Or.inl rfl, by rw [hvs, hqs], ?_, ?_⟩
        · rw [hvsh, hvm]; exact hqm
        · rw [hvsh, hvf, hbit, hqf]
          have : ¬ (b.base >>> q.shift = b'.base >>> q.shift) := fun h => hne h.symm
          simp [this]
      · exact ⟨q, by rw [hF1, hmem]; exact Or.inr ⟨hq, hqp⟩, hqs, hqm, hqf⟩
    · intro q hq
      rw [hF1, hmem] at hq
      rcases hq with rfl | ⟨hq, _⟩
      · rw [hvm]; exact hd
      · exact hnfull q hq

theorem sizes_ok_ptp_heap (held held' : List nvkm_mmu_pt) (m1 m2 : nvkm_mmu)
    (hc : m2.ptc_list = m1.ptc_list)
    (hh : ∀ q ∈ m2.ptp_heap, ∃ q0 ∈ m1.ptp_heap, q0.pt = q.pt)
    (hsub : ∀ b ∈ held', b ∈ held ∨ b.sub = true)
    (h : sizes_ok held m1) : sizes_ok held' m2 := by
  have hcl : ∀ b, classed m1 b → classed m2 b := fun b hb =>
    classed_mono m1 m2 b (fun c hcm => ⟨c, by rw [hc]; exact hcm, rfl, rfl⟩) hb
  refine ⟨by rw [hc]; exact h.cached_ok, ?_, ?_⟩
  · intro b hb hs
    rcases hsub b hb with hm | ht
    · exact hcl b (h.held_ok b hm hs)
    · rw [ht] at hs; cases hs
  · intro q hq
    obtain ⟨q0, hq0, hpt⟩ := hh q hq
    rw [← hpt]
    exact ⟨hcl _ (h.parent_ok q0 hq0).1, (h.parent_ok q0 hq0).2⟩

theorem sizes_ok_ptp_get_slot (held : List nvkm_mmu_pt) (mmu : nvkm_mmu) (self : Nat)
    (p : nvkm_mmu_ptp) (h : sizes_ok held mmu) (hp : p ∈ mmu.ptp_heap) :
    ∀ pt, (nvkm_mmu_ptp_get_slot mmu self p).1 = some pt →
      sizes_ok (pt :: held) (nvkm_mmu_ptp_get_slot mmu self p).2 := by
  intro pt hpt
  obtain ⟨hf1, hf2, _, _, pt', hpt', _, hsub', _⟩ := ptp_get_slot_frame mmu self p
  rw [hpt'] at hpt
  cases hpt
  apply sizes_ok_ptp_heap held _ mmu _ hf1 _ _ h
  · intro q hq
    rw [hf2] at hq
    simp only [ptp_set, List.mem_map] at hq
    obtain ⟨d, hd, rfl⟩ := hq
    by_cases hds : (d.self == p.self) = true
    · rw [if_pos hds]; exact ⟨p, hp, rfl⟩
    · rw [if_neg hds]; exact ⟨d, hd, rfl⟩
  · intro b hb
    rcases List.mem_cons.mp hb with rfl | hb
    · exact Or.inr hsub'
    · exact Or.inl hb

theorem sizes_ok_ptp_put (held : List nvkm_mmu_pt) (mmu : nvkm_mmu) (force : Bool)
    (pt : nvkm_mmu_pt) (h : sizes_ok (pt :: held) mmu)
    (hn : (mmu.ptc_list.map nvkm_mmu_ptc.self).Nodup) :
    sizes_ok held (nvkm_mmu_ptp_put mmu force pt) := by
  have h' : sizes_ok held mmu :=
    sizes_ok_held (pt :: held) held mmu h (fun b hb => Or.inl (List.mem_cons_of_mem _ hb))
  unfold nvkm_mmu_ptp_put
  cases hp : ptp_at mmu pt.ptp with
  | none => exact h'
  | some p =>
    simp only
    have hpm := ptp_at_mem mmu pt.ptp p hp
    generalize hm1 : (if p.free = 0 then { mmu with ptp_list := p.self :: mmu.ptp_list }
      else mmu) = mmu1
    have hm1c : mmu1.ptc_list = mmu.ptc_list := by rw [← hm1]; split <;> rfl
    have hm1h : mmu1.ptp_heap = mmu.ptp_heap := by rw [← hm1]; split <;> rfl
    generalize hv : ({ p with free := (p.free ||| BIT (pt.base >>> p.shift)) % 2 ^ 16 } :
      nvkm_mmu_ptp) = v
    have hvp : v.pt = p.pt := by rw [← hv]
    have hheap : ∀ q ∈ (ptp_set mmu1 p.self v).ptp_heap, ∃ q0 ∈ mmu.ptp_heap, q0.pt = q.pt := by
      intro q hq
      simp only [ptp_set, List.mem_map, hm1h] at hq
      obtain ⟨d, hd, rfl⟩ := hq
      by_cases hds : (d.self == p.self) = true
      · rw [if_pos hds]; exact ⟨p, hpm, hvp.symm⟩
      · rw [if_neg hds]; exact ⟨d, hd, rfl⟩
    have h2 : sizes_ok held (ptp_set mmu1 p.self v) :=
      sizes_ok_ptp_heap held held mmu _ (by rw [ptp_set_ptc_list, hm1c]) hheap
        (fun b hb => Or.inl hb) h'
    by_cases hd : (p.free ||| BIT (pt.base >>> p.shift)) % 2 ^ 16 = p.mask
    · rw [if_pos hd]
      have hcl : classed (ptp_set mmu1 p.self v) p.pt :=
        classed_mono mmu _ p.pt
          (fun c hc => ⟨c, by rw [ptp_set_ptc_list, hm1c]; exact hc, rfl, rfl⟩)
          (h.parent_ok p hpm).1
      have h3 := sizes_ok_put_cache held (ptp_set mmu1 p.self v) force p.pt h2
        (by rw [ptp_set_ptc_list, hm1c]; exact hn) hcl
      refine sizes_ok_ptp_heap held held
        (nvkm_mmu_ptc_put_cache (ptp_set mmu1 p.self v) force p.pt) _ rfl ?_
        (fun b hb => Or.inl hb) h3
      intro q hq
      have hq' : q ∈ (nvkm_mmu_ptc_put_cache (ptp_set mmu1 p.self v) force p.pt).ptp_heap :=
        List.mem_of_mem_filter hq
      exact ⟨q, hq', rfl⟩
    · rw [if_neg hd]
      exact sizes_ok_congr held (ptp_set mmu1 p.self v) _ rfl rfl h2

theorem sp_new_pool (held : List nvkm_mmu_pt) (mmu1 : nvkm_mmu) (v0 : nvkm_mmu_ptp)
    (hs : sizes_ok held mmu1) (hp : pools_ok held mmu1) (hcl : classed mmu1 v0.pt)
    (h1000 : v0.pt.memory.size = 0x1000) (hlist : mmu1.ptp_list = [])
    (hfresh : ∀ q ∈ mmu1.ptp_heap, q.self < v0.self) (hlt : v0.self < mmu1.brk)
    (hm0 : v0.mask ≠ 0) (hmlt : v0.mask < 2 ^ 16) (hfm : v0.free = v0.mask) :
    sizes_ok held
      { mmu1 with ptp_list := v0.self :: mmu1.ptp_list, ptp_heap := v0 :: mmu1.ptp_heap } ∧
    pools_base held
      { mmu1 with ptp_list := v0.self :: mmu1.ptp_list, ptp_heap := v0 :: mmu1.ptp_heap } ∧
    (∀ q ∈ v0 :: mmu1.ptp_heap, q.self ≠ v0.self → q.free ≠ q.mask) := by
  refine ⟨⟨hs.cached_ok, ?_, ?_⟩, ⟨?_, ?_, ?_, ?_, ?_, ?_, ?_⟩, ?_⟩
  · intro b hb hsub
    exact classed_mono mmu1 _ b (fun c hc => ⟨c, hc, rfl, rfl⟩) (hs.held_ok b hb hsub)
  · intro q hq
    rcases List.mem_cons.mp hq with rfl | hq
    · exact ⟨classed_mono mmu1 _ _ (fun c hc => ⟨c, hc, rfl, rfl⟩) hcl, h1000⟩
    · exact ⟨classed_mono mmu1 _ _ (fun c hc => ⟨c, hc, rfl, rfl⟩) (hs.parent_ok q hq).1,
        (hs.parent_ok q hq).2⟩
  · intro q hq
    show q.self ∈ v0.self :: mmu1.ptp_list ↔ q.free ≠ 0
    rcases List.mem_cons.mp hq with rfl | hq
    · rw [hfm]
      exact ⟨fun _ => hm0, fun _ => List.mem_cons_self _ _⟩
    · rw [← hp.1.linked q hq, List.mem_cons]
      have := hfresh q hq
      exact ⟨fun h1 => h1.resolve_left (by omega), Or.inr⟩
  · show (v0.self :: mmu1.ptp_list).Nodup
    rw [hlist]
    exact List.nodup_singleton _
  · intro a ha
    have ha' : a ∈ v0.self :: mmu1.ptp_list := ha
    rw [hlist, List.mem_singleton] at ha'
    rw [ha']
    exact hlt
  · intro q hq
    rcases List.mem_cons.mp hq with rfl | hq
    · exact hmlt
    · exact hp.1.mask_lt q hq
  · intro q hq i hi
    rcases List.mem_cons.mp hq with rfl | hq
    · rw [← hfm]; exact hi
    · exact hp.1.free_sub q hq i hi
  · intro b hb hsub
    obtain ⟨q, hq, h1⟩ := hp.1.live b hb hsub
    exact ⟨q, List.mem_cons_of_mem _ hq, h1⟩
  · intro b hb b' hb' hsub hsub' hpp q hq hqs hsl
    rcases List.mem_cons.mp hq with rfl | hq
    · exfalso
      obtain ⟨q0, hq0, hq0s, _⟩ := hp.1.live b hb hsub
      have := hfresh q0 hq0
      omega
    · exact hp.1.distinct b hb b' hb' hsub hsub' hpp q hq hqs hsl
  · intro q hq hqs
    rcases List.mem_cons.mp hq with rfl | hq
    · exact absurd rfl hqs
    · exact hp.2 q hq

theorem sp_ptp_get (held : List nvkm_mmu_pt) (mmu : nvkm_mmu) (size : Nat) (zero : Bool)
    (o o2 : Alloc) (hown : blocks_ok (held.map nvkm_mmu_pt.self) mmu)
    (hs : sizes_ok held mmu) (hp : pools_ok held mmu) (h128 : 128 < size)
    (hsz : size < 0x1000) :
    ((nvkm_mmu_ptp_get mmu size zero o o2).1 = none →
      sizes_ok held (nvkm_mmu_ptp_get mmu size zero o o2).2 ∧
      pools_ok held (nvkm_mmu_ptp_get mmu size zero o o2).2) ∧
    (∀ pt, (nvkm_mmu_ptp_get mmu size zero o o2).1 = some pt →
      sizes_ok (pt :: held) (nvkm_mmu_ptp_get mmu size zero o o2).2 ∧
      pools_ok (pt :: held) (nvkm_mmu_ptp_get mmu size zero o o2).2) := by
  unfold nvkm_mmu_ptp_get
  cases o.kmalloc_pt with
  | false => exact ⟨fun _ => ⟨hs, hp⟩, fun pt hpt => by simp at hpt⟩
  | true =>
    simp only [Bool.not_true, Bool.false_eq_true, if_false]
    rcases mmu with ⟨cl, pl, ph, brk, eff⟩
    have hid : ∀ b ∈ held, b ∈ held ∨ b.sub = false := fun b hb => Or.inl hb
    cases pl with
    | cons a l =>
      simp only
      have hs0 : sizes_ok held ⟨cl, a :: l, ph, brk + 1, eff⟩ :=
        sizes_ok_congr held ⟨cl, a :: l, ph, brk, eff⟩ _ rfl rfl hs
      have hp0 : pools_ok held ⟨cl, a :: l, ph, brk + 1, eff⟩ :=
        pools_ok_congr held held ⟨cl, a :: l, ph, brk, eff⟩ _ rfl rfl (Nat.le_succ _) hid hp
      cases hat : ptp_at ⟨cl, a :: l, ph, brk + 1, eff⟩ a with
      | none => exact ⟨fun _ => ⟨hs0, hp0⟩, fun pt hpt => by simp at hpt⟩
      | some p =>
        simp only
        have hpm : p ∈ ph := ptp_at_mem _ a p hat
        have hpa : p.self = a := ptp_at_self _ a p hat
        have hf0 : p.free ≠ 0 := (hp0.1.linked p hpm).mp (by rw [hpa]; exact List.mem_cons_self _ _)
        refine ⟨fun hn => ?_, fun pt hpt => ?_⟩
        · obtain ⟨pt', hpt', _⟩ := (ptp_get_slot_frame ⟨cl, a :: l, ph, brk + 1, eff⟩ brk p).2.2.2.2
          rw [hpt'] at hn; cases hn
        · exact ⟨sizes_ok_ptp_get_slot held _ brk p hs0 hpm pt hpt,
            pools_get_slot held _ brk p hp0.1 (fun q hq _ => hp0.2 q hq) hown.pool.1 hpm hf0 pt hpt⟩
    | nil =>
      simp only
      cases o.kmalloc_ptp with
      | false =>
        simp only [Bool.not_false, if_true]
        exact ⟨fun _ => ⟨sizes_ok_congr held ⟨cl, [], ph, brk, eff⟩ _ rfl rfl hs,
          pools_ok_congr held held ⟨cl, [], ph, brk, eff⟩ _ rfl rfl (Nat.le_succ _) hid hp⟩,
          fun pt hpt => by simp at hpt⟩
      | true =>
        simp only [Bool.not_true, Bool.false_eq_true, if_false]
        have hsM : sizes_ok held ⟨cl, [], ph, brk + 1 + 1, eff⟩ :=
          sizes_ok_congr held ⟨cl, [], ph, brk, eff⟩ _ rfl rfl hs
        have hpM : pools_ok held ⟨cl, [], ph, brk + 1 + 1, eff⟩ :=
          pools_ok_congr held held ⟨cl, [], ph, brk, eff⟩ _ rfl rfl (by show brk ≤ brk + 1 + 1; omega)
            hid hp
        have hg := sizes_ok_get_cache held ⟨cl, [], ph, brk + 1 + 1, eff⟩ 0x1000 0x1000 false o2
          hsM hown.cls.1 (fun c hc => by
            have := hown.cls.2 c.self (List.mem_map_of_mem _ hc)
            show c.self < brk + 1 + 1
            simp only at this
            omega)
        have hfr := get_cache_frame ⟨cl, [], ph, brk + 1 + 1, eff⟩ 0x1000 0x1000 false o2
        rcases hgc : nvkm_mmu_ptc_get_cache ⟨cl, [], ph, brk + 1 + 1, eff⟩ 0x1000 0x1000
            false o2 with ⟨_ | parent, mmu1⟩
        · rw [hgc] at hg hfr
          simp only at hg hfr ⊢
          refine ⟨fun _ => ⟨sizes_ok_congr held mmu1 _ rfl rfl hg.1, ?_⟩,
            fun pt hpt => by simp at hpt⟩
          exact pools_ok_congr held held ⟨cl, [], ph, brk + 1 + 1, eff⟩ _ hfr.2.1 hfr.1 hfr.2.2
            hid hpM
        · rw [hgc] at hg hfr
          simp only at hg hfr ⊢
          obtain ⟨hcl, h1000⟩ := hg.2 parent rfl
          have hp1 : pools_ok held mmu1 :=
            pools_ok_congr held held ⟨cl, [], ph, brk + 1 + 1, eff⟩ mmu1 hfr.2.1 hfr.1 hfr.2.2
              hid hpM
          rw [h1000]
          have hnew := sp_new_pool held mmu1
            { self := brk + 1, pt := parent, shift := order_base_2 size % 2 ^ 8,
              mask := (((1 <<< ((4096 >>> (order_base_2 size % 2 ^ 8)) % 2 ^ 32 % 32))
                % 2 ^ 32 + 2 ^ 32 - 1) % 2 ^ 32) % 2 ^ 16,
              free := (((1 <<< ((4096 >>> (order_base_2 size % 2 ^ 8)) % 2 ^ 32 % 32))
                % 2 ^ 32 + 2 ^ 32 - 1) % 2 ^ 32) % 2 ^ 16 }
            hg.1 hp1 hcl h1000 hfr.2.1
            (fun q hq => by
              rw [hfr.1] at hq
              have := hown.pool.2 q.self (List.mem_map_of_mem _ hq)
              show q.self < brk + 1
              simp only at this
              omega)
            (by show brk + 1 < mmu1.brk; have := hfr.2.2; simp only at this; omega)
            (new_mask_ne_zero size h128 hsz)
            (Nat.mod_lt _ (by decide)) rfl
          have hnod : ((⟨brk + 1, parent, order_base_2 size % 2 ^ 8,
              (((1 <<< ((4096 >>> (order_base_2 size % 2 ^ 8)) % 2 ^ 32 % 32))
                % 2 ^ 32 + 2 ^ 32 - 1) % 2 ^ 32) % 2 ^ 16,
              (((1 <<< ((4096 >>> (order_base_2 size % 2 ^ 8)) % 2 ^ 32 % 32))
                % 2 ^ 32 + 2 ^ 32 - 1) % 2 ^ 32) % 2 ^ 16⟩ :: mmu1.ptp_heap).map
              nvkm_mmu_ptp.self).Nodup := by
            rw [List.map_cons, List.nodup_cons, hfr.1]
            refine ⟨?_, hown.pool.1⟩
            intro hm
            have := hown.pool.2 _ hm
            simp only at this
            omega
          refine ⟨fun hn => ?_, fun pt hpt => ?_⟩
          · obtain ⟨pt', hpt', _⟩ := (ptp_get_slot_frame _ brk _).2.2.2.2
            rw [hpt'] at hn; cases hn
          · exact ⟨sizes_ok_ptp_get_slot held _ brk _ hnew.1 (List.mem_cons_self _ _) pt hpt,
              pools_get_slot held _ brk _ hnew.2.1 hnew.2.2 hnod (List.mem_cons_self _ _)
                (new_mask_ne_zero size h128 hsz) pt hpt⟩

theorem wf_put (held : List nvkm_mmu_pt) (mmu : nvkm_mmu) (force : Bool) (pt : nvkm_mmu_pt)
    (h : wf (pt :: held) mmu) : wf held (nvkm_mmu_ptc_put mmu force (some pt)) := by
  have hown := blocks_ok_put (held.map nvkm_mmu_pt.self) mmu force pt h.own
  refine ⟨hown, ?_, ?_⟩
  · unfold nvkm_mmu_ptc_put
    simp only
    split
    · exact sizes_ok_ptp_put held mmu force pt h.sizes h.own.cls.1
    · rename_i hsub
      have hsub' : pt.sub = false := by simpa using hsub
      have hcl := h.sizes.held_ok pt (List.mem_cons_self _ _) hsub'
      apply sizes_ok_put_cache held mmu force pt _ h.own.cls.1 hcl
      exact sizes_ok_held (pt :: held) held mmu h.sizes
        (fun b hb => Or.inl (List.mem_cons_of_mem _ hb))
  · unfold nvkm_mmu_ptc_put
    simp only
    split
    · rename_i hsub
      apply pools_ptp_put held mmu force pt h.pools hsub h.own.pool.1
      · intro p hp
        exact h.own.pool.2 p.self (List.mem_map_of_mem _ hp)
      · intro b' hb' heq
        have hnd := h.own.blocks.1
        simp only [List.map_cons, List.cons_append, List.nodup_cons] at hnd
        apply hnd.1
        rw [← heq]
        exact List.mem_append_left _ (List.mem_map_of_mem _ hb')
    · have hfr := put_cache_frame mmu force pt
      exact pools_ok_congr (pt :: held) held mmu _ hfr.2.1 hfr.1 (by rw [hfr.2.2])
        (fun b hb => Or.inl (List.mem_cons_of_mem _ hb)) h.pools

theorem wf_get (held : List nvkm_mmu_pt) (mmu : nvkm_mmu) (size align : Nat) (zero : Bool)
    (o o2 : Alloc) (h : wf held mmu) (h128 : 128 < align) :
    ((nvkm_mmu_ptc_get mmu size align zero o o2).1 = none →
      wf held (nvkm_mmu_ptc_get mmu size align zero o o2).2) ∧
    (∀ pt, (nvkm_mmu_ptc_get mmu size align zero o o2).1 = some pt →
      wf (pt :: held) (nvkm_mmu_ptc_get mmu size align zero o o2).2) := by
  have hown := blocks_ok_get (held.map nvkm_mmu_pt.self) mmu size align zero o o2 h.own
  unfold nvkm_mmu_ptc_get at hown ⊢
  by_cases ha : align < 0x1000
  · rw [if_pos ha] at hown ⊢
    have hsp := sp_ptp_get held mmu align zero o o2 h.own h.sizes h.pools h128 ha
    exact ⟨fun hn => ⟨hown.1 hn, (hsp.1 hn).1, (hsp.1 hn).2⟩,
      fun pt hpt => ⟨hown.2 pt hpt, (hsp.2 pt hpt).1, (hsp.2 pt hpt).2⟩⟩
  · rw [if_neg ha] at hown ⊢
    have hs := sizes_ok_get_cache held mmu size align zero o h.sizes h.own.cls.1
      (fun c hc => h.own.cls.2 c.self (List.mem_map_of_mem _ hc))
    have hfr := get_cache_frame mmu size align zero o
    constructor
    · intro hn
      exact ⟨hown.1 hn, hs.1,
        pools_ok_congr held held mmu _ hfr.2.1 hfr.1 hfr.2.2 (fun b hb => Or.inl hb) h.pools⟩
    · intro pt hpt
      have hcl := (hs.2 pt hpt).1
      refine ⟨hown.2 pt hpt, ?_, ?_⟩
      · apply sizes_ok_held held (pt :: held) _ hs.1
        intro b hb
        rcases List.mem_cons.mp hb with rfl | hb
        · exact Or.inr (fun _ => hcl)
        · exact Or.inl hb
      · apply pools_ok_congr held (pt :: held) mmu _ hfr.2.1 hfr.1 hfr.2.2 _ h.pools
        intro b hb
        rcases List.mem_cons.mp hb with rfl | hb
        · exact Or.inr hcl.1
        · exact Or.inl hb

theorem wf_perm (held held' : List nvkm_mmu_pt) (mmu : nvkm_mmu) (hp : held.Perm held')
    (h : wf held mmu) : wf held' mmu := by
  have hmem : ∀ b ∈ held', b ∈ held := fun b hb => hp.mem_iff.mpr hb
  refine ⟨blocks_ok_perm _ _ mmu (hp.map _) h.own, ?_, ?_⟩
  · exact sizes_ok_held held held' mmu h.sizes (fun b hb => Or.inl (hmem b hb))
  · exact pools_ok_congr held held' mmu mmu rfl rfl (le_refl _) (fun b hb => Or.inl (hmem b hb))
      h.pools

theorem wf_step (s : Sys) (op : Op) (h : s.wf) (hop : op.slot_defined = true) :
    (s.step op).wf := by
  unfold Sys.wf at h ⊢
  cases op with
  | get size align zero o o2 =>
    have hg := wf_get s.held s.mmu size align zero o o2 h (by simpa [Op.slot_defined] using hop)
    simp only [Sys.step]
    rcases hr : nvkm_mmu_ptc_get s.mmu size align zero o o2 with ⟨_ | pt, mmu⟩
    · rw [hr] at hg; exact hg.1 rfl
    · rw [hr] at hg
      exact wf_perm _ _ _ (List.perm_append_singleton _ _).symm (hg.2 pt rfl)
  | put i force =>
    simp only [Sys.step]
    cases hi : s.held.get? i with
    | none => exact h
    | some pt =>
      simp only
      exact wf_put _ _ force pt (wf_perm _ _ _ (perm_eraseIdx s.held i pt hi) h)

theorem wf_run (ops : List Op) (s : Sys) (h : s.wf) (hops : ops.all Op.slot_defined = true) :
    (s.run ops).wf := by
  induction ops generalizing s with
  | nil => exact h
  | cons op ops ih =>
    rw [List.all_cons, Bool.and_eq_true] at hops
    exact ih (s.step op) (wf_step s op h hops.1) hops.2

theorem wf_init (brk : Nat) : (Sys.init brk).wf := by
  refine ⟨own_ok_init brk, ⟨?_, ?_, ?_⟩, ⟨⟨?_, ?_, ?_, ?_, ?_, ?_, ?_⟩, ?_⟩⟩ <;>
    simp [Sys.init, nvkm_mmu_ptc_init]

/-- The invariant of the pools over calls whose sub-allocations have slots
of more than 128 bytes: every existing pool is linked into `mmu->ptp.list`
if and only if its free mask is not zero, no pool is linked twice, and no
existing pool has its free mask equal to its full mask. -/
theorem pools_run (brk : Nat) (ops : List Op) (hops : ops.all Op.slot_defined = true) :
    (∀ p ∈ ((Sys.init brk).run ops).mmu.ptp_heap,
      (p.self ∈ ((Sys.init brk).run ops).mmu.ptp_list ↔ p.free ≠ 0)) ∧
    ((Sys.init brk).run ops).mmu.ptp_list.Nodup ∧
    (∀ p ∈ ((Sys.init brk).run ops).mmu.ptp_heap, p.free ≠ p.mask) := by
  have h := (wf_run ops (Sys.init brk) (wf_init brk) hops).pools
  exact ⟨h.1.linked, h.1.list_nodup, h.2⟩

/-- C10 at a failing input: from the empty cache one block is sub-allocated
with slots of 128 bytes. The new pool has a shift of 7 and 32 slots;
`1 << 32` on an `int` is the shift instruction's `1 << 0`, so the `u16` mask
is 0. After the call the pool exists, its free mask equals its full mask
(both are 0) and it is not linked. -/
theorem ptp_list_small_slots :
    ex_small.mmu.ptp_heap.map (fun p => (p.self, p.shift, p.mask, p.free)) = [(1, 7, 0, 0)] ∧
    ex_small.mmu.ptp_list = [] ∧
    ex_small.held.length = 1 ∧
    ¬ (∀ p ∈ ex_small.mmu.ptp_heap, p.free ≠ p.mask) := by
  decide

/-! ## C9: reclamation of a pool -/

theorem ffs_eq (x j : Nat) (hj : j < 64) (hlow : ∀ i, i < j → x.testBit i = false)
    (hbit : x.testBit j = true) : __ffs x = j := by
  unfold __ffs
  have : (List.range 64).find? (fun i => x.testBit i) = some j := by
    rw [List.find?_range_eq_some]
    exact ⟨hbit, List.mem_range.mpr hj, fun i hi => by simp [hlow i hi]⟩
  rw [this]
  rfl

theorem new_mask_bits (size : Nat) (h128 : 128 < size) (h : size < 0x1000) (i : Nat) :
    ((((1 <<< ((0x1000 >>> (order_base_2 size % 2 ^ 8)) % 2 ^ 32 % 32)) % 2 ^ 32 + 2 ^ 32 - 1)
      % 2 ^ 32) % 2 ^ 16).testBit i = decide (i < ptp_capacity size) := by
  have hle := order_base_2_le size h
  have hge := order_base_2_ge size h128
  have hmod : order_base_2 size % 2 ^ 8 = order_base_2 size := Nat.mod_eq_of_lt (by omega)
  unfold ptp_capacity
  rw [hmod]
  have hall : ∀ sh ∈ List.range 13, 8 ≤ sh →
      (((1 <<< ((0x1000 >>> sh) % 2 ^ 32 % 32)) % 2 ^ 32 + 2 ^ 32 - 1) % 2 ^ 32) % 2 ^ 16 =
        2 ^ (min ((0x1000 >>> sh) % 2 ^ 32) 16) - 1 := by
    decide
  rw [hall _ (List.mem_range.mpr (by omega)) hge, Nat.testBit_two_pow_sub_one]

theorem ptp_capacity_le (size : Nat) : ptp_capacity size ≤ 16 := Nat.min_le_right _ _

/-- For slots of more than 128 bytes the capacity is the slot count
`0x1000 >> order_base_2(size)`. -/
theorem ptp_capacity_eq (size : Nat) (h128 : 128 < size) (h : size < 0x1000) :
    ptp_capacity size = 0x1000 >>> order_base_2 size := by
  have hle := order_base_2_le size h
  have hge := order_base_2_ge size h128
  have hmod : order_base_2 size % 2 ^ 8 = order_base_2 size := Nat.mod_eq_of_lt (by omega)
  unfold ptp_capacity
  rw [hmod]
  have hall : ∀ sh ∈ List.range 13, 8 ≤ sh →
      min ((0x1000 >>> sh) % 2 ^ 32) 16 = 0x1000 >>> sh := by
    decide
  exact hall _ (List.mem_range.mpr (by omega)) hge

theorem ptp_set_head (mmu : nvkm_mmu) (P v : nvkm_mmu_ptp) (heap0 : List nvkm_mmu_ptp)
    (hh : mmu.ptp_heap = P :: heap0) (hne : ∀ q ∈ heap0, q.self ≠ P.self) :
    (ptp_set mmu P.self v).ptp_heap = v :: heap0 := by
  simp only [ptp_set, hh, List.map_cons, beq_self_eq_true, if_true, List.cons.injEq, true_and]
  rw [List.map_congr_left, List.map_id]
  intro q hq
  have : ¬ (q.self == P.self) = true := by simpa using hne q hq
  rw [if_neg this]
  rfl

theorem ptp_set_head_eq (mmu : nvkm_mmu) (P v : nvkm_mmu_ptp) (heap0 : List nvkm_mmu_ptp)
    (hh : mmu.ptp_heap = P :: heap0) (hne : ∀ q ∈ heap0, q.self ≠ P.self) :
    ptp_set mmu P.self v = { mmu with ptp_heap := v :: heap0 } := by
  have := ptp_set_head mmu P v heap0 hh hne
  unfold ptp_set at this ⊢
  simp only at this
  rw [this]

/-- Carving a slot out of a pool whose free slots are `j, ..., cap - 1`:
slot `j` is taken. -/
theorem get_slot_open (mmu : nvkm_mmu) (self : Nat) (P : nvkm_mmu_ptp)
    (heap0 : List nvkm_mmu_ptp) (j cap : Nat)
    (hh : mmu.ptp_heap = P :: heap0) (hne : ∀ q ∈ heap0, q.self ≠ P.self)
    (hcap : cap ≤ 16) (hj : j < cap)
    (hfree : ∀ i, P.free.testBit i = decide (j ≤ i ∧ i < cap)) :
    ∃ b F, nvkm_mmu_ptp_get_slot mmu self P =
        (some b, { mmu with
          ptp_heap := { P with free := F } :: heap0,
          ptp_list := if j + 1 < cap then mmu.ptp_list
            else mmu.ptp_list.filter (fun a => a != P.self) }) ∧
      b.self = self ∧ b.sub = true ∧ b.ptp = P.self ∧ b.base >>> P.shift = j ∧
      (∀ i, F.testBit i = decide (j + 1 ≤ i ∧ i < cap)) := by
  have hffs : __ffs P.free = j := by
    apply ffs_eq P.free j (by omega)
    · intro i hi
      rw [hfree]
      simp only [decide_eq_false_iff_not, not_and]
      omega
    · rw [hfree]
      simp only [decide_eq_true_eq]
      omega
  have hF : ∀ i, ((P.free &&& ((2 ^ 64 - 1) ^^^ BIT j)) % 2 ^ 16).testBit i =
      decide (j + 1 ≤ i ∧ i < cap) := by
    intro i
    rw [testBit_clear P.free j i (by omega), hfree]
    by_cases h1 : i < 16 <;> by_cases h2 : j ≤ i <;> by_cases h3 : i < cap <;>
      by_cases h4 : j = i <;> simp [h1, h2, h3, h4] <;> omega
  refine ⟨{ self := self, ptc := 0, ptp := P.self, memory := P.pt.memory, sub := true,
            base := j <<< P.shift, addr := P.pt.addr + j <<< P.shift },
    (P.free &&& ((2 ^ 64 - 1) ^^^ BIT j)) % 2 ^ 16, ?_, rfl, rfl, rfl, ?_, hF⟩
  · rw [ptp_get_slot_eq, hffs]
    rw [ptp_set_head_eq mmu P _ heap0 hh hne]
    by_cases hlast : j + 1 < cap
    · have hne0 : (P.free &&& ((2 ^ 64 - 1) ^^^ BIT j)) % 2 ^ 16 ≠ 0 := by
        intro h0
        have := hF (j + 1)
        rw [h0, Nat.zero_testBit] at this
        simp only [le_refl, true_and] at this
        have := (decide_eq_false_iff_not.mp this.symm)
        omega
      rw [if_neg hne0, if_pos hlast]
    · have h0 : (P.free &&& ((2 ^ 64 - 1) ^^^ BIT j)) % 2 ^ 16 = 0 := by
        apply Nat.eq_of_testBit_eq
        intro i
        rw [hF, Nat.zero_testBit]
        simp only [decide_eq_false_iff_not, not_and]
        omega
      rw [if_pos h0, if_neg hlast]
  · exact Nat.shiftLeft_shiftRight _ _

theorem ptp_get_existing (mmu : nvkm_mmu) (size : Nat) (zero : Bool) (o o2 : Alloc) (a : Nat)
    (l : List Nat) (P : nvkm_mmu_ptp) (hk : o.kmalloc_pt = true) (hl : mmu.ptp_list = a :: l)
    (hat : ptp_at mmu a = some P) :
    nvkm_mmu_ptp_get mmu size zero o o2 =
      nvkm_mmu_ptp_get_slot { mmu with brk := mmu.brk + 1 } mmu.brk P := by
  have hat' : ptp_at { mmu with brk := mmu.brk + 1 } a = some P := hat
  unfold nvkm_mmu_ptp_get
  simp only [hk, Bool.not_true, Bool.false_eq_true, if_false]
  rw [hl]
  simp only
  rw [← hl, hat']

theorem ptp_get_new (mmu : nvkm_mmu) (size : Nat) (zero : Bool) (o o2 : Alloc)
    (parent : nvkm_mmu_pt) (mmu1 : nvkm_mmu)
    (hk : o.kmalloc_pt = true) (hk2 : o.kmalloc_ptp = true) (hl : mmu.ptp_list = [])
    (hg : nvkm_mmu_ptc_get_cache { mmu with brk := mmu.brk + 1 + 1 } 0x1000 0x1000 false o2 =
      (some parent, mmu1)) :
    nvkm_mmu_ptp_get mmu size zero o o2 =
      nvkm_mmu_ptp_get_slot
        { mmu1 with
          ptp_list := (mmu.brk + 1) :: mmu1.ptp_list,
          ptp_heap :=
            { self := mmu.brk + 1, pt := parent, shift := order_base_2 size % 2 ^ 8,
              mask := (((1 <<< ((parent.memory.size >>> (order_base_2 size % 2 ^ 8)) % 2 ^ 32 % 32))
                % 2 ^ 32 + 2 ^ 32 - 1) % 2 ^ 32) % 2 ^ 16,
              free := (((1 <<< ((parent.memory.size >>> (order_base_2 size % 2 ^ 8)) % 2 ^ 32 % 32))
                % 2 ^ 32 + 2 ^ 32 - 1) % 2 ^ 32) % 2 ^ 16 } :: mmu1.ptp_heap }
        mmu.brk
        { self := mmu.brk + 1, pt := parent, shift := order_base_2 size % 2 ^ 8,
          mask := (((1 <<< ((parent.memory.size >>> (order_base_2 size % 2 ^ 8)) % 2 ^ 32 % 32))
            % 2 ^ 32 + 2 ^ 32 - 1) % 2 ^ 32) % 2 ^ 16,
          free := (((1 <<< ((parent.memory.size >>> (order_base_2 size % 2 ^ 8)) % 2 ^ 32 % 32))
            % 2 ^ 32 + 2 ^ 32 - 1) % 2 ^ 32) % 2 ^ 16 } := by
  unfold nvkm_mmu_ptp_get
  simp only [hk, hk2, Bool.not_true, Bool.false_eq_true, if_false]
  rw [hl]
  simp only
  rw [← hl, hg]

/-- Sub-allocations from a pool at the head of the heap whose free slots are
`j, ..., cap - 1`: the calls take the slots `j, j + 1, ...` in turn. -/
theorem gets_open (size a : Nat) (zero : Bool) (ha : a < 0x1000) (cap : Nat) (hcap : cap ≤ 16)
    (cl : List nvkm_mmu_ptc) (heap0 : List nvkm_mmu_ptp) (eff : List Effect)
    (p : Nat) (parent : nvkm_mmu_pt) (shift mask : Nat) (hne : ∀ q ∈ heap0, q.self ≠ p) :
    ∀ (os : List (Alloc × Alloc)) (j free brk : Nat),
      (∀ i, free.testBit i = decide (j ≤ i ∧ i < cap)) →
      j + os.length ≤ cap → (∀ oo ∈ os, oo.1.kmalloc_pt = true) →
      ∃ bs F, ptc_gets ⟨cl, if j < cap then [p] else [], ⟨p, parent, shift, mask, free⟩ :: heap0,
            brk, eff⟩ size a zero os =
          (bs, ⟨cl, if j + os.length < cap then [p] else [],
            ⟨p, parent, shift, mask, F⟩ :: heap0, brk + os.length, eff⟩) ∧
        (∀ i, F.testBit i = decide (j + os.length ≤ i ∧ i < cap)) ∧
        bs.map (fun b => b.base >>> shift) = List.range' j os.length ∧
        ∀ b ∈ bs, b.sub = true ∧ b.ptp = p := by
  intro os
  induction os with
  | nil =>
    intro j free brk hfree _ _
    exact ⟨[], free, rfl, hfree, rfl, fun b hb => by simp at hb⟩
  | cons oo os ih =>
    intro j free brk hfree hlen hok
    simp only [List.length_cons] at hlen ⊢
    have hj : j < cap := by omega
    have hk := hok oo (List.mem_cons_self _ _)
    obtain ⟨b, F1, hslot, hbself, hbsub, hbptp, hbslot, hF1⟩ :=
      get_slot_open ⟨cl, [p], ⟨p, parent, shift, mask, free⟩ :: heap0, brk + 1, eff⟩ brk
        ⟨p, parent, shift, mask, free⟩ heap0 j cap rfl hne hcap hj hfree
    have hget : nvkm_mmu_ptc_get ⟨cl, if j < cap then [p] else [],
        ⟨p, parent, shift, mask, free⟩ :: heap0, brk, eff⟩ size a zero oo.1 oo.2 =
        (some b, ⟨cl, if j + 1 < cap then [p] else [], ⟨p, parent, shift, mask, F1⟩ :: heap0,
          brk + 1, eff⟩) := by
      unfold nvkm_mmu_ptc_get
      rw [if_pos ha, if_pos hj]
      rw [ptp_get_existing _ a zero oo.1 oo.2 p [] ⟨p, parent, shift, mask, free⟩ hk rfl
        (by simp [ptp_at])]
      rw [hslot]
      by_cases hl : j + 1 < cap
      · simp only [hl, if_true]
      · simp only [hl, if_false, List.filter_cons, bne_self_eq_false, Bool.false_eq_true,
          List.filter_nil]
    obtain ⟨bs, F, hrest, hF, hslots, hall⟩ := ih (j + 1) F1 (brk + 1) hF1 (by omega)
      (fun oo' h' => hok oo' (List.mem_cons_of_mem _ h'))
    refine ⟨b :: bs, F, ?_, ?_, ?_, ?_⟩
    · rw [ptc_gets, hget]
      simp only
      rw [hrest]
      simp only [Nat.add_assoc, Nat.add_comm 1]
    · intro i
      rw [hF]
      simp only [Nat.add_assoc, Nat.add_comm 1]
    · simp only [List.map_cons, hslots, List.range'_succ]
      exact congrArg (· :: _) hbslot
    · intro b' hb'
      rcases List.mem_cons.mp hb' with rfl | hb'
      · exact ⟨hbsub, hbptp⟩
      · exact hall b' hb'

theorem ptp_put_ptc_list (mmu : nvkm_mmu) (force : Bool) (b : nvkm_mmu_pt) (p : nvkm_mmu_ptp)
    (hp : ptp_at mmu b.ptp = some p) :
    (nvkm_mmu_ptp_put mmu force b).ptc_list =
      (if (p.free ||| BIT (b.base >>> p.shift)) % 2 ^ 16 = p.mask then
        (nvkm_mmu_ptc_put_cache mmu force p.pt).ptc_list
      else mmu.ptc_list) := by
  unfold nvkm_mmu_ptp_put
  rw [hp]
  simp only
  by_cases hd : (p.free ||| BIT (b.base >>> p.shift)) % 2 ^ 16 = p.mask
  · rw [if_pos hd, if_pos hd]
    simp only
    apply put_cache_ptc_list_congr
    by_cases h0 : p.free = 0 <;> simp [h0]
  · rw [if_neg hd, if_neg hd]
    by_cases h0 : p.free = 0 <;> simp [h0]

/-- Putting back, in any order, the blocks that occupy the taken slots of
the pool at the head of the heap: the pool is discarded by the last put,
which hands the parent block to the cache. -/
theorem puts_open (cap : Nat) (hcap : cap ≤ 16) (cl : List nvkm_mmu_ptc)
    (heap0 : List nvkm_mmu_ptp) (p : Nat) (parent : nvkm_mmu_pt) (shift mask : Nat)
    (hne : ∀ q ∈ heap0, q.self ≠ p) (hmask : ∀ i, mask.testBit i = decide (i < cap)) :
    ∀ (l : List (nvkm_mmu_pt × Bool)) (hl : l ≠ []) (mmu : nvkm_mmu) (free : Nat),
      mmu.ptc_list = cl → mmu.ptp_heap = ⟨p, parent, shift, mask, free⟩ :: heap0 →
      (∀ a ∈ mmu.ptp_list, a = p) →
      (∀ bf ∈ l, bf.1.sub = true ∧ bf.1.ptp = p) →
      (l.map (fun bf => bf.1.base >>> shift)).Nodup →
      (∀ bf ∈ l, bf.1.base >>> shift < cap) →
      (∀ i, free.testBit i = decide (i < cap ∧ i ∉ l.map (fun bf => bf.1.base >>> shift))) →
      (ptc_puts mmu l).ptp_heap = heap0 ∧ (ptc_puts mmu l).ptp_list = [] ∧
      (ptc_puts mmu l).ptc_list =
        (nvkm_mmu_ptc_put_cache mmu (l.getLast hl).2 parent).ptc_list := by
  intro l
  induction l with
  | nil => intro hl; exact absurd rfl hl
  | cons bf l' ih =>
    intro hl mmu free hcl hheap hlist hblocks hnodup hlt hfree
    obtain ⟨hsub, hptp⟩ := hblocks bf (List.mem_cons_self _ _)
    have hk := hlt bf (List.mem_cons_self _ _)
    have hat : ptp_at mmu bf.1.ptp = some ⟨p, parent, shift, mask, free⟩ := by
      simp [ptp_at, hheap, hptp]
    obtain ⟨hF1, hF2, hF3⟩ := ptp_put_frame mmu bf.2 bf.1 _ hat
    have hF4 := ptp_put_ptc_list mmu bf.2 bf.1 _ hat
    simp only at hF1 hF2 hF4
    have hput : nvkm_mmu_ptc_put mmu bf.2 (some bf.1) = nvkm_mmu_ptp_put mmu bf.2 bf.1 := by
      simp [nvkm_mmu_ptc_put, hsub]
    rw [List.map_cons, List.nodup_cons] at hnodup
    have hbits : ∀ i, ((free ||| BIT (bf.1.base >>> shift)) % 2 ^ 16).testBit i =
        decide (i < cap ∧ i ∉ l'.map (fun bf => bf.1.base >>> shift)) := by
      intro i
      rw [testBit_set free _ i (by omega), hfree, Bool.eq_iff_iff]
      simp only [Bool.and_eq_true, Bool.or_eq_true, decide_eq_true_eq, List.map_cons,
        List.mem_cons, not_or]
      constructor
      · rintro ⟨_, (⟨hc, _, hM⟩ | hki)⟩
        · exact ⟨hc, hM⟩
        · rw [← hki]; exact ⟨hk, hnodup.1⟩
      · rintro ⟨hc, hM⟩
        refine ⟨by omega, ?_⟩
        by_cases hki : bf.1.base >>> shift = i
        · exact Or.inr hki
        · exact Or.inl ⟨hc, fun h => hki h.symm, hM⟩
    have hheap2 : (ptp_set mmu p
        ⟨p, parent, shift, mask, (free ||| BIT (bf.1.base >>> shift)) % 2 ^ 16⟩).ptp_heap =
        ⟨p, parent, shift, mask, (free ||| BIT (bf.1.base >>> shift)) % 2 ^ 16⟩ :: heap0 :=
      ptp_set_head mmu ⟨p, parent, shift, mask, free⟩ _ heap0 hheap hne
    have hl1 : ∀ a ∈ (if free = 0 then p :: mmu.ptp_list else mmu.ptp_list), a = p := by
      intro a ha
      split at ha
      · rcases List.mem_cons.mp ha with h | h
        · exact h
        · exact hlist a h
      · exact hlist a ha
    rw [ptc_puts, hput]
    cases l' with
    | nil =>
      have hfull : (free ||| BIT (bf.1.base >>> shift)) % 2 ^ 16 = mask := by
        apply Nat.eq_of_testBit_eq
        intro i
        rw [hbits, hmask]
        simp
      rw [if_pos hfull] at hF1 hF2 hF4
      simp only [ptc_puts, List.getLast_singleton]
      refine ⟨?_, ?_, hF4⟩
      · rw [hF1, hheap2]
        simp only [List.filter_cons, bne_self_eq_false, Bool.false_eq_true, if_false]
        rw [List.filter_eq_self]
        intro q hq
        simpa using hne q hq
      · rw [hF2, List.filter_eq_nil_iff]
        intro a ha
        simp [hl1 a ha]
    | cons bf' l'' =>
      have hnot : (free ||| BIT (bf.1.base >>> shift)) % 2 ^ 16 ≠ mask := by
        intro heq
        have h1 := hbits (bf'.1.base >>> shift)
        rw [heq, hmask] at h1
        have hk' := hlt bf' (List.mem_cons_of_mem _ (List.mem_cons_self _ _))
        simp [hk'] at h1
      rw [if_neg hnot] at hF1 hF2 hF4
      have := ih (List.cons_ne_nil _ _) (nvkm_mmu_ptp_put mmu bf.2 bf.1)
        ((free ||| BIT (bf.1.base >>> shift)) % 2 ^ 16) (hF4.trans hcl) (hF1.trans hheap2)
        (by rw [hF2]; exact hl1)
        (fun x hx => hblocks x (List.mem_cons_of_mem _ hx)) hnodup.2
        (fun x hx => hlt x (List.mem_cons_of_mem _ hx)) hbits
      refine ⟨this.1, this.2.1, ?_⟩
      rw [this.2.2, List.getLast_cons (List.cons_ne_nil _ _)]
      exact put_cache_ptc_list_congr _ _ _ _ hF4

theorem idle_zero (mmu : nvkm_mmu) (size : Nat) (h : idle mmu size = 0) :
    ∀ c ∈ mmu.ptc_list, c.size = size → c.item = [] := by
  intro c hc hs
  unfold idle at h
  have hall : ∀ x ∈ (mmu.ptc_list.filter (fun c => c.size == size)).map
      (fun c => c.item.length), x = 0 := by
    intro x hx
    by_contra hne
    have hle := List.single_le_sum (fun y _ => Nat.zero_le y) x hx
    omega
  have := hall c.item.length (List.mem_map_of_mem _ (List.mem_filter.mpr ⟨hc, by simpa using hs⟩))
  exact List.length_eq_zero.mp this

theorem idle_cons_empty (mmu : nvkm_mmu) (c : nvkm_mmu_ptc) (size : Nat) (l : List nvkm_mmu_ptc)
    (hl : l = c :: mmu.ptc_list) (hc : c.item = []) :
    ((l.filter (fun c => c.size == size)).map (fun c => c.item.length)).sum = idle mmu size := by
  unfold idle
  rw [hl, List.filter_cons]
  split
  · simp [hc]
  · rfl

/-- With no idle block of the size and no failing allocation, the part of
`nvkm_mmu_ptc_get` for `align >= 0x1000` allocates a new block. -/
theorem get_cache_fresh (mmu : nvkm_mmu) (size align : Nat) (zero : Bool) (o : Alloc)
    (hidle : idle mmu size = 0) (hok : o.ok) :
    ∃ pt, (nvkm_mmu_ptc_get_cache mmu size align zero o).1 = some pt ∧
      idle (nvkm_mmu_ptc_get_cache mmu size align zero o).2 size = 0 := by
  obtain ⟨hk1, hk2, _, hk4⟩ := hok
  obtain ⟨addr, haddr⟩ := Option.ne_none_iff_exists'.mp hk4
  cases hf : mmu.ptc_list.find? (fun ptc => ptc.size == size) with
  | some c =>
    have hi := idle_zero mmu size hidle c (List.mem_of_find?_eq_some hf)
      (find_self_eq nvkm_mmu_ptc.size _ _ _ hf)
    rw [get_cache_miss mmu size align zero o c hf hi]
    have hs := get_new_spec mmu c size align zero o
    refine ⟨_, (hs.2.2.2.2 addr hk1 haddr).1, ?_⟩
    unfold idle
    rw [hs.1]
    exact hidle
  | none =>
    rw [get_cache_absent mmu size align zero o hf, if_pos hk2]
    have hs := get_new_spec
      { mmu with
        ptc_list := { self := mmu.brk, item := [], size := size, refs := 0 } :: mmu.ptc_list,
        brk := mmu.brk + 1 }
      { self := mmu.brk, item := [], size := size, refs := 0 } size align zero o
    refine ⟨_, (hs.2.2.2.2 addr hk1 haddr).1, ?_⟩
    unfold idle
    rw [hs.1]
    rw [idle_cons_empty mmu _ size _ rfl rfl]
    exact hidle

theorem idle_put_cached (mmu : nvkm_mmu) (pt : nvkm_mmu_pt) (c : nvkm_mmu_ptc) (size : Nat)
    (hn : (mmu.ptc_list.map nvkm_mmu_ptc.self).Nodup) (hc : ptc_at mmu pt.ptc = some c)
    (hs : c.size = size) :
    idle (ptc_set mmu pt.ptc { c with item := c.item ++ [pt], refs := c.refs + 1 }) size =
      idle mmu size + 1 := by
  obtain ⟨l1, l2, h1, h2⟩ := ptc_set_split mmu pt.ptc c
    { c with item := c.item ++ [pt], refs := c.refs + 1 } hn hc
  have hb : (c.size == size) = true := by simpa using hs
  unfold idle
  rw [h1, h2]
  simp only [List.filter_append, List.filter_cons, hb, if_true, List.map_append, List.map_cons,
    List.sum_append, List.sum_cons, List.length_append, List.length_singleton]
  omega

theorem idle_congr (m1 m2 : nvkm_mmu) (size : Nat) (h : m1.ptc_list = m2.ptc_list) :
    idle m1 size = idle m2 size := by
  unfold idle; rw [h]

theorem idle_after_put (S : nvkm_mmu) (parent : nvkm_mmu_pt) (c : nvkm_mmu_ptc) (size : Nat)
    (hn : (S.ptc_list.map nvkm_mmu_ptc.self).Nodup) (hat : ptc_at S parent.ptc = some c)
    (hs : c.size = size) (hrefs : c.refs = 0) :
    idle (nvkm_mmu_ptc_put_cache S false parent) size = idle S size + 1 ∧
    idle (nvkm_mmu_ptc_put_cache S true parent) size = idle S size := by
  constructor
  · rw [put_cache_cached S false parent c hat rfl (by omega)]
    exact idle_put_cached S parent c size hn hat hs
  · rw [put_cache_freed S true parent c hat (by simp)]
    exact idle_congr _ S size rfl

theorem reclaim_core (held : List nvkm_mmu_pt) (mmu : nvkm_mmu) (size a : Nat) (zero : Bool)
    (oo : Alloc × Alloc) (os : List (Alloc × Alloc)) (l : List (nvkm_mmu_pt × Bool))
    (hwf : wf held mmu) (hcnt : cnt_ok mmu) (hlist : mmu.ptp_list = [])
    (hidle : idle mmu 0x1000 = 0) (h128 : 128 < a) (ha : a < 0x1000)
    (hlen : (oo :: os).length ≤ ptp_capacity a)
    (hok : ∀ x ∈ oo :: os, x.1.ok ∧ x.2.ok)
    (hperm : (l.map Prod.fst).Perm (ptc_gets mmu size a zero (oo :: os)).1) :
    (ptc_gets mmu size a zero (oo :: os)).1.length = (oo :: os).length ∧
    (ptc_puts (ptc_gets mmu size a zero (oo :: os)).2 l).ptp_list = [] ∧
    (ptc_puts (ptc_gets mmu size a zero (oo :: os)).2 l).ptp_heap = mmu.ptp_heap ∧
    (l.getLast?.map Prod.snd = some false →
      idle (ptc_puts (ptc_gets mmu size a zero (oo :: os)).2 l) 0x1000 =
        idle mmu 0x1000 + 1) ∧
    (l.getLast?.map Prod.snd = some true →
      idle (ptc_puts (ptc_gets mmu size a zero (oo :: os)).2 l) 0x1000 = idle mmu 0x1000) := by
  have hcap16 := ptp_capacity_le a
  simp only [List.length_cons] at hlen
  obtain ⟨hok1, hok2⟩ := hok oo (List.mem_cons_self _ _)
  -- the parent block of the new pool
  obtain ⟨parent, hparent, hidle1⟩ := get_cache_fresh
    { mmu with brk := mmu.brk + 1 + 1 } 0x1000 0x1000 false oo.2
    ((idle_congr _ mmu 0x1000 rfl).trans hidle) hok2
  generalize hm1 : (nvkm_mmu_ptc_get_cache { mmu with brk := mmu.brk + 1 + 1 } 0x1000 0x1000
    false oo.2).2 = mmu1 at hidle1
  have hgc : nvkm_mmu_ptc_get_cache { mmu with brk := mmu.brk + 1 + 1 } 0x1000 0x1000 false
      oo.2 = (some parent, mmu1) := Prod.ext hparent hm1
  have hfr := get_cache_frame { mmu with brk := mmu.brk + 1 + 1 } 0x1000 0x1000 false oo.2
  rw [hgc] at hfr
  simp only at hfr
  have hsz := (sizes_ok_get_cache held { mmu with brk := mmu.brk + 1 + 1 } 0x1000 0x1000 false
    oo.2 (sizes_ok_congr held mmu _ rfl rfl hwf.sizes) hwf.own.cls.1
    (fun c hc => by
      have := hwf.own.cls.2 c.self (List.mem_map_of_mem _ hc)
      show c.self < mmu.brk + 1 + 1
      omega)).2
  rw [hgc] at hsz
  obtain ⟨hcl, h1000⟩ := hsz parent rfl
  have hb1 := (blocks_ok_get_cache (held.map nvkm_mmu_pt.self)
    { mmu with brk := mmu.brk + 1 + 1 } 0x1000 0x1000 false oo.2
    (blocks_ok_congr _ mmu _ rfl rfl (by show mmu.brk ≤ mmu.brk + 1 + 1; omega) hwf.own)).2
  rw [hgc] at hb1
  have hcls1 := (hb1 parent rfl).cls.1
  have hcnt1 := cnt_ok_get_cache { mmu with brk := mmu.brk + 1 + 1 } 0x1000 0x1000 false oo.2
    (cnt_ok_congr mmu _ rfl hcnt)
  rw [hgc] at hcnt1
  simp only at hcnt1
  have hne : ∀ q ∈ mmu.ptp_heap, q.self ≠ mmu.brk + 1 := by
    intro q hq
    have := hwf.own.pool.2 q.self (List.mem_map_of_mem _ hq)
    omega
  -- the first sub-allocation
  have hcap0 : 0 < ptp_capacity a := by omega
  obtain ⟨b0, F1, hslot, _, hb0sub, hb0ptp, hb0slot, hF1⟩ := get_slot_open
    { mmu1 with
      ptp_list := (mmu.brk + 1) :: mmu1.ptp_list,
      ptp_heap :=
        { self := mmu.brk + 1, pt := parent, shift := order_base_2 a % 2 ^ 8,
          mask := (((1 <<< ((0x1000 >>> (order_base_2 a % 2 ^ 8)) % 2 ^ 32 % 32))
            % 2 ^ 32 + 2 ^ 32 - 1) % 2 ^ 32) % 2 ^ 16,
          free := (((1 <<< ((0x1000 >>> (order_base_2 a % 2 ^ 8)) % 2 ^ 32 % 32))
            % 2 ^ 32 + 2 ^ 32 - 1) % 2 ^ 32) % 2 ^ 16 } :: mmu1.ptp_heap }
    mmu.brk
    { self := mmu.brk + 1, pt := parent, shift := order_base_2 a % 2 ^ 8,
      mask := (((1 <<< ((0x1000 >>> (order_base_2 a % 2 ^ 8)) % 2 ^ 32 % 32))
        % 2 ^ 32 + 2 ^ 32 - 1) % 2 ^ 32) % 2 ^ 16,
      free := (((1 <<< ((0x1000 >>> (order_base_2 a % 2 ^ 8)) % 2 ^ 32 % 32))
        % 2 ^ 32 + 2 ^ 32 - 1) % 2 ^ 32) % 2 ^ 16 }
    mmu.ptp_heap 0 (ptp_capacity a) (by rw [hfr.1]) hne hcap16 hcap0
    (fun i => by rw [new_mask_bits a h128 ha i]; simp)
  have hget1 : nvkm_mmu_ptc_get mmu size a zero oo.1 oo.2 =
      (some b0, ⟨mmu1.ptc_list, if 1 < ptp_capacity a then [mmu.brk + 1] else [],
        ⟨mmu.brk + 1, parent, order_base_2 a % 2 ^ 8,
          (((1 <<< ((0x1000 >>> (order_base_2 a % 2 ^ 8)) % 2 ^ 32 % 32))
            % 2 ^ 32 + 2 ^ 32 - 1) % 2 ^ 32) % 2 ^ 16, F1⟩ :: mmu.ptp_heap,
        mmu1.brk, mmu1.effects⟩) := by
    unfold nvkm_mmu_ptc_get
    rw [if_pos ha, ptp_get_new mmu a zero oo.1 oo.2 parent mmu1 hok1.1 hok1.2.2.1 hlist hgc,
      h1000, hslot]
    simp only [hfr.2.1, hlist, Nat.zero_add]
    by_cases h1 : 1 < ptp_capacity a
    · simp only [h1, if_true]
    · simp only [h1, if_false, List.filter_cons, bne_self_eq_false, Bool.false_eq_true,
        List.filter_nil]
  -- the other sub-allocations
  obtain ⟨bs, F, hrest, hF, hslots, hall⟩ := gets_open size a zero ha (ptp_capacity a) hcap16
    mmu1.ptc_list mmu.ptp_heap mmu1.effects (mmu.brk + 1) parent (order_base_2 a % 2 ^ 8)
    ((((1 <<< ((0x1000 >>> (order_base_2 a % 2 ^ 8)) % 2 ^ 32 % 32))
      % 2 ^ 32 + 2 ^ 32 - 1) % 2 ^ 32) % 2 ^ 16) hne os 1 F1 mmu1.brk hF1 (by omega)
    (fun x hx => (hok x (List.mem_cons_of_mem _ hx)).1.1)
  have hgets : ptc_gets mmu size a zero (oo :: os) =
      (b0 :: bs, ⟨mmu1.ptc_list, if 1 + os.length < ptp_capacity a then [mmu.brk + 1] else [],
        ⟨mmu.brk + 1, parent, order_base_2 a % 2 ^ 8,
          (((1 <<< ((0x1000 >>> (order_base_2 a % 2 ^ 8)) % 2 ^ 32 % 32))
            % 2 ^ 32 + 2 ^ 32 - 1) % 2 ^ 32) % 2 ^ 16, F⟩ :: mmu.ptp_heap,
        mmu1.brk + os.length, mmu1.effects⟩) := by
    rw [ptc_gets, hget1]
    simp only
    rw [hrest]
  rw [hgets] at hperm ⊢
  simp only at hperm ⊢
  have hslots0 : (b0 :: bs).map (fun b => b.base >>> (order_base_2 a % 2 ^ 8)) =
      List.range' 0 (os.length + 1) := by
    rw [List.map_cons, hslots, List.range'_succ]
    exact congrArg (· :: _) hb0slot
  have hlen_bs : (b0 :: bs).length = os.length + 1 := by
    have := congrArg List.length hslots0
    simpa using this
  -- the puts
  have hlne : l ≠ [] := by
    intro h0
    rw [h0] at hperm
    have := hperm.length_eq
    simp at this
  have hslots_l : (l.map (fun bf => bf.1.base >>> (order_base_2 a % 2 ^ 8))).Perm
      (List.range' 0 (os.length + 1)) := by
    rw [← hslots0]
    have := hperm.map (fun b => b.base >>> (order_base_2 a % 2 ^ 8))
    simpa [List.map_map] using this
  have hmem_l : ∀ i, i ∈ l.map (fun bf => bf.1.base >>> (order_base_2 a % 2 ^ 8)) ↔
      i < os.length + 1 := by
    intro i
    rw [hslots_l.mem_iff, List.mem_range']
    constructor
    · rintro ⟨k, hk, rfl⟩; omega
    · intro hi; exact ⟨i, hi, by omega⟩
  obtain ⟨hheap, hlistf, hptc⟩ := puts_open (ptp_capacity a) hcap16 mmu1.ptc_list mmu.ptp_heap
    (mmu.brk + 1) parent (order_base_2 a % 2 ^ 8)
    ((((1 <<< ((0x1000 >>> (order_base_2 a % 2 ^ 8)) % 2 ^ 32 % 32))
      % 2 ^ 32 + 2 ^ 32 - 1) % 2 ^ 32) % 2 ^ 16) hne (new_mask_bits a h128 ha) l hlne
    ⟨mmu1.ptc_list, if 1 + os.length < ptp_capacity a then [mmu.brk + 1] else [],
        ⟨mmu.brk + 1, parent, order_base_2 a % 2 ^ 8,
          (((1 <<< ((0x1000 >>> (order_base_2 a % 2 ^ 8)) % 2 ^ 32 % 32))
            % 2 ^ 32 + 2 ^ 32 - 1) % 2 ^ 32) % 2 ^ 16, F⟩ :: mmu.ptp_heap,
        mmu1.brk + os.length, mmu1.effects⟩ F rfl rfl
    (by
      intro x hx
      simp only at hx
      split at hx
      · exact List.mem_singleton.mp hx
      · simp at hx)
    (by
      intro bf hbf
      have hm : bf.1 ∈ b0 :: bs := hperm.mem_iff.mp (List.mem_map_of_mem _ hbf)
      rcases List.mem_cons.mp hm with h | h
      · rw [h]; exact ⟨hb0sub, hb0ptp⟩
      · exact hall _ h)
    ((List.Perm.nodup_iff hslots_l).mpr (List.nodup_range' _ _))
    (by
      intro bf hbf
      have := (hmem_l _).mp (List.mem_map_of_mem (fun bf => bf.1.base >>> (order_base_2 a % 2 ^ 8)) hbf)
      omega)
    (by
      intro i
      rw [hF, decide_eq_decide, hmem_l]
      omega)
  have hlastf : ∀ f, l.getLast?.map Prod.snd = some f → (l.getLast hlne).2 = f := by
    intro f hf
    rw [List.getLast?_eq_getLast l hlne] at hf
    simpa using hf
  obtain ⟨_, c, hc, hcs, hcz⟩ := hcl
  simp only at hc hcls1
  have hat : ptc_at ⟨mmu1.ptc_list, if 1 + os.length < ptp_capacity a then [mmu.brk + 1] else [],
        ⟨mmu.brk + 1, parent, order_base_2 a % 2 ^ 8,
          (((1 <<< ((0x1000 >>> (order_base_2 a % 2 ^ 8)) % 2 ^ 32 % 32))
            % 2 ^ 32 + 2 ^ 32 - 1) % 2 ^ 32) % 2 ^ 16, F⟩ :: mmu.ptp_heap,
        mmu1.brk + os.length, mmu1.effects⟩ parent.ptc = some c :=
    find_of_nodup nvkm_mmu_ptc.self mmu1.ptc_list parent.ptc c hcls1 hc hcs
  have hitem : c.item = [] := idle_zero mmu1 0x1000 hidle1 c hc (by rw [hcz, h1000])
  have hrefs : c.refs = 0 := by
    have := (hcnt1 c hc).1
    rw [hitem] at this
    exact this.symm
  have hput := idle_after_put _ parent c 0x1000 hcls1 hat (by rw [hcz, h1000]) hrefs
  rw [idle_congr _ mmu1 0x1000 rfl, hidle1] at hput
  refine ⟨hlen_bs, hlistf, hheap, ?_, ?_⟩
  · intro hlast
    have e1 := idle_congr _ _ 0x1000 hptc
    rw [hlastf false hlast] at e1
    rw [e1, hidle]
    refine Eq.trans (idle_congr _ (nvkm_mmu_ptc_put_cache mmu1 false parent) 0x1000 ?_) hput.1
    exact put_cache_ptc_list_congr _ mmu1 false parent rfl
  · intro hlast
    have e1 := idle_congr _ _ 0x1000 hptc
    rw [hlastf true hlast] at e1
    rw [e1, hidle]
    refine Eq.trans (idle_congr _ (nvkm_mmu_ptc_put_cache mmu1 true parent) 0x1000 ?_) hput.2
    exact put_cache_ptc_list_congr _ mmu1 true parent rfl

/-- C9, as stated, fails in two ways. From the initial cache, one slot of
0x100 bytes is allocated and put back with `force = true`: the pool is
discarded but its parent block is released, so the class of 0x1000 bytes has
no idle block more than before. From a cache whose class of 0x1000 bytes
holds one idle block and that has no pool, one slot is allocated and put
back with `force = false`: the parent block comes from the free-list and
returns to it, so the number of idle blocks is the same as at the start. -/
theorem ptp_reclaim_counterexample :
    ((nvkm_mmu_ptc_init 0).ptp_list = [] ∧ 1 ≤ ptp_capacity 0x100 ∧
      ((ptc_gets (nvkm_mmu_ptc_init 0) 0 0x100 false [(ex_alloc, ex_alloc)]).1.length = 1) ∧
      (ptc_puts (ptc_gets (nvkm_mmu_ptc_init 0) 0 0x100 false [(ex_alloc, ex_alloc)]).2
        ((ptc_gets (nvkm_mmu_ptc_init 0) 0 0x100 false [(ex_alloc, ex_alloc)]).1.map
          (fun b => (b, true)))).ptp_heap = [] ∧
      idle (ptc_puts (ptc_gets (nvkm_mmu_ptc_init 0) 0 0x100 false [(ex_alloc, ex_alloc)]).2
        ((ptc_gets (nvkm_mmu_ptc_init 0) 0 0x100 false [(ex_alloc, ex_alloc)]).1.map
          (fun b => (b, true)))) 0x1000 ≠ idle (nvkm_mmu_ptc_init 0) 0x1000 + 1) ∧
    (ex_mmu_idle.ptp_list = [] ∧
      ((ptc_gets ex_mmu_idle 0 0x100 false [(ex_alloc, ex_alloc)]).1.length = 1) ∧
      (ptc_puts (ptc_gets ex_mmu_idle 0 0x100 false [(ex_alloc, ex_alloc)]).2
        ((ptc_gets ex_mmu_idle 0 0x100 false [(ex_alloc, ex_alloc)]).1.map
          (fun b => (b, false)))).ptp_heap = [] ∧
      idle (ptc_puts (ptc_gets ex_mmu_idle 0 0x100 false [(ex_alloc, ex_alloc)]).2
        ((ptc_gets ex_mmu_idle 0 0x100 false [(ex_alloc, ex_alloc)]).1.map
          (fun b => (b, false)))) 0x1000 ≠ idle ex_mmu_idle 0x1000 + 1) := by
  decide

/-- C9, amended. Take a cache reached from the initial one by gets and puts
whose sub-allocations have slots of more than 128 bytes, with no pool in the
availability list and no idle block of 0x1000 bytes, a slot size `a` with
`128 < a < 0x1000` and `N` between 1 and the capacity of a pool, which is
`0x1000 >> order_base_2(a)`. If no allocation fails, `N` sub-allocations
return `N` blocks; putting these blocks back in any order, the last of them
with `force = false`, leaves the availability list empty and the pool heap
as it was (the record of the new pool is discarded), and the class of 0x1000
bytes has exactly one idle block more than at the start. -/
theorem ptp_reclaim (brk : Nat) (ops : List Op) (size a : Nat) (zero : Bool)
    (os : List (Alloc × Alloc)) (l : List (nvkm_mmu_pt × Bool))
    (hops : ops.all Op.slot_defined = true)
    (hlist : ((Sys.init brk).run ops).mmu.ptp_list = [])
    (hidle : idle ((Sys.init brk).run ops).mmu 0x1000 = 0)
    (h128 : 128 < a) (ha : a < 0x1000) (hN : 1 ≤ os.length)
    (hcap : os.length ≤ (0x1000 >>> order_base_2 a))
    (hok : ∀ x ∈ os, x.1.ok ∧ x.2.ok)
    (hperm : (l.map Prod.fst).Perm (ptc_gets ((Sys.init brk).run ops).mmu size a zero os).1)
    (hforce : l.getLast?.map Prod.snd = some false) :
    (ptc_gets ((Sys.init brk).run ops).mmu size a zero os).1.length = os.length ∧
    (ptc_puts (ptc_gets ((Sys.init brk).run ops).mmu size a zero os).2 l).ptp_list = [] ∧
    (ptc_puts (ptc_gets ((Sys.init brk).run ops).mmu size a zero os).2 l).ptp_heap =
      ((Sys.init brk).run ops).mmu.ptp_heap ∧
    idle (ptc_puts (ptc_gets ((Sys.init brk).run ops).mmu size a zero os).2 l) 0x1000 =
      idle ((Sys.init brk).run ops).mmu 0x1000 + 1 := by
  cases os with
  | nil => simp at hN
  | cons oo os =>
    have hwf := wf_run ops (Sys.init brk) (wf_init brk) hops
    have hcnt := cnt_ok_run ops (Sys.init brk)
      (by intro c hc; simp [Sys.init, nvkm_mmu_ptc_init] at hc)
    have hcap' : (oo :: os).length ≤ ptp_capacity a := by
      rw [ptp_capacity_eq a h128 ha]
      exact hcap
    have h := reclaim_core _ _ size a zero oo os l hwf hcnt hlist hidle h128 ha hcap' hok hperm
    exact ⟨h.1, h.2.1, h.2.2.1, h.2.2.2.1 hforce⟩

/-- The amended C9 on the initial cache: two slots of 0x100 bytes, put back
in the reverse order. -/
theorem ptp_reclaim_witness :
    (ptc_gets ((Sys.init 0).run []).mmu 0 0x100 false
      [(ex_alloc, ex_alloc), (ex_alloc, ex_alloc)]).1.length = 2 ∧
    (ptc_puts (ptc_gets ((Sys.init 0).run []).mmu 0 0x100 false
      [(ex_alloc, ex_alloc), (ex_alloc, ex_alloc)]).2
      ((ptc_gets ((Sys.init 0).run []).mmu 0 0x100 false
        [(ex_alloc, ex_alloc), (ex_alloc, ex_alloc)]).1.reverse.map (fun b => (b, false)))
      ).ptp_list = [] ∧
    (ptc_puts (ptc_gets ((Sys.init 0).run []).mmu 0 0x100 false
      [(ex_alloc, ex_alloc), (ex_alloc, ex_alloc)]).2
      ((ptc_gets ((Sys.init 0).run []).mmu 0 0x100 false
        [(ex_alloc, ex_alloc), (ex_alloc, ex_alloc)]).1.reverse.map (fun b => (b, false)))
      ).ptp_heap = ((Sys.init 0).run []).mmu.ptp_heap ∧
    idle (ptc_puts (ptc_gets ((Sys.init 0).run []).mmu 0 0x100 false
      [(ex_alloc, ex_alloc), (ex_alloc, ex_alloc)]).2
      ((ptc_gets ((Sys.init 0).run []).mmu 0 0x100 false
        [(ex_alloc, ex_alloc), (ex_alloc, ex_alloc)]).1.reverse.map (fun b => (b, false))))
      0x1000 = idle ((Sys.init 0).run []).mmu 0x1000 + 1 :=
  ptp_reclaim 0 [] 0 0x100 false [(ex_alloc, ex_alloc), (ex_alloc, ex_alloc)]
    ((ptc_gets ((Sys.init 0).run []).mmu 0 0x100 false
      [(ex_alloc, ex_alloc), (ex_alloc, ex_alloc)]).1.reverse.map (fun b => (b, false)))
    rfl rfl (by decide) (by decide) (by decide) (by decide) (by decide)
    (by
      intro x hx
      simp only [List.mem_cons, List.mem_singleton, List.not_mem_nil, or_false, or_self] at hx
      subst hx
      exact ⟨⟨rfl, rfl, rfl, by decide⟩, ⟨rfl, rfl, rfl, by decide⟩⟩)
    (by
      rw [List.map_map]
      have hid : (Prod.fst ∘ fun (b : nvkm_mmu_pt) => (b, false)) = id := rfl
      rw [hid, List.map_id]
      exact List.reverse_perm _)
    (by decide)

/-! ## The range allocator -/

theorem mm_align_up_ge (s a : Nat) : s ≤ mm_align_up s a := by
  unfold mm_align_up
  split
  · exact le_refl _
  · rename_i ha
    have h1 := Nat.div_add_mod (s + a - 1) a
    have h2 := Nat.mod_lt (s + a - 1) (Nat.pos_of_ne_zero ha)
    have h3 : (s + a - 1) / a * a = a * ((s + a - 1) / a) := Nat.mul_comm _ _
    omega

theorem mm_wf_tail {x : Nat × Nat} {L : List (Nat × Nat)} (h : mm_wf (x :: L)) : mm_wf L := by
  cases L with
  | nil => trivial
  | cons y r => exact h.2.2

theorem mm_wf_pos {x : Nat × Nat} {L : List (Nat × Nat)} (h : mm_wf (x :: L)) : 0 < x.2 := by
  cases L with
  | nil => exact h
  | cons y r => exact h.1

theorem mm_wf_lt {x : Nat × Nat} {L : List (Nat × Nat)} (h : mm_wf (x :: L)) :
    ∀ y ∈ L, x.1 + x.2 < y.1 := by
  induction L generalizing x with
  | nil => intro y hy; cases hy
  | cons z r ih =>
    intro y hy
    rcases List.mem_cons.1 hy with rfl | hy
    · exact h.2.1
    · have := ih h.2.2 y hy
      have := h.2.1
      omega

theorem mm_first_fit_lb (t M m a : Nat) :
    ∀ (L : List (Nat × Nat)) (node : nvkm_mm_node) (L1 : List (Nat × Nat)),
      mm_first_fit t M m a L = some (node, L1) → ∃ x ∈ L, x.1 ≤ node.offset := by
  intro L
  induction L with
  | nil => intro node L1 h; simp [mm_first_fit] at h
  | cons x rest ih =>
    intro node L1 h
    unfold mm_first_fit at h
    split at h
    · simp only [Option.some.injEq, Prod.mk.injEq] at h
      refine ⟨x, List.mem_cons_self _ _, ?_⟩
      rw [← h.1]
      exact mm_align_up_ge _ _
    · split at h
      · cases h
      · rename_i n r hr
        simp only [Option.some.injEq, Prod.mk.injEq] at h
        obtain ⟨y, hy, hle⟩ := ih n r hr
        exact ⟨y, List.mem_cons_of_mem _ hy, h.1 ▸ hle⟩

theorem mm_insert_before (x : Nat × Nat) (rest : List (Nat × Nat)) (o l : Nat)
    (h : x.1 + x.2 < o) : mm_insert (x :: rest) o l = x :: mm_insert rest o l := by
  rw [mm_insert, if_neg (by omega), if_neg (by omega), if_neg (by omega)]

theorem mm_insert_gap (rest : List (Nat × Nat)) (o l : Nat)
    (h : ∀ y ∈ rest, o + l < y.1) : mm_insert rest o l = (o, l) :: rest := by
  cases rest with
  | nil => rfl
  | cons y r =>
    unfold mm_insert
    rw [if_pos (h y (List.mem_cons_self _ _))]

theorem mm_insert_first_fit (t M m a : Nat) :
    ∀ (L : List (Nat × Nat)) (node : nvkm_mm_node) (L1 : List (Nat × Nat)),
      mm_wf L → mm_first_fit t M m a L = some (node, L1) →
      mm_insert L1 node.offset node.length = L := by
  intro L
  induction L with
  | nil => intro node L1 _ h; simp [mm_first_fit] at h
  | cons x rest ih =>
    intro node L1 hwf h
    unfold mm_first_fit at h
    split at h
    · rename_i hfit
      simp only [Option.some.injEq, Prod.mk.injEq] at h
      obtain ⟨hn, hL⟩ := h
      subst hn
      subst hL
      have hge := mm_align_up_ge x.1 a
      have hpos := mm_wf_pos hwf
      have hlt := mm_wf_lt hwf
      obtain ⟨x1, x2⟩ := x
      simp only at hge hpos hlt hfit ⊢
      generalize mm_align_up x1 a = s at hge hfit ⊢
      have hn : s + min M (x1 + x2 - s) ≤ x1 + x2 := by omega
      generalize min M (x1 + x2 - s) = n at hn ⊢
      by_cases h1 : x1 < s
      · rw [if_pos h1]
        by_cases h2 : s + n < x1 + x2
        · rw [if_pos h2]
          simp only [List.cons_append, List.nil_append]
          unfold mm_insert
          simp only
          rw [if_neg (by omega), if_neg (by omega), if_pos (by omega)]
          unfold mm_insert
          simp only
          rw [if_neg (by omega), if_pos (by omega)]
          congr 2
          omega
        · rw [if_neg h2]
          simp only [List.cons_append, List.nil_append]
          unfold mm_insert
          simp only
          rw [if_neg (by omega), if_neg (by omega), if_pos (by omega)]
          rw [mm_insert_gap]
          · congr 2
            omega
          · intro y hy
            have := hlt y hy
            omega
      · rw [if_neg h1]
        have hs : s = x1 := by omega
        subst hs
        by_cases h2 : s + n < s + x2
        · rw [if_pos h2]
          simp only [List.nil_append, List.cons_append]
          unfold mm_insert
          simp only
          rw [if_neg (by omega), if_pos trivial]
          congr 2
          omega
        · rw [if_neg h2]
          simp only [List.nil_append]
          rw [mm_insert_gap]
          · congr 2
            omega
          · intro y hy
            have := hlt y hy
            omega
    · split at h
      · cases h
      · rename_i n r hr
        simp only [Option.some.injEq, Prod.mk.injEq] at h
        obtain ⟨hn, hL⟩ := h
        subst hn
        subst hL
        obtain ⟨y, hy, hle⟩ := mm_first_fit_lb t M m a rest n r hr
        have := mm_wf_lt hwf y hy
        rw [mm_insert_before x r _ _ (by omega), ih n r (mm_wf_tail hwf) hr]

theorem mm_wf_cons (y : Nat × Nat) (rest : List (Nat × Nat)) (hy : 0 < y.2)
    (hr : mm_wf rest) (hlt : ∀ z ∈ rest, y.1 + y.2 < z.1) : mm_wf (y :: rest) := by
  cases rest with
  | nil => exact hy
  | cons z r => exact ⟨hy, hlt z (List.mem_cons_self _ _), hr⟩

theorem mm_first_fit_mem (t M m a : Nat) :
    ∀ (L : List (Nat × Nat)) (node : nvkm_mm_node) (L1 : List (Nat × Nat)),
      mm_first_fit t M m a L = some (node, L1) → ∀ z ∈ L1, ∃ y ∈ L, y.1 ≤ z.1 := by
  intro L
  induction L with
  | nil => intro node L1 h; simp [mm_first_fit] at h
  | cons x rest ih =>
    intro node L1 h z hz
    unfold mm_first_fit at h
    split at h
    · simp only [Option.some.injEq, Prod.mk.injEq] at h
      obtain ⟨_, hL⟩ := h
      subst hL
      have hge := mm_align_up_ge x.1 a
      simp only [List.mem_append] at hz
      rcases hz with (hz | hz) | hz
      · split at hz
        · rw [List.mem_singleton] at hz
          exact ⟨x, List.mem_cons_self _ _, by rw [hz]⟩
        · cases hz
      · split at hz
        · rw [List.mem_singleton] at hz
          refine ⟨x, List.mem_cons_self _ _, ?_⟩
          rw [hz]
          simp only
          omega
        · cases hz
      · exact ⟨z, List.mem_cons_of_mem _ hz, le_refl _⟩
    · split at h
      · cases h
      · rename_i n r hr
        simp only [Option.some.injEq, Prod.mk.injEq] at h
        obtain ⟨_, hL⟩ := h
        subst hL
        rcases List.mem_cons.1 hz with rfl | hz
        · exact ⟨z, List.mem_cons_self _ _, le_refl _⟩
        · obtain ⟨y, hy, hle⟩ := ih n r hr z hz
          exact ⟨y, List.mem_cons_of_mem _ hy, hle⟩

/-- A reservation of at least one unit keeps the free-list well formed. -/
theorem mm_first_fit_wf (t M m a : Nat) (hm : 0 < m) (hM : m ≤ M) :
    ∀ (L : List (Nat × Nat)) (node : nvkm_mm_node) (L1 : List (Nat × Nat)),
      mm_wf L → mm_first_fit t M m a L = some (node, L1) → mm_wf L1 := by
  intro L
  induction L with
  | nil => intro node L1 _ h; simp [mm_first_fit] at h
  | cons x rest ih =>
    intro node L1 hwf h
    unfold mm_first_fit at h
    split at h
    · rename_i hfit
      simp only [Option.some.injEq, Prod.mk.injEq] at h
      obtain ⟨_, hL⟩ := h
      subst hL
      have hge := mm_align_up_ge x.1 a
      have hlt := mm_wf_lt hwf
      have hrest := mm_wf_tail hwf
      generalize mm_align_up x.1 a = s at hge hfit ⊢
      have hn1 : 0 < min M (x.1 + x.2 - s) := by omega
      have hn2 : s + min M (x.1 + x.2 - s) ≤ x.1 + x.2 := by omega
      generalize min M (x.1 + x.2 - s) = n at hn1 hn2 ⊢
      have hB : mm_wf ((if s + n < x.1 + x.2 then [(s + n, x.1 + x.2 - (s + n))] else []) ++
          rest) := by
        split
        · rename_i h2
          refine mm_wf_cons _ _ (by simp only; omega) hrest ?_
          intro z hz
          have := hlt z hz
          simp only
          omega
        · exact hrest
      by_cases h1 : x.1 < s
      · rw [if_pos h1, List.append_assoc, List.singleton_append]
        refine mm_wf_cons _ _ (by simp only; omega) hB ?_
        intro z hz
        simp only
        rcases List.mem_append.1 hz with hz | hz
        · split at hz
          · rw [List.mem_singleton] at hz
            rw [hz]
            simp only
            omega
          · cases hz
        · have := hlt z hz
          omega
      · rw [if_neg h1]
        exact hB
    · split at h
      · cases h
      · rename_i n r hr
        simp only [Option.some.injEq, Prod.mk.injEq] at h
        obtain ⟨_, hL⟩ := h
        subst hL
        refine mm_wf_cons x r (mm_wf_pos hwf) (ih n r (mm_wf_tail hwf) hr) ?_
        intro z hz
        obtain ⟨y, hy, hle⟩ := mm_first_fit_mem t M m a rest n r hr z hz
        have := mm_wf_lt hwf y hy
        omega

/-- A fresh allocator is well formed. -/
theorem nvkm_mm_init_wf (offset length : Nat) : mm_wf (nvkm_mm_init offset length).free := by
  unfold nvkm_mm_init
  simp only
  split
  · trivial
  · exact Nat.pos_of_ne_zero (by assumption)

/-- Freeing the node that `nvkm_mm_head` reserved gives the allocator state
before the reservation. -/
theorem nvkm_mm_free_head (mm : nvkm_mm) (heap type M m a : Nat) (node : nvkm_mm_node)
    (mm1 : nvkm_mm) (hwf : mm_wf mm.free)
    (h : nvkm_mm_head mm heap type M m a = Except.ok (node, mm1)) :
    nvkm_mm_free mm1 (some node) = (mm, none) := by
  unfold nvkm_mm_head at h
  split at h
  · cases h
  · rename_i n f hf
    simp only [Except.ok.injEq, Prod.mk.injEq] at h
    obtain ⟨hn, hm⟩ := h
    subst hn
    subst hm
    simp only [nvkm_mm_free]
    rw [mm_insert_first_fit _ M m a mm.free n f hwf hf]

/-! ## Heap lemmas -/

@[simp] theorem Heap.set_vm_same (h : Heap) (a : Nat) (v : nvkm_vm) : (h.set a v).vm a = v := by
  simp [Heap.set]

theorem Heap.set_vm_other (h : Heap) (a b : Nat) (v : nvkm_vm) (hb : b ≠ a) :
    (h.set a v).vm b = h.vm b := by
  simp [Heap.set, hb]

@[simp] theorem Heap.set_log (h : Heap) (a : Nat) (v : nvkm_vm) : (h.set a v).log = h.log := rfl

@[simp] theorem Heap.emit_vm (h : Heap) (es : List VmEvent) : (h.emit es).vm = h.vm := rfl

@[simp] theorem Heap.emit_log (h : Heap) (es : List VmEvent) :
    (h.emit es).log = h.log ++ es := rfl

theorem Heap.set_vm_self (h : Heap) (a : Nat) (v : nvkm_vm) (hv : v = h.vm a) :
    (h.set a v).vm = h.vm := by
  funext x
  by_cases hx : x = a
  · subst hx; simp [hv]
  · rw [Heap.set_vm_other h a x v hx]

/-! ## Reference counting -/

theorem kref_get_vm (h : Heap) (v : Nat) :
    (kref_get h v).vm = (h.set v { h.vm v with refcount := (h.vm v).refcount + 1 }).vm := rfl

theorem kref_get_log (h : Heap) (v : Nat) :
    (kref_get h v).log = h.log ++ [VmEvent.kref_get v] := rfl

theorem kref_put_live (h : Heap) (v : Nat) (hv : 1 < (h.vm v).refcount) :
    kref_put h v = (h.set v { h.vm v with refcount := (h.vm v).refcount - 1 }).emit
      [VmEvent.kref_put v] := by
  unfold kref_put
  simp only [Heap.emit_vm, Heap.set_vm_same]
  rw [if_neg (by omega)]

theorem kref_put_last (h : Heap) (v : Nat) (hv : (h.vm v).refcount = 1) :
    kref_put h v = nvkm_vm_del ((h.set v { h.vm v with refcount := (h.vm v).refcount - 1 }).emit
      [VmEvent.kref_put v]) v := by
  unfold kref_put
  simp only [Heap.emit_vm, Heap.set_vm_same]
  rw [if_pos (by omega)]

/-! ## `nvkm_vm_get` and `nvkm_vm_put` -/

theorem nvkm_vm_get_error (h : Heap) (vm size page_shift access : Nat) (vma : nvkm_vma)
    (ptes_ret e : Int)
    (hh : nvkm_mm_head (h.vm vm).mm 0 page_shift ((size >>> 12) % 2 ^ 32)
      ((size >>> 12) % 2 ^ 32) (((1 <<< page_shift) % 2 ^ 32) >>> 12) = Except.error e) :
    nvkm_vm_get h vm size page_shift access vma ptes_ret = (e, h, vma) := by
  unfold nvkm_vm_get
  simp only [hh]

theorem nvkm_vm_get_fail (h : Heap) (vm size page_shift access : Nat) (vma : nvkm_vma)
    (ptes_ret : Int) (node : nvkm_mm_node) (mm1 : nvkm_mm)
    (hwf : mm_wf (h.vm vm).mm.free)
    (hh : nvkm_mm_head (h.vm vm).mm 0 page_shift ((size >>> 12) % 2 ^ 32)
      ((size >>> 12) % 2 ^ 32) (((1 <<< page_shift) % 2 ^ 32) >>> 12) = Except.ok (node, mm1))
    (hu : (h.vm vm).has_unmap = true) (hr : ptes_ret ≠ 0) :
    (nvkm_vm_get h vm size page_shift access vma ptes_ret).1 = ptes_ret ∧
    (nvkm_vm_get h vm size page_shift access vma ptes_ret).2.1.vm = h.vm ∧
    (nvkm_vm_get h vm size page_shift access vma ptes_ret).2.1.log = h.log ++
      [VmEvent.ptes_get vm page_shift ((node.offset <<< 12) % 2 ^ 32)
        ((node.length <<< 12) % 2 ^ 32)] ∧
    (nvkm_vm_get h vm size page_shift access vma ptes_ret).2.2 = { vma with node := none } := by
  unfold nvkm_vm_get
  simp only [hh, Heap.set_vm_same]
  rw [if_pos hu, if_pos hr]
  simp only [Heap.emit_vm, Heap.set_vm_same, Heap.set_log, Heap.emit_log,
    nvkm_mm_free_head (h.vm vm).mm 0 page_shift _ _ _ node mm1 hwf hh]
  refine ⟨trivial, ?_, trivial, trivial⟩
  funext x
  by_cases hx : x = vm
  · rw [hx, Heap.set_vm_same]
  · rw [Heap.set_vm_other _ _ _ _ hx, Heap.emit_vm, Heap.set_vm_other _ _ _ _ hx]

theorem nvkm_vm_get_done_spec (h : Heap) (vm : Nat) (node : nvkm_mm_node) (access : Nat)
    (vma : nvkm_vma) :
    nvkm_vm_get_done h vm node access vma =
      (0, kref_get h vm, { node := vma.node, vm := some vm,
                           offset := (node.offset <<< 12) % 2 ^ 64, access := access,
                           memory := none, tags := none }) := by
  simp [nvkm_vm_get_done, nvkm_vm_ref, nvkm_vm_ref_get, nvkm_vm_ref_put]

theorem kref_get_after_set (h g : Heap) (vm : Nat) (mm1 : nvkm_mm)
    (hg : g.vm = (h.set vm { h.vm vm with mm := mm1 }).vm) :
    (kref_get g vm).vm =
      (h.set vm { h.vm vm with mm := mm1, refcount := (h.vm vm).refcount + 1 }).vm := by
  rw [kref_get_vm]
  funext x
  by_cases hx : x = vm
  · rw [hx, Heap.set_vm_same, Heap.set_vm_same, hg, Heap.set_vm_same]
  · rw [Heap.set_vm_other _ _ _ _ hx, hg, Heap.set_vm_other _ _ _ _ hx,
      Heap.set_vm_other _ _ _ _ hx]

theorem nvkm_vm_get_ok (h : Heap) (vm size page_shift access : Nat) (vma : nvkm_vma)
    (ptes_ret : Int) (node : nvkm_mm_node) (mm1 : nvkm_mm)
    (hh : nvkm_mm_head (h.vm vm).mm 0 page_shift ((size >>> 12) % 2 ^ 32)
      ((size >>> 12) % 2 ^ 32) (((1 <<< page_shift) % 2 ^ 32) >>> 12) = Except.ok (node, mm1))
    (hu : (h.vm vm).has_unmap = true → ptes_ret = 0) :
    (nvkm_vm_get h vm size page_shift access vma ptes_ret).1 = 0 ∧
    (nvkm_vm_get h vm size page_shift access vma ptes_ret).2.1.vm =
      (h.set vm { h.vm vm with mm := mm1, refcount := (h.vm vm).refcount + 1 }).vm ∧
    (nvkm_vm_get h vm size page_shift access vma ptes_ret).2.2 =
      { node := some node, vm := some vm, offset := (node.offset <<< 12) % 2 ^ 64,
        access := access, memory := none, tags := none } := by
  unfold nvkm_vm_get
  simp only [hh, Heap.set_vm_same]
  by_cases hb : (h.vm vm).has_unmap = true
  · rw [if_pos hb, if_neg (not_not.2 (hu hb)), nvkm_vm_get_done_spec]
    exact ⟨rfl, kref_get_after_set h _ vm mm1 rfl, rfl⟩
  · rw [if_neg hb, nvkm_vm_get_done_spec]
    exact ⟨rfl, kref_get_after_set h _ vm mm1 rfl, rfl⟩

theorem nvkm_vm_get_code (h : Heap) (vm size page_shift access : Nat) (vma : nvkm_vma)
    (ptes_ret : Int) (node : nvkm_mm_node) (mm1 : nvkm_mm)
    (hh : nvkm_mm_head (h.vm vm).mm 0 page_shift ((size >>> 12) % 2 ^ 32)
      ((size >>> 12) % 2 ^ 32) (((1 <<< page_shift) % 2 ^ 32) >>> 12) = Except.ok (node, mm1)) :
    (nvkm_vm_get h vm size page_shift access vma ptes_ret).1 =
      if (h.vm vm).has_unmap = true ∧ ptes_ret ≠ 0 then ptes_ret else 0 := by
  by_cases hc : (h.vm vm).has_unmap = true ∧ ptes_ret ≠ 0
  · rw [if_pos hc]
    unfold nvkm_vm_get
    simp only [hh, Heap.set_vm_same]
    rw [if_pos hc.1, if_pos hc.2]
  · rw [if_neg hc]
    refine (nvkm_vm_get_ok h vm size page_shift access vma ptes_ret node mm1 hh ?_).1
    intro hb
    by_contra hr
    exact hc ⟨hb, hr⟩

/-! ## `nvkm_vm_ref` -/

theorem kref_get_at (h : Heap) (r v : Nat) :
    (kref_get h r).vm v =
      { h.vm v with refcount := (h.vm v).refcount + (if r = v then 1 else 0) } := by
  unfold kref_get
  rw [Heap.emit_vm]
  by_cases hv : r = v
  · rw [← hv, Heap.set_vm_same, if_pos rfl]
  · rw [Heap.set_vm_other _ _ _ _ (fun e => hv e.symm), if_neg hv]
    rfl

theorem nvkm_vm_del_at (h : Heap) (p v : Nat) :
    ((nvkm_vm_del h p).vm v).refcount = (h.vm v).refcount ∧
    ((nvkm_vm_del h p).vm v).has_join = (h.vm v).has_join ∧
    ((nvkm_vm_del h p).vm v).has_part = (h.vm v).has_part := by
  unfold nvkm_vm_del
  rw [Heap.emit_vm]
  by_cases hv : v = p
  · rw [hv, Heap.set_vm_same]
    exact ⟨rfl, rfl, rfl⟩
  · rw [Heap.set_vm_other _ _ _ _ hv]
    exact ⟨rfl, rfl, rfl⟩

theorem kref_put_refcount (h : Heap) (p v : Nat) :
    ((kref_put h p).vm v).refcount = (h.vm v).refcount - (if p = v then 1 else 0) := by
  have hs : (((h.set p { h.vm p with refcount := (h.vm p).refcount - 1 }).emit
      [VmEvent.kref_put p]).vm v).refcount = (h.vm v).refcount - (if p = v then 1 else 0) := by
    rw [Heap.emit_vm]
    by_cases hv : p = v
    · rw [← hv, Heap.set_vm_same, if_pos rfl]
    · rw [Heap.set_vm_other _ _ _ _ (fun e => hv e.symm), if_neg hv]
      rfl
  unfold kref_put
  simp only
  split
  · rw [(nvkm_vm_del_at _ p v).1, hs]
  · exact hs

theorem kref_put_log (h : Heap) (p : Nat) :
    (kref_put h p).log = h.log ++ VmEvent.kref_put p ::
      (if (h.vm p).refcount = 1 then [VmEvent.del p] else []) := by
  unfold kref_put
  simp only [Heap.emit_vm, Heap.set_vm_same]
  by_cases hc : (h.vm p).refcount = 1
  · rw [if_pos (by omega), if_pos hc]
    simp [nvkm_vm_del]
  · rw [if_neg (by omega), if_neg hc]
    simp

theorem nvkm_vm_ref_get_spec (h : Heap) (ref inst : Option Nat) (join_ret : Int) :
    (∀ r i, ref = some r → inst = some i → (h.vm r).has_join = true → join_ret = 0) →
    (nvkm_vm_ref_get h ref inst join_ret).1 = 0 ∧
    (∀ v, (nvkm_vm_ref_get h ref inst join_ret).2.vm v =
      { h.vm v with refcount := (h.vm v).refcount + (if ref = some v then 1 else 0) }) ∧
    (nvkm_vm_ref_get h ref inst join_ret).2.log = h.log ++
      (match ref, inst with
       | some r, some i => if (h.vm r).has_join = true then [VmEvent.join r i] else []
       | _, _ => []) ++
      (match ref with
       | some r => [VmEvent.kref_get r]
       | none => []) := by
  intro hjoin
  rcases ref with _ | r
  · refine ⟨rfl, fun v => ?_, ?_⟩
    · simp [nvkm_vm_ref_get]
    · simp [nvkm_vm_ref_get]
  · rcases inst with _ | i
    · refine ⟨rfl, fun v => ?_, ?_⟩
      · simp only [nvkm_vm_ref_get, kref_get_at, Option.some.injEq]
      · simp [nvkm_vm_ref_get, kref_get]
    · by_cases hj : (h.vm r).has_join = true
      · have h0 := hjoin r i rfl rfl hj
        simp only [nvkm_vm_ref_get]
        rw [if_pos hj, if_neg (not_not.2 h0)]
        refine ⟨rfl, fun v => ?_, ?_⟩
        · simp only [kref_get_at, Heap.emit_vm, Option.some.injEq]
        · simp [kref_get, hj]
      · simp only [nvkm_vm_ref_get]
        rw [if_neg hj]
        refine ⟨rfl, fun v => ?_, ?_⟩
        · simp only [kref_get_at, Option.some.injEq]
        · simp [kref_get, hj]

theorem nvkm_vm_ref_put_spec (h : Heap) (old inst : Option Nat) :
    (∀ v, ((nvkm_vm_ref_put h old inst).vm v).refcount =
      (h.vm v).refcount - (if old = some v then 1 else 0)) ∧
    (nvkm_vm_ref_put h old inst).log = h.log ++
      (match old, inst with
       | some o, some i => if (h.vm o).has_part = true then [VmEvent.part o i] else []
       | _, _ => []) ++
      (match old with
       | some o => VmEvent.kref_put o ::
          (if (h.vm o).refcount = 1 then [VmEvent.del o] else [])
       | none => []) := by
  rcases old with _ | o
  · refine ⟨fun v => ?_, ?_⟩
    · simp [nvkm_vm_ref_put]
    · simp [nvkm_vm_ref_put]
  · rcases inst with _ | i
    · refine ⟨fun v => ?_, ?_⟩
      · simp only [nvkm_vm_ref_put, kref_put_refcount, Option.some.injEq]
      · simp only [nvkm_vm_ref_put, kref_put_log, List.append_nil]
    · by_cases hp : (h.vm o).has_part = true
      · simp only [nvkm_vm_ref_put]
        rw [if_pos hp]
        refine ⟨fun v => ?_, ?_⟩
        · simp only [kref_put_refcount, Heap.emit_vm, Option.some.injEq]
        · simp only [kref_put_log, Heap.emit_vm, Heap.emit_log, if_pos hp, List.append_assoc]
      · simp only [nvkm_vm_ref_put]
        rw [if_neg hp]
        refine ⟨fun v => ?_, ?_⟩
        · simp only [kref_put_refcount, Option.some.injEq]
        · simp only [kref_put_log, if_neg hp, List.append_nil]

theorem nvkm_vm_ref_ok (h : Heap) (ref old inst : Option Nat) (join_ret : Int)
    (hjoin : ∀ r i, ref = some r → inst = some i → (h.vm r).has_join = true → join_ret = 0) :
    nvkm_vm_ref h ref old inst join_ret =
      (0, nvkm_vm_ref_put (nvkm_vm_ref_get h ref inst join_ret).2 old inst, ref) := by
  unfold nvkm_vm_ref
  simp only
  rw [if_neg (not_not.2 (nvkm_vm_ref_get_spec h ref inst join_ret hjoin).1)]

theorem nvkm_vm_ref_failed (h : Heap) (ref old inst : Option Nat) (join_ret : Int)
    (hjoin : ¬ ∀ r i, ref = some r → inst = some i → (h.vm r).has_join = true → join_ret = 0) :
    (nvkm_vm_ref h ref old inst join_ret).1 = join_ret ∧
    (nvkm_vm_ref h ref old inst join_ret).2.1.vm = h.vm ∧
    (nvkm_vm_ref h ref old inst join_ret).2.2 = old ∧
    ∀ v, (nvkm_vm_ref h ref old inst join_ret).2.1.log.count (VmEvent.del v) =
      h.log.count (VmEvent.del v) := by
  push_neg at hjoin
  obtain ⟨r, i, hr, hi, hj, hne⟩ := hjoin
  subst hr
  subst hi
  unfold nvkm_vm_ref
  simp only [nvkm_vm_ref_get]
  rw [if_pos hj, if_pos hne]
  simp only
  rw [if_pos hne]
  refine ⟨rfl, rfl, rfl, fun v => ?_⟩
  simp [List.count_append, List.count_cons]

theorem nvkm_vm_ref_refcount (h : Heap) (ref old inst : Option Nat) (join_ret : Int)
    (hjoin : ∀ r i, ref = some r → inst = some i → (h.vm r).has_join = true → join_ret = 0)
    (v : Nat) :
    ((nvkm_vm_ref h ref old inst join_ret).2.1.vm v).refcount =
      (h.vm v).refcount + (if ref = some v then 1 else 0) - (if old = some v then 1 else 0) := by
  rw [nvkm_vm_ref_ok h ref old inst join_ret hjoin]
  simp only
  rw [(nvkm_vm_ref_put_spec _ old inst).1 v, (nvkm_vm_ref_get_spec h ref inst join_ret hjoin).2.1 v]

theorem nvkm_vm_ref_log (h : Heap) (ref old inst : Option Nat) (join_ret : Int) :
    (∀ r i, ref = some r → inst = some i → (h.vm r).has_join = true → join_ret = 0) →
    (nvkm_vm_ref h ref old inst join_ret).2.1.log = h.log ++
      (match ref, inst with
       | some r, some i => if (h.vm r).has_join = true then [VmEvent.join r i] else []
       | _, _ => []) ++
      (match ref with
       | some r => [VmEvent.kref_get r]
       | none => []) ++
      (match old, inst with
       | some o, some i => if (h.vm o).has_part = true then [VmEvent.part o i] else []
       | _, _ => []) ++
      (match old with
       | some o => VmEvent.kref_put o ::
          (if (h.vm o).refcount + (if ref = some o then 1 else 0) = 1 then [VmEvent.del o]
           else [])
       | none => []) := by
  intro hjoin
  rw [nvkm_vm_ref_ok h ref old inst join_ret hjoin]
  simp only
  rw [(nvkm_vm_ref_put_spec _ old inst).2, (nvkm_vm_ref_get_spec h ref inst join_ret hjoin).2.2]
  simp only [(nvkm_vm_ref_get_spec h ref inst join_ret hjoin).2.1]

theorem nvkm_vm_ref_dels (h : Heap) (ref old inst : Option Nat) (join_ret : Int)
    (hjoin : ∀ r i, ref = some r → inst = some i → (h.vm r).has_join = true → join_ret = 0)
    (v : Nat) :
    (nvkm_vm_ref h ref old inst join_ret).2.1.log.count (VmEvent.del v) =
      h.log.count (VmEvent.del v) +
        (if old = some v ∧ (h.vm v).refcount + (if ref = some v then 1 else 0) = 1 then 1
         else 0) := by
  rw [nvkm_vm_ref_log h ref old inst join_ret hjoin]
  simp only [List.count_append]
  have hJ : (match ref, inst with
       | some r, some i => if (h.vm r).has_join = true then [VmEvent.join r i] else []
       | _, _ => []).count (VmEvent.del v) = 0 := by
    rcases ref with _ | r <;> rcases inst with _ | i <;> simp
    split <;> simp
  have hK : (match ref with
       | some r => [VmEvent.kref_get r]
       | none => []).count (VmEvent.del v) = 0 := by
    rcases ref with _ | r <;> simp
  have hP : (match old, inst with
       | some o, some i => if (h.vm o).has_part = true then [VmEvent.part o i] else []
       | _, _ => []).count (VmEvent.del v) = 0 := by
    rcases old with _ | o <;> rcases inst with _ | i <;> simp
    split <;> simp
  rw [hJ, hK, hP]
  rcases old with _ | o
  · simp
  · by_cases hv : o = v
    · subst hv
      by_cases hc : (h.vm o).refcount + (if ref = some o then 1 else 0) = 1
      · simp [hc]
      · simp [hc]
    · have hne : ¬ (some o = some v) := fun e => hv (Option.some.inj e)
      have hd : VmEvent.del o ≠ VmEvent.del v := fun e => hv (VmEvent.del.inj e)
      simp only [hne, false_and, if_false, Nat.add_zero]
      by_cases hc : (h.vm o).refcount + (if ref = some o then 1 else 0) = 1
      · rw [if_pos hc]
        simp [List.count_cons, hd]
      · rw [if_neg hc]
        simp [List.count_cons]

theorem nvkm_vm_put_spec (g : Heap) (vma : nvkm_vma) (node : nvkm_mm_node) (vm : Nat)
    (hn : vma.node = some node) (hv : vma.vm = some vm) :
    (∀ x, ((nvkm_vm_put g vma).1.vm x).refcount =
      (g.vm x).refcount - (if vm = x then 1 else 0)) ∧
    ((nvkm_vm_put g vma).1.vm vm).mm =
      (if (g.vm vm).refcount = 1 then { free := [] }
       else (nvkm_mm_free (g.vm vm).mm (some node)).1) ∧
    (∀ x, ((nvkm_vm_put g vma).1.vm x).has_unmap = (g.vm x).has_unmap) ∧
    (nvkm_vm_put g vma).2.node = none ∧ (nvkm_vm_put g vma).2.vm = none := by
  unfold nvkm_vm_put
  simp only [hn, hv, Heap.emit_vm]
  rw [nvkm_vm_ref_ok _ none (some vm) none 0 (by intro r i hr; cases hr)]
  simp only [nvkm_vm_ref_get, nvkm_vm_ref_put, nvkm_mm_free]
  refine ⟨fun x => ?_, ?_, fun x => ?_, trivial, trivial⟩
  · rw [kref_put_refcount]
    by_cases hx : vm = x
    · rw [← hx, Heap.set_vm_same]
    · rw [Heap.set_vm_other _ _ _ _ (fun e => hx e.symm)]
      rfl
  · unfold kref_put
    simp only [Heap.emit_vm, Heap.set_vm_same]
    by_cases hc : (g.vm vm).refcount = 1
    · rw [if_pos (by omega), if_pos hc]
      simp [nvkm_vm_del]
    · rw [if_neg (by omega), if_neg hc]
      simp
  · unfold kref_put
    simp only [Heap.emit_vm, Heap.set_vm_same]
    by_cases hx : x = vm
    · subst hx
      split
      · simp [nvkm_vm_del]
      · simp
    · split
      · simp [nvkm_vm_del, Heap.set_vm_other _ _ _ _ hx]
      · simp [Heap.set_vm_other _ _ _ _ hx]

/-! ## Slots -/

theorem RefSys.old_eq (s : RefSys) (op : RefOp) (hslot : op.slot < s.slots.length) :
    s.old op = s.slots[op.slot] := by
  unfold RefSys.old
  rw [List.get?_eq_getElem?, List.getElem?_eq_getElem hslot]
  rfl

theorem count_of_getElem (l : List (Option Nat)) (i : Nat) (hi : i < l.length) (v : Nat)
    (hv : l[i] = some v) : 0 < l.count (some v) := by
  rw [List.count_pos_iff, ← hv]
  exact List.getElem_mem _

theorem RefSys.step_inv (s : RefSys) (op : RefOp) (v : Nat)
    (hcnt : (s.heap.vm v).refcount = s.holders v)
    (hdel : s.dels v = if s.holders v = 0 then 1 else 0)
    (hslot : op.slot < s.slots.length) (href : op.ref = some v → 0 < s.holders v) :
    ((s.step op).heap.vm v).refcount = (s.step op).holders v ∧
    (s.step op).dels v = if (s.step op).holders v = 0 then 1 else 0 := by
  have hold := RefSys.old_eq s op hslot
  have hset : ∀ a : Option Nat, (s.slots.set op.slot a).count (some v) =
      s.slots.count (some v) - (if s.old op = some v then 1 else 0) +
        (if a = some v then 1 else 0) := by
    intro a
    rw [List.count_set _ _ _ _ hslot, hold]
    simp only [beq_iff_eq]
  have hpos : s.old op = some v → 0 < s.slots.count (some v) := by
    intro h
    exact count_of_getElem _ _ hslot v (hold ▸ h)
  unfold RefSys.holders RefSys.dels at *
  by_cases hj : ∀ r i, op.ref = some r → op.inst = some i → (s.heap.vm r).has_join = true →
      op.join_ret = 0
  · have h1 := nvkm_vm_ref_refcount s.heap op.ref (s.old op) op.inst op.join_ret hj v
    have h2 := nvkm_vm_ref_dels s.heap op.ref (s.old op) op.inst op.join_ret hj v
    have h3 : (nvkm_vm_ref s.heap op.ref (s.old op) op.inst op.join_ret).2.2 = op.ref := by
      rw [nvkm_vm_ref_ok _ _ _ _ _ hj]
    simp only [RefSys.step, h3, hset]
    rw [h1, h2, hcnt, hdel]
    by_cases ho : s.old op = some v
    · have := hpos ho
      by_cases hr : op.ref = some v
      · simp only [ho, hr, if_true, true_and]
        rw [if_neg (by omega), if_neg (by omega), if_neg (by omega)]
        omega
      · simp only [ho, hr, if_true, if_false, true_and]
        rw [if_neg (by omega)]
        refine ⟨by omega, ?_⟩
        by_cases hc : s.slots.count (some v) ≤ 1
        · rw [if_pos (by omega), if_pos (by omega)]
        · rw [if_neg (by omega), if_neg (by omega)]
    · by_cases hr : op.ref = some v
      · have := href hr
        simp only [ho, hr, if_true, if_false, false_and]
        rw [if_neg (by omega), if_neg (by omega)]
        omega
      · simp only [ho, hr, if_false, false_and]
        exact ⟨by omega, by simp⟩
  · obtain ⟨_, h1, h2, h3⟩ := nvkm_vm_ref_failed s.heap op.ref (s.old op) op.inst op.join_ret hj
    simp only [RefSys.step, h2, hset]
    rw [h1, h3 v, hcnt, hdel]
    by_cases ho : s.old op = some v
    · have := hpos ho
      simp only [ho, if_true]
      have e : s.slots.count (some v) - 1 + 1 = s.slots.count (some v) := by omega
      rw [e]
      exact ⟨rfl, rfl⟩
    · simp only [ho, if_false]
      exact ⟨by omega, by simp⟩

theorem RefSys.step_length (s : RefSys) (op : RefOp) :
    (s.step op).slots.length = s.slots.length := by
  simp [RefSys.step]

theorem RefSys.run_inv (v : Nat) (ops : List RefOp) :
    ∀ s : RefSys, (s.heap.vm v).refcount = s.holders v →
      s.dels v = (if s.holders v = 0 then 1 else 0) → RefSys.ops_ok v s ops →
      ((s.run ops).heap.vm v).refcount = (s.run ops).holders v ∧
      (s.run ops).dels v = if (s.run ops).holders v = 0 then 1 else 0 := by
  induction ops with
  | nil => intro s h1 h2 _; exact ⟨h1, h2⟩
  | cons op ops ih =>
    intro s h1 h2 hok
    obtain ⟨⟨hslot, href⟩, hrest⟩ := hok
    obtain ⟨h3, h4⟩ := RefSys.step_inv s op v h1 h2 hslot href
    exact ih (s.step op) h3 h4 hrest

theorem RefSys.ops_ok_take (v : Nat) (ops : List RefOp) :
    ∀ (s : RefSys) (n : Nat), RefSys.ops_ok v s ops → RefSys.ops_ok v s (ops.take n) := by
  induction ops with
  | nil => intro s n h; simpa using h
  | cons op ops ih =>
    intro s n h
    cases n with
    | zero => trivial
    | succ n => exact ⟨h.1, ih (s.step op) n h.2⟩

theorem nvkm_mm_head_error (mm : nvkm_mm) (heap type M m a : Nat) (e : Int)
    (h : nvkm_mm_head mm heap type M m a = Except.error e) : e ≠ 0 := by
  unfold nvkm_mm_head at h
  split at h
  · simp only [Except.error.injEq] at h
    rw [← h]
    decide
  · cases h

/-! ## Rollback and round trip of `nvkm_vm_get` -/

/-- C5: when `nvkm_vm_get` returns a non-zero code on a VM whose allocator
state is well formed, the record of every VM, and so the allocator state
and the reference count of `vm`, is what it was before the call. The code
is the one `nvkm_mm_head` failed with, or, when `nvkm_mm_head` had reserved
`node`, the VM has page tables and the code is the one `nvkm_vmm_ptes_get`
returned; in that case a following `nvkm_vm_get` with the same size and
page shift succeeds when the page-table layer does, and every such call
that succeeds holds the same `node`, at the offset `node.offset << 12`. -/
theorem nvkm_vm_get_rollback (h : Heap) (vm size page_shift access : Nat) (vma : nvkm_vma)
    (ptes_ret : Int) (hwf : mm_wf (h.vm vm).mm.free)
    (hfail : (nvkm_vm_get h vm size page_shift access vma ptes_ret).1 ≠ 0) :
    (nvkm_vm_get h vm size page_shift access vma ptes_ret).2.1.vm = h.vm ∧
    ((nvkm_vm_get h vm size page_shift access vma ptes_ret).2.1.vm vm).mm = (h.vm vm).mm ∧
    ((nvkm_vm_get h vm size page_shift access vma ptes_ret).2.1.vm vm).refcount =
      (h.vm vm).refcount ∧
    (∀ e, nvkm_mm_head (h.vm vm).mm 0 page_shift ((size >>> 12) % 2 ^ 32)
        ((size >>> 12) % 2 ^ 32) (((1 <<< page_shift) % 2 ^ 32) >>> 12) = Except.error e →
      (nvkm_vm_get h vm size page_shift access vma ptes_ret).1 = e) ∧
    (∀ node mm1, nvkm_mm_head (h.vm vm).mm 0 page_shift ((size >>> 12) % 2 ^ 32)
        ((size >>> 12) % 2 ^ 32) (((1 <<< page_shift) % 2 ^ 32) >>> 12) =
          Except.ok (node, mm1) →
      (h.vm vm).has_unmap = true ∧
      (nvkm_vm_get h vm size page_shift access vma ptes_ret).1 = ptes_ret ∧
      (∀ access2 vma2,
        (nvkm_vm_get (nvkm_vm_get h vm size page_shift access vma ptes_ret).2.1 vm size
          page_shift access2 vma2 0).1 = 0) ∧
      (∀ access2 vma2 ptes_ret2,
        (nvkm_vm_get (nvkm_vm_get h vm size page_shift access vma ptes_ret).2.1 vm size
          page_shift access2 vma2 ptes_ret2).1 = 0 →
        (nvkm_vm_get (nvkm_vm_get h vm size page_shift access vma ptes_ret).2.1 vm size
          page_shift access2 vma2 ptes_ret2).2.2.node = some node ∧
        (nvkm_vm_get (nvkm_vm_get h vm size page_shift access vma ptes_ret).2.1 vm size
          page_shift access2 vma2 ptes_ret2).2.2.offset = (node.offset <<< 12) % 2 ^ 64)) := by
  have hvm : (nvkm_vm_get h vm size page_shift access vma ptes_ret).2.1.vm = h.vm := by
    cases hh : nvkm_mm_head (h.vm vm).mm 0 page_shift ((size >>> 12) % 2 ^ 32)
        ((size >>> 12) % 2 ^ 32) (((1 <<< page_shift) % 2 ^ 32) >>> 12) with
    | error e => rw [nvkm_vm_get_error h vm size page_shift access vma ptes_ret e hh]
    | ok r =>
      obtain ⟨node, mm1⟩ := r
      have hc := nvkm_vm_get_code h vm size page_shift access vma ptes_ret node mm1 hh
      by_cases hcond : (h.vm vm).has_unmap = true ∧ ptes_ret ≠ 0
      · exact (nvkm_vm_get_fail h vm size page_shift access vma ptes_ret node mm1 hwf hh
          hcond.1 hcond.2).2.1
      · rw [if_neg hcond] at hc
        exact absurd hc hfail
  refine ⟨hvm, by rw [hvm], by rw [hvm], ?_, ?_⟩
  · intro e hh
    rw [nvkm_vm_get_error h vm size page_shift access vma ptes_ret e hh]
  · intro node mm1 hh
    have hc := nvkm_vm_get_code h vm size page_shift access vma ptes_ret node mm1 hh
    have hcond : (h.vm vm).has_unmap = true ∧ ptes_ret ≠ 0 := by
      by_contra hcond
      rw [if_neg hcond] at hc
      exact hfail hc
    rw [if_pos hcond] at hc
    have hh2 : nvkm_mm_head
        (((nvkm_vm_get h vm size page_shift access vma ptes_ret).2.1).vm vm).mm 0 page_shift
        ((size >>> 12) % 2 ^ 32) ((size >>> 12) % 2 ^ 32)
        (((1 <<< page_shift) % 2 ^ 32) >>> 12) = Except.ok (node, mm1) := by
      rw [hvm]
      exact hh
    refine ⟨hcond.1, hc, ?_, ?_⟩
    · intro access2 vma2
      exact (nvkm_vm_get_ok _ vm size page_shift access2 vma2 0 node mm1 hh2 (fun _ => rfl)).1
    · intro access2 vma2 ptes_ret2 h0
      have hc2 := nvkm_vm_get_code _ vm size page_shift access2 vma2 ptes_ret2 node mm1 hh2
      have hu : ((nvkm_vm_get h vm size page_shift access vma ptes_ret).2.1.vm vm).has_unmap
          = true → ptes_ret2 = 0 := by
        intro hb
        by_contra hne
        rw [if_pos ⟨hb, hne⟩] at hc2
        exact hne (hc2 ▸ h0)
      rw [(nvkm_vm_get_ok _ vm size page_shift access2 vma2 ptes_ret2 node mm1 hh2 hu).2.2]
      exact ⟨rfl, rfl⟩

/-- C6: after a successful `nvkm_vm_get` on a live VM (reference count at
least 1) whose allocator state is well formed, `nvkm_vm_put` of the VMA
restores the allocator state and the reference count of the VM and clears
the node and VM pointer of the VMA; a following `nvkm_vm_get` with the same
size and page shift succeeds when the page-table layer does, and every such
call that succeeds returns the offset of the first. -/
theorem nvkm_vm_get_put (h : Heap) (vm size page_shift access : Nat) (vma : nvkm_vma)
    (ptes_ret : Int) (hwf : mm_wf (h.vm vm).mm.free) (hlive : 0 < (h.vm vm).refcount)
    (hok : (nvkm_vm_get h vm size page_shift access vma ptes_ret).1 = 0) :
    ((nvkm_vm_get h vm size page_shift access vma ptes_ret).2.1.vm vm).refcount =
      (h.vm vm).refcount + 1 ∧
    ((nvkm_vm_put (nvkm_vm_get h vm size page_shift access vma ptes_ret).2.1
      (nvkm_vm_get h vm size page_shift access vma ptes_ret).2.2).1.vm vm).mm = (h.vm vm).mm ∧
    ((nvkm_vm_put (nvkm_vm_get h vm size page_shift access vma ptes_ret).2.1
      (nvkm_vm_get h vm size page_shift access vma ptes_ret).2.2).1.vm vm).refcount =
        (h.vm vm).refcount ∧
    (nvkm_vm_put (nvkm_vm_get h vm size page_shift access vma ptes_ret).2.1
      (nvkm_vm_get h vm size page_shift access vma ptes_ret).2.2).2.node = none ∧
    (nvkm_vm_put (nvkm_vm_get h vm size page_shift access vma ptes_ret).2.1
      (nvkm_vm_get h vm size page_shift access vma ptes_ret).2.2).2.vm = none ∧
    (∀ access2 vma2,
      (nvkm_vm_get (nvkm_vm_put (nvkm_vm_get h vm size page_shift access vma ptes_ret).2.1
        (nvkm_vm_get h vm size page_shift access vma ptes_ret).2.2).1 vm size page_shift
        access2 vma2 0).1 = 0) ∧
    (∀ access2 vma2 ptes_ret2,
      (nvkm_vm_get (nvkm_vm_put (nvkm_vm_get h vm size page_shift access vma ptes_ret).2.1
        (nvkm_vm_get h vm size page_shift access vma ptes_ret).2.2).1 vm size page_shift
        access2 vma2 ptes_ret2).1 = 0 →
      (nvkm_vm_get (nvkm_vm_put (nvkm_vm_get h vm size page_shift access vma ptes_ret).2.1
        (nvkm_vm_get h vm size page_shift access vma ptes_ret).2.2).1 vm size page_shift
        access2 vma2 ptes_ret2).2.2.offset =
      (nvkm_vm_get h vm size page_shift access vma ptes_ret).2.2.offset) := by
  cases hh : nvkm_mm_head (h.vm vm).mm 0 page_shift ((size >>> 12) % 2 ^ 32)
      ((size >>> 12) % 2 ^ 32) (((1 <<< page_shift) % 2 ^ 32) >>> 12) with
  | error e =>
    rw [nvkm_vm_get_error h vm size page_shift access vma ptes_ret e hh] at hok
    exact absurd hok (nvkm_mm_head_error _ _ _ _ _ _ e hh)
  | ok r =>
    obtain ⟨node, mm1⟩ := r
    have hc := nvkm_vm_get_code h vm size page_shift access vma ptes_ret node mm1 hh
    have hu : (h.vm vm).has_unmap = true → ptes_ret = 0 := by
      intro hb
      by_contra hne
      rw [if_pos ⟨hb, hne⟩] at hc
      exact hne (hc ▸ hok)
    obtain ⟨_, hg1, hg2⟩ := nvkm_vm_get_ok h vm size page_shift access vma ptes_ret node mm1 hh hu
    generalize nvkm_vm_get h vm size page_shift access vma ptes_ret = G at hg1 hg2 ⊢
    obtain ⟨hp1, hp2, _, hp4, hp5⟩ := nvkm_vm_put_spec G.2.1 G.2.2 node vm
      (by rw [hg2]) (by rw [hg2])
    have hGc : (G.2.1.vm vm).refcount = (h.vm vm).refcount + 1 := by
      rw [hg1, Heap.set_vm_same]
    have hGm : (G.2.1.vm vm).mm = mm1 := by
      rw [hg1, Heap.set_vm_same]
    have hPm : ((nvkm_vm_put G.2.1 G.2.2).1.vm vm).mm = (h.vm vm).mm := by
      rw [hp2, if_neg (by omega), hGm, nvkm_mm_free_head (h.vm vm).mm 0 page_shift _ _ _
        node mm1 hwf hh]
    have hh2 : nvkm_mm_head ((nvkm_vm_put G.2.1 G.2.2).1.vm vm).mm 0 page_shift
        ((size >>> 12) % 2 ^ 32) ((size >>> 12) % 2 ^ 32)
        (((1 <<< page_shift) % 2 ^ 32) >>> 12) = Except.ok (node, mm1) := by
      rw [hPm]
      exact hh
    refine ⟨hGc, hPm, ?_, hp4, hp5, ?_, ?_⟩
    · rw [hp1 vm, hGc, if_pos rfl]
      omega
    · intro access2 vma2
      exact (nvkm_vm_get_ok _ vm size page_shift access2 vma2 0 node mm1 hh2 (fun _ => rfl)).1
    · intro access2 vma2 ptes_ret2 h0
      have hc2 := nvkm_vm_get_code _ vm size page_shift access2 vma2 ptes_ret2 node mm1 hh2
      have hu2 : ((nvkm_vm_put G.2.1 G.2.2).1.vm vm).has_unmap = true → ptes_ret2 = 0 := by
        intro hb
        by_contra hne
        rw [if_pos ⟨hb, hne⟩] at hc2
        exact hne (hc2 ▸ h0)
      rw [(nvkm_vm_get_ok _ vm size page_shift access2 vma2 ptes_ret2 node mm1 hh2 hu2).2.2,
        hg2]

theorem nvkm_vm_get_rollback_witness :
    mm_wf (ex_heap.vm 1).mm.free ∧
    (nvkm_vm_get ex_heap 1 8192 16 3 ex_vma (-12)).1 ≠ 0 ∧
    ((nvkm_vm_get ex_heap 1 8192 16 3 ex_vma (-12)).2.1.vm 1).mm = (ex_heap.vm 1).mm ∧
    ((nvkm_vm_get ex_heap 1 8192 16 3 ex_vma (-12)).2.1.vm 1).refcount =
      (ex_heap.vm 1).refcount ∧
    (nvkm_vm_get ex_heap 1 8192 16 3 ex_vma (-12)).1 = -12 ∧
    (nvkm_vm_get (nvkm_vm_get ex_heap 1 8192 16 3 ex_vma (-12)).2.1 1 8192 16 3 ex_vma
      0).2.2.offset = 65536 :=
  have W := nvkm_vm_get_rollback ex_heap 1 8192 16 3 ex_vma (-12)
    (by simp [mm_wf, ex_heap, ex_vm]) (by decide)
  ⟨by simp [mm_wf, ex_heap, ex_vm], by decide, W.2.1, W.2.2.1,
    (W.2.2.2.2 { type := 16, offset := 16, length := 2 } { free := [(0, 1), (4, 12), (18, 2)] }
      rfl).2.1,
    ((W.2.2.2.2 { type := 16, offset := 16, length := 2 } { free := [(0, 1), (4, 12), (18, 2)] }
      rfl).2.2.2 3 ex_vma 0 (by decide)).2⟩

theorem nvkm_vm_get_put_witness :
    mm_wf (ex_heap.vm 1).mm.free ∧ 0 < (ex_heap.vm 1).refcount ∧
    (nvkm_vm_get ex_heap 1 8192 16 3 ex_vma 0).1 = 0 ∧
    ((nvkm_vm_put (nvkm_vm_get ex_heap 1 8192 16 3 ex_vma 0).2.1
      (nvkm_vm_get ex_heap 1 8192 16 3 ex_vma 0).2.2).1.vm 1).mm = (ex_heap.vm 1).mm ∧
    ((nvkm_vm_put (nvkm_vm_get ex_heap 1 8192 16 3 ex_vma 0).2.1
      (nvkm_vm_get ex_heap 1 8192 16 3 ex_vma 0).2.2).1.vm 1).refcount =
        (ex_heap.vm 1).refcount :=
  have W := nvkm_vm_get_put ex_heap 1 8192 16 3 ex_vma 0
    (by simp [mm_wf, ex_heap, ex_vm]) (by decide) (by decide)
  ⟨by simp [mm_wf, ex_heap, ex_vm], by decide, by decide, W.2.1, W.2.2.1⟩

/-- C7: when no `join` hook fails and the slot holds a reference to `old`,
`nvkm_vm_ref(ref, &slot, inst)` returns 0 and leaves `ref` in the slot; the
count of every VM `v` goes up by one if `v` is `ref` and down by one if `v`
is `old`; the events of the call are, in this order, `join` on `ref` (only
with the hook and `inst`), the increment on `ref`, `part` on `old` (only
with the hook and `inst`), the decrement on `old`, and the teardown of `old`
when its count was 1 and `ref` is another VM. When `ref` and `old` are the
same VM its count is unchanged and no teardown of it is run. -/
theorem nvkm_vm_ref_spec (h : Heap) (ref old inst : Option Nat) (join_ret : Int) :
    (∀ r i, ref = some r → inst = some i → (h.vm r).has_join = true → join_ret = 0) →
    (∀ o, old = some o → 0 < (h.vm o).refcount) →
    (nvkm_vm_ref h ref old inst join_ret).1 = 0 ∧
    (nvkm_vm_ref h ref old inst join_ret).2.2 = ref ∧
    (∀ v, ((nvkm_vm_ref h ref old inst join_ret).2.1.vm v).refcount =
      (h.vm v).refcount + (if ref = some v then 1 else 0) - (if old = some v then 1 else 0)) ∧
    (nvkm_vm_ref h ref old inst join_ret).2.1.log = h.log ++
      (match ref, inst with
       | some r, some i => if (h.vm r).has_join = true then [VmEvent.join r i] else []
       | _, _ => []) ++
      (match ref with
       | some r => [VmEvent.kref_get r]
       | none => []) ++
      (match old, inst with
       | some o, some i => if (h.vm o).has_part = true then [VmEvent.part o i] else []
       | _, _ => []) ++
      (match old with
       | some o => VmEvent.kref_put o ::
          (if (h.vm o).refcount = 1 ∧ ref ≠ some o then [VmEvent.del o] else [])
       | none => []) ∧
    (∀ v, ref = some v → old = some v →
      ((nvkm_vm_ref h ref old inst join_ret).2.1.vm v).refcount = (h.vm v).refcount ∧
      (nvkm_vm_ref h ref old inst join_ret).2.1.log.count (VmEvent.del v) =
        h.log.count (VmEvent.del v)) := by
  intro hjoin hold
  refine ⟨?_, ?_, nvkm_vm_ref_refcount h ref old inst join_ret hjoin, ?_, ?_⟩
  · rw [nvkm_vm_ref_ok h ref old inst join_ret hjoin]
  · rw [nvkm_vm_ref_ok h ref old inst join_ret hjoin]
  · rw [nvkm_vm_ref_log h ref old inst join_ret hjoin]
    rcases old with _ | o
    · rfl
    · have hpos := hold o rfl
      have hiff : ((h.vm o).refcount + (if ref = some o then 1 else 0) = 1) ↔
          ((h.vm o).refcount = 1 ∧ ref ≠ some o) := by
        by_cases hr : ref = some o
        · rw [if_pos hr]
          constructor
          · intro hle; omega
          · intro hc; exact absurd hr hc.2
        · rw [if_neg hr]
          constructor
          · intro hle; exact ⟨by omega, hr⟩
          · intro hc; omega
      simp only [hiff]
  · intro v hr ho
    have hpos := hold v ho
    constructor
    · rw [nvkm_vm_ref_refcount h ref old inst join_ret hjoin v, if_pos hr, if_pos ho]
      omega
    · rw [nvkm_vm_ref_dels h ref old inst join_ret hjoin v, if_pos hr, if_neg (by omega)]
      rfl

theorem nvkm_vm_ref_spec_witness :
    (∀ r i, some 2 = some r → some 7 = some i → (ex_heap.vm r).has_join = true →
      (0 : Int) = 0) ∧
    (∀ o, some 1 = some o → 0 < (ex_heap.vm o).refcount) ∧
    (nvkm_vm_ref ex_heap (some 2) (some 1) (some 7) 0).1 = 0 ∧
    (nvkm_vm_ref ex_heap (some 2) (some 1) (some 7) 0).2.2 = some 2 ∧
    (nvkm_vm_ref ex_heap (some 2) (some 1) (some 7) 0).2.1.log =
      [VmEvent.join 2 7, VmEvent.kref_get 2, VmEvent.part 1 7, VmEvent.kref_put 1,
        VmEvent.del 1] :=
  have W := nvkm_vm_ref_spec ex_heap (some 2) (some 1) (some 7) 0 (fun _ _ _ _ _ => rfl)
    (fun _ _ => Nat.zero_lt_one)
  ⟨fun _ _ _ _ _ => rfl, fun _ _ => Nat.zero_lt_one, W.1, W.2.1, W.2.2.2.1⟩

/-- C8: let a VM `v` have reference count 1, one slot pointing at it and no
teardown so far, and let every operation of the sequence be a call
`nvkm_vm_ref(ref, &slot, inst)` on an existing slot that passes `v` only
while some slot points at `v`. Then after every number of operations the
reference count of `v` is the number of slots pointing at `v`, and
`nvkm_vm_del` has run for `v` once if no slot points at `v` and not at all
otherwise. -/
theorem vm_refcount_teardown (s : RefSys) (v : Nat) (ops : List RefOp)
    (hnew : (s.heap.vm v).refcount = 1) (hslot : s.holders v = 1) (hdel : s.dels v = 0)
    (hops : RefSys.ops_ok v s ops) (n : Nat) :
    ((s.run (ops.take n)).heap.vm v).refcount = (s.run (ops.take n)).holders v ∧
    (s.run (ops.take n)).dels v = (if (s.run (ops.take n)).holders v = 0 then 1 else 0) := by
  refine RefSys.run_inv v (ops.take n) s (by rw [hnew, hslot]) ?_
    (RefSys.ops_ok_take v ops s n hops)
  rw [hdel, hslot]
  rfl

theorem vm_refcount_teardown_witness :
    (ex_refsys.heap.vm 1).refcount = 1 ∧ ex_refsys.holders 1 = 1 ∧ ex_refsys.dels 1 = 0 ∧
    RefSys.ops_ok 1 ex_refsys ex_refops ∧
    ((ex_refsys.run (ex_refops.take 2)).heap.vm 1).refcount = 1 ∧
    (ex_refsys.run (ex_refops.take 2)).dels 1 = 0 ∧
    ((ex_refsys.run (ex_refops.take 3)).heap.vm 1).refcount = 0 ∧
    (ex_refsys.run (ex_refops.take 3)).dels 1 = 1 :=
  have hops : RefSys.ops_ok 1 ex_refsys ex_refops :=
    ⟨⟨by decide, fun _ => by decide⟩, ⟨by decide, fun h => by cases h⟩,
      ⟨by decide, fun h => by cases h⟩, trivial⟩
  have W2 := vm_refcount_teardown ex_refsys 1 ex_refops rfl (by decide) (by decide) hops 2
  have W3 := vm_refcount_teardown ex_refsys 1 ex_refops rfl (by decide) (by decide) hops 3
  ⟨rfl, by decide, by decide, hops, W2.1, W2.2, W3.1, W3.2⟩

/-! ## C12: the encoding descriptor -/

theorem and_low (a k n : Nat) (hk : k < 2 ^ n) : a &&& k = (a % 2 ^ n) &&& k := by
  apply Nat.eq_of_testBit_eq
  intro i
  simp only [Nat.testBit_and, Nat.testBit_mod_two_pow]
  by_cases hi : i < n
  · simp [hi]
  · have hk2 : k < 2 ^ i :=
      lt_of_lt_of_le hk (Nat.pow_le_pow_right (by decide) (not_lt.1 hi))
    simp [Nat.testBit_lt_two_pow hk2]

theorem access_ro (access : Nat) :
    (if access &&& NV_MEM_ACCESS_WO = 0 then 1 else 0) =
      (if access / 2 % 2 = 0 then 1 else 0) := by
  have h1 : access &&& NV_MEM_ACCESS_WO = (access % 2 ^ 2) &&& 2 := and_low access 2 2 (by decide)
  have h2 : ∀ x < 4, (x &&& 2 = 0) ↔ (x / 2 % 2 = 0) := by decide
  have h3 := h2 (access % 4) (Nat.mod_lt _ (by decide))
  have h4 : access % 4 / 2 % 2 = access / 2 % 2 := by omega
  rw [h1]
  simp only [show (2 : Nat) ^ 2 = 4 from rfl, h3, h4]

theorem access_priv (access : Nat) :
    (if access &&& NV_MEM_ACCESS_SYS = 0 then 0 else 1) = access / 4 % 2 := by
  have h1 : access &&& NV_MEM_ACCESS_SYS = (access % 2 ^ 3) &&& 4 :=
    and_low access 4 3 (by decide)
  have h2 : ∀ x < 8, (if x &&& 4 = 0 then 0 else 1) = x / 4 % 2 := by decide
  have h3 := h2 (access % 8) (Nat.mod_lt _ (by decide))
  have h4 : access % 8 / 4 % 2 = access / 4 % 2 := by omega
  rw [h1]
  simp only [show (2 : Nat) ^ 3 = 8 from rfl, h3, h4]

theorem memtype_kind50 (memtype : Nat) : (memtype &&& 0x07f) % 2 ^ 8 = memtype % 128 := by
  have h := Nat.and_pow_two_sub_one_eq_mod memtype 7
  have e : (2 : Nat) ^ 7 - 1 = 0x07f := rfl
  rw [e] at h
  rw [h]
  have : memtype % 2 ^ 7 < 128 := Nat.mod_lt _ (by decide)
  omega

theorem memtype_kindc0 (memtype : Nat) : (memtype &&& 0x0ff) % 2 ^ 8 = memtype % 256 := by
  have h := Nat.and_pow_two_sub_one_eq_mod memtype 8
  have e : (2 : Nat) ^ 8 - 1 = 0x0ff := rfl
  rw [e] at h
  rw [h]
  exact Nat.mod_mod _ _

set_option maxRecDepth 100000 in
theorem memtype_comp (memtype : Nat) :
    ((memtype &&& 0x180) >>> 7) % 2 ^ 8 = memtype / 128 % 4 := by
  have h1 : memtype &&& 0x180 = (memtype % 2 ^ 9) &&& 0x180 := and_low memtype 0x180 9 (by decide)
  have h2 : ∀ x ∈ List.range 512, ((x &&& 0x180) >>> 7) % 2 ^ 8 = x / 128 % 4 := by decide
  have h3 := h2 (memtype % 512) (List.mem_range.2 (Nat.mod_lt _ (by decide)))
  have h4 : memtype % 512 / 128 % 4 = memtype / 128 % 4 := by omega
  rw [h1]
  simp only [show (2 : Nat) ^ 9 = 512 from rfl, h3, h4]

set_option maxRecDepth 100000 in
theorem memtype_join (memtype : Nat) :
    (memtype % 128) ||| ((memtype / 128 % 4) <<< 7) = memtype &&& 0x1ff := by
  have h := Nat.and_pow_two_sub_one_eq_mod memtype 9
  have e : (2 : Nat) ^ 9 - 1 = 0x1ff := rfl
  rw [e] at h
  rw [h]
  have h2 : ∀ x ∈ List.range 512, (x % 128) ||| ((x / 128 % 4) <<< 7) = x := by decide
  have h3 := h2 (memtype % 512) (List.mem_range.2 (Nat.mod_lt _ (by decide)))
  have h4 : memtype % 512 % 128 = memtype % 128 := by omega
  have h5 : memtype % 512 / 128 % 4 = memtype / 128 % 4 := by omega
  rw [h4, h5] at h3
  exact h3

theorem nvkm_vm_map__reject (h : Heap) (shift : Nat) (vma : nvkm_vma) (delta : Nat)
    (mem : nvkm_mem) (fn : pte_func) (src : map_source) (env : MapEnv) (vmm : Nat)
    (node : nvkm_mm_node) (ret : Int) (tags : Option Nat)
    (hv : vma.vm = some vmm) (hn : vma.node = some node)
    (hval : env.valid = some (ret, tags)) (hret : ret ≠ 0) :
    nvkm_vm_map_ h shift vma delta mem fn src env =
      ((h.emit [VmEvent.valid vmm
          (nvkm_vm_map_args env.card vma.access mem.memtype env.target)]).emit
        [VmEvent.warn_on], vma) := by
  unfold nvkm_vm_map_
  simp only [hv, hn, hval]
  rw [if_pos hret]

theorem nvkm_vm_map__accept (h : Heap) (shift : Nat) (vma : nvkm_vma) (delta : Nat)
    (mem : nvkm_mem) (fn : pte_func) (src : map_source) (env : MapEnv) (vmm : Nat)
    (node : nvkm_mm_node) (tags : Option Nat)
    (hv : vma.vm = some vmm) (hn : vma.node = some node)
    (hval : env.valid = some (0, tags)) :
    nvkm_vm_map_ h shift vma delta mem fn src env =
      ((h.emit [VmEvent.valid vmm
          (nvkm_vm_map_args env.card vma.access mem.memtype env.target)]).emit
        [VmEvent.ptes_map vmm shift (((node.offset <<< 12) % 2 ^ 64 + delta) % 2 ^ 64)
          ((node.length <<< 12) % 2 ^ 64) fn src,
         VmEvent.tags_put vma.memory vma.tags, VmEvent.memory_unref vma.memory,
         VmEvent.memory_ref mem.memory],
       { vma with memory := mem.memory, tags := tags }) := by
  unfold nvkm_vm_map_
  simp only [hv, hn, hval]
  rw [if_neg (by simp)]

theorem nvkm_vm_map__nohook (h : Heap) (shift : Nat) (vma : nvkm_vma) (delta : Nat)
    (mem : nvkm_mem) (fn : pte_func) (src : map_source) (env : MapEnv) (vmm : Nat)
    (node : nvkm_mm_node)
    (hv : vma.vm = some vmm) (hn : vma.node = some node) (hval : env.valid = none) :
    nvkm_vm_map_ h shift vma delta mem fn src env =
      (h.emit
        [VmEvent.ptes_map vmm shift (((node.offset <<< 12) % 2 ^ 64 + delta) % 2 ^ 64)
          ((node.length <<< 12) % 2 ^ 64) fn src,
         VmEvent.tags_put vma.memory vma.tags, VmEvent.memory_unref vma.memory,
         VmEvent.memory_ref mem.memory],
       { vma with memory := mem.memory, tags := none }) := by
  unfold nvkm_vm_map_
  simp only [hv, hn, hval]

/-- C12: the argument structure `nvkm_vm_map_` builds and hands to the
`valid` hook. On NV_50: version 0, `ro` is 1 iff the write bit (value 2) of
the access mask is clear, `priv` is the system bit (value 4), `kind` is
`memtype mod 128` and `comp` is `memtype / 128 mod 4`, so that
`kind | comp << 7 = memtype & 0x1ff`. On NV_C0, NV_E0, GM100 and GP100:
`vol` is 0 iff the target is video memory, `ro` and `priv` as before, `kind`
is `memtype mod 256`. Read-write access to video memory gives `ro = 0`,
`priv = 0` and `vol = 0`. -/
theorem nvkm_vm_map_args_spec (access memtype : Nat) (target : nvkm_memory_target) :
    nvkm_vm_map_args card_type.NV_50 access memtype target =
      some (vmm_map_args.nv50 0 (if access / 2 % 2 = 0 then 1 else 0) (access / 4 % 2)
        (memtype % 128) (memtype / 128 % 4)) ∧
    (memtype % 128) ||| ((memtype / 128 % 4) <<< 7) = memtype &&& 0x1ff ∧
    (∀ card ∈ [card_type.NV_C0, card_type.NV_E0, card_type.GM100, card_type.GP100],
      nvkm_vm_map_args card access memtype target =
        some (vmm_map_args.gf100 0 (if target = nvkm_memory_target.VRAM then 0 else 1)
          (if access / 2 % 2 = 0 then 1 else 0) (access / 4 % 2) (memtype % 256))) ∧
    nvkm_vm_map_args card_type.NV_50 NV_MEM_ACCESS_RW memtype nvkm_memory_target.VRAM =
      some (vmm_map_args.nv50 0 0 0 (memtype % 128) (memtype / 128 % 4)) ∧
    (∀ card ∈ [card_type.NV_C0, card_type.NV_E0, card_type.GM100, card_type.GP100],
      nvkm_vm_map_args card NV_MEM_ACCESS_RW memtype nvkm_memory_target.VRAM =
        some (vmm_map_args.gf100 0 0 0 0 (memtype % 256))) ∧
    (∀ (h : Heap) (shift : Nat) (vma : nvkm_vma) (delta : Nat) (mem : nvkm_mem) (fn : pte_func)
        (src : map_source) (env : MapEnv) (vmm : Nat) (node : nvkm_mm_node) (ret : Int)
        (tags : Option Nat),
      vma.vm = some vmm → vma.node = some node → env.valid = some (ret, tags) →
      VmEvent.valid vmm (nvkm_vm_map_args env.card vma.access mem.memtype env.target) ∈
        (nvkm_vm_map_ h shift vma delta mem fn src env).1.log) := by
  have h50 : ∀ a, nvkm_vm_map_args card_type.NV_50 a memtype target =
      some (vmm_map_args.nv50 0 (if a / 2 % 2 = 0 then 1 else 0) (a / 4 % 2)
        (memtype % 128) (memtype / 128 % 4)) := by
    intro a
    simp only [nvkm_vm_map_args, access_ro, access_priv, memtype_kind50, memtype_comp]
  have hc0 : ∀ a t, ∀ card ∈ [card_type.NV_C0, card_type.NV_E0, card_type.GM100,
      card_type.GP100], nvkm_vm_map_args card a memtype t =
        some (vmm_map_args.gf100 0 (if t = nvkm_memory_target.VRAM then 0 else 1)
          (if a / 2 % 2 = 0 then 1 else 0) (a / 4 % 2) (memtype % 256)) := by
    intro a t card hc
    have hvol : (if t ≠ nvkm_memory_target.VRAM then 1 else 0) =
        (if t = nvkm_memory_target.VRAM then 0 else 1) := by
      by_cases ht : t = nvkm_memory_target.VRAM
      · simp [ht]
      · simp [ht]
    simp only [List.mem_cons, List.mem_singleton, List.not_mem_nil, or_false] at hc
    rcases hc with rfl | rfl | rfl | rfl <;>
      simp only [nvkm_vm_map_args, access_ro, access_priv, memtype_kindc0, hvol]
  refine ⟨h50 access, memtype_join memtype, hc0 access target, ?_, ?_, ?_⟩
  · exact h50 NV_MEM_ACCESS_RW
  · intro card hc
    exact hc0 NV_MEM_ACCESS_RW nvkm_memory_target.VRAM card hc
  · intro h shift vma delta mem fn src env vmm node ret tags hv hn hval
    by_cases hret : ret = 0
    · subst hret
      rw [nvkm_vm_map__accept h shift vma delta mem fn src env vmm node tags hv hn hval]
      simp
    · rw [nvkm_vm_map__reject h shift vma delta mem fn src env vmm node ret tags hv hn hval hret]
      simp

theorem nvkm_vm_map_args_spec_witness :
    ex_vma_reserved.vm = some 1 ∧
    ex_vma_reserved.node = some { type := 12, offset := 16, length := 2 } ∧
    ex_env.valid = some (0, none) ∧
    VmEvent.valid 1 (some (vmm_map_args.nv50 0 0 0 0 0)) ∈
      (nvkm_vm_map_ ex_heap 12 ex_vma_reserved 0 ex_mem pte_func.mem
        (map_source.mem (some 40)) ex_env).1.log :=
  ⟨rfl, rfl, rfl,
    (nvkm_vm_map_args_spec 3 0 nvkm_memory_target.VRAM).2.2.2.2.2 ex_heap 12 ex_vma_reserved 0
      ex_mem pte_func.mem (map_source.mem (some 40)) ex_env 1
      { type := 12, offset := 16, length := 2 } 0 none rfl rfl rfl⟩

/-! ## C11, C13: the paths of `nvkm_vm_map` -/

theorem nvkm_vm_map_cases (h : Heap) (vma : nvkm_vma) (node : nvkm_mem) (env : MapEnv)
    (vm : Nat) (n : nvkm_mm_node) (hv : vma.vm = some vm) (hn : vma.node = some n) :
    nvkm_vm_map h vma node env =
      if (h.vm vm).has_unmap = true then
        nvkm_vm_map_ h n.type vma 0 node
          (if node.sg.isSome then pte_func.sgl
           else if node.pages.isSome then pte_func.dma else pte_func.mem)
          (if node.sg.isSome then map_source.sgl (node.sg.getD 0)
           else if node.pages.isSome then map_source.dma (node.pages.getD 0)
           else map_source.mem node.mem) env
      else (h, vma) := by
  unfold nvkm_vm_map
  rcases hs : node.sg with _ | sgl
  · rcases hp : node.pages with _ | pages
    · simp only [Option.isSome_none, Bool.false_eq_true, if_false, nvkm_vm_map_at, hv, hn]
    · simp only [Option.isSome_none, Option.isSome_some, Bool.false_eq_true, if_false, if_true,
        nvkm_vm_map_sg, hv, hn, hp, Option.getD_some]
  · simp only [Option.isSome_some, if_true, nvkm_vm_map_sg_table, hv, hn, hs, Option.getD_some]

/-- C11: on a reserved VMA of a VM with page tables, `nvkm_vm_map` makes one
call of `nvkm_vm_map_`, at delta 0: with the page function `sgl` fed
`node->sg->sgl` whenever `node->sg` is set, whatever `node->pages` is;
otherwise with the page function `dma` fed `node->pages` whenever that is
set; otherwise with the page function `mem` fed `node->mem`. That call,
when the `valid` hook is absent or accepts, calls `nvkm_vmm_ptes_map` once,
at the start of the VMA, with that page function and source. On a VM
without page tables `nvkm_vm_map` does nothing. -/
theorem nvkm_vm_map_precedence (h : Heap) (vma : nvkm_vma) (node : nvkm_mem) (env : MapEnv)
    (vm : Nat) (n : nvkm_mm_node) (hv : vma.vm = some vm) (hn : vma.node = some n) :
    ((h.vm vm).has_unmap = true → ∀ sgl, node.sg = some sgl →
      nvkm_vm_map h vma node env =
        nvkm_vm_map_ h n.type vma 0 node pte_func.sgl (map_source.sgl sgl) env) ∧
    ((h.vm vm).has_unmap = true → node.sg = none → ∀ pages, node.pages = some pages →
      nvkm_vm_map h vma node env =
        nvkm_vm_map_ h n.type vma 0 node pte_func.dma (map_source.dma pages) env) ∧
    ((h.vm vm).has_unmap = true → node.sg = none → node.pages = none →
      nvkm_vm_map h vma node env =
        nvkm_vm_map_ h n.type vma 0 node pte_func.mem (map_source.mem node.mem) env) ∧
    ((h.vm vm).has_unmap = false → nvkm_vm_map h vma node env = (h, vma)) ∧
    (∀ fn src, (env.valid = none ∨ ∃ tags, env.valid = some (0, tags)) →
      (nvkm_vm_map_ h n.type vma 0 node fn src env).1.log = h.log ++
        (if env.valid.isSome then
          [VmEvent.valid vm (nvkm_vm_map_args env.card vma.access node.memtype env.target)]
         else []) ++
        [VmEvent.ptes_map vm n.type (n.offset * 4096 % 2 ^ 64) (n.length * 4096 % 2 ^ 64) fn src,
         VmEvent.tags_put vma.memory vma.tags, VmEvent.memory_unref vma.memory,
         VmEvent.memory_ref node.memory]) := by
  have hc := nvkm_vm_map_cases h vma node env vm n hv hn
  refine ⟨?_, ?_, ?_, ?_, ?_⟩
  · intro hu sgl hs
    rw [hc, if_pos hu]
    simp only [hs, Option.isSome_some, if_true, Option.getD_some]
  · intro hu hs pages hp
    rw [hc, if_pos hu]
    simp only [hs, hp, Option.isSome_none, Option.isSome_some, Bool.false_eq_true, if_false,
      if_true, Option.getD_some]
  · intro hu hs hp
    rw [hc, if_pos hu]
    simp only [hs, hp, Option.isSome_none, Bool.false_eq_true, if_false]
  · intro hu
    rw [hc, if_neg (by simp [hu])]
  · intro fn src hacc
    have e1 : ((n.offset <<< 12) % 2 ^ 64 + 0) % 2 ^ 64 = n.offset * 4096 % 2 ^ 64 := by
      rw [Nat.add_zero, Nat.mod_mod, Nat.shiftLeft_eq]
    have e2 : (n.length <<< 12) % 2 ^ 64 = n.length * 4096 % 2 ^ 64 := by
      rw [Nat.shiftLeft_eq]
    rcases hacc with hnone | ⟨tags, hsome⟩
    · rw [nvkm_vm_map__nohook h n.type vma 0 node fn src env vm n hv hn hnone, e1, e2]
      simp [hnone]
    · rw [nvkm_vm_map__accept h n.type vma 0 node fn src env vm n tags hv hn hsome, e1, e2]
      simp [hsome]

theorem nvkm_vm_map_precedence_witness :
    ex_vma_reserved.vm = some 1 ∧
    ex_vma_reserved.node = some { type := 12, offset := 16, length := 2 } ∧
    (ex_heap.vm 1).has_unmap = true ∧ ex_mem.sg = none ∧ ex_mem.pages = none ∧
    nvkm_vm_map ex_heap ex_vma_reserved ex_mem ex_env =
      nvkm_vm_map_ ex_heap 12 ex_vma_reserved 0 ex_mem pte_func.mem (map_source.mem (some 40))
        ex_env :=
  ⟨rfl, rfl, rfl, rfl, rfl,
    (nvkm_vm_map_precedence ex_heap ex_vma_reserved ex_mem ex_env 1
      { type := 12, offset := 16, length := 2 } rfl rfl).2.2.1 rfl rfl rfl⟩

/-- C13, as stated, fails: on a device older than NV50 whose `valid` hook
accepts the empty argument, `nvkm_vm_map_` calls `nvkm_vmm_ptes_map` and
binds the memory object to the VMA. -/
theorem nvkm_vm_map_unknown_card_counterexample :
    ex_env_old.card = card_type.other 0x40 ∧ ex_vma_reserved.memory = none ∧
    (nvkm_vm_map_ ex_heap 12 ex_vma_reserved 0 ex_mem pte_func.mem (map_source.mem (some 40))
      ex_env_old).1.log =
      [VmEvent.valid 1 none,
       VmEvent.ptes_map 1 12 0x10000 0x2000 pte_func.mem (map_source.mem (some 40)),
       VmEvent.tags_put none none, VmEvent.memory_unref none, VmEvent.memory_ref (some 5)] ∧
    (nvkm_vm_map_ ex_heap 12 ex_vma_reserved 0 ex_mem pte_func.mem (map_source.mem (some 40))
      ex_env_old).2.memory = some 5 := by
  decide

/-- C13, amended: for a card type that is none of NV_50, NV_C0, NV_E0, GM100
and GP100, `nvkm_vm_map_` builds no argument structure and leaves the
decision to the `valid` hook. When the hook returns a non-zero code the
request is rejected: the only events are the call of the hook, with a null
argument, and the `WARN_ON`, so `nvkm_vmm_ptes_map` is not called, and the
VMA is unchanged. When the hook accepts, or when the VM has no hook, the
entries are written and the memory object is bound. -/
theorem nvkm_vm_map_unknown_card (h : Heap) (shift : Nat) (vma : nvkm_vma) (delta : Nat)
    (mem : nvkm_mem) (fn : pte_func) (src : map_source) (env : MapEnv) (vmm : Nat)
    (node : nvkm_mm_node) (id : Nat)
    (hv : vma.vm = some vmm) (hn : vma.node = some node) (hc : env.card = card_type.other id) :
    nvkm_vm_map_args env.card vma.access mem.memtype env.target = none ∧
    (∀ ret tags, env.valid = some (ret, tags) → ret ≠ 0 →
      (nvkm_vm_map_ h shift vma delta mem fn src env).1.log =
        h.log ++ [VmEvent.valid vmm none, VmEvent.warn_on] ∧
      (nvkm_vm_map_ h shift vma delta mem fn src env).1.vm = h.vm ∧
      (nvkm_vm_map_ h shift vma delta mem fn src env).2 = vma) ∧
    (∀ tags, env.valid = some (0, tags) →
      (nvkm_vm_map_ h shift vma delta mem fn src env).1.log =
        h.log ++ [VmEvent.valid vmm none,
          VmEvent.ptes_map vmm shift (((node.offset <<< 12) % 2 ^ 64 + delta) % 2 ^ 64)
            ((node.length <<< 12) % 2 ^ 64) fn src,
          VmEvent.tags_put vma.memory vma.tags, VmEvent.memory_unref vma.memory,
          VmEvent.memory_ref mem.memory] ∧
      (nvkm_vm_map_ h shift vma delta mem fn src env).2 =
        { vma with memory := mem.memory, tags := tags }) ∧
    (env.valid = none →
      (nvkm_vm_map_ h shift vma delta mem fn src env).1.log =
        h.log ++ [VmEvent.ptes_map vmm shift
            (((node.offset <<< 12) % 2 ^ 64 + delta) % 2 ^ 64)
            ((node.length <<< 12) % 2 ^ 64) fn src,
          VmEvent.tags_put vma.memory vma.tags, VmEvent.memory_unref vma.memory,
          VmEvent.memory_ref mem.memory] ∧
      (nvkm_vm_map_ h shift vma delta mem fn src env).2 =
        { vma with memory := mem.memory, tags := none }) := by
  have ha : nvkm_vm_map_args env.card vma.access mem.memtype env.target = none := by
    rw [hc]
    rfl
  refine ⟨ha, ?_, ?_, ?_⟩
  · intro ret tags hval hret
    rw [nvkm_vm_map__reject h shift vma delta mem fn src env vmm node ret tags hv hn hval hret,
      ha]
    exact ⟨by simp, rfl, rfl⟩
  · intro tags hval
    rw [nvkm_vm_map__accept h shift vma delta mem fn src env vmm node tags hv hn hval, ha]
    exact ⟨by simp, rfl⟩
  · intro hval
    rw [nvkm_vm_map__nohook h shift vma delta mem fn src env vmm node hv hn hval]
    exact ⟨rfl, rfl⟩

theorem nvkm_vm_map_unknown_card_witness :
    ex_vma_reserved.vm = some 1 ∧
    ex_vma_reserved.node = some { type := 12, offset := 16, length := 2 } ∧
    (nvkm_vm_map_ ex_heap 12 ex_vma_reserved 0 ex_mem pte_func.mem (map_source.mem (some 40))
      { card := card_type.other 0x40, valid := some (-22, none),
        target := nvkm_memory_target.VRAM }).1.log =
      [VmEvent.valid 1 none, VmEvent.warn_on] ∧
    (nvkm_vm_map_ ex_heap 12 ex_vma_reserved 0 ex_mem pte_func.mem (map_source.mem (some 40))
      { card := card_type.other 0x40, valid := some (-22, none),
        target := nvkm_memory_target.VRAM }).2 = ex_vma_reserved :=
  have W := (nvkm_vm_map_unknown_card ex_heap 12 ex_vma_reserved 0 ex_mem pte_func.mem
    (map_source.mem (some 40))
    { card := card_type.other 0x40, valid := some (-22, none),
      target := nvkm_memory_target.VRAM } 1 { type := 12, offset := 16, length := 2 } 0x40
    rfl rfl rfl).2.1 (-22) none rfl (by decide)
  ⟨rfl, rfl, W.1, W.2.2⟩

/-! ## C15, C16: unmapping -/

/-- C15 at a failing input: a VMA of two pages reserved at unit `2 ^ 20`
(4 GiB) is mapped and unmapped. The page-table layer is asked to write the
entries of `[0x100000000, 0x100002000)` and then to invalidate those of
`[0, 0x2000)`: `nvkm_vm_unmap_at` shifts the 32-bit offset without the cast
to `u64` that `nvkm_vm_map_` has. The VMA is left without memory object and
tags, and the reference taken on the memory object is released. -/
theorem nvkm_vm_map_unmap_high :
    ex_map_unmap_high.1.log =
      [VmEvent.ptes_get 1 12 0 0x2000, VmEvent.kref_get 1,
       VmEvent.valid 1 (some (vmm_map_args.nv50 0 0 0 0 0)),
       VmEvent.ptes_map 1 12 0x100000000 0x2000 pte_func.mem (map_source.mem (some 40)),
       VmEvent.tags_put none none, VmEvent.memory_unref none, VmEvent.memory_ref (some 5),
       VmEvent.ptes_unmap 1 12 0 0x2000,
       VmEvent.tags_put (some 5) none, VmEvent.memory_unref (some 5)] ∧
    ex_map_unmap_high.2.memory = none ∧ ex_map_unmap_high.2.tags = none ∧
    ex_map_unmap_high.2.offset = 0x100000000 := by
  decide

/-- C16 at a failing input: on a VMA of two pages that covers
`[0x10000, 0x12000)`, `nvkm_vm_unmap_at(vma, 0x1000, 0x1000)` asks the
page-table layer to invalidate `0x2000` bytes from `0x11000`, that is
`[0x11000, 0x13000)`: the size passed is the size of the whole VMA, the
argument `length` is not used. The heap is otherwise unchanged. -/
theorem nvkm_vm_unmap_at_length :
    (nvkm_vm_unmap_at ex_heap ex_vma_reserved 0x1000 0x1000).log =
      [VmEvent.ptes_unmap 1 12 0x11000 0x2000] ∧
    (nvkm_vm_unmap_at ex_heap ex_vma_reserved 0x1000 0x1000).vm = ex_heap.vm := by
  exact ⟨by decide, rfl⟩

/-! ## C14: references on memory objects -/

theorem mem_balance_refl (h : Heap) (vma : nvkm_vma) : mem_balance h vma h vma := by
  intro m
  rfl

theorem mem_balance_map_ (h : Heap) (shift : Nat) (vma : nvkm_vma) (delta : Nat)
    (mem : nvkm_mem) (fn : pte_func) (src : map_source) (env : MapEnv) :
    mem_balance h vma (nvkm_vm_map_ h shift vma delta mem fn src env).1
      (nvkm_vm_map_ h shift vma delta mem fn src env).2 := by
  rcases hv : vma.vm with _ | vmm
  · have : nvkm_vm_map_ h shift vma delta mem fn src env = (h, vma) := by
      unfold nvkm_vm_map_
      simp only [hv]
    rw [this]
    exact mem_balance_refl h vma
  · rcases hn : vma.node with _ | node
    · have : nvkm_vm_map_ h shift vma delta mem fn src env = (h, vma) := by
        unfold nvkm_vm_map_
        simp only [hv, hn]
      rw [this]
      exact mem_balance_refl h vma
    · have hcount : ∀ (g : Heap) (tags : Option Nat),
          (∀ m, g.log.count (VmEvent.memory_ref (some m)) =
            h.log.count (VmEvent.memory_ref (some m))) →
          (∀ m, g.log.count (VmEvent.memory_unref (some m)) =
            h.log.count (VmEvent.memory_unref (some m))) →
          mem_balance h vma
            (g.emit [VmEvent.ptes_map vmm shift
                (((node.offset <<< 12) % 2 ^ 64 + delta) % 2 ^ 64)
                ((node.length <<< 12) % 2 ^ 64) fn src,
              VmEvent.tags_put vma.memory vma.tags, VmEvent.memory_unref vma.memory,
              VmEvent.memory_ref mem.memory])
            { vma with memory := mem.memory, tags := tags } := by
        intro g tags h1 h2 m
        simp only [Heap.emit_log, List.count_append, h1 m, h2 m, List.count_cons,
          List.count_nil, beq_iff_eq, VmEvent.memory_unref.injEq, VmEvent.memory_ref.injEq,
          reduceCtorEq, if_false, Nat.zero_add, Nat.add_zero]
        omega
      rcases hval : env.valid with _ | ⟨ret, tags⟩
      · rw [nvkm_vm_map__nohook h shift vma delta mem fn src env vmm node hv hn hval]
        exact hcount h none (fun _ => rfl) (fun _ => rfl)
      · by_cases hret : ret = 0
        · subst hret
          rw [nvkm_vm_map__accept h shift vma delta mem fn src env vmm node tags hv hn hval]
          refine hcount _ tags ?_ ?_
          · intro m
            simp [List.count_append, List.count_cons]
          · intro m
            simp [List.count_append, List.count_cons]
        · rw [nvkm_vm_map__reject h shift vma delta mem fn src env vmm node ret tags hv hn hval
            hret]
          intro m
          simp [List.count_append, List.count_cons]

theorem mem_balance_map (h : Heap) (vma : nvkm_vma) (node : nvkm_mem) (env : MapEnv) :
    mem_balance h vma (nvkm_vm_map h vma node env).1 (nvkm_vm_map h vma node env).2 := by
  have hid : ∀ r : Heap × nvkm_vma, r = (h, vma) → mem_balance h vma r.1 r.2 := by
    intro r hr
    rw [hr]
    exact mem_balance_refl h vma
  unfold nvkm_vm_map
  split
  · unfold nvkm_vm_map_sg_table
    split
    · split
      · exact mem_balance_map_ _ _ _ _ _ _ _ _
      · exact mem_balance_refl h vma
    · exact mem_balance_refl h vma
  · split
    · unfold nvkm_vm_map_sg
      split
      · split
        · exact mem_balance_map_ _ _ _ _ _ _ _ _
        · exact mem_balance_refl h vma
      · exact mem_balance_refl h vma
    · unfold nvkm_vm_map_at
      split
      · split
        · exact mem_balance_map_ _ _ _ _ _ _ _ _
        · exact mem_balance_refl h vma
      · exact mem_balance_refl h vma

theorem nvkm_vm_unmap_at_count (h : Heap) (vma : nvkm_vma) (delta length : Nat) (e : VmEvent)
    (he : ∀ a b c d, e ≠ VmEvent.ptes_unmap a b c d) :
    (nvkm_vm_unmap_at h vma delta length).log.count e = h.log.count e := by
  unfold nvkm_vm_unmap_at
  split
  · split
    · simp only [Heap.emit_log, List.count_append, List.count_cons, List.count_nil, beq_iff_eq]
      rw [if_neg (fun hh => he _ _ _ _ hh.symm)]
      rfl
    · rfl
  · rfl

theorem mem_balance_unmap (h : Heap) (vma : nvkm_vma) :
    mem_balance h vma (nvkm_vm_unmap h vma).1 (nvkm_vm_unmap h vma).2 := by
  unfold nvkm_vm_unmap
  split
  · intro m
    simp only [Heap.emit_log, List.count_append, List.count_cons, List.count_nil, beq_iff_eq,
      VmEvent.memory_unref.injEq, reduceCtorEq, if_false, Nat.zero_add, Nat.add_zero]
    rw [nvkm_vm_unmap_at_count _ _ _ _ _ (by intro a b c d hh; cases hh),
      nvkm_vm_unmap_at_count _ _ _ _ _ (by intro a b c d hh; cases hh)]
    omega
  · exact mem_balance_refl h vma

theorem nvkm_vm_get_shape (h : Heap) (vm size page_shift access : Nat) (vma : nvkm_vma)
    (ptes_ret : Int) :
    (∃ L : List VmEvent, (nvkm_vm_get h vm size page_shift access vma ptes_ret).2.1.log =
        h.log ++ L ∧
      ∀ e ∈ L, (∃ a b c d, e = VmEvent.ptes_get a b c d) ∨ ∃ v, e = VmEvent.kref_get v) ∧
    ((nvkm_vm_get h vm size page_shift access vma ptes_ret).2.2.memory = vma.memory ∨
      (nvkm_vm_get h vm size page_shift access vma ptes_ret).2.2.memory = none) := by
  cases hh : nvkm_mm_head (h.vm vm).mm 0 page_shift ((size >>> 12) % 2 ^ 32)
      ((size >>> 12) % 2 ^ 32) (((1 <<< page_shift) % 2 ^ 32) >>> 12) with
  | error e =>
    rw [nvkm_vm_get_error h vm size page_shift access vma ptes_ret e hh]
    exact ⟨⟨[], by simp, by simp⟩, Or.inl rfl⟩
  | ok r =>
    obtain ⟨node, mm1⟩ := r
    unfold nvkm_vm_get
    simp only [hh, Heap.set_vm_same]
    by_cases hb : (h.vm vm).has_unmap = true
    · rw [if_pos hb]
      by_cases hr : ptes_ret ≠ 0
      · rw [if_pos hr]
        refine ⟨⟨[VmEvent.ptes_get vm page_shift ((node.offset <<< 12) % 2 ^ 32)
          ((node.length <<< 12) % 2 ^ 32)], rfl, ?_⟩, Or.inl rfl⟩
        intro e he
        rw [List.mem_singleton] at he
        exact Or.inl ⟨_, _, _, _, he⟩
      · rw [if_neg hr, nvkm_vm_get_done_spec]
        refine ⟨⟨[VmEvent.ptes_get vm page_shift ((node.offset <<< 12) % 2 ^ 32)
          ((node.length <<< 12) % 2 ^ 32), VmEvent.kref_get vm], ?_, ?_⟩, Or.inr rfl⟩
        · simp [kref_get]
        · intro e he
          simp only [List.mem_cons, List.mem_singleton, List.not_mem_nil, or_false] at he
          rcases he with he | he
          · exact Or.inl ⟨_, _, _, _, he⟩
          · exact Or.inr ⟨_, he⟩
    · rw [if_neg hb, nvkm_vm_get_done_spec]
      refine ⟨⟨[VmEvent.kref_get vm], ?_, ?_⟩, Or.inr rfl⟩
      · simp [kref_get]
      · intro e he
        rw [List.mem_singleton] at he
        exact Or.inr ⟨_, he⟩

theorem nvkm_vm_get_count (h : Heap) (vm size page_shift access : Nat) (vma : nvkm_vma)
    (ptes_ret : Int) (e : VmEvent) (he : ∀ a b c d, e ≠ VmEvent.ptes_get a b c d)
    (hk : ∀ v, e ≠ VmEvent.kref_get v) :
    (nvkm_vm_get h vm size page_shift access vma ptes_ret).2.1.log.count e = h.log.count e := by
  obtain ⟨⟨L, hL, hall⟩, _⟩ := nvkm_vm_get_shape h vm size page_shift access vma ptes_ret
  rw [hL, List.count_append]
  have : L.count e = 0 := by
    rw [List.count_eq_zero]
    intro hmem
    rcases hall e hmem with ⟨a, b, c, d, h1⟩ | ⟨v, h1⟩
    · exact he a b c d h1
    · exact hk v h1
  omega

theorem nvkm_vm_get_memory (h : Heap) (vm size page_shift access : Nat) (vma : nvkm_vma)
    (ptes_ret : Int) (hm : vma.memory = none) :
    (nvkm_vm_get h vm size page_shift access vma ptes_ret).2.2.memory = none := by
  rcases (nvkm_vm_get_shape h vm size page_shift access vma ptes_ret).2 with h1 | h1
  · rw [h1, hm]
  · exact h1

theorem mem_balance_get (h : Heap) (vm size page_shift access : Nat) (vma : nvkm_vma)
    (ptes_ret : Int) (hm : vma.memory = none) :
    mem_balance h vma (nvkm_vm_get h vm size page_shift access vma ptes_ret).2.1
      (nvkm_vm_get h vm size page_shift access vma ptes_ret).2.2 := by
  intro m
  rw [nvkm_vm_get_count h vm size page_shift access vma ptes_ret _
      (by intro a b c d hh; cases hh) (by intro v hh; cases hh),
    nvkm_vm_get_count h vm size page_shift access vma ptes_ret _
      (by intro a b c d hh; cases hh) (by intro v hh; cases hh),
    nvkm_vm_get_memory h vm size page_shift access vma ptes_ret hm, hm]

theorem nvkm_vm_put_log (g : Heap) (vma : nvkm_vma) (node : nvkm_mm_node) (vm : Nat)
    (hn : vma.node = some node) (hv : vma.vm = some vm) :
    (nvkm_vm_put g vma).1.log = g.log ++
      [VmEvent.tags_put vma.memory vma.tags, VmEvent.memory_unref vma.memory] ++
      (if (g.vm vm).has_unmap = true then
        [VmEvent.ptes_put vm node.type ((node.offset <<< 12) % 2 ^ 32)
          ((node.length <<< 12) % 2 ^ 32)]
       else []) ++
      VmEvent.kref_put vm :: (if (g.vm vm).refcount = 1 then [VmEvent.del vm] else []) ∧
    (nvkm_vm_put g vma).2 = { vma with tags := none, memory := none, node := none, vm := none } := by
  unfold nvkm_vm_put
  simp only [hn, hv, Heap.emit_vm]
  rw [nvkm_vm_ref_ok _ none (some vm) none 0 (by intro r i hr; cases hr)]
  simp only [nvkm_vm_ref_get, nvkm_vm_ref_put, nvkm_mm_free, kref_put_log, Heap.set_log,
    Heap.emit_log, Heap.set_vm_same, and_true]

theorem mem_balance_put (h : Heap) (vma : nvkm_vma) :
    mem_balance h vma (nvkm_vm_put h vma).1 (nvkm_vm_put h vma).2 := by
  rcases hn : vma.node with _ | node
  · have : nvkm_vm_put h vma = (h, vma) := by
      unfold nvkm_vm_put
      simp only [hn]
    rw [this]
    exact mem_balance_refl h vma
  · rcases hv : vma.vm with _ | vm
    · have : nvkm_vm_put h vma = (h, vma) := by
        unfold nvkm_vm_put
        simp only [hn, hv]
      rw [this]
      exact mem_balance_refl h vma
    · obtain ⟨hl, hr⟩ := nvkm_vm_put_log h vma node vm hn hv
      intro m
      rw [hl, hr]
      have hP : ∀ e : VmEvent, (∀ a b c d, VmEvent.ptes_put a b c d ≠ e) →
          (if (h.vm vm).has_unmap = true then
            [VmEvent.ptes_put vm node.type ((node.offset <<< 12) % 2 ^ 32)
              ((node.length <<< 12) % 2 ^ 32)]
           else []).count e = 0 := by
        intro e he
        by_cases hb : (h.vm vm).has_unmap = true
        · rw [if_pos hb]
          simp [List.count_cons, he]
        · rw [if_neg hb]
          rfl
      have hK : ∀ e : VmEvent, (∀ v, VmEvent.kref_put v ≠ e) → (∀ v, VmEvent.del v ≠ e) →
          (VmEvent.kref_put vm ::
            (if (h.vm vm).refcount = 1 then [VmEvent.del vm] else [])).count e = 0 := by
        intro e h1 h2
        by_cases hc : (h.vm vm).refcount = 1
        · rw [if_pos hc]
          simp [List.count_cons, h1, h2]
        · rw [if_neg hc]
          simp [List.count_cons, h1]
      have hP1 := hP (VmEvent.memory_ref (some m)) (by intro a b c d hh; cases hh)
      have hP2 := hP (VmEvent.memory_unref (some m)) (by intro a b c d hh; cases hh)
      have hK1 := hK (VmEvent.memory_ref (some m)) (by intro v hh; cases hh)
        (by intro v hh; cases hh)
      have hK2 := hK (VmEvent.memory_unref (some m)) (by intro v hh; cases hh)
        (by intro v hh; cases hh)
      simp only [List.count_append, hP1, hP2, hK1, hK2, List.count_cons, List.count_nil,
        beq_iff_eq, VmEvent.memory_unref.injEq, reduceCtorEq, if_false, Nat.zero_add,
        Nat.add_zero]
      omega

theorem VmaSys.set_inv (s : VmaSys) (i : Nat) (vma : nvkm_vma) (h1 : Heap) (vma1 : nvkm_vma)
    (hget : s.vmas.get? i = some vma) (hb : mem_balance s.heap vma h1 vma1)
    (hinv : ∀ m, s.refs m = s.unrefs m + s.bound m) (m : Nat) :
    VmaSys.refs { heap := h1, vmas := s.vmas.set i vma1 } m =
      VmaSys.unrefs { heap := h1, vmas := s.vmas.set i vma1 } m +
        VmaSys.bound { heap := h1, vmas := s.vmas.set i vma1 } m := by
  have hi : i < s.vmas.length := by
    rw [List.get?_eq_getElem?] at hget
    exact (List.getElem?_eq_some_iff.1 hget).1
  have hel : s.vmas[i] = vma := by
    rw [List.get?_eq_getElem?] at hget
    exact (List.getElem?_eq_some_iff.1 hget).2
  have hi2 : i < (s.vmas.map nvkm_vma.memory).length := by
    rw [List.length_map]
    exact hi
  have hel2 : (s.vmas.map nvkm_vma.memory)[i] = vma.memory := by
    rw [List.getElem_map, hel]
  have hpos : vma.memory = some m → 0 < (s.vmas.map nvkm_vma.memory).count (some m) := by
    intro hm
    rw [List.count_pos_iff, ← hm, ← hel2]
    exact List.getElem_mem _
  have hbm := hb m
  have him := hinv m
  unfold VmaSys.refs VmaSys.unrefs VmaSys.bound at *
  simp only [List.map_set]
  rw [List.count_set _ _ _ _ hi2, hel2]
  simp only [beq_iff_eq]
  by_cases hm : vma.memory = some m
  · have := hpos hm
    rw [if_pos hm] at hbm ⊢
    omega
  · rw [if_neg hm] at hbm ⊢
    omega

theorem VmaSys.step_balance (s : VmaSys) (op : VmaOp)
    (hinv : ∀ m, s.refs m = s.unrefs m + s.bound m)
    (hok : ∀ i vm size page_shift access ptes_ret,
      op = VmaOp.get i vm size page_shift access ptes_ret →
      ∀ vma, s.vmas.get? i = some vma → vma.memory = none) :
    ∀ m, (s.step op).refs m = (s.step op).unrefs m + (s.step op).bound m := by
  intro m
  cases op with
  | get i vm size page_shift access ptes_ret =>
    simp only [VmaSys.step]
    rcases hg : s.vmas.get? i with _ | vma
    · exact hinv m
    · exact VmaSys.set_inv s i vma _ _ hg
        (mem_balance_get s.heap vm size page_shift access vma ptes_ret
          (hok i vm size page_shift access ptes_ret rfl vma hg)) hinv m
  | map i node env =>
    simp only [VmaSys.step]
    rcases hg : s.vmas.get? i with _ | vma
    · exact hinv m
    · exact VmaSys.set_inv s i vma _ _ hg (mem_balance_map s.heap vma node env) hinv m
  | unmap i =>
    simp only [VmaSys.step]
    rcases hg : s.vmas.get? i with _ | vma
    · exact hinv m
    · exact VmaSys.set_inv s i vma _ _ hg (mem_balance_unmap s.heap vma) hinv m
  | put i =>
    simp only [VmaSys.step]
    rcases hg : s.vmas.get? i with _ | vma
    · exact hinv m
    · exact VmaSys.set_inv s i vma _ _ hg (mem_balance_put s.heap vma) hinv m

theorem VmaSys.run_balance (ops : List VmaOp) :
    ∀ s : VmaSys, (∀ m, s.refs m = s.unrefs m + s.bound m) → VmaSys.ops_ok s ops →
      ∀ m, (s.run ops).refs m = (s.run ops).unrefs m + (s.run ops).bound m := by
  induction ops with
  | nil => intro s h _; exact h
  | cons op ops ih =>
    intro s h hok
    exact ih (s.step op) (VmaSys.step_balance s op h hok.1) hok.2

theorem nvkm_vm_unmap_spec (h : Heap) (vma : nvkm_vma) (vm : Nat) (n : nvkm_mm_node)
    (hv : vma.vm = some vm) (hn : vma.node = some n) :
    (nvkm_vm_unmap h vma).1.log = h.log ++
      (if (h.vm vm).has_unmap = true then
        [VmEvent.ptes_unmap vm n.type ((n.offset <<< 12) % 2 ^ 32) ((n.length <<< 12) % 2 ^ 32)]
       else []) ++
      [VmEvent.tags_put vma.memory vma.tags, VmEvent.memory_unref vma.memory] ∧
    (nvkm_vm_unmap h vma).1.vm = h.vm ∧
    (nvkm_vm_unmap h vma).2 = { vma with tags := none, memory := none } := by
  have e : ((n.offset <<< 12) % 2 ^ 32 + 0) % 2 ^ 64 = (n.offset <<< 12) % 2 ^ 32 := by
    rw [Nat.add_zero]
    exact Nat.mod_eq_of_lt (lt_of_lt_of_le (Nat.mod_lt _ (by decide)) (by decide))
  unfold nvkm_vm_unmap nvkm_vm_unmap_at
  simp only [hv, hn, e]
  by_cases hb : (h.vm vm).has_unmap = true
  · rw [if_pos hb, if_pos hb]
    exact ⟨rfl, rfl, trivial⟩
  · rw [if_neg hb, if_neg hb]
    exact ⟨by simp, rfl, trivial⟩

/-- C14, as stated, fails: a VMA is reserved, mapped to the memory object 5
and then handed to `nvkm_vm_get` again, which sets its `memory` field to
null without releasing the reference. One reference on the object has been
taken and none released, while no VMA points at it. -/
theorem vma_memory_refs_counterexample :
    (∀ m, ex_vmasys.refs m = ex_vmasys.unrefs m + ex_vmasys.bound m) ∧
    (ex_vmasys.run ex_vma_ops).refs 5 = 1 ∧ (ex_vmasys.run ex_vma_ops).unrefs 5 = 0 ∧
    (ex_vmasys.run ex_vma_ops).bound 5 = 0 := by
  refine ⟨?_, by decide, by decide, by decide⟩
  intro m
  simp [VmaSys.refs, VmaSys.unrefs, VmaSys.bound, ex_vmasys, ex_heap, ex_vma]

/-- C14, amended: let every memory object have as many references taken
through these calls as released plus the number of VMAs whose `memory`
field points at it. After every finite sequence of `nvkm_vm_get`,
`nvkm_vm_map`, `nvkm_vm_unmap` and `nvkm_vm_put` in which `nvkm_vm_get` is
applied only to VMAs whose `memory` field is null, this still holds. A map
that the `valid` hook accepts releases the tags and the reference of the
object bound before, takes a reference on the mapped object and stores the
tags the hook produced; unmap and put release the tags and the reference of
the bound object and leave both fields null. -/
theorem vma_memory_refs (s : VmaSys) (ops : List VmaOp)
    (h0 : ∀ m, s.refs m = s.unrefs m + s.bound m) (hops : VmaSys.ops_ok s ops) :
    (∀ m, (s.run ops).refs m = (s.run ops).unrefs m + (s.run ops).bound m) ∧
    (∀ (h : Heap) (vma : nvkm_vma) (node : nvkm_mem) (env : MapEnv) (vm : Nat)
        (n : nvkm_mm_node) (tags : Option Nat),
      vma.vm = some vm → vma.node = some n → (h.vm vm).has_unmap = true →
      env.valid = some (0, tags) →
      (nvkm_vm_map h vma node env).2 = { vma with memory := node.memory, tags := tags } ∧
      ∃ L, (nvkm_vm_map h vma node env).1.log = h.log ++ L ++
        [VmEvent.tags_put vma.memory vma.tags, VmEvent.memory_unref vma.memory,
         VmEvent.memory_ref node.memory]) ∧
    (∀ (h : Heap) (vma : nvkm_vma) (vm : Nat) (n : nvkm_mm_node),
      vma.vm = some vm → vma.node = some n →
      (nvkm_vm_unmap h vma).2.memory = none ∧ (nvkm_vm_unmap h vma).2.tags = none ∧
      ∃ L, (nvkm_vm_unmap h vma).1.log = h.log ++ L ++
        [VmEvent.tags_put vma.memory vma.tags, VmEvent.memory_unref vma.memory]) ∧
    (∀ (h : Heap) (vma : nvkm_vma) (vm : Nat) (n : nvkm_mm_node),
      vma.vm = some vm → vma.node = some n →
      (nvkm_vm_put h vma).2.memory = none ∧ (nvkm_vm_put h vma).2.tags = none ∧
      ∃ L, (nvkm_vm_put h vma).1.log = h.log ++
        [VmEvent.tags_put vma.memory vma.tags, VmEvent.memory_unref vma.memory] ++ L) := by
  refine ⟨VmaSys.run_balance ops s h0 hops, ?_, ?_, ?_⟩
  · intro h vma node env vm n tags hv hn hu hval
    have key : ∀ fn src,
        (nvkm_vm_map_ h n.type vma 0 node fn src env).2 =
          { vma with memory := node.memory, tags := tags } ∧
        ∃ L, (nvkm_vm_map_ h n.type vma 0 node fn src env).1.log = h.log ++ L ++
          [VmEvent.tags_put vma.memory vma.tags, VmEvent.memory_unref vma.memory,
           VmEvent.memory_ref node.memory] := by
      intro fn src
      rw [nvkm_vm_map__accept h n.type vma 0 node fn src env vm n tags hv hn hval]
      refine ⟨rfl, [VmEvent.valid vm (nvkm_vm_map_args env.card vma.access node.memtype
        env.target), VmEvent.ptes_map vm n.type (((n.offset <<< 12) % 2 ^ 64 + 0) % 2 ^ 64)
          ((n.length <<< 12) % 2 ^ 64) fn src], ?_⟩
      simp
    rw [nvkm_vm_map_cases h vma node env vm n hv hn, if_pos hu]
    exact key _ _
  · intro h vma vm n hv hn
    obtain ⟨hl, _, hr⟩ := nvkm_vm_unmap_spec h vma vm n hv hn
    rw [hl, hr]
    exact ⟨rfl, rfl, (if (h.vm vm).has_unmap = true then
        [VmEvent.ptes_unmap vm n.type ((n.offset <<< 12) % 2 ^ 32) ((n.length <<< 12) % 2 ^ 32)]
       else []), rfl⟩
  · intro h vma vm n hv hn
    obtain ⟨hl, hr⟩ := nvkm_vm_put_log h vma n vm hn hv
    rw [hl, hr]
    refine ⟨rfl, rfl, (if (h.vm vm).has_unmap = true then
        [VmEvent.ptes_put vm n.type ((n.offset <<< 12) % 2 ^ 32) ((n.length <<< 12) % 2 ^ 32)]
       else []) ++ VmEvent.kref_put vm ::
        (if (h.vm vm).refcount = 1 then [VmEvent.del vm] else []), ?_⟩
    simp only [List.append_assoc]

theorem vma_memory_refs_witness :
    (∀ m, ex_vmasys.refs m = ex_vmasys.unrefs m + ex_vmasys.bound m) ∧
    VmaSys.ops_ok ex_vmasys ex_vma_ops_ok ∧
    (ex_vmasys.run ex_vma_ops_ok).refs 5 =
      (ex_vmasys.run ex_vma_ops_ok).unrefs 5 + (ex_vmasys.run ex_vma_ops_ok).bound 5 ∧
    (ex_vmasys.run ex_vma_ops_ok).refs 5 = 1 ∧ (ex_vmasys.run ex_vma_ops_ok).bound 5 = 0 :=
  have h0 : ∀ m, ex_vmasys.refs m = ex_vmasys.unrefs m + ex_vmasys.bound m := by
    intro m
    simp [VmaSys.refs, VmaSys.unrefs, VmaSys.bound, ex_vmasys, ex_heap, ex_vma]
  have hops : VmaSys.ops_ok ex_vmasys ex_vma_ops_ok := by
    refine ⟨?_, ?_, ?_, ?_, trivial⟩
    · intro i vm size page_shift access ptes_ret he vma hv
      cases he
      cases hv
      rfl
    · intro i vm size page_shift access ptes_ret he
      cases he
    · intro i vm size page_shift access ptes_ret he
      cases he
    · intro i vm size page_shift access ptes_ret he
      cases he
  ⟨h0, hops, (vma_memory_refs ex_vmasys ex_vma_ops_ok h0 hops).1 5, by decide, by decide⟩

/-! ## C18: what `nvkm_vm_get` asks of the allocator -/

theorem mm_align_up_dvd (s a : Nat) (ha : 0 < a) : a ∣ mm_align_up s a := by
  unfold mm_align_up
  rw [if_neg (by omega)]
  exact Nat.dvd_mul_left _ _

theorem mm_first_fit_node (t M a : Nat) :
    ∀ (L : List (Nat × Nat)) (node : nvkm_mm_node) (L1 : List (Nat × Nat)),
      mm_first_fit t M M a L = some (node, L1) →
      node.type = t ∧ node.length = M ∧ (0 < a → a ∣ node.offset) ∧
      ∃ x ∈ L, x.1 ≤ node.offset ∧ node.offset + node.length ≤ x.1 + x.2 := by
  intro L
  induction L with
  | nil => intro node L1 h; simp [mm_first_fit] at h
  | cons x rest ih =>
    intro node L1 h
    unfold mm_first_fit at h
    split at h
    · rename_i hfit
      simp only [Option.some.injEq, Prod.mk.injEq] at h
      obtain ⟨hn, _⟩ := h
      subst hn
      have hge := mm_align_up_ge x.1 a
      refine ⟨rfl, ?_, fun ha => mm_align_up_dvd _ _ ha, x, List.mem_cons_self _ _, hge, ?_⟩
      · simp only
        omega
      · simp only
        omega
    · split at h
      · cases h
      · rename_i n r hr
        simp only [Option.some.injEq, Prod.mk.injEq] at h
        obtain ⟨hn, _⟩ := h
        subst hn
        obtain ⟨h1, h2, h3, y, hy, h4⟩ := ih n r hr
        exact ⟨h1, h2, h3, y, List.mem_cons_of_mem _ hy, h4⟩

theorem nvkm_mm_head_node (mm : nvkm_mm) (heap t M a : Nat) (node : nvkm_mm_node)
    (mm1 : nvkm_mm) (h : nvkm_mm_head mm heap t M M a = Except.ok (node, mm1)) :
    node.type = t ∧ node.length = M ∧ (0 < a → a ∣ node.offset) ∧
    ∃ x ∈ mm.free, x.1 ≤ node.offset ∧ node.offset + node.length ≤ x.1 + x.2 := by
  unfold nvkm_mm_head at h
  split at h
  · cases h
  · rename_i n f hf
    simp only [Except.ok.injEq, Prod.mk.injEq] at h
    rw [← h.1]
    exact mm_first_fit_node t M a mm.free n f hf

theorem vm_get_msize (size : Nat) (h : size < 2 ^ 44) : (size >>> 12) % 2 ^ 32 = size / 4096 := by
  rw [Nat.shiftRight_eq_div_pow]
  apply Nat.mod_eq_of_lt
  have : size / 2 ^ 12 < 2 ^ 32 := by
    rw [Nat.div_lt_iff_lt_mul (by decide)]
    exact h
  exact this

theorem vm_get_align (page_shift : Nat) (h : page_shift ≤ 30) :
    ((1 <<< page_shift) % 2 ^ 32) >>> 12 = 2 ^ page_shift / 4096 := by
  rw [Nat.one_shiftLeft, Nat.shiftRight_eq_div_pow,
    Nat.mod_eq_of_lt (Nat.pow_lt_pow_right (by decide) (by omega))]

/-- C18, as stated, fails: for `size = 2 ^ 44`, a multiple of the page size
`1 << 12`, `nvkm_vm_get` succeeds with a node of 0 units, while
`size / 4096` is `2 ^ 32`: `u32 msize = size >> 12` keeps the low 32 bits. -/
theorem nvkm_vm_get_units_counterexample :
    2 ^ 44 % 2 ^ 12 = 0 ∧ (nvkm_vm_get ex_heap 1 (2 ^ 44) 12 3 ex_vma 0).1 = 0 ∧
    (nvkm_vm_get ex_heap 1 (2 ^ 44) 12 3 ex_vma 0).2.2.node =
      some { type := 12, offset := 0, length := 0 } ∧
    2 ^ 44 / 4096 = 2 ^ 32 := by
  decide

/-- C18, amended: for `12 <= page_shift <= 30` and every `size` below
`2 ^ 44` that is a multiple of `1 << page_shift`, on a VM whose free ranges
lie below unit `2 ^ 32`, a successful `nvkm_vm_get` asks the allocator for
`size / 4096` units (minimum and maximum), aligned to
`(1 << page_shift) / 4096` units, with type `page_shift`; the node covers
exactly `size` bytes; the VMA has `offset = node.offset * 4096`, the access
mask asked for, null `memory` and `tags`, and points at the VM, whose
reference count has gone up by one. -/
theorem nvkm_vm_get_units (h : Heap) (vm size page_shift access : Nat) (vma : nvkm_vma)
    (ptes_ret : Int) (hps : 12 ≤ page_shift) (hps2 : page_shift ≤ 30) (hsz : size < 2 ^ 44)
    (hmul : 2 ^ page_shift ∣ size)
    (hu32 : ∀ x ∈ (h.vm vm).mm.free, x.1 + x.2 ≤ 2 ^ 32)
    (hok : (nvkm_vm_get h vm size page_shift access vma ptes_ret).1 = 0) :
    ∃ node mm1,
      nvkm_mm_head (h.vm vm).mm 0 page_shift (size / 4096) (size / 4096)
        (2 ^ page_shift / 4096) = Except.ok (node, mm1) ∧
      node.type = page_shift ∧ node.length = size / 4096 ∧ node.length * 4096 = size ∧
      (2 ^ page_shift / 4096) ∣ node.offset ∧
      (nvkm_vm_get h vm size page_shift access vma ptes_ret).2.2 =
        { node := some node, vm := some vm, offset := node.offset * 4096, access := access,
          memory := none, tags := none } ∧
      ((nvkm_vm_get h vm size page_shift access vma ptes_ret).2.1.vm vm).refcount =
        (h.vm vm).refcount + 1 ∧
      ((nvkm_vm_get h vm size page_shift access vma ptes_ret).2.1.vm vm).mm = mm1 := by
  have e1 := vm_get_msize size hsz
  have e2 := vm_get_align page_shift hps2
  cases hh : nvkm_mm_head (h.vm vm).mm 0 page_shift ((size >>> 12) % 2 ^ 32)
      ((size >>> 12) % 2 ^ 32) (((1 <<< page_shift) % 2 ^ 32) >>> 12) with
  | error e =>
    rw [nvkm_vm_get_error h vm size page_shift access vma ptes_ret e hh] at hok
    exact absurd hok (nvkm_mm_head_error _ _ _ _ _ _ e hh)
  | ok r =>
    obtain ⟨node, mm1⟩ := r
    have hc := nvkm_vm_get_code h vm size page_shift access vma ptes_ret node mm1 hh
    have hu : (h.vm vm).has_unmap = true → ptes_ret = 0 := by
      intro hb
      by_contra hne
      rw [if_pos ⟨hb, hne⟩] at hc
      exact hne (hc ▸ hok)
    obtain ⟨_, hg1, hg2⟩ :=
      nvkm_vm_get_ok h vm size page_shift access vma ptes_ret node mm1 hh hu
    obtain ⟨ht, hlen, hal, x, hx, hx1, hx2⟩ := nvkm_mm_head_node _ _ _ _ _ node mm1 hh
    rw [e1] at hlen
    rw [e1, e2] at hh
    rw [e2] at hal
    have h4096 : 4096 ∣ size :=
      Nat.dvd_trans (Nat.pow_dvd_pow 2 hps) hmul
    have hpos : 0 < 2 ^ page_shift / 4096 :=
      Nat.div_pos (Nat.pow_le_pow_right (Nat.zero_lt_two) hps : 2 ^ 12 ≤ 2 ^ page_shift)
        (by decide)
    have hoff : (node.offset <<< 12) % 2 ^ 64 = node.offset * 4096 := by
      rw [Nat.shiftLeft_eq]
      apply Nat.mod_eq_of_lt
      have := hu32 x hx
      omega
    refine ⟨node, mm1, hh, ht, hlen, ?_, hal hpos, ?_, ?_, ?_⟩
    · rw [hlen]
      exact Nat.div_mul_cancel h4096
    · rw [hg2, hoff]
    · rw [hg1, Heap.set_vm_same]
    · rw [hg1, Heap.set_vm_same]

theorem nvkm_vm_get_units_witness :
    (12 ≤ 12) ∧ (12 ≤ 30) ∧ 8192 < 2 ^ 44 ∧ 2 ^ 12 ∣ 8192 ∧
    (∀ x ∈ (ex_heap.vm 1).mm.free, x.1 + x.2 ≤ 2 ^ 32) ∧
    (nvkm_vm_get ex_heap 1 8192 12 3 ex_vma 0).1 = 0 ∧
    ∃ node mm1,
      nvkm_mm_head (ex_heap.vm 1).mm 0 12 (8192 / 4096) (8192 / 4096) (2 ^ 12 / 4096) =
        Except.ok (node, mm1) ∧
      node.type = 12 ∧ node.length = 8192 / 4096 ∧ node.length * 4096 = 8192 ∧
      (2 ^ 12 / 4096) ∣ node.offset ∧
      (nvkm_vm_get ex_heap 1 8192 12 3 ex_vma 0).2.2 =
        { node := some node, vm := some 1, offset := node.offset * 4096, access := 3,
          memory := none, tags := none } ∧
      ((nvkm_vm_get ex_heap 1 8192 12 3 ex_vma 0).2.1.vm 1).refcount =
        (ex_heap.vm 1).refcount + 1 ∧
      ((nvkm_vm_get ex_heap 1 8192 12 3 ex_vma 0).2.1.vm 1).mm = mm1 :=
  ⟨by decide, by decide, by decide, by decide, by decide, by decide,
    nvkm_vm_get_units ex_heap 1 8192 12 3 ex_vma 0 (by decide) (by decide) (by decide)
      (by decide) (by decide) (by decide)⟩

/-! ## C19: `nvkm_vm_new` -/

theorem nvkm_vm_ref_drop (h : Heap) (pvm : Option Nat) :
    (nvkm_vm_ref h none pvm none 0).2.2 = none ∧
    (∀ v, pvm = some v →
      ((nvkm_vm_ref h none pvm none 0).2.1.vm v).refcount = (h.vm v).refcount - 1 ∧
      (nvkm_vm_ref h none pvm none 0).2.1.log = h.log ++ VmEvent.kref_put v ::
        (if (h.vm v).refcount = 1 then [VmEvent.del v] else [])) ∧
    (pvm = none → (nvkm_vm_ref h none pvm none 0).2.1 = h) := by
  have hj : ∀ r i, (none : Option Nat) = some r → (none : Option Nat) = some i →
      (h.vm r).has_join = true → (0 : Int) = 0 := by
    intro r i hr
    cases hr
  rw [nvkm_vm_ref_ok h none pvm none 0 hj]
  refine ⟨rfl, ?_, ?_⟩
  · intro v hv
    subst hv
    simp only [nvkm_vm_ref_get, nvkm_vm_ref_put]
    refine ⟨?_, kref_put_log h v⟩
    rw [kref_put_refcount, if_pos rfl]
  · intro hn
    subst hn
    rfl

/-- C19, as stated, fails in its last part. With `offset = 0`,
`length = 8192` and `mm_offset = 1`, `nvkm_vm_new` succeeds and the
allocator covers unit 0 only, while `[mm_offset >> 12, (offset + length) >>
12)` is `[0, 2)`: the length handed to `nvkm_mm_init` is
`(offset + length - mm_offset) >> 12`. With `offset = 0`,
`length = 2 ^ 44 + 8192` and `mm_offset = 0` the allocator covers the units
`[0, 2)`, while `(offset + length) >> 12` is `2 ^ 32 + 2`: the count of units
is cut to 32 bits. -/
theorem nvkm_vm_new_counterexample :
    (nvkm_vm_new ex_heap 0 8192 1 (some (0, some 1)) 0 0).1 = 0 ∧
    ((nvkm_vm_new ex_heap 0 8192 1 (some (0, some 1)) 0 0).2.1.vm 1).mm.free = [(0, 1)] ∧
    1 >>> 12 = 0 ∧ (0 + 8192) >>> 12 = 2 ∧
    (nvkm_vm_new ex_heap 0 (2 ^ 44 + 8192) 0 (some (0, some 1)) 0 0).1 = 0 ∧
    ((nvkm_vm_new ex_heap 0 (2 ^ 44 + 8192) 0 (some (0, some 1)) 0 0).2.1.vm 1).mm.free =
      [(0, 2)] ∧
    (0 + (2 ^ 44 + 8192)) >>> 12 = 2 ^ 32 + 2 := by
  decide

/-- C19, amended: whenever `nvkm_vm_new` returns a non-zero code, `*pvm` is
null. Without a VMM constructor the code is `-EINVAL` and nothing else
happens. When the constructor fails, its code is returned after
`nvkm_vm_ref(NULL, pvm, NULL)` has dropped the reference to the VM it left
in `*pvm`, if any: `kref_put` is called on it, which tears the VM down
exactly when its count was 1, and a count that was not 0 is lower by one.
When `nvkm_mm_init` fails, its code is returned after the reference to the
VM, whose count `kref_init` had set to 1, has been dropped and the VM torn
down. On success the code is 0 and `*pvm` is the VM, with reference count 1
and an allocator that covers `(offset + length - mm_offset) >> 12` units
from unit `mm_offset >> 12`, each count cut to 32 bits; when
`mm_offset <= offset + length < 2 ^ 44` nothing is cut, and when `mm_offset`
is moreover a multiple of 4096 these are the units
`[mm_offset >> 12, (offset + length) >> 12)`. -/
theorem nvkm_vm_new_spec (h : Heap) (offset length mm_offset : Nat)
    (ctor : Option (Int × Option Nat)) (page_block : Nat) (init_ret : Int) :
    ((nvkm_vm_new h offset length mm_offset ctor page_block init_ret).1 ≠ 0 →
      (nvkm_vm_new h offset length mm_offset ctor page_block init_ret).2.2 = none) ∧
    (ctor = none →
      nvkm_vm_new h offset length mm_offset ctor page_block init_ret = (-EINVAL, h, none)) ∧
    (∀ ret pvm, ctor = some (ret, pvm) → ret ≠ 0 →
      (nvkm_vm_new h offset length mm_offset ctor page_block init_ret).1 = ret ∧
      (pvm = none →
        (nvkm_vm_new h offset length mm_offset ctor page_block init_ret).2.1 = h) ∧
      (∀ v, pvm = some v →
        (0 < (h.vm v).refcount →
          ((nvkm_vm_new h offset length mm_offset ctor page_block init_ret).2.1.vm v).refcount
            = (h.vm v).refcount - 1) ∧
        (nvkm_vm_new h offset length mm_offset ctor page_block init_ret).2.1.log =
          h.log ++ VmEvent.kref_put v ::
            (if (h.vm v).refcount = 1 then [VmEvent.del v] else []))) ∧
    (∀ vm, ctor = some (0, some vm) → init_ret ≠ 0 →
      (nvkm_vm_new h offset length mm_offset ctor page_block init_ret).1 = init_ret ∧
      ((nvkm_vm_new h offset length mm_offset ctor page_block init_ret).2.1.vm vm).refcount
        = 0 ∧
      (nvkm_vm_new h offset length mm_offset ctor page_block init_ret).2.1.log =
        h.log ++ [VmEvent.kref_put vm, VmEvent.del vm]) ∧
    (∀ vm, ctor = some (0, some vm) → init_ret = 0 →
      (nvkm_vm_new h offset length mm_offset ctor page_block init_ret).1 = 0 ∧
      (nvkm_vm_new h offset length mm_offset ctor page_block init_ret).2.2 = some vm ∧
      ((nvkm_vm_new h offset length mm_offset ctor page_block init_ret).2.1.vm vm).refcount
        = 1 ∧
      (nvkm_vm_new h offset length mm_offset ctor page_block init_ret).2.1.log = h.log ∧
      ((nvkm_vm_new h offset length mm_offset ctor page_block init_ret).2.1.vm vm).mm =
        nvkm_mm_init ((mm_offset / 4096) % 2 ^ 32)
          (((((offset + length) % 2 ^ 64 + 2 ^ 64 - mm_offset) % 2 ^ 64) / 4096) % 2 ^ 32) ∧
      (mm_offset ≤ offset + length → offset + length < 2 ^ 44 →
        ((nvkm_vm_new h offset length mm_offset ctor page_block init_ret).2.1.vm vm).mm =
          nvkm_mm_init (mm_offset / 4096) ((offset + length - mm_offset) / 4096) ∧
        (4096 ∣ mm_offset →
          ((nvkm_vm_new h offset length mm_offset ctor page_block init_ret).2.1.vm vm).mm.free
            = if mm_offset / 4096 < (offset + length) / 4096 then
                [(mm_offset / 4096, (offset + length) / 4096 - mm_offset / 4096)]
              else []))) := by
  have hfail : ∀ ret pvm, ret ≠ 0 →
      nvkm_vm_new h offset length mm_offset (some (ret, pvm)) page_block init_ret =
        (ret, (nvkm_vm_ref h none pvm none 0).2.1, (nvkm_vm_ref h none pvm none 0).2.2) := by
    intro ret pvm hr
    unfold nvkm_vm_new
    simp only
    rw [if_pos hr]
  have hinit : ∀ vm, init_ret ≠ 0 →
      nvkm_vm_new h offset length mm_offset (some (0, some vm)) page_block init_ret =
        (init_ret,
          (nvkm_vm_ref (h.set vm { h.vm vm with refcount := 1 }) none (some vm) none 0).2.1,
          (nvkm_vm_ref (h.set vm { h.vm vm with refcount := 1 }) none (some vm) none 0).2.2)
        := by
    intro vm hr
    simp [nvkm_vm_new, nvkm_vm_legacy, nvkm_mm_units, hr]
  have hok : ∀ vm, init_ret = 0 →
      nvkm_vm_new h offset length mm_offset (some (0, some vm)) page_block init_ret =
        (0, (h.set vm { h.vm vm with refcount := 1 }).set vm
          { (h.set vm { h.vm vm with refcount := 1 }).vm vm with
            mm := nvkm_mm_init ((mm_offset >>> 12) % 2 ^ 32)
              (((((offset + length) % 2 ^ 64 + 2 ^ 64 - mm_offset) % 2 ^ 64) >>> 12)
                % 2 ^ 32) },
          some vm) := by
    intro vm hr
    simp [nvkm_vm_new, nvkm_vm_legacy, nvkm_mm_units, hr]
  refine ⟨?_, ?_, ?_, ?_, ?_⟩
  · intro hne
    rcases ctor with _ | ⟨ret, pvm⟩
    · rfl
    · by_cases hr : ret = 0
      · subst hr
        rcases pvm with _ | vm
        · rfl
        · by_cases hi : init_ret = 0
          · rw [hok vm hi] at hne
            exact absurd rfl hne
          · rw [hinit vm hi]
            exact (nvkm_vm_ref_drop (h.set vm { h.vm vm with refcount := 1 }) (some vm)).1
      · rw [hfail ret pvm hr]
        exact (nvkm_vm_ref_drop h pvm).1
  · intro hc
    rw [hc]
    rfl
  · intro ret pvm hc hr
    rw [hc, hfail ret pvm hr]
    refine ⟨rfl, (nvkm_vm_ref_drop h pvm).2.2, fun v hv => ?_⟩
    exact ⟨fun _ => ((nvkm_vm_ref_drop h pvm).2.1 v hv).1, ((nvkm_vm_ref_drop h pvm).2.1 v hv).2⟩
  · intro vm hc hi
    rw [hc, hinit vm hi]
    obtain ⟨h1, h2⟩ := (nvkm_vm_ref_drop (h.set vm { h.vm vm with refcount := 1 })
      (some vm)).2.1 vm rfl
    refine ⟨rfl, ?_, ?_⟩
    · rw [h1, Heap.set_vm_same]
      rfl
    · rw [h2, Heap.set_vm_same]
      simp
  · intro vm hc hi
    rw [hc, hok vm hi]
    have hmm0 : (((h.set vm { h.vm vm with refcount := 1 }).set vm
        { (h.set vm { h.vm vm with refcount := 1 }).vm vm with
          mm := nvkm_mm_init ((mm_offset >>> 12) % 2 ^ 32)
            (((((offset + length) % 2 ^ 64 + 2 ^ 64 - mm_offset) % 2 ^ 64) >>> 12)
              % 2 ^ 32) }).vm vm).mm =
        nvkm_mm_init ((mm_offset / 4096) % 2 ^ 32)
          (((((offset + length) % 2 ^ 64 + 2 ^ 64 - mm_offset) % 2 ^ 64) / 4096) % 2 ^ 32) := by
      rw [Heap.set_vm_same, Nat.shiftRight_eq_div_pow, Nat.shiftRight_eq_div_pow]
    refine ⟨rfl, rfl, ?_, rfl, hmm0, ?_⟩
    · rw [Heap.set_vm_same, Heap.set_vm_same]
    · intro hle hlt
      have hlt64 : offset + length < 2 ^ 64 :=
        lt_of_lt_of_le hlt (Nat.pow_le_pow_right (by decide) (by decide))
      have e1 : ((offset + length) % 2 ^ 64 + 2 ^ 64 - mm_offset) % 2 ^ 64 =
          offset + length - mm_offset := by
        rw [Nat.mod_eq_of_lt hlt64]
        have : offset + length + 2 ^ 64 - mm_offset = (offset + length - mm_offset) + 2 ^ 64 := by
          omega
        rw [this, Nat.add_mod_right]
        exact Nat.mod_eq_of_lt (by omega)
      have h44 : (2 : Nat) ^ 44 = 17592186044416 := by decide
      have h32 : (2 : Nat) ^ 32 = 4294967296 := by decide
      have e2 : (mm_offset / 4096) % 2 ^ 32 = mm_offset / 4096 :=
        Nat.mod_eq_of_lt (by omega)
      have e3 : ((offset + length - mm_offset) / 4096) % 2 ^ 32 =
          (offset + length - mm_offset) / 4096 :=
        Nat.mod_eq_of_lt (by omega)
      have hmm : (((h.set vm { h.vm vm with refcount := 1 }).set vm
          { (h.set vm { h.vm vm with refcount := 1 }).vm vm with
            mm := nvkm_mm_init ((mm_offset >>> 12) % 2 ^ 32)
              (((((offset + length) % 2 ^ 64 + 2 ^ 64 - mm_offset) % 2 ^ 64) >>> 12)
                % 2 ^ 32) }).vm vm).mm =
          nvkm_mm_init (mm_offset / 4096) ((offset + length - mm_offset) / 4096) := by
        rw [hmm0, e1, e2, e3]
      refine ⟨hmm, ?_⟩
      intro hdvd
      rw [hmm]
      unfold nvkm_mm_init
      simp only
      obtain ⟨q, hq⟩ := hdvd
      have e4 : (offset + length - mm_offset) / 4096 =
          (offset + length) / 4096 - mm_offset / 4096 := by
        omega
      rw [e4]
      by_cases hlt2 : mm_offset / 4096 < (offset + length) / 4096
      · rw [if_neg (by omega), if_pos hlt2]
      · rw [if_pos (by omega), if_neg hlt2]

theorem nvkm_vm_new_spec_witness :
    (nvkm_vm_new ex_heap 0 8192 1 none 0 0).1 ≠ 0 ∧
    (nvkm_vm_new ex_heap 0 8192 1 none 0 0).2.2 = none ∧
    (nvkm_vm_new ex_heap 0x1000 0x8000 0x1000 (some (0, some 1)) 0 0).2.2 = some 1 ∧
    ((nvkm_vm_new ex_heap 0x1000 0x8000 0x1000 (some (0, some 1)) 0 0).2.1.vm 1).mm.free =
      [(1, 8)] ∧
    (nvkm_vm_new ex_heap 0 8192 0 (some (-12, some 1)) 0 0).1 = -12 ∧
    (nvkm_vm_new ex_heap 0 8192 0 (some (-12, some 1)) 0 0).2.2 = none ∧
    (nvkm_vm_new ex_heap 0 8192 0 (some (-12, some 1)) 0 0).2.1.log =
      [VmEvent.kref_put 1, VmEvent.del 1] :=
  ⟨by decide,
    (nvkm_vm_new_spec ex_heap 0 8192 1 none 0 0).1 (by decide),
    ((nvkm_vm_new_spec ex_heap 0x1000 0x8000 0x1000 (some (0, some 1)) 0 0).2.2.2.2 1 rfl
      rfl).2.1,
    (((nvkm_vm_new_spec ex_heap 0x1000 0x8000 0x1000 (some (0, some 1)) 0 0).2.2.2.2 1 rfl
      rfl).2.2.2.2.2 (by decide) (by decide)).2 (by decide),
    ((nvkm_vm_new_spec ex_heap 0 8192 0 (some (-12, some 1)) 0 0).2.2.1 (-12) (some 1) rfl
      (by decide)).1,
    (nvkm_vm_new_spec ex_heap 0 8192 0 (some (-12, some 1)) 0 0).1 (by decide),
    (((nvkm_vm_new_spec ex_heap 0 8192 0 (some (-12, some 1)) 0 0).2.2.1 (-12) (some 1) rfl
      (by decide)).2.2 1 rfl).2⟩

/-! ## C17: teardown of the cache -/

/-- C17: `nvkm_mmu_ptc_dump` keeps the class records, with their address,
size and counter, and leaves every free-list empty; for every block that
was idle it releases the memory and frees the record, once, in the order of
the free-lists, and does nothing else. `nvkm_mmu_ptc_fini` frees every
class record and leaves the class list empty; `WARN_ON` fires once for
every class whose free-list is not empty, so it does not fire at all exactly
when every free-list is empty. After a dump, `nvkm_mmu_ptc_fini` reports
nothing and leaves the class list empty. -/
theorem nvkm_mmu_ptc_dump_fini (mmu : nvkm_mmu) :
    (∀ c ∈ (nvkm_mmu_ptc_dump mmu).ptc_list, c.item = []) ∧
    (nvkm_mmu_ptc_dump mmu).ptc_list.map (fun c => (c.self, c.size, c.refs)) =
      mmu.ptc_list.map (fun c => (c.self, c.size, c.refs)) ∧
    (nvkm_mmu_ptc_dump mmu).effects = mmu.effects ++
      (cached mmu).flatMap (fun pt => [Effect.memory_unref pt.memory, Effect.kfree pt.self]) ∧
    (nvkm_mmu_ptc_dump mmu).ptp_list = mmu.ptp_list ∧
    (nvkm_mmu_ptc_dump mmu).ptp_heap = mmu.ptp_heap ∧
    (nvkm_mmu_ptc_fini mmu).1.ptc_list = [] ∧
    (nvkm_mmu_ptc_fini mmu).1.effects =
      mmu.effects ++ mmu.ptc_list.map (fun c => Effect.kfree c.self) ∧
    (nvkm_mmu_ptc_fini mmu).2 = (mmu.ptc_list.filter (fun c => !c.item.isEmpty)).length ∧
    ((nvkm_mmu_ptc_fini mmu).2 = 0 ↔ ∀ c ∈ mmu.ptc_list, c.item = []) ∧
    (nvkm_mmu_ptc_fini (nvkm_mmu_ptc_dump mmu)).2 = 0 ∧
    (nvkm_mmu_ptc_fini (nvkm_mmu_ptc_dump mmu)).1.ptc_list = [] := by
  have hempty : ∀ c ∈ (nvkm_mmu_ptc_dump mmu).ptc_list, c.item = [] := by
    intro c hc
    simp only [nvkm_mmu_ptc_dump, List.mem_map] at hc
    obtain ⟨c0, _, rfl⟩ := hc
    rfl
  have hiff : ∀ m : nvkm_mmu,
      (nvkm_mmu_ptc_fini m).2 = 0 ↔ ∀ c ∈ m.ptc_list, c.item = [] := by
    intro m
    simp only [nvkm_mmu_ptc_fini, List.length_eq_zero, List.filter_eq_nil_iff,
      Bool.not_eq_true, Bool.not_eq_false', List.isEmpty_iff]
  refine ⟨hempty, ?_, ?_, rfl, rfl, rfl, rfl, rfl, hiff mmu, (hiff _).2 hempty, rfl⟩
  · simp only [nvkm_mmu_ptc_dump, List.map_map]
    rfl
  · simp only [nvkm_mmu_ptc_dump, cached, List.flatMap_assoc]

/-! ## C20: a new pool -/

/-- C22 as stated fails: a VMA of two pages is reserved and put, which
leaves its node null; `nvkm_vm_put` on it again returns the heap and the VMA
as they were, and logs nothing, no warning either. -/
theorem nvkm_vm_put_twice_counterexample :
    ex_get_put.2.node = none ∧
    nvkm_vm_put ex_get_put.1 ex_get_put.2 = ex_get_put ∧
    (nvkm_vm_put ex_get_put.1 ex_get_put.2).1.log = ex_get_put.1.log ∧
    VmEvent.warn_on ∉ (nvkm_vm_put ex_get_put.1 ex_get_put.2).1.log := by
  refine ⟨by decide, rfl, rfl, by decide⟩

/-- C22, amended. `nvkm_vm_put` on a VMA whose node is null, as a previous
put leaves it, returns at once (base.c:437-438): the heap with its event log
and the VMA are unchanged. -/
theorem nvkm_vm_put_null (h : Heap) (vma : nvkm_vma) (hn : vma.node = none) :
    nvkm_vm_put h vma = (h, vma) := by
  unfold nvkm_vm_put
  rw [hn]

theorem nvkm_vm_put_null_witness :
    ex_get_put.2.node = none ∧
    nvkm_vm_put ex_get_put.1 ex_get_put.2 = (ex_get_put.1, ex_get_put.2) :=
  ⟨by decide, nvkm_vm_put_null ex_get_put.1 ex_get_put.2 (by decide)⟩

/-! ## C25: addresses handed to the page-table layer -/

/-- C25 at a failing input: in a VM whose free range starts at unit `2 ^ 20`
(4 GiB), `nvkm_vm_get` reserves two pages at that unit and records
`vma.offset = 0x100000000`, and `nvkm_vm_map_` at delta 0 writes the entries
of `[0x100000000, 0x100002000)`; but `nvkm_vm_get`, `nvkm_vm_unmap_at` and
`nvkm_vm_put` hand the start address 0 to the page-table layer: they shift
the 32-bit offset without the cast to `u64`. -/
theorem nvkm_vm_get_put_high :
    ex_get_high.1 = 0 ∧
    ex_get_high.2.2.node = some { type := 12, offset := 0x100000, length := 2 } ∧
    ex_get_high.2.2.offset = 0x100000 * 4096 ∧
    ex_get_high.2.1.log = [VmEvent.ptes_get 1 12 0 0x2000, VmEvent.kref_get 1] ∧
    (nvkm_vm_map_ ex_get_high.2.1 12 ex_get_high.2.2 0 ex_mem pte_func.mem
        (map_source.mem (some 40)) ex_env).1.log =
      ex_get_high.2.1.log ++
        [VmEvent.valid 1 (some (vmm_map_args.nv50 0 0 0 0 0)),
         VmEvent.ptes_map 1 12 (0x100000 * 4096) (2 * 4096) pte_func.mem
           (map_source.mem (some 40)),
         VmEvent.tags_put none none, VmEvent.memory_unref none,
         VmEvent.memory_ref (some 5)] ∧
    (nvkm_vm_unmap_at ex_get_high.2.1 ex_get_high.2.2 0 0x2000).log =
      ex_get_high.2.1.log ++ [VmEvent.ptes_unmap 1 12 0 0x2000] ∧
    ex_get_put_high.1.log =
      ex_get_high.2.1.log ++
        [VmEvent.tags_put none none, VmEvent.memory_unref none,
         VmEvent.ptes_put 1 12 0 0x2000, VmEvent.kref_put 1] := by
  decide

/-! ## C26: mapping at an offset -/

/-- C26 at a failing input: on a VMA of two pages that covers
`[0x10000, 0x12000)`, `nvkm_vm_map_at(vma, 0x1000, mem)` asks the page-table
layer to write the entries of `0x2000` bytes from `0x11000`, that is of
`[0x11000, 0x13000)`: the range starts at the start of the reservation plus
delta, and its size is that of the whole VMA whatever delta is, so it ends
`0x1000` bytes past the end of the reservation. -/
theorem nvkm_vm_map_at_range :
    (nvkm_vm_map_at ex_heap ex_vma_reserved 0x1000 ex_mem ex_env).1.log =
      [VmEvent.valid 1 (some (vmm_map_args.nv50 0 0 0 0 0)),
       VmEvent.ptes_map 1 12 (16 * 4096 + 0x1000) 0x2000 pte_func.mem (map_source.mem (some 40)),
       VmEvent.tags_put none none, VmEvent.memory_unref none, VmEvent.memory_ref (some 5)] ∧
    (16 + 2) * 4096 < (16 * 4096 + 0x1000) + 0x2000 := by
  decide

/-! ## C28: a failing join hook -/

/-- C28. When `ref` is a VM with a `join` hook, `inst` is set and the hook
fails with `join_ret`, `nvkm_vm_ref(ref, &slot, inst)` returns `join_ret`;
the slot keeps pointing at the VM it held; the record of every VM, so the
reference count of `ref` and of the VM held, is unchanged; and the events of
the call are the one call of the `join` hook: the `part` hook is not
invoked, no count is taken or dropped, and no VM is destroyed. -/
theorem nvkm_vm_ref_join_fails (h : Heap) (r i : Nat) (old : Option Nat) (join_ret : Int)
    (hj : (h.vm r).has_join = true) (hne : join_ret ≠ 0) :
    (nvkm_vm_ref h (some r) old (some i) join_ret).1 = join_ret ∧
    (nvkm_vm_ref h (some r) old (some i) join_ret).2.2 = old ∧
    (nvkm_vm_ref h (some r) old (some i) join_ret).2.1.vm = h.vm ∧
    (nvkm_vm_ref h (some r) old (some i) join_ret).2.1.log = h.log ++ [VmEvent.join r i] ∧
    (∀ v j, VmEvent.part v j ∈ (nvkm_vm_ref h (some r) old (some i) join_ret).2.1.log →
      VmEvent.part v j ∈ h.log) ∧
    (∀ v, VmEvent.del v ∈ (nvkm_vm_ref h (some r) old (some i) join_ret).2.1.log →
      VmEvent.del v ∈ h.log) := by
  have e : nvkm_vm_ref h (some r) old (some i) join_ret =
      (join_ret, h.emit [VmEvent.join r i], old) := by
    unfold nvkm_vm_ref
    simp only [nvkm_vm_ref_get]
    rw [if_pos hj, if_pos hne]
    simp only
    rw [if_pos hne]
  rw [e]
  refine ⟨rfl, rfl, rfl, rfl, fun v j hm => ?_, fun v hm => ?_⟩
  · simpa [Heap.emit] using hm
  · simpa [Heap.emit] using hm

theorem nvkm_vm_ref_join_fails_witness :
    (nvkm_vm_ref ex_heap (some 1) (some 2) (some 7) (-12)).1 = -12 ∧
    (nvkm_vm_ref ex_heap (some 1) (some 2) (some 7) (-12)).2.2 = some 2 ∧
    (nvkm_vm_ref ex_heap (some 1) (some 2) (some 7) (-12)).2.1.log = [VmEvent.join 1 7] :=
  have W := nvkm_vm_ref_join_fails ex_heap 1 7 (some 2) (-12) rfl (by decide)
  ⟨W.1, W.2.1, W.2.2.2.1⟩

/-! ## C21: sub-allocation from the first pool -/

theorem ffs_low (x : Nat) (h0 : x ≠ 0) (hx : x < 2 ^ 64) (i : Nat) (hi : i < __ffs x) :
    x.testBit i = false := by
  obtain ⟨hb, hk⟩ := ffs_spec x h0 hx
  unfold __ffs at hi hb hk
  cases hf : (List.range 64).find? (fun i => x.testBit i) with
  | none =>
    rw [hf] at hi
    exact absurd hi (Nat.not_lt_zero _)
  | some j =>
    rw [hf] at hi
    have := (List.find?_range_eq_some.mp hf).2.2 i hi
    simpa using this

theorem testBit_clear_low (f k i : Nat) (hk : k < 64) (hf : f < 2 ^ 16) :
    ((f &&& ((2 ^ 64 - 1) ^^^ BIT k)) % 2 ^ 16).testBit i =
      (f.testBit i && !decide (i = k)) := by
  rw [testBit_clear f k i hk]
  by_cases h16 : i < 16
  · by_cases hik : i = k
    · subst hik; simp
    · have : ¬ k = i := fun h => hik h.symm
      simp [h16, hik, this]
  · have : f.testBit i = false :=
      Nat.testBit_lt_two_pow (lt_of_lt_of_le hf (Nat.pow_le_pow_right (by decide) (by omega)))
    simp [h16, this]

/-- C21. In a well-formed state whose availability list is `a :: l`, where
`a` is the pool `P`, `nvkm_mmu_ptp_get` succeeds when its block record is
allocated, whatever the size asked for. With `k = __ffs P.free`: bit `k` of
the free mask is set and no lower bit is; the new free mask `F` is the old
one with exactly bit `k` cleared; the block returned is sub-allocated from
`P`, with `base = k << shift`, `addr = parent.addr + base` and the memory of
the parent; the record of `P` changes in its free mask only and no other
pool record changes; the availability list becomes `l` if `F = 0` and stays
`a :: l` otherwise; the classes of the cache are unchanged. -/
theorem nvkm_mmu_ptp_get_first (held : List nvkm_mmu_pt) (mmu : nvkm_mmu) (size : Nat)
    (zero : Bool) (o o2 : Alloc) (a : Nat) (l : List Nat) (P : nvkm_mmu_ptp)
    (hwf : wf held mmu) (hk : o.kmalloc_pt = true) (hl : mmu.ptp_list = a :: l)
    (hat : ptp_at mmu a = some P) :
    P.free.testBit (__ffs P.free) = true ∧
    (∀ i, i < __ffs P.free → P.free.testBit i = false) ∧
    ∃ F pt mmu1, nvkm_mmu_ptp_get mmu size zero o o2 = (some pt, mmu1) ∧
      (∀ i, F.testBit i = (P.free.testBit i && !decide (i = __ffs P.free))) ∧
      pt.sub = true ∧ pt.ptp = a ∧ pt.base = __ffs P.free <<< P.shift ∧
      pt.addr = P.pt.addr + pt.base ∧ pt.memory = P.pt.memory ∧
      (∃ l1 l2, mmu.ptp_heap = l1 ++ P :: l2 ∧
        mmu1.ptp_heap = l1 ++ { P with free := F } :: l2) ∧
      mmu1.ptp_list = (if F = 0 then l else a :: l) ∧
      mmu1.ptc_list = mmu.ptc_list := by
  have hP : P ∈ mmu.ptp_heap := ptp_at_mem mmu a P hat
  have hself : P.self = a := ptp_at_self mmu a P hat
  have hb := hwf.pools.1
  have hf0 : P.free ≠ 0 := (hb.linked P hP).mp (by rw [hself, hl]; exact List.mem_cons_self _ _)
  have hflt : P.free < 2 ^ 16 :=
    free_lt_of_sub P.free P.mask (hb.mask_lt P hP) (hb.free_sub P hP)
  have hf64 : P.free < 2 ^ 64 := lt_trans hflt (by decide)
  obtain ⟨hk1, hk2⟩ := ffs_spec P.free hf0 hf64
  have hnd : (mmu.ptp_heap.map nvkm_mmu_ptp.self).Nodup := hwf.own.pool.1
  have hal : a ∉ l := by
    have := hb.list_nodup
    rw [hl] at this
    exact (List.nodup_cons.mp this).1
  have hll : l.Nodup := by
    have := hb.list_nodup
    rw [hl] at this
    exact (List.nodup_cons.mp this).2
  refine ⟨hk1, ffs_low P.free hf0 hf64, ?_⟩
  rw [ptp_get_existing mmu size zero o o2 a l P hk hl hat, ptp_get_slot_eq]
  refine ⟨(P.free &&& ((2 ^ 64 - 1) ^^^ BIT (__ffs P.free))) % 2 ^ 16, _, _, rfl,
    fun i => testBit_clear_low P.free (__ffs P.free) i hk2 hflt, rfl, hself, rfl, rfl, rfl, ?_, ?_, ?_⟩
  · obtain ⟨l1, l2, h1, h2⟩ := ptp_set_split mmu P
      { P with free := (P.free &&& ((2 ^ 64 - 1) ^^^ BIT (__ffs P.free))) % 2 ^ 16 } hnd hP
    refine ⟨l1, l2, h1, ?_⟩
    split
    · exact h2
    · exact h2
  · have hfl : (a :: l).filter (fun x => x != P.self) = l := by
      rw [hself]
      simp only [List.filter_cons, bne_self_eq_false, Bool.false_eq_true, if_false]
      rw [List.filter_eq_self]
      intro x hx
      have : x ≠ a := fun e => hal (e ▸ hx)
      simpa using this
    split
    · simp only [ptp_set]
      rw [hl, hfl]
    · simp only [ptp_set]
      rw [hl]
  · split <;> rfl

theorem nvkm_mmu_ptp_get_first_witness :
    ∃ pt mmu1, nvkm_mmu_ptp_get
        ((Sys.init 0).run [Op.get 0x100 0x100 false ex_alloc ex_alloc]).mmu 0x800 true ex_alloc
        ex_alloc = (some pt, mmu1) ∧ pt.base = 0x100 ∧ mmu1.ptp_list = [1] :=
  have W := nvkm_mmu_ptp_get_first
    ((Sys.init 0).run [Op.get 0x100 0x100 false ex_alloc ex_alloc]).held
    ((Sys.init 0).run [Op.get 0x100 0x100 false ex_alloc ex_alloc]).mmu 0x800 true ex_alloc
    ex_alloc 1 []
    { self := 1, pt := ex_parent, shift := 8, mask := 0xffff, free := 0xfffe }
    (wf_run [Op.get 0x100 0x100 false ex_alloc ex_alloc] (Sys.init 0) (wf_init 0) rfl)
    rfl (by decide) (by decide)
  by
    obtain ⟨_, _, F, pt, mmu1, h1, hF, _, _, hbase, _, _, _, hlist, _⟩ := W
    refine ⟨pt, mmu1, h1, ?_, ?_⟩
    · rw [hbase]; decide
    · rw [hlist]
      have : F ≠ 0 := by
        intro e
        have := hF 2
        rw [e] at this
        revert this
        decide
      rw [if_neg this]

/-! ## C27: the argument `zero` of `nvkm_mmu_ptp_get` -/

theorem get_cache_quiet (mmu : nvkm_mmu) (size align : Nat) (o : Alloc) :
    ∃ es, (nvkm_mmu_ptc_get_cache mmu size align false o).2.effects = mmu.effects ++ es ∧
      ∀ e ∈ es, (∀ m a b c, e ≠ Effect.fo64 m a b c) ∧ (∀ m al, e ≠ Effect.memory_new m al true) := by
  have hff := (find_frame mmu size o.kmalloc_ptc).2.2.1
  unfold nvkm_mmu_ptc_get_cache
  rcases hf : nvkm_mmu_ptc_find mmu size o.kmalloc_ptc with ⟨_ | c, mmu1⟩
  · rw [hf] at hff
    exact ⟨[], by simpa using hff, by simp⟩
  · rw [hf] at hff
    simp only at hff ⊢
    cases hi : c.item with
    | cons pt0 rest => exact ⟨[], by simpa [ptc_set] using hff, by simp⟩
    | nil =>
      simp only
      unfold nvkm_mmu_ptc_get_new
      cases o.kmalloc_pt with
      | false => exact ⟨[], by simpa using hff, by simp⟩
      | true =>
        cases o.memory_new with
        | none => exact ⟨[Effect.kfree mmu1.brk], by simp [hff], by simp⟩
        | some addr =>
          exact ⟨[Effect.memory_new { handle := mmu1.brk + 1, addr := addr, size := size }
            align false], by simp [hff], by simp⟩

/-- C27. `nvkm_mmu_ptp_get` does not depend on `zero`: the calls with
`zero = true` and `zero = false` return the same block and the same state of
pools and cache. Whatever `zero` is, the events of the call contain no fill
of memory, and no memory object is requested with zero-fill: the parent
block is asked for with `zero = false` and the slot returned is not
written. -/
theorem nvkm_mmu_ptp_get_zero (mmu : nvkm_mmu) (size : Nat) (o o2 : Alloc) :
    nvkm_mmu_ptp_get mmu size true o o2 = nvkm_mmu_ptp_get mmu size false o o2 ∧
    ∀ zero, ∃ es, (nvkm_mmu_ptp_get mmu size zero o o2).2.effects = mmu.effects ++ es ∧
      ∀ e ∈ es, (∀ m a b c, e ≠ Effect.fo64 m a b c) ∧
        (∀ m al, e ≠ Effect.memory_new m al true) := by
  refine ⟨rfl, fun zero => ?_⟩
  cases hk : o.kmalloc_pt with
  | false =>
    unfold nvkm_mmu_ptp_get
    simp only [hk, Bool.not_false, if_true]
    exact ⟨[], by simp, by simp⟩
  | true =>
    rcases hl : mmu.ptp_list with _ | ⟨a, l⟩
    · cases hk2 : o.kmalloc_ptp with
      | false =>
        have e : (nvkm_mmu_ptp_get mmu size zero o o2).2.effects =
            mmu.effects ++ [Effect.kfree mmu.brk] := by
          unfold nvkm_mmu_ptp_get
          simp only [hk, hk2, Bool.not_true, Bool.not_false, Bool.false_eq_true, if_false,
            if_true]
          rw [hl]
        exact ⟨[Effect.kfree mmu.brk], e, by simp⟩
      | true =>
        obtain ⟨es, he, hq⟩ := get_cache_quiet
          { mmu with brk := mmu.brk + 1 + 1 } 0x1000 0x1000 o2
        rcases hg : nvkm_mmu_ptc_get_cache { mmu with brk := mmu.brk + 1 + 1 } 0x1000 0x1000
          false o2 with ⟨_ | parent, mmu1⟩
        · rw [hg] at he
          simp only at he
          have e : (nvkm_mmu_ptp_get mmu size zero o o2).2.effects =
              mmu1.effects ++ [Effect.kfree (mmu.brk + 1), Effect.kfree mmu.brk] := by
            unfold nvkm_mmu_ptp_get
            simp only [hk, hk2, Bool.not_true, Bool.false_eq_true, if_false]
            rw [hl]
            simp only
            rw [← hl, hg]
          refine ⟨es ++ [Effect.kfree (mmu.brk + 1), Effect.kfree mmu.brk], ?_, ?_⟩
          · rw [e, he, List.append_assoc]
          · intro e hm
            rcases List.mem_append.mp hm with h1 | h1
            · exact hq e h1
            · simp only [List.mem_cons, List.mem_singleton, List.not_mem_nil, or_false] at h1
              rcases h1 with h1 | h1 <;> subst h1 <;> simp
        · rw [hg] at he
          simp only at he
          rw [ptp_get_new mmu size zero o o2 parent mmu1 hk hk2 hl hg,
            (ptp_get_slot_frame _ mmu.brk _).2.2.2.1]
          exact ⟨es, he, hq⟩
    · rcases hat : ptp_at mmu a with _ | P
      · have hat' : ptp_at { mmu with brk := mmu.brk + 1 } a = none := hat
        have e : (nvkm_mmu_ptp_get mmu size zero o o2).2.effects = mmu.effects := by
          unfold nvkm_mmu_ptp_get
          simp only [hk, Bool.not_true, Bool.false_eq_true, if_false]
          rw [hl]
          simp only
          rw [← hl, hat']
        exact ⟨[], by simp [e], by simp⟩
      · rw [ptp_get_existing mmu size zero o o2 a l P hk hl hat,
          (ptp_get_slot_frame _ mmu.brk P).2.2.2.1]
        exact ⟨[], by simp, by simp⟩

/-! ## C30: the search for a transfer unit -/

theorem tu_add_spec (tv add : Nat) (h : tv < 2 ^ 32) (h1 : tv % 100000 ≤ add)
    (h2 : add ≤ 100000) (h3 : tv < 4294966667 → tv / 100000 * 100000 + add < 2 ^ 32)
    (vi : Int) (vf va : Nat) (hvf : 1 ≤ vf ∧ vf ≤ 15) (hva : va ≤ 1) :
    TuCand.ok tv
      { VTUi := vi, VTUf := vf, VTUa := va, calc_ := (tv / 100000 * 100000 + add) % 2 ^ 32,
        diff := ((tv / 100000 * 100000 + add) % 2 ^ 32 + 2 ^ 32 - tv) % 2 ^ 32 } := by
  unfold TuCand.ok symbol
  simp only
  refine ⟨hvf.1, hvf.2, hva, ?_, ?_, fun hlt => ?_⟩
  · omega
  · omega
  · have := h3 hlt
    omega

set_option maxHeartbeats 1000000 in
theorem tu_candidate_ok (tv : Nat) (h : tv < 2 ^ 32) : TuCand.ok tv (tu_candidate tv) := by
  have e0 : (tv / 100000 * 100000) % 2 ^ 32 = tv / 100000 * 100000 :=
    Nat.mod_eq_of_lt (by omega)
  have e1 : (tv + 2 ^ 32 - tv / 100000 * 100000) % 2 ^ 32 = tv % 100000 := by omega
  unfold tu_candidate symbol
  simp only [e0, e1]
  by_cases hd0 : tv % 100000 = 0
  · rw [if_neg (not_not.2 hd0)]
    unfold TuCand.ok symbol
    simp only
    omega
  · rw [if_pos hd0]
    by_cases hhalf : 100000 / 2 ≤ tv % 100000
    · rw [if_pos hhalf]
      have hr : (100000 + 2 ^ 32 - tv % 100000) % 2 ^ 32 = 100000 - tv % 100000 := by omega
      rw [hr]
      have hrpos : 0 < 100000 - tv % 100000 := by omega
      have hk2 : 2 ≤ 100000 / (100000 - tv % 100000) :=
        (Nat.le_div_iff_mul_le hrpos).2 (by omega)
      have hkr : 100000 / (100000 - tv % 100000) * (100000 - tv % 100000) ≤ 100000 :=
        Nat.div_mul_le_self _ _
      have hlt : 100000 < (100000 / (100000 - tv % 100000) + 1) * (100000 - tv % 100000) := by
        have := Nat.lt_succ_of_le (le_refl (100000 / (100000 - tv % 100000)))
        exact (Nat.div_lt_iff_lt_mul hrpos).1 this
      generalize 100000 / (100000 - tv % 100000) = k at hk2 hkr hlt ⊢
      have hbig : 15 ≤ k → TuCand.ok tv
          { VTUi := ((tv / 100000 : Nat) : Int), VTUf := 1, VTUa := 0,
            calc_ := (tv / 100000 * 100000 + 100000) % 2 ^ 32,
            diff := ((tv / 100000 * 100000 + 100000) % 2 ^ 32 + 2 ^ 32 - tv) % 2 ^ 32 } := by
        intro hk15
        have h15 : 15 * (100000 - tv % 100000) ≤ 100000 :=
          le_trans (Nat.mul_le_mul_right _ hk15) hkr
        exact tu_add_spec tv 100000 h (by omega) (le_refl _) (by omega) _ 1 0 (by omega)
          (by omega)
      by_cases hc : (100000 + 2 ^ 32 - (k * (tv % 100000)) % 2 ^ 32) % 2 ^ 32 ≠ 0
      · rw [if_pos hc]
        by_cases h15 : k + 1 ≤ 15
        · rw [if_pos h15]
          have hk14 : k ≤ 14 := by omega
          clear hc
          apply tu_add_spec tv (100000 - 100000 / (k + 1)) h _ (Nat.sub_le _ _) _ _ (k + 1) 1
            (by omega) (le_refl _)
          · interval_cases k <;> omega
          · interval_cases k <;> omega
        · rw [if_neg h15]
          exact hbig (by omega)
      · rw [if_neg hc]
        by_cases h15 : k ≤ 15
        · rw [if_pos h15]
          have hkd : k * (tv % 100000) ≤ 15 * 100000 :=
            Nat.mul_le_mul h15 (by omega)
          have hc1 : k * (tv % 100000) = 100000 := by omega
          clear hc
          apply tu_add_spec tv (100000 - 100000 / k) h _ (Nat.sub_le _ _) _ _ k 1
            (by omega) (le_refl _)
          · interval_cases k <;> omega
          · interval_cases k <;> omega
        · rw [if_neg h15]
          exact hbig (by omega)
    · rw [if_neg hhalf]
      have hdpos : 0 < tv % 100000 := Nat.pos_of_ne_zero hd0
      have hm2 : 2 ≤ 100000 / (tv % 100000) := (Nat.le_div_iff_mul_le hdpos).2 (by omega)
      have hmd : 100000 / (tv % 100000) * (tv % 100000) ≤ 100000 := Nat.div_mul_le_self _ _
      have hv2 : 2 ≤ min (100000 / (tv % 100000)) 15 := le_min hm2 (by decide)
      have hv15 : min (100000 / (tv % 100000)) 15 ≤ 15 := min_le_right _ _
      have hvd : min (100000 / (tv % 100000)) 15 * (tv % 100000) ≤ 100000 :=
        le_trans (Nat.mul_le_mul_right _ (min_le_left _ _)) hmd
      generalize min (100000 / (tv % 100000)) 15 = v at hv2 hv15 hvd ⊢
      apply tu_add_spec tv (100000 / v) h _ (Nat.div_le_self _ _) _ _ v 0 (by omega)
        (by omega)
      · interval_cases v <;> omega
      · interval_cases v <;> omega

theorem tu_loop_ok (link_ratio : Nat) (l : List Nat) (b : TuBest)
    (hl : ∀ TU ∈ l, 32 ≤ TU ∧ TU ≤ 64) (hb : b.ok) : (tu_loop link_ratio l b).ok := by
  induction l generalizing b with
  | nil => exact hb
  | cons TU rest ih =>
    have hc := tu_candidate_ok (((link_ratio * TU) % 2 ^ 64) % 2 ^ 32)
      (Nat.mod_lt _ (by decide))
    have hTU := hl TU (List.mem_cons_self _ _)
    have hrest : ∀ T ∈ rest, 32 ≤ T ∧ T ≤ 64 := fun T hT => hl T (List.mem_cons_of_mem _ hT)
    have hb1 : TuBest.ok
        { best_diff := (tu_candidate (((link_ratio * TU) % 2 ^ 64) % 2 ^ 32)).diff,
          bestTU := TU,
          bestVTUi := (tu_candidate (((link_ratio * TU) % 2 ^ 64) % 2 ^ 32)).VTUi,
          bestVTUf := (tu_candidate (((link_ratio * TU) % 2 ^ 64) % 2 ^ 32)).VTUf,
          bestVTUa := (tu_candidate (((link_ratio * TU) % 2 ^ 64) % 2 ^ 32)).VTUa } :=
      ⟨hTU.1, hTU.2, hc.1, hc.2.1, hc.2.2.1, hc.2.2.2.1⟩
    unfold tu_loop
    simp only
    split
    · split
      · exact hb1
      · exact ih _ hrest hb1
    · exact ih _ hrest hb

theorem tu_search_ok (link_ratio : Nat) : (tu_search link_ratio).ok := by
  have hc := tu_candidate_ok (((link_ratio * 64) % 2 ^ 64) % 2 ^ 32) (Nat.mod_lt _ (by decide))
  have hlist : (List.range 33).map (fun i => 64 - i) =
      64 :: (List.range 32).map (fun i => 63 - i) := by decide
  have hrest : ∀ T ∈ (List.range 32).map (fun i => 63 - i), 32 ≤ T ∧ T ≤ 64 := by
    intro T hT
    obtain ⟨i, hi, rfl⟩ := List.mem_map.mp hT
    have := List.mem_range.mp hi
    omega
  have hb1 : TuBest.ok
      { best_diff := (tu_candidate (((link_ratio * 64) % 2 ^ 64) % 2 ^ 32)).diff,
        bestTU := 64,
        bestVTUi := (tu_candidate (((link_ratio * 64) % 2 ^ 64) % 2 ^ 32)).VTUi,
        bestVTUf := (tu_candidate (((link_ratio * 64) % 2 ^ 64) % 2 ^ 32)).VTUf,
        bestVTUa := (tu_candidate (((link_ratio * 64) % 2 ^ 64) % 2 ^ 32)).VTUa } :=
    ⟨(by decide : 32 ≤ 64), le_refl _, hc.1, hc.2.1, hc.2.2.1, hc.2.2.2.1⟩
  have hlt : (tu_candidate (((link_ratio * 64) % 2 ^ 64) % 2 ^ 32)).diff <
      TuBest.init.best_diff := by
    have h1 := hc.2.2.2.1
    have h2 : TuBest.init.best_diff = 6400000 := by decide
    have h3 : symbol = 100000 := rfl
    omega
  unfold tu_search
  rw [hlist]
  unfold tu_loop
  simp only
  rw [if_pos hlt]
  split
  · exact hb1
  · exact tu_loop_ok link_ratio _ _ hrest hb1

/-- C30 as stated fails: for `tu_valid = 0xFFFFFFFF` the iteration computes
`VTUi = 42949`, `VTUf = 4`, `VTUa = 1` and the sum for `calc` passes
`2 ^ 32`: the `u32` `calc` is 7704, below `tu_valid`, and the `u32`
difference `calc - tu_valid` wraps around to 7705. -/
theorem tu_candidate_counterexample :
    0xFFFFFFFF < 2 ^ 32 ∧
    tu_candidate 0xFFFFFFFF =
      { VTUi := 42949, VTUf := 4, VTUa := 1, calc_ := 7704, diff := 7705 } ∧
    ¬ (0xFFFFFFFF ≤ (tu_candidate 0xFFFFFFFF).calc_) := by
  decide

/-- C30, amended. For every 32-bit `tu_valid` the candidate of an iteration
has `1 <= VTUf <= 15` and `VTUa` in {0, 1}; its `diff` is at most `symbol`,
and `calc` is `tu_valid + diff` cut to 32 bits, so `diff` is the distance
from `tu_valid` up to the approximation before the cut. For `tu_valid` below
4294966667 the sum does not pass `2 ^ 32`: `calc >= tu_valid` and
`diff = calc - tu_valid` without wrap-around. For every `link_ratio` the
search chooses a candidate: `bestTU` lies in 32..64, `bestVTUf` in 1..15
fits its 4-bit field and `bestVTUa` its 1-bit field. -/
theorem tu_search_spec :
    (∀ tu_valid, tu_valid < 2 ^ 32 →
      1 ≤ (tu_candidate tu_valid).VTUf ∧ (tu_candidate tu_valid).VTUf ≤ 15 ∧
      (tu_candidate tu_valid).VTUa ≤ 1 ∧
      (tu_candidate tu_valid).diff ≤ symbol ∧
      (tu_candidate tu_valid).calc_ = (tu_valid + (tu_candidate tu_valid).diff) % 2 ^ 32 ∧
      (tu_valid < 4294966667 →
        tu_valid ≤ (tu_candidate tu_valid).calc_ ∧
        (tu_candidate tu_valid).diff = (tu_candidate tu_valid).calc_ - tu_valid)) ∧
    (∀ link_ratio,
      32 ≤ (tu_search link_ratio).bestTU ∧ (tu_search link_ratio).bestTU ≤ 64 ∧
      1 ≤ (tu_search link_ratio).bestVTUf ∧ (tu_search link_ratio).bestVTUf < 2 ^ 4 ∧
      (tu_search link_ratio).bestVTUa < 2 ^ 1) := by
  refine ⟨fun tv h => tu_candidate_ok tv h, fun lr => ?_⟩
  obtain ⟨h1, h2, h3, h4, h5, _⟩ := tu_search_ok lr
  refine ⟨h1, h2, h3, ?_, ?_⟩
  · exact Nat.lt_of_le_of_lt h4 (by decide)
  · exact Nat.lt_of_le_of_lt h5 (by decide)

theorem tu_search_spec_witness :
    (4294966666 < 2 ^ 32 ∧ 4294966666 < 4294966667 ∧
      4294966666 ≤ (tu_candidate 4294966666).calc_ ∧
      (tu_candidate 4294966666).diff = (tu_candidate 4294966666).calc_ - 4294966666) ∧
    (tu_search 50000).bestTU = 64 :=
  ⟨⟨by decide, by decide,
    (tu_search_spec.1 4294966666 (by decide)).2.2.2.2.2 (by decide)⟩, by decide⟩

/-! ## C23: sub-allocations of different sizes -/

/-- C23 at a failing input: from the empty cache, blocks of 0x100, 0xf80 and
0x100 bytes are sub-allocated. All three come from the one pool, whose
slots are the 0x100 bytes of the first request (`shift = 8`) in a parent
block of 0x1000 bytes, at the bases 0, 0x100 and 0x200: the second block,
`[0x100, 0x1080)`, runs past the end of the parent block and covers the
third, `[0x200, 0x300)`. -/
theorem nvkm_mmu_ptp_get_mixed :
    ex_mixed.held.map (fun b => (b.sub, b.ptp, b.memory, b.base, b.addr)) =
      [(true, 1, { handle := 4, addr := 0x5000, size := 0x1000 }, 0, 0x5000),
       (true, 1, { handle := 4, addr := 0x5000, size := 0x1000 }, 0x100, 0x5100),
       (true, 1, { handle := 4, addr := 0x5000, size := 0x1000 }, 0x200, 0x5200)] ∧
    ex_mixed.mmu.ptp_heap.map (fun p => (p.self, p.shift, p.pt.memory.size)) =
      [(1, 8, 0x1000)] ∧
    0x1000 < 0x100 + 0xf80 ∧ 0x200 < 0x100 + 0xf80 := by
  decide

/-! ## C24: the counter `refs` after a dump -/

/-- C24 at a failing input: from the empty cache a block of 0x1000 bytes is
obtained and put back, and the cache is dumped: the free-list of the class
is empty and its `refs` is 1. After eight blocks obtained and put back and a
dump, `refs` is 8 with an empty free-list, and a block put after that is
freed, not cached: the free-list stays empty. -/
theorem nvkm_mmu_ptc_dump_refs :
    ((Sys.init 0).run_dump ex_dump_ops).mmu.ptc_list =
      [{ self := 0, item := [], size := 0x1000, refs := 1 }] ∧
    ((Sys.init 0).run_dump ex_dump_ops_8).mmu.ptc_list =
      [{ self := 0, item := [], size := 0x1000, refs := 8 }] ∧
    ((Sys.init 0).run_dump ex_dump_ops_8).held = [] := by
  decide

/-! ## C29: the TTM managers -/

/-- C29. `nouveau_vram_manager_new` returns `-ENOMEM` and calls nothing when
the VRAM size is 0. Otherwise, once `nouveau_mem_new` has succeeded: when
the underlying allocation (`nouveau_mem_vram`, respectively `nvkm_vm_get`
for `nv04_gart_manager_new`) fails with `-ENOSPC`, the manager calls
`nouveau_mem_del`, sets `reg->mm_node` to null and returns 0; when it fails
with another code, the manager calls `nouveau_mem_del` and returns that
code. -/
theorem ttm_manager_new_spec (env : MemOracle) (ram_size : Nat) (bo : nouveau_bo)
    (reg : ttm_mem_reg) (h : Heap) (vmm : Nat) (vma : nvkm_vma) (ptes_ret : Int) :
    (ram_size = 0 → nouveau_vram_manager_new env ram_size bo reg = (-ENOMEM, reg, [])) ∧
    (ram_size ≠ 0 → (env.mem_new bo reg).1 = 0 →
      ((env.mem_vram bo.contig bo.page (env.mem_new bo reg).2).1 = -ENOSPC →
        nouveau_vram_manager_new env ram_size bo reg =
          (0, { env.mem_del (env.mem_vram bo.contig bo.page (env.mem_new bo reg).2).2 with
                mm_node := none },
           [TtmEvent.mem_new bo.kind bo.comp, TtmEvent.mem_vram bo.contig bo.page,
            TtmEvent.mem_del])) ∧
      ((env.mem_vram bo.contig bo.page (env.mem_new bo reg).2).1 ≠ 0 →
        (env.mem_vram bo.contig bo.page (env.mem_new bo reg).2).1 ≠ -ENOSPC →
        nouveau_vram_manager_new env ram_size bo reg =
          ((env.mem_vram bo.contig bo.page (env.mem_new bo reg).2).1,
           env.mem_del (env.mem_vram bo.contig bo.page (env.mem_new bo reg).2).2,
           [TtmEvent.mem_new bo.kind bo.comp, TtmEvent.mem_vram bo.contig bo.page,
            TtmEvent.mem_del]))) ∧
    ((env.mem_new bo reg).1 = 0 →
      ((nvkm_vm_get h vmm (((env.mem_new bo reg).2.num_pages <<< 12) % 2 ^ 64) 12
          NV_MEM_ACCESS_RW vma ptes_ret).1 = -ENOSPC →
        (nv04_gart_manager_new env h vmm bo reg vma ptes_ret).1 = 0 ∧
        (nv04_gart_manager_new env h vmm bo reg vma ptes_ret).2.1 =
          { env.mem_del (env.mem_new bo reg).2 with mm_node := none } ∧
        (nv04_gart_manager_new env h vmm bo reg vma ptes_ret).2.2.2.2 =
          [TtmEvent.mem_new bo.kind bo.comp, TtmEvent.mem_del]) ∧
      ((nvkm_vm_get h vmm (((env.mem_new bo reg).2.num_pages <<< 12) % 2 ^ 64) 12
          NV_MEM_ACCESS_RW vma ptes_ret).1 ≠ 0 →
        (nvkm_vm_get h vmm (((env.mem_new bo reg).2.num_pages <<< 12) % 2 ^ 64) 12
          NV_MEM_ACCESS_RW vma ptes_ret).1 ≠ -ENOSPC →
        (nv04_gart_manager_new env h vmm bo reg vma ptes_ret).1 =
          (nvkm_vm_get h vmm (((env.mem_new bo reg).2.num_pages <<< 12) % 2 ^ 64) 12
            NV_MEM_ACCESS_RW vma ptes_ret).1 ∧
        (nv04_gart_manager_new env h vmm bo reg vma ptes_ret).2.1 =
          env.mem_del (env.mem_new bo reg).2 ∧
        (nv04_gart_manager_new env h vmm bo reg vma ptes_ret).2.2.2.2 =
          [TtmEvent.mem_new bo.kind bo.comp, TtmEvent.mem_del])) := by
  have hne : (-ENOSPC : Int) ≠ 0 := by decide
  refine ⟨fun h0 => ?_, fun h0 h1 => ⟨fun h2 => ?_, fun h2 h3 => ?_⟩,
    fun h1 => ⟨fun h2 => ?_, fun h2 h3 => ?_⟩⟩
  · unfold nouveau_vram_manager_new
    rw [if_pos h0]
  · unfold nouveau_vram_manager_new
    simp only
    rw [if_neg h0, if_neg (not_not.2 h1), if_pos (by rw [h2]; exact hne), if_pos h2]
    rfl
  · unfold nouveau_vram_manager_new
    simp only
    rw [if_neg h0, if_neg (not_not.2 h1), if_pos h2, if_neg h3]
    rfl
  · unfold nv04_gart_manager_new
    simp only
    rw [if_neg (not_not.2 h1), if_pos (by rw [h2]; exact hne), if_pos h2]
    exact ⟨rfl, rfl, rfl⟩
  · unfold nv04_gart_manager_new
    simp only
    rw [if_neg (not_not.2 h1), if_pos h2, if_neg h3]
    exact ⟨rfl, rfl, rfl⟩

theorem ttm_manager_new_spec_witness :
    nouveau_vram_manager_new ex_oracle 0 ex_bo ex_reg = (-ENOMEM, ex_reg, []) ∧
    nouveau_vram_manager_new ex_oracle 1 ex_bo ex_reg =
      (0, { mm_node := none, start := 0, num_pages := 100 },
       [TtmEvent.mem_new 0 0, TtmEvent.mem_vram false 12, TtmEvent.mem_del]) ∧
    (nv04_gart_manager_new ex_oracle ex_heap 1 ex_bo ex_reg ex_vma 0).1 = 0 ∧
    (nv04_gart_manager_new ex_oracle ex_heap 1 ex_bo ex_reg ex_vma 0).2.1 =
      { mm_node := none, start := 0, num_pages := 100 } :=
  have W0 := ttm_manager_new_spec ex_oracle 0 ex_bo ex_reg ex_heap 1 ex_vma 0
  have W := ttm_manager_new_spec ex_oracle 1 ex_bo ex_reg ex_heap 1 ex_vma 0
  ⟨W0.1 rfl, (W.2.1 (by decide) rfl).1 rfl, ((W.2.2 rfl).1 (by decide)).1,
    ((W.2.2 rfl).1 (by decide)).2.1⟩

end Nouveau
